import Mathlib

/-!
# YIDPP: parsing with derivatives (`src/parser.h`)

A shallow embedding of the C++ parser-combinator library.  Objects live in a
heap (`List Parser`); a `shared_ptr` is the index of the object (`Id`), so that
pointer identity, the per-object derivative cache and the cached attributes are
all explicit.  Every method is a function that takes the heap and returns the
new heap together with its result.  Methods may call each other without bound
(the fixed point driver, derivatives through recursion), so every method takes
a call budget `n` and answers `Except.error Fault.fuel` when the budget is
used up; dereferencing a null `shared_ptr` answers `Fault.null`.
-/

namespace yidpp

/-- Terminals (`T`): an equality-comparable alphabet, here numbered. -/
abbrev T := Nat

/-- An object identity: the address held by a `shared_ptr`. -/
abbrev Id := Nat

/-- Semantic values.  The C++ value type `A` varies from parser to parser
(`T` for `EqT`, `std::pair<A,B>` for `Con`, `std::vector<A>` for `Rep`); the
heap holds all parsers, so values are taken in one universal type. -/
inductive Val where
  | term : T → Val
  | pair : Val → Val → Val
  | vec : List Val → Val

mutual
/-- Decidable equality of values (operator== on `A`). -/
def Val.decEq : (a b : Val) → Decidable (a = b)
  | .term x, .term y =>
    if h : x = y then isTrue (congrArg Val.term h)
    else isFalse (fun e => h (Val.term.inj e))
  | .pair a b, .pair c d =>
    match Val.decEq a c, Val.decEq b d with
    | isTrue h1, isTrue h2 => isTrue (congrArg₂ Val.pair h1 h2)
    | isFalse h1, _ => isFalse (fun e => h1 (Val.pair.inj e).1)
    | _, isFalse h2 => isFalse (fun e => h2 (Val.pair.inj e).2)
  | .vec xs, .vec ys =>
    match Val.decEqList xs ys with
    | isTrue h => isTrue (congrArg Val.vec h)
    | isFalse h => isFalse (fun e => h (Val.vec.inj e))
  | .term _, .pair _ _ => isFalse Val.noConfusion
  | .term _, .vec _ => isFalse Val.noConfusion
  | .pair _ _, .term _ => isFalse Val.noConfusion
  | .pair _ _, .vec _ => isFalse Val.noConfusion
  | .vec _, .term _ => isFalse Val.noConfusion
  | .vec _, .pair _ _ => isFalse Val.noConfusion
/-- Decidable equality of vectors of values. -/
def Val.decEqList : (as bs : List Val) → Decidable (as = bs)
  | [], [] => isTrue rfl
  | [], _ :: _ => isFalse List.noConfusion
  | _ :: _, [] => isFalse List.noConfusion
  | a :: as, b :: bs =>
    match Val.decEq a b, Val.decEqList as bs with
    | isTrue h1, isTrue h2 => isTrue (congrArg₂ List.cons h1 h2)
    | isFalse h1, _ => isFalse (fun e => h1 (List.cons.inj e).1)
    | _, isFalse h2 => isFalse (fun e => h2 (List.cons.inj e).2)
end

instance : DecidableEq Val := Val.decEq

/-- The two ways a call can fail to return: the call budget is used up, or a
null pointer is dereferenced. -/
inductive Fault where
  | fuel
  | null
deriving DecidableEq

/-- The nine classes derived from `Parser<T,A>`, with their data members. -/
inductive Kind where
  | Emp
  | Eps
  | EqT (t : T)
  | Alt (unioned_parsers : List Id)
  | Con (first second : Id)
  | Red (localParser : Id) (reductionFunction : Val → Val)
  | Rep (internal : Id)
  | RecursiveParser (recursive : Option Id)
  | DFut (to_derive : Option Id) (terminal : T)

/-- The data members of the base class `Parser<T,A>`, and the derived class. -/
structure Parser where
  kind : Kind
  initialized : Bool
  parseNullLocal : Finset Val
  isEmptyLocal : Bool
  isNullableLocal : Bool
  cache : List (T × Id)

/-- The heap: the object with identity `p` is `h[p]`. -/
abbrev Heap := List Parser

/-- Data object for the fixed point computation. -/
structure ChangeCell where
  change : Bool
  seen : List Id

/-- `ChangeCell()`. -/
def ChangeCell.new : ChangeCell := { change := false, seen := [] }

/-- `ChangeCell::orWith`. -/
def ChangeCell.orWith (c : ChangeCell) (change : Bool) : ChangeCell :=
  { c with change := c.change || change }

/-- `Parser()`: the base-class constructor and default member initializers. -/
def Parser.base (k : Kind) : Parser :=
  { kind := k, initialized := false, parseNullLocal := ∅,
    isEmptyLocal := false, isNullableLocal := false, cache := [] }

/-- Dereference a `shared_ptr`. -/
def deref (h : Heap) (p : Id) : Except Fault Parser :=
  match h[p]? with
  | some o => .ok o
  | none => .error .null

/-- Dereference a possibly null `shared_ptr` member. -/
def derefOpt (r : Option Id) : Except Fault Id :=
  match r with
  | some p => .ok p
  | none => .error .null

/-- Write the members of object `p`. -/
def modifyAt (h : Heap) (p : Id) (f : Parser → Parser) : Heap :=
  match h[p]? with
  | some o => h.set p (f o)
  | none => h

/-- `std::make_shared`: a fresh object, with a fresh identity. -/
def alloc (h : Heap) (o : Parser) : Heap × Id := (h ++ [o], h.length)

/-- `Parser::parseNullSet`: setter that reports a change. -/
def parseNullSet (h : Heap) (p : Id) (set : Finset Val) : Heap × Bool :=
  match h[p]? with
  | some o =>
    if o.parseNullLocal ≠ set then (h.set p { o with parseNullLocal := set }, true)
    else (h, false)
  | none => (h, false)

/-- `Parser::isEmptySet`: setter that reports a change. -/
def isEmptySet (h : Heap) (p : Id) (v : Bool) : Heap × Bool :=
  match h[p]? with
  | some o =>
    if o.isEmptyLocal ≠ v then (h.set p { o with isEmptyLocal := v }, true)
    else (h, false)
  | none => (h, false)

/-- `Parser::isNullableSet`: setter that reports a change. -/
def isNullableSet (h : Heap) (p : Id) (v : Bool) : Heap × Bool :=
  match h[p]? with
  | some o =>
    if o.isNullableLocal ≠ v then (h.set p { o with isNullableLocal := v }, true)
    else (h, false)
  | none => (h, false)

/-- `Emp()`: always empty, never nullable. -/
def Parser.newEmp : Parser :=
  { Parser.base .Emp with isEmptyLocal := true, isNullableLocal := false }

/-- `Eps(generator)`: not empty, nullable, null parses are the generator. -/
def Parser.newEps (generator : Finset Val) : Parser :=
  { Parser.base .Eps with
    isEmptyLocal := false, isNullableLocal := true, parseNullLocal := generator }

/-- `EqT(t)`: neither empty nor nullable. -/
def Parser.newEqT (t : T) : Parser :=
  { Parser.base (.EqT t) with isEmptyLocal := false, isNullableLocal := false }

/-- `Alt(parsers)`. -/
def Parser.newAlt (parsers : List Id) : Parser := Parser.base (.Alt parsers)

/-- `Con(first, second)`. -/
def Parser.newCon (first second : Id) : Parser := Parser.base (.Con first second)

/-- `Red(parser, redfunc)`. -/
def Parser.newRed (parser : Id) (redfunc : Val → Val) : Parser :=
  Parser.base (.Red parser redfunc)

/-- `Rep(p)`: not empty, nullable, the one null parse is the empty vector. -/
def Parser.newRep (p : Id) : Parser :=
  { Parser.base (.Rep p) with
    isEmptyLocal := false, isNullableLocal := true, parseNullLocal := {Val.vec []} }

/-- `RecursiveParser()` and `RecursiveParser(input)`. -/
def Parser.newRecursive (input : Option Id) : Parser := Parser.base (.RecursiveParser input)

/-- `DFut(input, terminal)`. -/
def Parser.newDFut (input : Option Id) (terminal : T) : Parser :=
  Parser.base (.DFut input terminal)

/-- `RecursiveParser::SetRecurse`. -/
def SetRecurse (h : Heap) (p : Id) (input : Id) : Heap :=
  modifyAt h p (fun o =>
    match o.kind with
    | .RecursiveParser _ => { o with kind := .RecursiveParser (some input) }
    | _ => o)

/-- `Rep::reductionOperation`: `push_back(input.first)` on an empty vector,
then `insert(retval.begin(), input.second.begin(), input.second.end())`, which
places the elements of `input.second` before the pushed element. -/
def reductionOperation (input : Val) : Val :=
  match input with
  | .pair first (.vec second) => .vec (second ++ [first])
  | v => v

/-- `std::set::insert` on a set of pointers, kept in insertion order. -/
def setInsert (s : List Id) (p : Id) : List Id :=
  if p ∈ s then s else s ++ [p]

/-- `cache.insert(std::make_pair(t, d))`: no effect when `t` has an entry. -/
def cacheInsert (h : Heap) (p : Id) (t : T) (d : Id) : Heap :=
  modifyAt h p (fun o =>
    match o.cache.lookup t with
    | some _ => o
    | none => { o with cache := o.cache ++ [(t, d)] })

mutual

/-- `Parser::init`: performs the fixed point update of the properties. -/
def init : Nat → Heap → Id → Except Fault Heap
  | 0, _, _ => .error .fuel
  | n + 1, h, p => do
    let o ← deref h p
    if o.initialized then pure h
    else initLoop n h p
termination_by structural n => n

/-- The loop `do { change = ChangeCell(); updateChildBasedAttributes(change); }
while (change.change)` of `Parser::init`. -/
def initLoop : Nat → Heap → Id → Except Fault Heap
  | 0, _, _ => .error .fuel
  | n + 1, h, p => do
    let (h, change) ← updateChildBasedAttributes n h ChangeCell.new p
    if change.change then initLoop n h p else pure h
termination_by structural n => n

/-- `Parser::isEmpty`: getter for Empty that performs a lazy fixed point. -/
def isEmpty : Nat → Heap → Id → Except Fault (Heap × Bool)
  | 0, _, _ => .error .fuel
  | n + 1, h, p => do
    let h ← init n h p
    let o ← deref h p
    pure (h, o.isEmptyLocal)
termination_by structural n => n

/-- `Parser::isNullable`: getter for Nullable that performs a lazy fixed point. -/
def isNullable : Nat → Heap → Id → Except Fault (Heap × Bool)
  | 0, _, _ => .error .fuel
  | n + 1, h, p => do
    let (h, e) ← isEmpty n h p
    if e then pure (h, false)
    else do
      let h ← init n h p
      let o ← deref h p
      pure (h, o.isNullableLocal)
termination_by structural n => n

/-- `Parser::parseNull`: the parse forest once the stream has terminated. -/
def parseNull : Nat → Heap → Id → Except Fault (Heap × Finset Val)
  | 0, _, _ => .error .fuel
  | n + 1, h, p => do
    let (h, e) ← isEmpty n h p
    if e then pure (h, ∅)
    else do
      let h ← init n h p
      let o ← deref h p
      pure (h, o.parseNullLocal)
termination_by structural n => n

/-- `Parser::updateChildBasedAttributes`. -/
def updateChildBasedAttributes : Nat → Heap → ChangeCell → Id → Except Fault (Heap × ChangeCell)
  | 0, _, _, _ => .error .fuel
  | n + 1, h, change, p =>
    if p ∈ change.seen then allUpdate n h change p
    else do
      let (h, change) ← oneShotUpdate n h { change with seen := p :: change.seen } p
      let h := modifyAt h p (fun o => { o with initialized := true })
      allUpdate n h change p
termination_by structural n => n

/-- The virtual method `oneShotUpdate`, by class. -/
def oneShotUpdate : Nat → Heap → ChangeCell → Id → Except Fault (Heap × ChangeCell)
  | 0, _, _, _ => .error .fuel
  | n + 1, h, change, p => do
    let o ← deref h p
    match o.kind with
    | .Emp => pure (h, change)
    | .Eps => pure (h, change)
    | .EqT _ => pure (h, change)
    | .Alt unioned_parsers =>
      unioned_parsers.foldlM
        (fun (s : Heap × ChangeCell) i => updateChildBasedAttributes n s.1 s.2 i) (h, change)
    | .Con first second => do
      let (h, change) ← updateChildBasedAttributes n h change first
      updateChildBasedAttributes n h change second
    | .Red localParser _ => updateChildBasedAttributes n h change localParser
    | .Rep internal => do
      let (h, change) ← updateChildBasedAttributes n h change internal
      pure (modifyAt h p (fun o => { o with initialized := true }), change)
    | .RecursiveParser recursive => do
      let r ← derefOpt recursive
      updateChildBasedAttributes n h change r
    | .DFut to_derive terminal => do
      let q ← derefOpt to_derive
      let (h, d) ← derive n h q terminal
      updateChildBasedAttributes n h change d
termination_by structural n => n

/-- The virtual method `allUpdate`, by class. -/
def allUpdate : Nat → Heap → ChangeCell → Id → Except Fault (Heap × ChangeCell)
  | 0, _, _, _ => .error .fuel
  | n + 1, h, change, p => do
    let o ← deref h p
    match o.kind with
    | .Emp => pure (h, change)
    | .Eps => pure (h, change)
    | .EqT _ => pure (h, change)
    | .Rep _ => pure (h, change)
    | .Alt unioned_parsers => do
      let (h, nullSet, tempEmpty, tempNullable) ←
        unioned_parsers.foldlM
          (fun (s : Heap × Finset Val × Bool × Bool) i => do
            let (h, temp) ← parseNull n s.1 i
            let nullSet := s.2.1 ∪ temp
            let (h, tempEmpty) ← if s.2.2.1 then isEmpty n h i else pure (h, false)
            let (h, tempNullable) ← if s.2.2.2 then pure (h, true) else isNullable n h i
            pure (h, nullSet, tempEmpty, tempNullable))
          (h, ∅, true, false)
      let (h, c1) := parseNullSet h p nullSet
      let change := change.orWith c1
      let (h, c2) := isEmptySet h p tempEmpty
      let change := change.orWith c2
      let (h, e) ← isEmpty n h p
      let (h, c3) := isNullableSet h p (!e && tempNullable)
      pure (h, change.orWith c3)
    | .Con first second => do
      let (h, firstNull) ← parseNull n h first
      let (h, secondNull) ← parseNull n h second
      let options := (firstNull ×ˢ secondNull).image (fun ab => Val.pair ab.1 ab.2)
      let (h, c1) := parseNullSet h p options
      let change := change.orWith c1
      let (h, e1) ← isEmpty n h first
      let (h, e) ← if e1 then pure (h, true) else isEmpty n h second
      let (h, c2) := isEmptySet h p e
      let change := change.orWith c2
      let (h, e) ← isEmpty n h p
      let (h, v) ←
        if e then pure (h, false)
        else do
          let (h, n1) ← isNullable n h first
          if n1 then isNullable n h second else pure (h, false)
      let (h, c3) := isNullableSet h p v
      pure (h, change.orWith c3)
    | .Red localParser reductionFunction => do
      let (h, localParseNull) ← parseNull n h localParser
      let changedParseNull := localParseNull.image reductionFunction
      let (h, c1) := parseNullSet h p changedParseNull
      let change := change.orWith c1
      let (h, e) ← isEmpty n h localParser
      let (h, c2) := isEmptySet h p e
      let change := change.orWith c2
      let (h, v) ← isNullable n h localParser
      let (h, c3) := isNullableSet h p v
      pure (h, change.orWith c3)
    | .RecursiveParser recursive => do
      let r ← derefOpt recursive
      let (h, s) ← parseNull n h r
      let (h, c1) := parseNullSet h p s
      let change := change.orWith c1
      let r ← derefOpt recursive
      let (h, e) ← isEmpty n h r
      let (h, c2) := isEmptySet h p e
      let change := change.orWith c2
      let r ← derefOpt recursive
      let (h, v) ← isNullable n h r
      let (h, c3) := isNullableSet h p v
      pure (h, change.orWith c3)
    | .DFut to_derive terminal => do
      let q ← derefOpt to_derive
      let (h, d) ← derive n h q terminal
      let (h, s) ← parseNull n h d
      let (h, c1) := parseNullSet h p s
      let change := change.orWith c1
      let (h, d) ← derive n h q terminal
      let (h, e) ← isEmpty n h d
      let (h, c2) := isEmptySet h p e
      let change := change.orWith c2
      let (h, d) ← derive n h q terminal
      let (h, v) ← isNullable n h d
      let (h, c3) := isNullableSet h p v
      pure (h, change.orWith c3)
termination_by structural n => n

/-- `Parser::derive`: the derivative with respect to a terminal, through the
cache. -/
def derive : Nat → Heap → Id → T → Except Fault (Heap × Id)
  | 0, _, _, _ => .error .fuel
  | n + 1, h, p, t => do
    let o ← deref h p
    match o.cache.lookup t with
    | some d => pure (h, d)
    | none => do
      let (h, temp_derive) ← internalDerive n h p t
      pure (cacheInsert h p t temp_derive, temp_derive)
termination_by structural n => n

/-- The virtual method `internalDerive`, by class. -/
def internalDerive : Nat → Heap → Id → T → Except Fault (Heap × Id)
  | 0, _, _, _ => .error .fuel
  | n + 1, h, p, t => do
    let o ← deref h p
    match o.kind with
    | .Emp => pure (h, p)
    | .Eps => pure (alloc h Parser.newEmp)
    | .EqT t' =>
      if t' = t then pure (alloc h (Parser.newEps {Val.term t'}))
      else pure (alloc h Parser.newEmp)
    | .Alt unioned_parsers => do
      let (h, NewSet) ←
        unioned_parsers.foldlM
          (fun (s : Heap × List Id) i => do
            let (h, e) ← isEmpty n s.1 i
            if !e then do
              let (h, d) ← derive n h i t
              pure (h, setInsert s.2 d)
            else pure (h, s.2))
          (h, [])
      match NewSet with
      | [d] => pure (h, d)
      | _ => pure (alloc h (Parser.newAlt NewSet))
    | .Con first second => do
      let (h, leftDerive) ← derive n h first t
      let (h, emp) := alloc h Parser.newEmp
      let (h, e) ← isEmpty n h leftDerive
      let (h, primaryRet) :=
        if !e then alloc h (Parser.newCon leftDerive second) else (h, emp)
      let (h, nl) ← isNullable n h first
      if nl then do
        let (h, firstNull) ← parseNull n h first
        let (h, nullability) := alloc h (Parser.newEps firstNull)
        let (h, rightDerive) ← derive n h second t
        let (h, le) ← isEmpty n h leftDerive
        if le then do
          let (h, re) ← isEmpty n h rightDerive
          if re then pure (h, primaryRet)
          else pure (alloc h (Parser.newCon nullability rightDerive))
        else do
          let (h, c) := alloc h (Parser.newCon nullability rightDerive)
          pure (alloc h (Parser.newAlt (setInsert (setInsert [] primaryRet) c)))
      else pure (h, primaryRet)
    | .Red localParser reductionFunction => do
      let (h, temp) ← derive n h localParser t
      let (h, e) ← isEmpty n h temp
      if e then pure (alloc h Parser.newEmp)
      else pure (alloc h (Parser.newRed temp reductionFunction))
    | .Rep internal => do
      let (h, d) ← derive n h internal t
      let (h, localDerive) := alloc h (Parser.newCon d p)
      pure (alloc h (Parser.newRed localDerive reductionOperation))
    | .RecursiveParser recursive => pure (alloc h (Parser.newDFut recursive t))
    | .DFut to_derive terminal => do
      let q ← derefOpt to_derive
      let (h, d) ← derive n h q terminal
      derive n h d t
termination_by structural n => n

end

/-- The virtual method `parseFull`: parse the entire input and return the
forest.  `Red` overrides it; every other class inherits `Parser::parseFull`. -/
def parseFull : Nat → Heap → Id → List T → Except Fault (Heap × Finset Val)
  | 0, _, _, _ => .error .fuel
  | n + 1, h, p, input => do
    let o ← deref h p
    match o.kind with
    | .Red localParser reductionFunction => do
      let (h, lower) ← parseFull n h localParser input
      pure (h, lower.image reductionFunction)
    | _ =>
      match input with
      | [] => parseNull n h p
      | front :: remainder => do
        let (h, d) ← derive n h p front
        parseFull n h d remainder
termination_by structural n => n

/-- The virtual method `parse`: parse the available input and return every
(value, remaining input) pair.  `DFut`, `RecursiveParser`, `Emp`, `Eps`, `EqT`
and `Red` override it; `Alt`, `Con` and `Rep` inherit `Parser::parse`. -/
def parse : Nat → Heap → Id → List T → Except Fault (Heap × Finset (Val × List T))
  | 0, _, _, _ => .error .fuel
  | n + 1, h, p, input => do
    let o ← deref h p
    match o.kind with
    | .DFut to_derive terminal => do
      let q ← derefOpt to_derive
      let (h, d) ← derive n h q terminal
      parse n h d input
    | .RecursiveParser recursive => do
      let r ← derefOpt recursive
      parse n h r input
    | .Emp => pure (h, ∅)
    | .Eps => do
      let (h, parseNullResult) ← parseNull n h p
      pure (h, parseNullResult.image (fun v => (v, input)))
    | .EqT t =>
      match input with
      | front :: rest =>
        if front = t then pure (h, {(Val.term front, rest)}) else pure (h, ∅)
      | [] => pure (h, ∅)
    | .Red localParser reductionFunction => do
      let (h, lower) ← parse n h localParser input
      pure (h, lower.image (fun i => (reductionFunction i.1, i.2)))
    | _ =>
      match input with
      | [] => do
        let (h, parseNullResult) ← parseNull n h p
        pure (h, parseNullResult.image (fun v => (v, [])))
      | front :: rest => do
        let (h, d) ← derive n h p front
        let (h, nonEmpty) ← parse n h d rest
        let (h, parseFullResult) ← parseFull n h p []
        pure (h, nonEmpty ∪ parseFullResult.image (fun v => (v, input)))
termination_by structural n => n

/-- Decidable equality of results. -/
instance instDecidableEqExcept {ε α : Type} [DecidableEq ε] [DecidableEq α] :
    DecidableEq (Except ε α)
  | .ok a, .ok b =>
    if h : a = b then isTrue (congrArg Except.ok h) else isFalse (fun e => h (Except.ok.inj e))
  | .error a, .error b =>
    if h : a = b then isTrue (congrArg Except.error h)
    else isFalse (fun e => h (Except.error.inj e))
  | .ok _, .error _ => isFalse Except.noConfusion
  | .error _, .ok _ => isFalse Except.noConfusion

/-- The value a call returns, the heap left aside. -/
def value {α : Type} (r : Except Fault (Heap × α)) : Except Fault α :=
  match r with
  | .ok x => .ok x.2
  | .error e => .error e

/-! ## Example grammars -/

/-- `rep(alt({terminal('a'), terminal('b')}))`; the repetition is object 3. -/
def repAltHeap : Heap :=
  [Parser.newEqT 97, Parser.newEqT 98, Parser.newAlt [0, 1], Parser.newRep 2]

/-- `epsilon({})`: an `Eps` built from the empty generator set; object 0. -/
def epsEmptyHeap : Heap := [Parser.newEps ∅]

/-- The function `λ(xs, a) → xs ++ [a]` of the left-recursive list grammar. -/
def appendLast (input : Val) : Val :=
  match input with
  | .pair (.vec xs) a => .vec (xs ++ [a])
  | v => v

/-- The left-recursive list: `L = recursion()` (object 0),
`L.bind(alt({ epsilon({[]}), red(con(L, terminal('a')), appendLast) }))`. -/
def leftRecHeap : Heap :=
  SetRecurse
    [Parser.newRecursive none, Parser.newEps {Val.vec []}, Parser.newEqT 97,
     Parser.newCon 0 2, Parser.newRed 3 appendLast, Parser.newAlt [1, 4]] 0 5

/-- A heap that holds the cycle of the left-recursive list (`L` is object 0,
its body `alt` object 5, `red` object 4, `con` object 3), none of the four yet
marked initialized; the epsilon leaf is object 1.  Caches, further objects and
the attributes are arbitrary. -/
structure LeftRecPending (h : Heap) : Prop where
  recursive : ∃ o, h[0]? = some o ∧ o.kind = .RecursiveParser (some 5) ∧ o.initialized = false
  eps : ∃ o, h[1]? = some o ∧ o.kind = .Eps
  con : ∃ o, h[3]? = some o ∧ o.kind = .Con 0 2 ∧ o.initialized = false
  red : ∃ o f, h[4]? = some o ∧ o.kind = .Red 3 f ∧ o.initialized = false
  alt : ∃ o, h[5]? = some o ∧ o.kind = .Alt [1, 4] ∧ o.initialized = false

/-- A call that cannot fault and whose final heap, if it returns, satisfies `P`. -/
def Safe {α : Type} (P : Heap → Prop) (x : Except Fault (Heap × α)) : Prop :=
  (∀ e, x = .error e → e = .fuel) ∧ ∀ r, x = .ok r → P r.1

/-- The same for `init`, which returns the heap only. -/
def SafeHeap (P : Heap → Prop) (x : Except Fault Heap) : Prop :=
  (∀ e, x = .error e → e = .fuel) ∧ ∀ r, x = .ok r → P r

/-- The order of results by call budget: a call that ran out of budget may give
any result with a larger budget; every other result is final. -/
def FuelLe {α : Type} (a b : Except Fault α) : Prop := a = .error .fuel ∨ a = b

/-! ## Recursion-free grammars: the invariant of the heap -/

/-- The objects an object points to (its `getChildren`). -/
def Kind.children : Kind → List Id
  | .Alt unioned_parsers => unioned_parsers
  | .Con first second => [first, second]
  | .Red localParser _ => [localParser]
  | .Rep internal => [internal]
  | .RecursiveParser recursive => recursive.toList
  | .DFut to_derive _ => to_derive.toList
  | _ => []

/-- The classes of a recursion-free grammar whose attributes `allUpdate`
computes from the children. -/
def Kind.isComputed : Kind → Bool
  | .Alt _ => true
  | .Con _ _ => true
  | .Red _ _ => true
  | _ => false

/-- What `isEmpty()` returns on an initialized object. -/
def emptyView (h : Heap) (q : Id) : Bool :=
  match h[q]? with
  | some o => o.isEmptyLocal
  | none => false

/-- What `isNullable()` returns on an initialized object. -/
def nullableView (h : Heap) (q : Id) : Bool :=
  match h[q]? with
  | some o => !o.isEmptyLocal && o.isNullableLocal
  | none => false

/-- What `parseNull()` returns on an initialized object. -/
def parseNullView (h : Heap) (q : Id) : Finset Val :=
  match h[q]? with
  | some o => if o.isEmptyLocal then ∅ else o.parseNullLocal
  | none => ∅

/-- One round of the loop of `Alt::allUpdate` over initialized children:
`nullSet`, `tempEmpty`, `tempNullable`. -/
def altStep (h : Heap) (s : Finset Val × Bool × Bool) (i : Id) : Finset Val × Bool × Bool :=
  (s.1 ∪ parseNullView h i,
   if s.2.1 then emptyView h i else false,
   if s.2.2 then true else nullableView h i)

/-- The attributes `allUpdate` writes into an object whose children are
initialized. -/
def recompute (h : Heap) (o : Parser) : Parser :=
  match o.kind with
  | .Alt unioned_parsers =>
    let r := unioned_parsers.foldl (altStep h) (∅, true, false)
    { o with parseNullLocal := r.1, isEmptyLocal := r.2.1,
             isNullableLocal := !r.2.1 && r.2.2 }
  | .Con first second =>
    let e := emptyView h first || emptyView h second
    { o with
      parseNullLocal :=
        (parseNullView h first ×ˢ parseNullView h second).image (fun ab => Val.pair ab.1 ab.2),
      isEmptyLocal := e,
      isNullableLocal := !e && (nullableView h first && nullableView h second) }
  | .Red localParser reductionFunction =>
    { o with
      parseNullLocal := (parseNullView h localParser).image reductionFunction,
      isEmptyLocal := emptyView h localParser,
      isNullableLocal := nullableView h localParser }
  | _ => o

/-- The object `q` exists and its fixed point has been done. -/
def Initialized (h : Heap) (q : Id) : Prop := ∃ o, h[q]? = some o ∧ o.initialized = true

/-- The parses of a recursion-free object, read off the grammar: `Parses h p w v`
says that the object `p` parses the whole input `w` to the value `v`.  A
repetition matches non-empty pieces only, and combines them with
`reductionOperation`, as `Rep::internalDerive` does. -/
inductive Parses (h : Heap) : Id → List T → Val → Prop
  | eps {p : Id} {o : Parser} {v : Val} :
      h[p]? = some o → o.kind = .Eps → v ∈ o.parseNullLocal → Parses h p [] v
  | eqT {p : Id} {o : Parser} {t : T} :
      h[p]? = some o → o.kind = .EqT t → Parses h p [t] (.term t)
  | alt {p : Id} {o : Parser} {ps : List Id} {q : Id} {w : List T} {v : Val} :
      h[p]? = some o → o.kind = .Alt ps → q ∈ ps → Parses h q w v → Parses h p w v
  | con {p : Id} {o : Parser} {f s : Id} {u w : List T} {a b : Val} :
      h[p]? = some o → o.kind = .Con f s → Parses h f u a → Parses h s w b →
      Parses h p (u ++ w) (.pair a b)
  | red {p : Id} {o : Parser} {q : Id} {f : Val → Val} {w : List T} {v : Val} :
      h[p]? = some o → o.kind = .Red q f → Parses h q w v → Parses h p w (f v)
  | repNil {p : Id} {o : Parser} {i : Id} :
      h[p]? = some o → o.kind = .Rep i → Parses h p [] (.vec [])
  | repCons {p : Id} {o : Parser} {i : Id} {t : T} {u w : List T} {a x : Val} :
      h[p]? = some o → o.kind = .Rep i → Parses h i (t :: u) a → Parses h p w x →
      Parses h p (t :: u ++ w) (reductionOperation (.pair a x))

/-- The invariant of one object of a recursion-free heap. -/
structure NodeOK (h : Heap) (p : Id) (o : Parser) : Prop where
  /-- children are constructed before their parent -/
  children_lt : ∀ q ∈ o.kind.children, q < p
  /-- no `RecursiveParser`, hence no `DFut` -/
  recursionFree : match o.kind with
    | .RecursiveParser _ => False
    | .DFut _ _ => False
    | _ => True
  /-- the attributes set by the constructors of `Emp`, `Eps`, `EqT`, `Rep` -/
  constructed : match o.kind with
    | .Emp => o.isEmptyLocal = true
    | .Eps => o.isEmptyLocal = false ∧ o.isNullableLocal = true
    | .EqT _ => o.isEmptyLocal = false ∧ o.isNullableLocal = false ∧ o.parseNullLocal = ∅
    | .Rep _ =>
      o.isEmptyLocal = false ∧ o.isNullableLocal = true ∧ o.parseNullLocal = {Val.vec []}
    | _ => True
  /-- an initialized object has initialized children and holds the attributes
  `allUpdate` computes from them -/
  attributes : o.initialized = true →
    (∀ q ∈ o.kind.children, Initialized h q) ∧ recompute h o = o
  /-- a cached derivative is an object of the heap and parses the derivative -/
  cached : ∀ t d, o.cache.lookup t = some d →
    d < h.length ∧ ∀ w v, Parses h d w v ↔ Parses h p (t :: w) v

/-- The invariant of a recursion-free heap: it holds of the empty heap, and
every constructor other than `RecursiveParser`/`DFut` and every method keeps
it. -/
def WellFormed (h : Heap) : Prop := ∀ (p : Id) (o : Parser), h[p]? = some o → NodeOK h p o

/-- The three cached attributes are the same. -/
def SameAttrs (o o' : Parser) : Prop :=
  o'.isEmptyLocal = o.isEmptyLocal ∧ o'.isNullableLocal = o.isNullableLocal ∧
    o'.parseNullLocal = o.parseNullLocal

/-- What a method may do to the heap: allocate objects, mark objects
initialized, fill caches, and compute the attributes of objects that were not
yet initialized. -/
structure Ext (h h' : Heap) : Prop where
  length_le : h.length ≤ h'.length
  node : ∀ (p : Id) (o : Parser), h[p]? = some o → ∃ o', h'[p]? = some o' ∧ o'.kind = o.kind ∧
    (o.initialized = true → o'.initialized = true) ∧
    (o.initialized = true ∨ o.kind.isComputed = false → SameAttrs o o') ∧
    (∀ t d, o.cache.lookup t = some d → o'.cache.lookup t = some d)

/-- The object with `parseNullLocal` replaced. -/
def Parser.withParseNull (o : Parser) (s : Finset Val) : Parser := { o with parseNullLocal := s }

/-- The object with `isEmptyLocal` replaced. -/
def Parser.withEmpty (o : Parser) (v : Bool) : Parser := { o with isEmptyLocal := v }

/-- The object with `isNullableLocal` replaced. -/
def Parser.withNullable (o : Parser) (v : Bool) : Parser := { o with isNullableLocal := v }

/-- The object marked initialized. -/
def Parser.withInitialized (o : Parser) : Parser := { o with initialized := true }

/-- No cache has changed. -/
def SameCaches (h h' : Heap) : Prop :=
  ∀ (x : Id) (o : Parser), h[x]? = some o → ∃ o', h'[x]? = some o' ∧ o'.cache = o.cache

/-- Every object the cell has seen below the bound `b` is initialized. -/
def CellOK (h : Heap) (c : ChangeCell) (b : Id) : Prop :=
  ∀ x ∈ c.seen, x < b → Initialized h x

/-- What one call of `updateChildBasedAttributes` on the object `q` of a
recursion-free heap achieves. -/
structure UpdatePost (h : Heap) (c : ChangeCell) (q : Id) (h' : Heap) (c' : ChangeCell) :
    Prop where
  wf : WellFormed h'
  ext : Ext h h'
  length_eq : h'.length = h.length
  initialized : Initialized h' q
  above : ∀ x : Id, q < x → h'[x]? = h[x]?
  seen : ∀ x ∈ c'.seen, x ∈ c.seen ∨ Initialized h' x
  stable : Initialized h q → h' = h ∧ c'.change = c.change
  caches : SameCaches h h'

/-- The same for the loop over the children `qs` of the object `p`. -/
structure ChildrenPost (h : Heap) (c : ChangeCell) (p : Id) (qs : List Id) (h' : Heap)
    (c' : ChangeCell) : Prop where
  wf : WellFormed h'
  ext : Ext h h'
  length_eq : h'.length = h.length
  initialized : ∀ q ∈ qs, Initialized h' q
  above : ∀ x : Id, p ≤ x → h'[x]? = h[x]?
  seen : ∀ x ∈ c'.seen, x ∈ c.seen ∨ Initialized h' x
  stable : (∀ q ∈ qs, Initialized h q) → h' = h ∧ c'.change = c.change
  caches : SameCaches h h'

/-- The end of `oneShotUpdate`: `Rep` marks itself initialized. -/
def oneShotFinish (k : Kind) (p : Id) (r : Heap × ChangeCell) : Heap × ChangeCell :=
  match k with
  | .Rep _ => (modifyAt r.1 p (fun o => { o with initialized := true }), r.2)
  | _ => r

/-- What `internalDerive` on the object `p` of a recursion-free heap achieves:
the returned object `d` parses the derivative of `p` by `t`. -/
structure InternalPost (h : Heap) (p : Id) (t : T) (h' : Heap) (d : Id) : Prop where
  wf : WellFormed h'
  ext : Ext h h'
  lt : d < h'.length
  sem : ∀ w v, Parses h' d w v ↔ Parses h' p (t :: w) v
  caches_from : ∀ (x : Id) (o : Parser), p ≤ x → h[x]? = some o →
    ∃ o', h'[x]? = some o' ∧ o'.cache = o.cache

/-- What `derive` achieves: the same, and the result is in the cache. -/
structure DerivePost (h : Heap) (p : Id) (t : T) (h' : Heap) (d : Id) : Prop where
  wf : WellFormed h'
  ext : Ext h h'
  lt : d < h'.length
  sem : ∀ w v, Parses h' d w v ↔ Parses h' p (t :: w) v
  cached : ∃ o', h'[p]? = some o' ∧ o'.cache.lookup t = some d
  caches_above : ∀ (x : Id) (o : Parser), p < x → h[x]? = some o →
    ∃ o', h'[x]? = some o' ∧ o'.cache = o.cache

/-- The caches of the objects from `p` on have not changed. -/
def CachesFrom (p : Id) (h h' : Heap) : Prop :=
  ∀ (x : Id) (o : Parser), p ≤ x → h[x]? = some o → ∃ o', h'[x]? = some o' ∧ o'.cache = o.cache

/-- `con(terminal('a'), terminal('b'))`; the concatenation is object 2. -/
def conHeap : Heap := [Parser.newEqT 97, Parser.newEqT 98, Parser.newCon 0 1]

/-- `alt({terminal('a'), red(terminal('a'), x -> 'A')})`; the alternation is
object 2. -/
def altRedHeap : Heap :=
  [Parser.newEqT 97, Parser.newRed 0 (fun _ => Val.term 65), Parser.newAlt [0, 1]]

/-- The object `q` is `p` or one of the objects below it in the grammar. -/
inductive Subterm (h : Heap) : Id → Id → Prop
  | self (p : Id) : Subterm h p p
  | child {q c p : Id} {o : Parser} :
      h[p]? = some o → c ∈ o.kind.children → Subterm h q c → Subterm h q p

/-- No `Eps` object in `p` was built from the empty set of values. -/
def Seeded (h : Heap) (p : Id) : Prop :=
  ∀ (q : Id) (o : Parser), Subterm h q p → h[q]? = some o → o.kind = .Eps →
    o.parseNullLocal.Nonempty

/-- `epsilon({[]})`; object 0. -/
def epsUnitHeap : Heap := [Parser.newEps {Val.vec []}]

/-- A recursion-free grammar as a client writes it: nested calls of the
constructors of `Emp`, `Eps`, `EqT`, `Alt`, `Con`, `Red`, `Rep`. -/
inductive Term where
  | emp : Term
  | eps (generator : Finset Val) : Term
  | eqT (t : T) : Term
  | alt (unioned_parsers : List Term) : Term
  | con (first second : Term) : Term
  | red (localParser : Term) (reductionFunction : Val → Val) : Term
  | rep (internal : Term) : Term

mutual

/-- Runs the constructor calls of a grammar, children first; returns the heap
and the object built last, the grammar itself. -/
def Term.build : Term → Heap → Heap × Id
  | .emp, h => alloc h Parser.newEmp
  | .eps generator, h => alloc h (Parser.newEps generator)
  | .eqT t, h => alloc h (Parser.newEqT t)
  | .alt unioned_parsers, h =>
    alloc (Term.buildList unioned_parsers h).1
      (Parser.newAlt (Term.buildList unioned_parsers h).2)
  | .con first second, h =>
    alloc (second.build (first.build h).1).1
      (Parser.newCon (first.build h).2 (second.build (first.build h).1).2)
  | .red localParser reductionFunction, h =>
    alloc (localParser.build h).1 (Parser.newRed (localParser.build h).2 reductionFunction)
  | .rep internal, h => alloc (internal.build h).1 (Parser.newRep (internal.build h).2)

/-- Builds the members of a set of grammars, one after the other. -/
def Term.buildList : List Term → Heap → Heap × List Id
  | [], h => (h, [])
  | t :: ts, h =>
    ((Term.buildList ts (t.build h).1).1,
      setInsert (Term.buildList ts (t.build h).1).2 (t.build h).2)

end

/-- `recursion()` with its body not yet bound; object 0. -/
def unboundHeap : Heap := [Parser.newRecursive none]

/-- `rep(Emp())`; the repetition is object 1. -/
def repEmpHeap : Heap := [Parser.newEmp, Parser.newRep 0]

/-- The object `primaryRet` of `Con::internalDerive`: the new `Emp` object
`emp`, replaced by a new `Con(leftDerive, second)` when `leftDerive` is not
empty (`e` is what `leftDerive->isEmpty()` returned). -/
def primaryRet (h : Heap) (emp : Id) (e : Bool) (leftDerive second : Id) : Heap × Id :=
  if !e then alloc h (Parser.newCon leftDerive second) else (h, emp)

/-- The body of the loop of `Alt::internalDerive`: a child that is not empty is
derived and its derivative inserted into `NewSet`; an empty child is skipped. -/
def altDeriveStep (n : Nat) (t : T) (s : Heap × List Id) (i : Id) :
    Except Fault (Heap × List Id) := do
  let (h, e) ← isEmpty n s.1 i
  if !e then do
    let (h, d) ← derive n h i t
    pure (h, setInsert s.2 d)
  else pure (h, s.2)

/-- The memo of `c` holds `x` for the terminal `t`. -/
def Cached (h : Heap) (c : Id) (t : T) (x : Id) : Prop :=
  ∃ o, h[c]? = some o ∧ o.cache.lookup t = some x

/-- The derivative without compaction, as the specification describes it: `Alt`
derives every child and is never unwrapped; `Con(L, R)` yields `Con(Ld, R)`
when `L` is not nullable and `Alt({Con(Ld, R), Con(Eps(parseNull(L)), Rd)})`
when it is; `Red(p, f)` always yields `Red(pd, f)`.  The classes without
compaction follow `internalDerive`; no cache is used. -/
def uncompactedDerive : Nat → Heap → Id → T → Except Fault (Heap × Id)
  | 0, _, _, _ => .error .fuel
  | n + 1, h, p, t => do
    let o ← deref h p
    match o.kind with
    | .Emp => pure (h, p)
    | .Eps => pure (alloc h Parser.newEmp)
    | .EqT t' =>
      if t' = t then pure (alloc h (Parser.newEps {Val.term t'}))
      else pure (alloc h Parser.newEmp)
    | .Alt unioned_parsers => do
      let (h, NewSet) ←
        unioned_parsers.foldlM
          (fun (s : Heap × List Id) i => do
            let (h, d) ← uncompactedDerive n s.1 i t
            pure (h, setInsert s.2 d))
          (h, [])
      pure (alloc h (Parser.newAlt NewSet))
    | .Con first second => do
      let (h, leftDerive) ← uncompactedDerive n h first t
      let (h, primary) := alloc h (Parser.newCon leftDerive second)
      let (h, nl) ← isNullable n h first
      if nl then do
        let (h, firstNull) ← parseNull n h first
        let (h, nullability) := alloc h (Parser.newEps firstNull)
        let (h, rightDerive) ← uncompactedDerive n h second t
        let (h, c) := alloc h (Parser.newCon nullability rightDerive)
        pure (alloc h (Parser.newAlt (setInsert (setInsert [] primary) c)))
      else pure (h, primary)
    | .Red localParser reductionFunction => do
      let (h, temp) ← uncompactedDerive n h localParser t
      pure (alloc h (Parser.newRed temp reductionFunction))
    | .Rep internal => do
      let (h, d) ← uncompactedDerive n h internal t
      let (h, localDerive) := alloc h (Parser.newCon d p)
      pure (alloc h (Parser.newRed localDerive reductionOperation))
    | .RecursiveParser recursive => pure (alloc h (Parser.newDFut recursive t))
    | .DFut to_derive terminal => do
      let q ← derefOpt to_derive
      let (h, d) ← uncompactedDerive n h q terminal
      uncompactedDerive n h d t
termination_by structural n => n

/-- The derivative without compaction at the object itself only: the rule of
`uncompactedDerive`, with `Ld`, `Rd`, `pd` and the derivatives of the children
of an `Alt` taken by `derive`, as `Ld = L.derive(t)` reads in the
specification. -/
def uncompactedDeriveTop : Nat → Heap → Id → T → Except Fault (Heap × Id)
  | 0, _, _, _ => .error .fuel
  | n + 1, h, p, t => do
    let o ← deref h p
    match o.kind with
    | .Emp => pure (h, p)
    | .Eps => pure (alloc h Parser.newEmp)
    | .EqT t' =>
      if t' = t then pure (alloc h (Parser.newEps {Val.term t'}))
      else pure (alloc h Parser.newEmp)
    | .Alt unioned_parsers => do
      let (h, NewSet) ←
        unioned_parsers.foldlM
          (fun (s : Heap × List Id) i => do
            let (h, d) ← derive n s.1 i t
            pure (h, setInsert s.2 d))
          (h, [])
      pure (alloc h (Parser.newAlt NewSet))
    | .Con first second => do
      let (h, leftDerive) ← derive n h first t
      let (h, primary) := alloc h (Parser.newCon leftDerive second)
      let (h, nl) ← isNullable n h first
      if nl then do
        let (h, firstNull) ← parseNull n h first
        let (h, nullability) := alloc h (Parser.newEps firstNull)
        let (h, rightDerive) ← derive n h second t
        let (h, c) := alloc h (Parser.newCon nullability rightDerive)
        pure (alloc h (Parser.newAlt (setInsert (setInsert [] primary) c)))
      else pure (h, primary)
    | .Red localParser reductionFunction => do
      let (h, temp) ← derive n h localParser t
      pure (alloc h (Parser.newRed temp reductionFunction))
    | .Rep internal => do
      let (h, d) ← derive n h internal t
      let (h, localDerive) := alloc h (Parser.newCon d p)
      pure (alloc h (Parser.newRed localDerive reductionOperation))
    | .RecursiveParser recursive => pure (alloc h (Parser.newDFut recursive t))
    | .DFut to_derive terminal => do
      let q ← derefOpt to_derive
      let (h, d) ← derive n h q terminal
      derive n h d t

/-- The body of the base-class method `Parser::parseFull`, run on the object `p`
whatever its class: `parseNull()` on the empty input, otherwise
`derive(input.front())->parseFull(remainder)`, the inner call being virtual. -/
def Parser.parseFull (n : Nat) (h : Heap) (p : Id) (input : List T) :
    Except Fault (Heap × Finset Val) :=
  match input with
  | [] => parseNull n h p
  | front :: remainder => do
    let (h, d) ← derive n h p front
    yidpp.parseFull n h d remainder

/-- The last branch of `Con::internalDerive`, where nothing is compacted: a new
`Alt` of the set holding `primaryRet` and a new `Con(nullability, rightDerive)`. -/
def unionRule (h : Heap) (primaryRet nullability rightDerive : Id) : Heap × Id :=
  let (h, c) := alloc h (Parser.newCon nullability rightDerive)
  alloc h (Parser.newAlt (setInsert (setInsert [] primaryRet) c))

/-! ## Grammars whose recursions close no cycle -/

/-- The object `x` comes at or before `q` in the order by level, then by
identity. -/
def Below (ρ : Nat → Nat) (x q : Nat) : Prop := ρ x < ρ q ∨ (ρ x = ρ q ∧ x ≤ q)

/-- The object `x` comes before `q` in the order by level, then by identity. -/
def Under (ρ : Nat → Nat) (x q : Nat) : Prop := ρ x < ρ q ∨ (ρ x = ρ q ∧ x < q)

/-- The pair `(k, i)` comes at or before `(ρ x, x)`. -/
def AtLeast (ρ : Nat → Nat) (k i x : Nat) : Prop := k < ρ x ∨ (k = ρ x ∧ i ≤ x)

/-- The members of an object of identity `p` and level `lvl`: the children
given to a constructor are older objects of at most that level; the body of a
`RecursiveParser` and of a `DFut` is an object of a lower level. -/
def Linked (ρ : Nat → Nat) (lvl len p : Nat) : Kind → Prop
  | .Alt ps => ∀ c ∈ ps, c < p ∧ ρ c ≤ lvl
  | .Con f s => (f < p ∧ ρ f ≤ lvl) ∧ (s < p ∧ ρ s ≤ lvl)
  | .Red q _ => q < p ∧ ρ q ≤ lvl
  | .Rep q => q < p ∧ ρ q ≤ lvl
  | .RecursiveParser (some r) => r < len ∧ ρ r < lvl
  | .DFut (some q) _ => q < len ∧ ρ q < lvl
  | _ => True

/-- The attributes set by the constructors of `Emp`, `Eps`, `EqT`, `Rep`. -/
def Constructed (o : Parser) : Prop :=
  match o.kind with
  | .Emp => o.isEmptyLocal = true
  | .Eps => o.isEmptyLocal = false ∧ o.isNullableLocal = true
  | .EqT _ => o.isEmptyLocal = false ∧ o.isNullableLocal = false ∧ o.parseNullLocal = ∅
  | .Rep _ =>
    o.isEmptyLocal = false ∧ o.isNullableLocal = true ∧ o.parseNullLocal = {Val.vec []}
  | _ => True

/-- The objects whose attributes `allUpdate` reads are initialized; for a
`DFut` that object is the cached derivative of the body.  An object without a
body is never initialized. -/
def Ready (h : Heap) : Kind → Prop
  | .Alt ps => ∀ c ∈ ps, Initialized h c
  | .Con f s => Initialized h f ∧ Initialized h s
  | .Red q _ => Initialized h q
  | .RecursiveParser (some r) => Initialized h r
  | .RecursiveParser none => False
  | .DFut (some q) c =>
    ∃ oq d, h[q]? = some oq ∧ oq.cache.lookup c = some d ∧ Initialized h d
  | .DFut none _ => False
  | _ => True

/-- What the getters return on `p` agrees: a null parse makes `p` nullable,
and, under the condition `σ` (no `Eps` object that `p` reaches was built from
the empty set), a nullable `p` has a null parse. -/
def Coherent (σ : Prop) (h : Heap) (p : Id) : Prop :=
  ((parseNullView h p).Nonempty → nullableView h p = true) ∧
  (σ → nullableView h p = true → (parseNullView h p).Nonempty)

/-- The invariant of one object of a heap whose recursions close no cycle.
`ρ` gives the level of every object; below the level `B` no `Eps` object was
built from the empty set (`B = 0` asks nothing of the `Eps` objects). -/
structure LayeredNode (B : Nat) (ρ : Nat → Nat) (h : Heap) (p : Id) (o : Parser) : Prop where
  link : Linked ρ (ρ p) h.length p o.kind
  cached : ∀ t d, o.cache.lookup t = some d → d < h.length ∧ ρ d ≤ ρ p
  constructed : Constructed o
  ready : o.initialized = true → Ready h o.kind
  coherent : o.initialized = true → Coherent (ρ p < B) h p
  seeded : ρ p < B → o.kind = .Eps → o.parseNullLocal.Nonempty

/-- The invariant of a heap whose recursions close no cycle: it holds of the
empty heap; a constructor keeps it, and so does `SetRecurse` to a body of a
lower level; a method that returns keeps it. -/
def Layered (B : Nat) (ρ : Nat → Nat) (h : Heap) : Prop :=
  ∀ (p : Id) (o : Parser), h[p]? = some o → LayeredNode B ρ h p o

/-- What any method may do to any heap: allocate objects, mark objects
initialized, fill caches, write attributes. -/
structure Grow (h h' : Heap) : Prop where
  length_le : h.length ≤ h'.length
  node : ∀ (p : Id) (o : Parser), h[p]? = some o → ∃ o', h'[p]? = some o' ∧ o'.kind = o.kind ∧
    (o.initialized = true → o'.initialized = true) ∧
    (∀ t d, o.cache.lookup t = some d → o'.cache.lookup t = some d)

/-- The caches of the objects from `(k, i)` on have not changed. -/
def Keep (ρ : Nat → Nat) (k i : Nat) (h h' : Heap) : Prop :=
  ∀ (x : Id) (o : Parser), h[x]? = some o → AtLeast ρ k i x →
    ∃ o', h'[x]? = some o' ∧ o'.cache = o.cache

/-- The levels of the first `n` objects are the same. -/
def Agree (ρ ρ' : Nat → Nat) (n : Nat) : Prop := ∀ i, i < n → ρ' i = ρ i

/-- What a method achieves on a heap whose recursions close no cycle. -/
structure Moved (B : Nat) (ρ : Nat → Nat) (h : Heap) (k i : Nat) (ρ' : Nat → Nat) (h' : Heap) :
    Prop where
  agree : Agree ρ ρ' h.length
  layered : Layered B ρ' h'
  grow : Grow h h'
  keep : Keep ρ k i h h'

/-- Every object the cell has seen at or before `q` is initialized. -/
def CellBelow (ρ : Nat → Nat) (h : Heap) (c : ChangeCell) (q : Id) : Prop :=
  ∀ x ∈ c.seen, x < h.length ∧ (Below ρ x q → Initialized h x)

/-- Every object the cell has seen before `p` is initialized. -/
def CellUnder (ρ : Nat → Nat) (h : Heap) (c : ChangeCell) (p : Id) : Prop :=
  ∀ x ∈ c.seen, x < h.length ∧ (Under ρ x p → Initialized h x)

/-- The objects a call adds to the cell are initialized. -/
def SeenPost (c : ChangeCell) (h' : Heap) (c' : ChangeCell) : Prop :=
  ∀ x ∈ c'.seen, x ∈ c.seen ∨ Initialized h' x

/-- The object with the three attributes a `RecursiveParser` or a `DFut` copies
from the object `r`. -/
def copyViews (h : Heap) (o : Parser) (r : Id) : Parser :=
  ((o.withParseNull (parseNullView h r)).withEmpty (emptyView h r)).withNullable
    (nullableView h r)

/-- The attributes `allUpdate` writes into an object whose `Ready` objects are
initialized. -/
def refresh (h : Heap) (o : Parser) : Parser :=
  match o.kind with
  | .RecursiveParser (some r) => copyViews h o r
  | .DFut (some q) c =>
    match h[q]? with
    | some oq =>
      match oq.cache.lookup c with
      | some d => copyViews h o d
      | none => o
    | none => o
  | _ => recompute h o

/-- What the methods achieve when they return within the call budget `n` on a
heap whose recursions close no cycle. -/
structure Sound (B : Nat) (n : Nat) : Prop where
  init : ∀ (ρ : Nat → Nat) (h : Heap) (p : Id) (h' : Heap), Layered B ρ h → p < h.length →
    init n h p = .ok h' → ∃ ρ', Moved B ρ h (ρ p) 0 ρ' h' ∧ Initialized h' p
  initLoop : ∀ (ρ : Nat → Nat) (h : Heap) (p : Id) (h' : Heap), Layered B ρ h → p < h.length →
    initLoop n h p = .ok h' → ∃ ρ', Moved B ρ h (ρ p) 0 ρ' h' ∧ Initialized h' p
  isEmpty : ∀ (ρ : Nat → Nat) (h : Heap) (p : Id) (r : Heap × Bool), Layered B ρ h →
    p < h.length → isEmpty n h p = .ok r →
    ∃ ρ', Moved B ρ h (ρ p) 0 ρ' r.1 ∧ Initialized r.1 p ∧ r.2 = emptyView r.1 p
  isNullable : ∀ (ρ : Nat → Nat) (h : Heap) (p : Id) (r : Heap × Bool), Layered B ρ h →
    p < h.length → isNullable n h p = .ok r →
    ∃ ρ', Moved B ρ h (ρ p) 0 ρ' r.1 ∧ Initialized r.1 p ∧ r.2 = nullableView r.1 p
  parseNull : ∀ (ρ : Nat → Nat) (h : Heap) (p : Id) (r : Heap × Finset Val), Layered B ρ h →
    p < h.length → parseNull n h p = .ok r →
    ∃ ρ', Moved B ρ h (ρ p) 0 ρ' r.1 ∧ Initialized r.1 p ∧ r.2 = parseNullView r.1 p
  update : ∀ (ρ : Nat → Nat) (h : Heap) (c : ChangeCell) (q : Id) (r : Heap × ChangeCell),
    Layered B ρ h → q < h.length → CellBelow ρ h c q →
    updateChildBasedAttributes n h c q = .ok r →
    ∃ ρ', Moved B ρ h (ρ q) 0 ρ' r.1 ∧ Initialized r.1 q ∧ SeenPost c r.1 r.2
  oneShot : ∀ (ρ : Nat → Nat) (h : Heap) (c : ChangeCell) (p : Id) (o : Parser)
    (r : Heap × ChangeCell), Layered B ρ h → h[p]? = some o → CellUnder ρ h c p →
    oneShotUpdate n h c p = .ok r →
    ∃ ρ', Moved B ρ h (ρ p) 0 ρ' r.1 ∧ Ready r.1 o.kind ∧ SeenPost c r.1 r.2
  derive : ∀ (ρ : Nat → Nat) (h : Heap) (p : Id) (t : T) (r : Heap × Id), Layered B ρ h →
    p < h.length → derive n h p t = .ok r →
    ∃ ρ', Moved B ρ h (ρ p) (p + 1) ρ' r.1 ∧ r.2 < r.1.length ∧ ρ' r.2 ≤ ρ p ∧
      ∃ o', r.1[p]? = some o' ∧ o'.cache.lookup t = some r.2
  internalDerive : ∀ (ρ : Nat → Nat) (h : Heap) (p : Id) (t : T) (r : Heap × Id),
    Layered B ρ h → p < h.length → internalDerive n h p t = .ok r →
    ∃ ρ', Moved B ρ h (ρ p) p ρ' r.1 ∧ r.2 < r.1.length ∧ ρ' r.2 ≤ ρ p

/-- The object `x` exists and its level is at most `b`. -/
def Low (ρ : Nat → Nat) (b : Nat) (h : Heap) (x : Id) : Prop := x < h.length ∧ ρ x ≤ b

/-- The term `recursion()` bound to `epsilon({[]})`: a recursion that closes no
cycle. -/
def recEpsHeap : Heap := [Parser.newEps {Val.vec []}, Parser.newRecursive (some 0)]

/-! ## Theorems -/

/-- C3 (the code at the failing input): `rep(alt({terminal('a'), terminal('b')}))`
on the input `['a','b']` returns the single sequence `['b','a']`, the matched
values in reverse input order; the sequence `['a','b']` is not returned. -/
theorem Rep_parseFull_reverses_input :
    value (parseFull 30 repAltHeap 3 [97, 98]) = .ok {Val.vec [.term 98, .term 97]} ∧
    value (parseFull 30 repAltHeap 3 [97, 98]) ≠ .ok {Val.vec [.term 97, .term 98]} := by
  decide!

/-- C6 (counterexample): on `epsilon({})` the query `isNullable` returns true
while `parseNull` returns the empty set. -/
theorem isNullable_iff_parseNull_nonempty_fails :
    ¬ (∀ (n : Nat) (h : Heap) (p : Id) (b : Bool) (s : Finset Val),
        value (isNullable n h p) = .ok b → value (parseNull n h p) = .ok s →
        (b = true ↔ s.Nonempty)) := by
  intro hall
  have h1 : value (isNullable 10 epsEmptyHeap 0) = .ok true := by decide!
  have h2 : value (parseNull 10 epsEmptyHeap 0) = .ok ∅ := by decide!
  have := (hall 10 epsEmptyHeap 0 true ∅ h1 h2).1 rfl
  simp at this

/-- C7: whenever `isEmpty(p)` returns true, `isNullable(p)` returns false and
`parseNull(p)` returns the empty set (in the same state, with the same effect
on the heap). -/
theorem isEmpty_true_isNullable_false (n : Nat) (h h1 : Heap) (p : Id)
    (he : isEmpty n h p = .ok (h1, true)) :
    isNullable (n + 1) h p = .ok (h1, false) ∧ parseNull (n + 1) h p = .ok (h1, ∅) := by
  constructor
  · simp only [isNullable, he, bind, Except.bind]
    rfl
  · simp only [parseNull, he, bind, Except.bind]
    rfl

/-- The empty language `Emp` is a witness for C7. -/
theorem isEmpty_true_isNullable_false_witness :
    isEmpty 5 [Parser.newEmp] 0 = .ok ([{ Parser.newEmp with initialized := true }], true) ∧
    isNullable 6 [Parser.newEmp] 0 = .ok ([{ Parser.newEmp with initialized := true }], false) ∧
    parseNull 6 [Parser.newEmp] 0 = .ok ([{ Parser.newEmp with initialized := true }], ∅) :=
  ⟨rfl, isEmpty_true_isNullable_false 5 _ _ 0 rfl⟩

/-! ### Results of calls -/

@[simp] theorem bind_ok {ε α β : Type} (x : α) (f : α → Except ε β) :
    (Except.ok x >>= f) = f x := rfl

@[simp] theorem bind_error {ε α β : Type} (e : ε) (f : α → Except ε β) :
    ((Except.error e : Except ε α) >>= f) = Except.error e := rfl

@[simp] theorem pure_eq_ok {ε α : Type} (x : α) : (pure x : Except ε α) = Except.ok x := rfl

theorem bind_eq_ok {ε α β : Type} (x : Except ε α) (f : α → Except ε β) (b : β) :
    (x >>= f) = .ok b ↔ ∃ a, x = .ok a ∧ f a = .ok b := by
  cases x with
  | error e => simp
  | ok a => simp

/-- A call whose first part cannot fault, and whose rest runs out of budget
whenever the first part returns, runs out of budget. -/
theorem bind_eq_fuel {α β : Type} (x : Except Fault α) (k : α → Except Fault β)
    (hx : ∀ e, x = .error e → e = .fuel) (hk : ∀ r, x = .ok r → k r = .error .fuel) :
    (x >>= k) = .error .fuel := by
  cases x with
  | error e => rw [hx e rfl]; rfl
  | ok r => exact hk r rfl

/-! ### The heap -/

theorem lt_length_of_getElem? {h : Heap} {q : Id} {o : Parser} (hq : h[q]? = some o) :
    q < h.length := by
  rcases Nat.lt_or_ge q h.length with h1 | h1
  · exact h1
  · rw [List.getElem?_eq_none h1] at hq; cases hq

theorem deref_eq_ok {h : Heap} {q : Id} {o : Parser} (hq : h[q]? = some o) :
    deref h q = .ok o := by
  simp [deref, hq]

theorem getElem?_modifyAt (h : Heap) (p q : Id) (f : Parser → Parser) :
    (modifyAt h p f)[q]? = if p = q then (h[q]?).map f else h[q]? := by
  unfold modifyAt
  cases hp : h[p]? with
  | none =>
    by_cases e : p = q
    · subst e; simp [hp]
    · simp [e]
  | some o =>
    by_cases e : p = q
    · subst e
      simp [List.getElem?_set_self (lt_length_of_getElem? hp), hp]
    · simp [e, List.getElem?_set_ne e]

theorem getElem?_modifyAt_self {h : Heap} {q : Id} {o : Parser} (f : Parser → Parser)
    (hq : h[q]? = some o) : (modifyAt h q f)[q]? = some (f o) := by
  simp [getElem?_modifyAt, hq]

theorem getElem?_modifyAt_ne {h : Heap} {p q : Id} (f : Parser → Parser) (hne : p ≠ q) :
    (modifyAt h p f)[q]? = h[q]? := by
  simp [getElem?_modifyAt, hne]

theorem length_modifyAt (h : Heap) (p : Id) (f : Parser → Parser) :
    (modifyAt h p f).length = h.length := by
  unfold modifyAt
  cases h[p]? <;> simp

/-! ### The left-recursive list: attribute queries never return -/

theorem safe_ok {α : Type} {P : Heap → Prop} {r : Heap × α} (hP : P r.1) :
    Safe P (Except.ok r) :=
  ⟨fun _ he => (by cases he), fun _ hr => (by cases hr; exact hP)⟩

theorem safe_fuel {α : Type} {P : Heap → Prop} :
    Safe P (Except.error Fault.fuel : Except Fault (Heap × α)) :=
  ⟨fun _ he => (by cases he; rfl), fun _ hr => (by cases hr)⟩

theorem safeHeap_ok {P : Heap → Prop} {r : Heap} (hP : P r) : SafeHeap P (Except.ok r) :=
  ⟨fun _ he => (by cases he), fun _ hr => (by cases hr; exact hP)⟩

theorem safeHeap_fuel {P : Heap → Prop} :
    SafeHeap P (Except.error Fault.fuel : Except Fault Heap) :=
  ⟨fun _ he => (by cases he; rfl), fun _ hr => (by cases hr)⟩

theorem LeftRecPending.modifyAt_eps {h : Heap} (hp : LeftRecPending h) (f : Parser → Parser)
    (hf : ∀ o, (f o).kind = o.kind) : LeftRecPending (modifyAt h 1 f) := by
  obtain ⟨⟨o0, h0, k0, i0⟩, ⟨o1, h1, k1⟩, ⟨o3, h3, k3, i3⟩, ⟨o4, f4, h4, k4, i4⟩,
    ⟨o5, h5, k5, i5⟩⟩ := hp
  refine ⟨⟨o0, ?_, k0, i0⟩, ⟨f o1, ?_, ?_⟩, ⟨o3, ?_, k3, i3⟩, ⟨o4, f4, ?_, k4, i4⟩,
    ⟨o5, ?_, k5, i5⟩⟩
  · rw [getElem?_modifyAt_ne f (by decide)]; exact h0
  · exact getElem?_modifyAt_self f h1
  · rw [hf]; exact k1
  · rw [getElem?_modifyAt_ne f (by decide)]; exact h3
  · rw [getElem?_modifyAt_ne f (by decide)]; exact h4
  · rw [getElem?_modifyAt_ne f (by decide)]; exact h5

/-- On an `Eps` object, `init` runs out of budget, or returns the heap as it
is, or returns it with the object marked initialized. -/
theorem init_eps (n : Nat) (h : Heap) (q : Id) (o : Parser)
    (hq : h[q]? = some o) (hk : o.kind = .Eps) :
    init n h q = .error .fuel ∨ init n h q = .ok h ∨
      init n h q = .ok (modifyAt h q (fun o => { o with initialized := true })) := by
  have hd : deref h q = .ok o := deref_eq_ok hq
  have hd2 := deref_eq_ok (getElem?_modifyAt_self (fun o => { o with initialized := true }) hq)
  rcases n with _ | _ | _ | _ | n
  · simp [init]
  · simp [init, initLoop, hd]
    cases o.initialized <;> simp
  · simp [init, initLoop, updateChildBasedAttributes, hd]
    cases o.initialized <;> simp
  · simp [init, initLoop, updateChildBasedAttributes, oneShotUpdate, allUpdate, hd,
      ChangeCell.new]
    cases o.initialized <;> simp
  · simp [init, initLoop, updateChildBasedAttributes, oneShotUpdate, allUpdate, hd, hk,
      ChangeCell.new, hd2]
    cases o.initialized <;> simp

theorem updateChildBasedAttributes_eps (n : Nat) (h : Heap) (c : ChangeCell) (q : Id)
    (o : Parser) (hq : h[q]? = some o) (hk : o.kind = .Eps) :
    updateChildBasedAttributes n h c q = .error .fuel ∨
      (∃ c', updateChildBasedAttributes n h c q = .ok (h, c')) ∨
      ∃ c', updateChildBasedAttributes n h c q =
        .ok (modifyAt h q (fun o => { o with initialized := true }), c') := by
  have hd : deref h q = .ok o := deref_eq_ok hq
  have hd2 := deref_eq_ok (getElem?_modifyAt_self (fun o => { o with initialized := true }) hq)
  rcases n with _ | _ | n
  · simp [updateChildBasedAttributes]
  · simp [updateChildBasedAttributes, oneShotUpdate, allUpdate]
  · simp [updateChildBasedAttributes, oneShotUpdate, allUpdate, hd, hk, hd2]
    by_cases hs : q ∈ c.seen <;> simp [hs]

theorem safeHeap_init_eps (P : Heap → Prop) (q : Id)
    (hE : ∀ h, P h → ∃ o, h[q]? = some o ∧ o.kind = .Eps)
    (hS : ∀ h, P h → P (modifyAt h q (fun o => { o with initialized := true })))
    (n : Nat) (h : Heap) (hP : P h) : SafeHeap P (init n h q) := by
  obtain ⟨o, hq, hk⟩ := hE h hP
  rcases init_eps n h q o hq hk with e | e | e <;> rw [e]
  · exact safeHeap_fuel
  · exact safeHeap_ok hP
  · exact safeHeap_ok (hS h hP)

theorem safe_updateChildBasedAttributes_eps (P : Heap → Prop) (q : Id)
    (hE : ∀ h, P h → ∃ o, h[q]? = some o ∧ o.kind = .Eps)
    (hS : ∀ h, P h → P (modifyAt h q (fun o => { o with initialized := true })))
    (n : Nat) (h : Heap) (c : ChangeCell) (hP : P h) :
    Safe P (updateChildBasedAttributes n h c q) := by
  obtain ⟨o, hq, hk⟩ := hE h hP
  rcases updateChildBasedAttributes_eps n h c q o hq hk with e | ⟨c', e⟩ | ⟨c', e⟩ <;> rw [e]
  · exact safe_fuel
  · exact safe_ok hP
  · exact safe_ok (hS h hP)

theorem safe_isEmpty_eps (P : Heap → Prop) (q : Id)
    (hE : ∀ h, P h → ∃ o, h[q]? = some o ∧ o.kind = .Eps)
    (hS : ∀ h, P h → P (modifyAt h q (fun o => { o with initialized := true })))
    (n : Nat) (h : Heap) (hP : P h) : Safe P (isEmpty n h q) := by
  rcases n with _ | n
  · simp only [isEmpty]; exact safe_fuel
  · have hi := safeHeap_init_eps P q hE hS n h hP
    simp only [isEmpty]
    cases hx : init n h q with
    | error e =>
      rw [hi.1 e hx]
      exact safe_fuel
    | ok h1 =>
      obtain ⟨o1, hq1, -⟩ := hE h1 (hi.2 h1 hx)
      simp only [bind_ok, deref_eq_ok hq1, pure_eq_ok]
      exact safe_ok (hi.2 h1 hx)

theorem safe_isNullable_eps (P : Heap → Prop) (q : Id)
    (hE : ∀ h, P h → ∃ o, h[q]? = some o ∧ o.kind = .Eps)
    (hS : ∀ h, P h → P (modifyAt h q (fun o => { o with initialized := true })))
    (n : Nat) (h : Heap) (hP : P h) : Safe P (isNullable n h q) := by
  rcases n with _ | n
  · simp only [isNullable]; exact safe_fuel
  · have hi := safe_isEmpty_eps P q hE hS n h hP
    simp only [isNullable]
    cases hx : isEmpty n h q with
    | error e =>
      rw [hi.1 e hx]
      exact safe_fuel
    | ok r =>
      obtain ⟨h1, b⟩ := r
      have hP1 : P h1 := hi.2 _ hx
      cases b with
      | true => exact safe_ok hP1
      | false =>
        have hi2 := safeHeap_init_eps P q hE hS n h1 hP1
        simp only [bind_ok, Bool.false_eq_true, if_false]
        cases hy : init n h1 q with
        | error e =>
          rw [hi2.1 e hy]
          exact safe_fuel
        | ok h2 =>
          obtain ⟨o2, hq2, -⟩ := hE h2 (hi2.2 h2 hy)
          simp only [bind_ok, deref_eq_ok hq2, pure_eq_ok]
          exact safe_ok (hi2.2 h2 hy)

theorem safe_parseNull_eps (P : Heap → Prop) (q : Id)
    (hE : ∀ h, P h → ∃ o, h[q]? = some o ∧ o.kind = .Eps)
    (hS : ∀ h, P h → P (modifyAt h q (fun o => { o with initialized := true })))
    (n : Nat) (h : Heap) (hP : P h) : Safe P (parseNull n h q) := by
  rcases n with _ | n
  · simp only [parseNull]; exact safe_fuel
  · have hi := safe_isEmpty_eps P q hE hS n h hP
    simp only [parseNull]
    cases hx : isEmpty n h q with
    | error e =>
      rw [hi.1 e hx]
      exact safe_fuel
    | ok r =>
      obtain ⟨h1, b⟩ := r
      have hP1 : P h1 := hi.2 _ hx
      cases b with
      | true => exact safe_ok hP1
      | false =>
        have hi2 := safeHeap_init_eps P q hE hS n h1 hP1
        simp only [bind_ok, Bool.false_eq_true, if_false]
        cases hy : init n h1 q with
        | error e =>
          rw [hi2.1 e hy]
          exact safe_fuel
        | ok h2 =>
          obtain ⟨o2, hq2, -⟩ := hE h2 (hi2.2 h2 hy)
          simp only [bind_ok, deref_eq_ok hq2, pure_eq_ok]
          exact safe_ok (hi2.2 h2 hy)

theorem LeftRecPending.eps_at {h : Heap} (hp : LeftRecPending h) :
    ∃ o, h[1]? = some o ∧ o.kind = .Eps := hp.eps

theorem LeftRecPending.setInitialized_eps {h : Heap} (hp : LeftRecPending h) :
    LeftRecPending (modifyAt h 1 (fun o => { o with initialized := true })) :=
  hp.modifyAt_eps _ (fun _ => rfl)

/-- One more unit of budget on an object that is not initialized: the common
part of the step, from the same facts one unit lower. -/
theorem pending_step (n : Nat) (h : Heap) (X : Id) (o : Parser)
    (hX : h[X]? = some o) (hi : o.initialized = false)
    (h2 : initLoop n h X = .error .fuel)
    (h6 : ∀ c, updateChildBasedAttributes n h c X = .error .fuel)
    (h7 : ∀ c, oneShotUpdate n h c X = .error .fuel)
    (h8 : ∀ c, allUpdate n h c X = .error .fuel)
    (h1 : init n h X = .error .fuel)
    (h3 : isEmpty n h X = .error .fuel) :
    init (n + 1) h X = .error .fuel ∧ initLoop (n + 1) h X = .error .fuel ∧
    isEmpty (n + 1) h X = .error .fuel ∧ parseNull (n + 1) h X = .error .fuel ∧
    isNullable (n + 1) h X = .error .fuel ∧
    ∀ c, updateChildBasedAttributes (n + 1) h c X = .error .fuel := by
  refine ⟨?_, ?_, ?_, ?_, ?_, ?_⟩
  · simp only [init, deref_eq_ok hX, bind_ok, hi, Bool.false_eq_true, if_false, h2]
  · simp only [initLoop, h6, bind_error]
  · simp only [isEmpty, h1, bind_error]
  · simp only [parseNull, h3, bind_error]
  · simp only [isNullable, h3, bind_error]
  · intro c
    by_cases hs : X ∈ c.seen
    · simp only [updateChildBasedAttributes, hs, if_true, h8]
    · simp only [updateChildBasedAttributes, hs, if_false, h7, bind_error]

/-- Every attribute query and every fixed point step on one of the four objects
of the cycle runs out of budget, whatever the budget. -/
theorem leftRec_pending_diverges (n : Nat) : ∀ h, LeftRecPending h →
    ∀ X, X = 0 ∨ X = 3 ∨ X = 4 ∨ X = 5 →
      (init n h X = .error .fuel ∧ initLoop n h X = .error .fuel ∧
        isEmpty n h X = .error .fuel ∧ parseNull n h X = .error .fuel ∧
        isNullable n h X = .error .fuel ∧
        ∀ c, updateChildBasedAttributes n h c X = .error .fuel) ∧
      (∀ c, oneShotUpdate n h c X = .error .fuel) ∧
      ∀ c, allUpdate n h c X = .error .fuel := by
  induction n with
  | zero =>
    intro h _ X _
    simp [init, initLoop, isEmpty, parseNull, isNullable, updateChildBasedAttributes,
      oneShotUpdate, allUpdate]
  | succ n ih =>
    intro h hp X hX
    have hp' := hp
    have hE : ∀ h, LeftRecPending h → ∃ o, h[1]? = some o ∧ o.kind = .Eps := fun _ hp => hp.eps
    have hS : ∀ h, LeftRecPending h →
        LeftRecPending (modifyAt h 1 (fun o => { o with initialized := true })) :=
      fun _ hp => hp.setInitialized_eps
    have I0 := ih h hp 0 (Or.inl rfl)
    have I3 := ih h hp 3 (Or.inr (Or.inl rfl))
    have I4 := ih h hp 4 (Or.inr (Or.inr (Or.inl rfl)))
    have I5 := ih h hp 5 (Or.inr (Or.inr (Or.inr rfl)))
    obtain ⟨⟨o0, h0, k0, i0⟩, -, ⟨o3, h3, k3, i3⟩, ⟨o4, f4, h4, k4, i4⟩, ⟨o5, h5, k5, i5⟩⟩ := hp
    rcases hX with rfl | rfl | rfl | rfl
    · refine ⟨pending_step n h 0 o0 h0 i0 I0.1.2.1 I0.1.2.2.2.2.2 I0.2.1 I0.2.2 I0.1.1
        I0.1.2.2.1, ?_, ?_⟩
      · intro c
        simp only [oneShotUpdate, deref_eq_ok h0, bind_ok, k0, derefOpt, I5.1.2.2.2.2.2]
      · intro c
        simp only [allUpdate, deref_eq_ok h0, bind_ok, k0, derefOpt, I5.1.2.2.2.1, bind_error]
    · refine ⟨pending_step n h 3 o3 h3 i3 I3.1.2.1 I3.1.2.2.2.2.2 I3.2.1 I3.2.2 I3.1.1
        I3.1.2.2.1, ?_, ?_⟩
      · intro c
        simp only [oneShotUpdate, deref_eq_ok h3, bind_ok, k3, I0.1.2.2.2.2.2, bind_error]
      · intro c
        simp only [allUpdate, deref_eq_ok h3, bind_ok, k3, I0.1.2.2.2.1, bind_error]
    · refine ⟨pending_step n h 4 o4 h4 i4 I4.1.2.1 I4.1.2.2.2.2.2 I4.2.1 I4.2.2 I4.1.1
        I4.1.2.2.1, ?_, ?_⟩
      · intro c
        simp only [oneShotUpdate, deref_eq_ok h4, bind_ok, k4, I3.1.2.2.2.2.2]
      · intro c
        simp only [allUpdate, deref_eq_ok h4, bind_ok, k4, I3.1.2.2.2.1, bind_error]
    · refine ⟨pending_step n h 5 o5 h5 i5 I5.1.2.1 I5.1.2.2.2.2.2 I5.2.1 I5.2.2 I5.1.1
        I5.1.2.2.1, ?_, ?_⟩
      · intro c
        simp only [oneShotUpdate, deref_eq_ok h5, bind_ok, k5, List.foldlM]
        have hs := safe_updateChildBasedAttributes_eps LeftRecPending 1 hE hS n h c hp'
        refine bind_eq_fuel _ _ hs.1 (fun r hr => ?_)
        rw [(ih r.1 (hs.2 r hr) 4 (Or.inr (Or.inr (Or.inl rfl)))).1.2.2.2.2.2]
        rfl
      · intro c
        simp only [allUpdate, deref_eq_ok h5, bind_ok, k5, List.foldlM]
        have hs1 := safe_parseNull_eps LeftRecPending 1 hE hS n h hp'
        cases hx1 : parseNull n h 1 with
        | error e => rw [hs1.1 e hx1]; rfl
        | ok r1 =>
          have P1 := hs1.2 r1 hx1
          have hs2 := safe_isEmpty_eps LeftRecPending 1 hE hS n r1.1 P1
          simp only [bind_ok, if_true]
          cases hx2 : isEmpty n r1.1 1 with
          | error e => rw [hs2.1 e hx2]; rfl
          | ok r2 =>
            have P2 := hs2.2 r2 hx2
            have hs3 := safe_isNullable_eps LeftRecPending 1 hE hS n r2.1 P2
            simp only [bind_ok, Bool.false_eq_true, if_false]
            cases hx3 : isNullable n r2.1 1 with
            | error e => rw [hs3.1 e hx3]; rfl
            | ok r3 =>
              have P3 := hs3.2 r3 hx3
              simp only [bind_ok, pure_eq_ok,
                (ih r3.1 P3 4 (Or.inr (Or.inr (Or.inl rfl)))).1.2.2.2.1, bind_error]

theorem getElem?_alloc_lt {h : Heap} {q : Id} (o : Parser) (hq : q < h.length) :
    (alloc h o).1[q]? = h[q]? := by
  simp [alloc, List.getElem?_append_left hq]

theorem getElem?_alloc_of_some {h : Heap} {q : Id} {o' : Parser} (o : Parser)
    (hq : h[q]? = some o') : (alloc h o).1[q]? = some o' := by
  rw [getElem?_alloc_lt o (lt_length_of_getElem? hq)]; exact hq

theorem LeftRecPending.pending_alloc {h : Heap} (hp : LeftRecPending h) (o : Parser) :
    LeftRecPending (alloc h o).1 := by
  obtain ⟨⟨o0, h0, k0, i0⟩, ⟨o1, h1, k1⟩, ⟨o3, h3, k3, i3⟩, ⟨o4, f4, h4, k4, i4⟩,
    ⟨o5, h5, k5, i5⟩⟩ := hp
  exact ⟨⟨o0, getElem?_alloc_of_some o h0, k0, i0⟩, ⟨o1, getElem?_alloc_of_some o h1, k1⟩,
    ⟨o3, getElem?_alloc_of_some o h3, k3, i3⟩, ⟨o4, f4, getElem?_alloc_of_some o h4, k4, i4⟩,
    ⟨o5, getElem?_alloc_of_some o h5, k5, i5⟩⟩

theorem LeftRecPending.pending_modifyAt {h : Heap} (hp : LeftRecPending h) (p : Id)
    (f : Parser → Parser) (hf : ∀ o, (f o).kind = o.kind)
    (hi : ∀ o, (f o).initialized = o.initialized) : LeftRecPending (modifyAt h p f) := by
  obtain ⟨⟨o0, h0, k0, i0⟩, ⟨o1, h1, k1⟩, ⟨o3, h3, k3, i3⟩, ⟨o4, f4, h4, k4, i4⟩,
    ⟨o5, h5, k5, i5⟩⟩ := hp
  refine ⟨?_, ?_, ?_, ?_, ?_⟩
  · by_cases e : p = 0
    · exact ⟨f o0, by rw [e]; exact getElem?_modifyAt_self f h0, by rw [hf]; exact k0,
        by rw [hi]; exact i0⟩
    · exact ⟨o0, by rw [getElem?_modifyAt_ne f e]; exact h0, k0, i0⟩
  · by_cases e : p = 1
    · exact ⟨f o1, by rw [e]; exact getElem?_modifyAt_self f h1, by rw [hf]; exact k1⟩
    · exact ⟨o1, by rw [getElem?_modifyAt_ne f e]; exact h1, k1⟩
  · by_cases e : p = 3
    · exact ⟨f o3, by rw [e]; exact getElem?_modifyAt_self f h3, by rw [hf]; exact k3,
        by rw [hi]; exact i3⟩
    · exact ⟨o3, by rw [getElem?_modifyAt_ne f e]; exact h3, k3, i3⟩
  · by_cases e : p = 4
    · exact ⟨f o4, f4, by rw [e]; exact getElem?_modifyAt_self f h4, by rw [hf]; exact k4,
        by rw [hi]; exact i4⟩
    · exact ⟨o4, f4, by rw [getElem?_modifyAt_ne f e]; exact h4, k4, i4⟩
  · by_cases e : p = 5
    · exact ⟨f o5, by rw [e]; exact getElem?_modifyAt_self f h5, by rw [hf]; exact k5,
        by rw [hi]; exact i5⟩
    · exact ⟨o5, by rw [getElem?_modifyAt_ne f e]; exact h5, k5, i5⟩

theorem LeftRecPending.pending_cacheInsert {h : Heap} (hp : LeftRecPending h) (p : Id) (t : T)
    (d : Id) : LeftRecPending (cacheInsert h p t d) := by
  unfold yidpp.cacheInsert
  apply hp.pending_modifyAt
  · intro o; cases o.cache.lookup t <;> rfl
  · intro o; cases o.cache.lookup t <;> rfl

theorem safe_derive_eps (n : Nat) (h : Heap) (t : T) (hp : LeftRecPending h) :
    Safe LeftRecPending (derive n h 1 t) := by
  obtain ⟨o1, h1, k1⟩ := hp.eps
  rcases n with _ | _ | n
  · simp only [derive]; exact safe_fuel
  · simp only [derive, deref_eq_ok h1, bind_ok, internalDerive]
    cases o1.cache.lookup t with
    | none => exact safe_fuel
    | some d => exact safe_ok hp
  · simp only [derive, deref_eq_ok h1, bind_ok, internalDerive, k1]
    cases o1.cache.lookup t with
    | none => exact safe_ok ((hp.pending_alloc _).pending_cacheInsert _ _ _)
    | some d => exact safe_ok hp

/-- The derivative of the body `alt` never returns: it asks `red` whether it
is empty. -/
theorem internalDerive_alt_pending (n : Nat) (h : Heap) (t : T) (hp : LeftRecPending h) :
    internalDerive n h 5 t = .error .fuel := by
  have hE : ∀ h, LeftRecPending h → ∃ o, h[1]? = some o ∧ o.kind = .Eps := fun _ hp => hp.eps
  have hS : ∀ h, LeftRecPending h →
      LeftRecPending (modifyAt h 1 (fun o => { o with initialized := true })) :=
    fun _ hp => hp.setInitialized_eps
  obtain ⟨o5, h5, k5, -⟩ := hp.alt
  rcases n with _ | n
  · simp only [internalDerive]
  · simp only [internalDerive, deref_eq_ok h5, bind_ok, k5, List.foldlM]
    have hs1 := safe_isEmpty_eps LeftRecPending 1 hE hS n h hp
    cases hx1 : isEmpty n h 1 with
    | error e => rw [hs1.1 e hx1]; rfl
    | ok r1 =>
      have P1 := hs1.2 r1 hx1
      obtain ⟨h1, b⟩ := r1
      simp only [bind_ok]
      cases b with
      | true =>
        simp only [Bool.not_true, Bool.false_eq_true, if_false, pure_eq_ok, bind_ok,
          (leftRec_pending_diverges n h1 P1 4 (Or.inr (Or.inr (Or.inl rfl)))).1.2.2.1,
          bind_error]
      | false =>
        simp only [Bool.not_false, if_true]
        have hs2 := safe_derive_eps n h1 t P1
        cases hx2 : derive n h1 1 t with
        | error e => rw [hs2.1 e hx2]; rfl
        | ok r2 =>
          have P2 := hs2.2 r2 hx2
          simp only [bind_ok, pure_eq_ok,
            (leftRec_pending_diverges n r2.1 P2 4 (Or.inr (Or.inr (Or.inl rfl)))).1.2.2.1,
            bind_error]

theorem derive_alt_pending (n : Nat) (h : Heap) (t : T) (hp : LeftRecPending h)
    (hc : ∀ o, h[5]? = some o → o.cache.lookup t = none) :
    derive n h 5 t = .error .fuel := by
  obtain ⟨o5, h5, k5, -⟩ := hp.alt
  rcases n with _ | n
  · simp only [derive]
  · simp only [derive, deref_eq_ok h5, bind_ok, hc o5 h5, internalDerive_alt_pending n h t hp,
      bind_error]

theorem leftRecPending_leftRecHeap : LeftRecPending leftRecHeap :=
  ⟨⟨_, rfl, rfl, rfl⟩, ⟨_, rfl, rfl⟩, ⟨_, rfl, rfl, rfl⟩, ⟨_, _, rfl, rfl, rfl⟩,
    ⟨_, rfl, rfl, rfl⟩⟩

/-- `parseFull(L, ['a','a'])` on the left-recursive list never returns. -/
theorem parseFull_leftRec_diverges (n : Nat) :
    parseFull n leftRecHeap 0 [97, 97] = .error .fuel := by
  rcases n with _ | _ | _ | n
  · rfl
  · rfl
  · rfl
  · have e1 : parseFull (n + 3) leftRecHeap 0 [97, 97] =
        parseFull (n + 2)
          (cacheInsert (alloc leftRecHeap (Parser.newDFut (some 5) 97)).1 0 97 6) 6 [97] := rfl
    rw [e1]
    have hp : LeftRecPending
        (cacheInsert (alloc leftRecHeap (Parser.newDFut (some 5) 97)).1 0 97 6) :=
      (leftRecPending_leftRecHeap.pending_alloc _).pending_cacheInsert _ _ _
    have e2 : parseFull (n + 2)
          (cacheInsert (alloc leftRecHeap (Parser.newDFut (some 5) 97)).1 0 97 6) 6 [97] =
        (derive (n + 1)
          (cacheInsert (alloc leftRecHeap (Parser.newDFut (some 5) 97)).1 0 97 6) 6 97 >>=
          fun r => parseFull (n + 1) r.1 r.2 []) := rfl
    rw [e2]
    have e3 : derive (n + 1)
          (cacheInsert (alloc leftRecHeap (Parser.newDFut (some 5) 97)).1 0 97 6) 6 97 =
        (internalDerive n
          (cacheInsert (alloc leftRecHeap (Parser.newDFut (some 5) 97)).1 0 97 6) 6 97 >>=
          fun r => pure (cacheInsert r.1 6 97 r.2, r.2)) := rfl
    rw [e3]
    rcases n with _ | n
    · rfl
    · have e4 : internalDerive (n + 1)
          (cacheInsert (alloc leftRecHeap (Parser.newDFut (some 5) 97)).1 0 97 6) 6 97 =
          (derive n (cacheInsert (alloc leftRecHeap (Parser.newDFut (some 5) 97)).1 0 97 6)
            5 97 >>= fun r => derive n r.1 r.2 97) := rfl
      rw [e4, derive_alt_pending n _ 97 hp (fun o ho => by cases ho; rfl)]
      rfl

/-- C4 (the code at the failing input): on the left-recursive list
`L = recursion(); L.bind(alt({epsilon({[]}), red(con(L, terminal('a')), f)}))`
none of the queries `isEmpty(L)`, `isNullable(L)`, `parseFull(L, ['a','a'])`
returns: whatever the call budget, each one uses it up. -/
theorem leftRec_queries_never_return (n : Nat) :
    isEmpty n leftRecHeap 0 = .error .fuel ∧ isNullable n leftRecHeap 0 = .error .fuel ∧
      parseFull n leftRecHeap 0 [97, 97] = .error .fuel :=
  have d := (leftRec_pending_diverges n leftRecHeap leftRecPending_leftRecHeap 0 (Or.inl rfl)).1
  ⟨d.2.2.1, d.2.2.2.2.1, parseFull_leftRec_diverges n⟩

/-- C5 (the code at the failing input): on the left-recursive list the fixed
point driver `init()` does not terminate, neither from `L` nor from any other
object of the cycle, and neither does one pass `updateChildBasedAttributes`:
each `init()` reaches, nested inside it, an `init()` on an object of the cycle
that is not yet marked initialized. -/
theorem init_leftRec_never_terminates (n : Nat) (X : Id)
    (hX : X = 0 ∨ X = 3 ∨ X = 4 ∨ X = 5) :
    init n leftRecHeap X = .error .fuel ∧
      ∀ c, updateChildBasedAttributes n leftRecHeap c X = .error .fuel :=
  have d := (leftRec_pending_diverges n leftRecHeap leftRecPending_leftRecHeap X hX).1
  ⟨d.1, d.2.2.2.2.2⟩

/-- The recursion object `L` itself, for C5. -/
theorem init_leftRec_never_terminates_witness :
    (0 = 0 ∨ 0 = 3 ∨ 0 = 4 ∨ 0 = 5) ∧
      init 1000 leftRecHeap 0 = .error .fuel ∧
      ∀ c, updateChildBasedAttributes 1000 leftRecHeap c 0 = .error .fuel :=
  ⟨Or.inl rfl, init_leftRec_never_terminates 1000 0 (Or.inl rfl)⟩

/-! ### A larger call budget does not change a result -/

theorem FuelLe.refl {α : Type} (a : Except Fault α) : FuelLe a a := Or.inr rfl

theorem FuelLe.fuel {α : Type} (b : Except Fault α) : FuelLe (.error .fuel) b := Or.inl rfl

theorem FuelLe.bind {α β : Type} {a a' : Except Fault α} {k k' : α → Except Fault β}
    (ha : FuelLe a a') (hk : ∀ x, FuelLe (k x) (k' x)) : FuelLe (a >>= k) (a' >>= k') := by
  rcases ha with rfl | rfl
  · exact Or.inl rfl
  · cases a with
    | error e => exact Or.inr rfl
    | ok x => exact hk x

theorem FuelLe.ite {α : Type} {c : Prop} [Decidable c] {a a' b b' : Except Fault α}
    (ha : FuelLe a a') (hb : FuelLe b b') :
    FuelLe (if c then a else b) (if c then a' else b') := by
  split
  · exact ha
  · exact hb

theorem FuelLe.foldlM {α σ : Type} {f f' : σ → α → Except Fault σ}
    (hf : ∀ s x, FuelLe (f s x) (f' s x)) (l : List α) (s : σ) :
    FuelLe (l.foldlM f s) (l.foldlM f' s) := by
  induction l generalizing s with
  | nil => exact Or.inr rfl
  | cons x l ih =>
    simp only [List.foldlM]
    exact FuelLe.bind (hf s x) (fun s' => ih s')

/-- One more unit of budget: every method gives the same result, unless it had
run out of budget. -/
theorem fuelLe_succ (n : Nat) :
    (∀ h p, FuelLe (init n h p) (init (n + 1) h p)) ∧
    (∀ h p, FuelLe (initLoop n h p) (initLoop (n + 1) h p)) ∧
    (∀ h p, FuelLe (isEmpty n h p) (isEmpty (n + 1) h p)) ∧
    (∀ h p, FuelLe (isNullable n h p) (isNullable (n + 1) h p)) ∧
    (∀ h p, FuelLe (parseNull n h p) (parseNull (n + 1) h p)) ∧
    (∀ h c p, FuelLe (updateChildBasedAttributes n h c p)
      (updateChildBasedAttributes (n + 1) h c p)) ∧
    (∀ h c p, FuelLe (oneShotUpdate n h c p) (oneShotUpdate (n + 1) h c p)) ∧
    (∀ h c p, FuelLe (allUpdate n h c p) (allUpdate (n + 1) h c p)) ∧
    (∀ h p t, FuelLe (derive n h p t) (derive (n + 1) h p t)) ∧
    (∀ h p t, FuelLe (internalDerive n h p t) (internalDerive (n + 1) h p t)) := by
  induction n with
  | zero =>
    refine ⟨?_, ?_, ?_, ?_, ?_, ?_, ?_, ?_, ?_, ?_⟩ <;> intros <;> exact Or.inl rfl
  | succ n ih =>
    obtain ⟨i1, i2, i3, i4, i5, i6, i7, i8, i9, i10⟩ := ih
    refine ⟨?_, ?_, ?_, ?_, ?_, ?_, ?_, ?_, ?_, ?_⟩
    · intro h p
      simp only [init]
      repeat' first
        | exact FuelLe.refl _
        | exact i2 _ _
        | apply FuelLe.bind
        | apply FuelLe.ite
        | intro _
    · intro h p
      simp only [initLoop]
      repeat' first
        | exact FuelLe.refl _
        | exact i2 _ _
        | exact i6 _ _ _
        | apply FuelLe.bind
        | apply FuelLe.ite
        | intro _
    · intro h p
      simp only [isEmpty]
      repeat' first
        | exact FuelLe.refl _
        | exact i1 _ _
        | apply FuelLe.bind
        | intro _
    · intro h p
      simp only [isNullable]
      repeat' first
        | exact FuelLe.refl _
        | exact i1 _ _
        | exact i3 _ _
        | apply FuelLe.bind
        | apply FuelLe.ite
        | intro _
    · intro h p
      simp only [parseNull]
      repeat' first
        | exact FuelLe.refl _
        | exact i1 _ _
        | exact i3 _ _
        | apply FuelLe.bind
        | apply FuelLe.ite
        | intro _
    · intro h c p
      simp only [updateChildBasedAttributes]
      repeat' first
        | exact FuelLe.refl _
        | exact i7 _ _ _
        | exact i8 _ _ _
        | apply FuelLe.bind
        | apply FuelLe.ite
        | intro _
    · intro h c p
      simp only [oneShotUpdate]
      repeat' first
        | exact FuelLe.refl _
        | exact i6 _ _ _
        | exact i9 _ _ _
        | apply FuelLe.bind
        | apply FuelLe.ite
        | apply FuelLe.foldlM
        | intro _
        | split
    · intro h c p
      simp only [allUpdate]
      repeat' first
        | exact FuelLe.refl _
        | exact i3 _ _
        | exact i4 _ _
        | exact i5 _ _
        | exact i9 _ _ _
        | apply FuelLe.bind
        | apply FuelLe.ite
        | apply FuelLe.foldlM
        | intro _
        | split
    · intro h p t
      simp only [derive]
      repeat' first
        | exact FuelLe.refl _
        | exact i10 _ _ _
        | apply FuelLe.bind
        | intro _
        | split
    · intro h p t
      simp only [internalDerive]
      repeat' first
        | exact FuelLe.refl _
        | exact i3 _ _
        | exact i4 _ _
        | exact i5 _ _
        | exact i9 _ _ _
        | apply FuelLe.bind
        | apply FuelLe.ite
        | apply FuelLe.foldlM
        | intro _
        | split

theorem FuelLe.trans {α : Type} {a b c : Except Fault α} (h1 : FuelLe a b) (h2 : FuelLe b c) :
    FuelLe a c := by
  rcases h1 with rfl | rfl
  · exact Or.inl rfl
  · exact h2

theorem FuelLe.of_step {α : Type} (F : Nat → Except Fault α)
    (hstep : ∀ n, FuelLe (F n) (F (n + 1))) {n m : Nat} (hnm : n ≤ m) : FuelLe (F n) (F m) := by
  induction hnm with
  | refl => exact FuelLe.refl _
  | step _ ih => exact ih.trans (hstep _)

theorem FuelLe.ok {α : Type} {a b : Except Fault α} {r : α} (h : FuelLe a b)
    (ha : a = .ok r) : b = .ok r := by
  rcases h with h | h
  · rw [h] at ha; cases ha
  · rw [← h]; exact ha

/-- One more unit of budget for the two parse drivers. -/
theorem fuelLe_succ_parseFull (n : Nat) :
    ∀ h p w, FuelLe (parseFull n h p w) (parseFull (n + 1) h p w) := by
  induction n with
  | zero => intros; exact Or.inl rfl
  | succ n ih =>
    obtain ⟨-, -, -, -, i5, -, -, -, i9, -⟩ := fuelLe_succ n
    intro h p w
    simp only [parseFull]
    repeat' first
      | exact FuelLe.refl _
      | exact ih _ _ _
      | exact i5 _ _
      | exact i9 _ _ _
      | apply FuelLe.bind
      | intro _
      | split

theorem fuelLe_succ_parse (n : Nat) :
    ∀ h p w, FuelLe (parse n h p w) (parse (n + 1) h p w) := by
  induction n with
  | zero => intros; exact Or.inl rfl
  | succ n ih =>
    obtain ⟨-, -, -, -, i5, -, -, -, i9, -⟩ := fuelLe_succ n
    have i11 := fuelLe_succ_parseFull n
    intro h p w
    simp only [parse]
    repeat' first
      | exact FuelLe.refl _
      | exact ih _ _ _
      | exact i5 _ _
      | exact i9 _ _ _
      | exact i11 _ _ _
      | apply FuelLe.bind
      | apply FuelLe.ite
      | intro _
      | split

theorem init_mono {n m : Nat} {h : Heap} {p : Id} {r : Heap}
    (hr : init n h p = .ok r) (hnm : n ≤ m) : init m h p = .ok r :=
  (FuelLe.of_step (fun n => init n h p) (fun n => (fuelLe_succ n).1 h p) hnm).ok hr

theorem initLoop_mono {n m : Nat} {h : Heap} {p : Id} {r : Heap}
    (hr : initLoop n h p = .ok r) (hnm : n ≤ m) : initLoop m h p = .ok r :=
  (FuelLe.of_step (fun n => initLoop n h p) (fun n => (fuelLe_succ n).2.1 h p) hnm).ok hr

theorem isEmpty_mono {n m : Nat} {h : Heap} {p : Id} {r : Heap × Bool}
    (hr : isEmpty n h p = .ok r) (hnm : n ≤ m) : isEmpty m h p = .ok r :=
  (FuelLe.of_step (fun n => isEmpty n h p) (fun n => (fuelLe_succ n).2.2.1 h p) hnm).ok hr

theorem isNullable_mono {n m : Nat} {h : Heap} {p : Id} {r : Heap × Bool}
    (hr : isNullable n h p = .ok r) (hnm : n ≤ m) : isNullable m h p = .ok r :=
  (FuelLe.of_step (fun n => isNullable n h p) (fun n => (fuelLe_succ n).2.2.2.1 h p) hnm).ok hr

theorem parseNull_mono {n m : Nat} {h : Heap} {p : Id} {r : Heap × Finset Val}
    (hr : parseNull n h p = .ok r) (hnm : n ≤ m) : parseNull m h p = .ok r :=
  (FuelLe.of_step (fun n => parseNull n h p) (fun n => (fuelLe_succ n).2.2.2.2.1 h p) hnm).ok hr

theorem updateChildBasedAttributes_mono {n m : Nat} {h : Heap} {c : ChangeCell} {p : Id}
    {r : Heap × ChangeCell} (hr : updateChildBasedAttributes n h c p = .ok r) (hnm : n ≤ m) :
    updateChildBasedAttributes m h c p = .ok r :=
  (FuelLe.of_step (fun n => updateChildBasedAttributes n h c p)
    (fun n => (fuelLe_succ n).2.2.2.2.2.1 h c p) hnm).ok hr

theorem oneShotUpdate_mono {n m : Nat} {h : Heap} {c : ChangeCell} {p : Id}
    {r : Heap × ChangeCell} (hr : oneShotUpdate n h c p = .ok r) (hnm : n ≤ m) :
    oneShotUpdate m h c p = .ok r :=
  (FuelLe.of_step (fun n => oneShotUpdate n h c p)
    (fun n => (fuelLe_succ n).2.2.2.2.2.2.1 h c p) hnm).ok hr

theorem allUpdate_mono {n m : Nat} {h : Heap} {c : ChangeCell} {p : Id}
    {r : Heap × ChangeCell} (hr : allUpdate n h c p = .ok r) (hnm : n ≤ m) :
    allUpdate m h c p = .ok r :=
  (FuelLe.of_step (fun n => allUpdate n h c p)
    (fun n => (fuelLe_succ n).2.2.2.2.2.2.2.1 h c p) hnm).ok hr

theorem derive_mono {n m : Nat} {h : Heap} {p : Id} {t : T} {r : Heap × Id}
    (hr : derive n h p t = .ok r) (hnm : n ≤ m) : derive m h p t = .ok r :=
  (FuelLe.of_step (fun n => derive n h p t)
    (fun n => (fuelLe_succ n).2.2.2.2.2.2.2.2.1 h p t) hnm).ok hr

theorem internalDerive_mono {n m : Nat} {h : Heap} {p : Id} {t : T} {r : Heap × Id}
    (hr : internalDerive n h p t = .ok r) (hnm : n ≤ m) : internalDerive m h p t = .ok r :=
  (FuelLe.of_step (fun n => internalDerive n h p t)
    (fun n => (fuelLe_succ n).2.2.2.2.2.2.2.2.2 h p t) hnm).ok hr

theorem parseFull_mono {n m : Nat} {h : Heap} {p : Id} {w : List T} {r : Heap × Finset Val}
    (hr : parseFull n h p w = .ok r) (hnm : n ≤ m) : parseFull m h p w = .ok r :=
  (FuelLe.of_step (fun n => parseFull n h p w) (fun n => fuelLe_succ_parseFull n h p w) hnm).ok hr

theorem parse_mono {n m : Nat} {h : Heap} {p : Id} {w : List T}
    {r : Heap × Finset (Val × List T)}
    (hr : parse n h p w = .ok r) (hnm : n ≤ m) : parse m h p w = .ok r :=
  (FuelLe.of_step (fun n => parse n h p w) (fun n => fuelLe_succ_parse n h p w) hnm).ok hr

/-- A call returns at most one result, whatever the budget. -/
theorem ok_unique {α : Type} (F : Nat → Except Fault α)
    (hstep : ∀ n, FuelLe (F n) (F (n + 1))) {n m : Nat} {r r' : α}
    (h1 : F n = .ok r) (h2 : F m = .ok r') : r = r' := by
  have a := (FuelLe.of_step F hstep (Nat.le_max_left n m)).ok h1
  have b := (FuelLe.of_step F hstep (Nat.le_max_right n m)).ok h2
  rw [a] at b
  cases b
  rfl

/-! ### Getters on initialized objects -/

theorem init_of_initialized {h : Heap} {p : Id} {o : Parser} (hp : h[p]? = some o)
    (hi : o.initialized = true) (n : Nat) : init (n + 1) h p = .ok h := by
  simp only [init, deref_eq_ok hp, bind_ok, hi, if_true, pure_eq_ok]

theorem isEmpty_of_initialized {h : Heap} {p : Id} {o : Parser} (hp : h[p]? = some o)
    (hi : o.initialized = true) (n : Nat) : isEmpty (n + 2) h p = .ok (h, emptyView h p) := by
  simp only [isEmpty, init_of_initialized hp hi, bind_ok, deref_eq_ok hp, pure_eq_ok, emptyView,
    hp]

theorem isNullable_of_initialized {h : Heap} {p : Id} {o : Parser} (hp : h[p]? = some o)
    (hi : o.initialized = true) (n : Nat) :
    isNullable (n + 3) h p = .ok (h, nullableView h p) := by
  simp only [isNullable, isEmpty_of_initialized hp hi, bind_ok, emptyView, nullableView, hp,
    init_of_initialized hp hi, deref_eq_ok hp, pure_eq_ok]
  cases o.isEmptyLocal <;> simp

theorem parseNull_of_initialized {h : Heap} {p : Id} {o : Parser} (hp : h[p]? = some o)
    (hi : o.initialized = true) (n : Nat) :
    parseNull (n + 3) h p = .ok (h, parseNullView h p) := by
  simp only [parseNull, isEmpty_of_initialized hp hi, bind_ok, emptyView, parseNullView, hp,
    init_of_initialized hp hi, deref_eq_ok hp, pure_eq_ok]
  cases o.isEmptyLocal <;> simp

/-! ### The setters -/

theorem modifyAt_id {h : Heap} {p : Id} {o : Parser} (hp : h[p]? = some o)
    (f : Parser → Parser) (hf : f o = o) : modifyAt h p f = h := by
  simp only [modifyAt, hp, hf]
  apply List.ext_getElem?
  intro i
  by_cases e : p = i
  · subst e; rw [List.getElem?_set_self (lt_length_of_getElem? hp), hp]
  · rw [List.getElem?_set_ne e]

theorem modifyAt_modifyAt (h : Heap) (p : Id) (f g : Parser → Parser) :
    modifyAt (modifyAt h p f) p g = modifyAt h p (fun o => g (f o)) := by
  cases hp : h[p]? with
  | none => simp [modifyAt, hp]
  | some o =>
    have h1 : (modifyAt h p f)[p]? = some (f o) := getElem?_modifyAt_self f hp
    simp only [modifyAt, hp] at h1 ⊢
    simp only [h1, List.set_set]

theorem parseNullSet_eq {h : Heap} {p : Id} {o : Parser} (hp : h[p]? = some o)
    (s : Finset Val) :
    parseNullSet h p s =
      (modifyAt h p (fun o => { o with parseNullLocal := s }), decide (o.parseNullLocal ≠ s)) := by
  by_cases e : o.parseNullLocal = s
  · have : modifyAt h p (fun o => { o with parseNullLocal := s }) = h :=
      modifyAt_id hp _ (by rw [← e])
    simp [parseNullSet, hp, e, this]
  · simp [parseNullSet, hp, e, modifyAt]

theorem isEmptySet_eq {h : Heap} {p : Id} {o : Parser} (hp : h[p]? = some o) (v : Bool) :
    isEmptySet h p v =
      (modifyAt h p (fun o => { o with isEmptyLocal := v }), decide (o.isEmptyLocal ≠ v)) := by
  by_cases e : o.isEmptyLocal = v
  · have : modifyAt h p (fun o => { o with isEmptyLocal := v }) = h :=
      modifyAt_id hp _ (by rw [← e])
    simp [isEmptySet, hp, e, this]
  · simp [isEmptySet, hp, e, modifyAt]

theorem isNullableSet_eq {h : Heap} {p : Id} {o : Parser} (hp : h[p]? = some o) (v : Bool) :
    isNullableSet h p v =
      (modifyAt h p (fun o => { o with isNullableLocal := v }),
        decide (o.isNullableLocal ≠ v)) := by
  by_cases e : o.isNullableLocal = v
  · have : modifyAt h p (fun o => { o with isNullableLocal := v }) = h :=
      modifyAt_id hp _ (by rw [← e])
    simp [isNullableSet, hp, e, this]
  · simp [isNullableSet, hp, e, modifyAt]

theorem emptyView_modifyAt_ne {h : Heap} {p q : Id} (f : Parser → Parser) (hne : p ≠ q) :
    emptyView (modifyAt h p f) q = emptyView h q := by
  simp only [emptyView, getElem?_modifyAt_ne f hne]

theorem nullableView_modifyAt_ne {h : Heap} {p q : Id} (f : Parser → Parser) (hne : p ≠ q) :
    nullableView (modifyAt h p f) q = nullableView h q := by
  simp only [nullableView, getElem?_modifyAt_ne f hne]

theorem parseNullView_modifyAt_ne {h : Heap} {p q : Id} (f : Parser → Parser) (hne : p ≠ q) :
    parseNullView (modifyAt h p f) q = parseNullView h q := by
  simp only [parseNullView, getElem?_modifyAt_ne f hne]

theorem Initialized.modifyAt {h : Heap} {q : Id} (hq : Initialized h q) (p : Id)
    (f : Parser → Parser) (hf : ∀ o, o.initialized = true → (f o).initialized = true) :
    Initialized (modifyAt h p f) q := by
  obtain ⟨o, ho, hi⟩ := hq
  by_cases e : p = q
  · subst e; exact ⟨f o, getElem?_modifyAt_self f ho, hf o hi⟩
  · exact ⟨o, by rw [getElem?_modifyAt_ne f e]; exact ho, hi⟩

/-! ### `allUpdate` on an object whose children are initialized -/

theorem getElem?_set_self' {h : Heap} {p : Id} {o : Parser} (hp : h[p]? = some o)
    (x : Parser) : (h.set p x)[p]? = some x :=
  List.getElem?_set_self (lt_length_of_getElem? hp)

theorem set_self_eq {h : Heap} {p : Id} {o : Parser} (hp : h[p]? = some o) : h.set p o = h := by
  apply List.ext_getElem?
  intro i
  by_cases e : p = i
  · subst e; rw [getElem?_set_self' hp, hp]
  · rw [List.getElem?_set_ne e]

theorem modifyAt_eq_set {h : Heap} {p : Id} {o : Parser} (hp : h[p]? = some o)
    (f : Parser → Parser) : modifyAt h p f = h.set p (f o) := by
  simp only [modifyAt, hp]

theorem parseNullSet_eq_set {h : Heap} {p : Id} {o : Parser} (hp : h[p]? = some o)
    (s : Finset Val) :
    parseNullSet h p s = (h.set p (o.withParseNull s), decide (o.parseNullLocal ≠ s)) := by
  by_cases e : o.parseNullLocal = s
  · have : o.withParseNull s = o := by rw [← e]; rfl
    simp [parseNullSet, hp, e, this, set_self_eq hp]
  · simp [parseNullSet, hp, e, Parser.withParseNull]

theorem isEmptySet_eq_set {h : Heap} {p : Id} {o : Parser} (hp : h[p]? = some o) (v : Bool) :
    isEmptySet h p v = (h.set p (o.withEmpty v), decide (o.isEmptyLocal ≠ v)) := by
  by_cases e : o.isEmptyLocal = v
  · have : o.withEmpty v = o := by rw [← e]; rfl
    simp [isEmptySet, hp, e, this, set_self_eq hp]
  · simp [isEmptySet, hp, e, Parser.withEmpty]

theorem isNullableSet_eq_set {h : Heap} {p : Id} {o : Parser} (hp : h[p]? = some o)
    (v : Bool) :
    isNullableSet h p v = (h.set p (o.withNullable v), decide (o.isNullableLocal ≠ v)) := by
  by_cases e : o.isNullableLocal = v
  · have : o.withNullable v = o := by rw [← e]; rfl
    simp [isNullableSet, hp, e, this, set_self_eq hp]
  · simp [isNullableSet, hp, e, Parser.withNullable]

theorem emptyView_set_ne {h : Heap} {p q : Id} (x : Parser) (hne : p ≠ q) :
    emptyView (h.set p x) q = emptyView h q := by
  simp only [emptyView, List.getElem?_set_ne hne]

theorem nullableView_set_ne {h : Heap} {p q : Id} (x : Parser) (hne : p ≠ q) :
    nullableView (h.set p x) q = nullableView h q := by
  simp only [nullableView, List.getElem?_set_ne hne]

theorem parseNullView_set_ne {h : Heap} {p q : Id} (x : Parser) (hne : p ≠ q) :
    parseNullView (h.set p x) q = parseNullView h q := by
  simp only [parseNullView, List.getElem?_set_ne hne]

theorem emptyView_set_self {h : Heap} {p : Id} {o : Parser} (hp : h[p]? = some o)
    (x : Parser) : emptyView (h.set p x) p = x.isEmptyLocal := by
  simp only [emptyView, getElem?_set_self' hp]

theorem recompute_Red {h : Heap} {o : Parser} {q : Id} {f : Val → Val}
    (hk : o.kind = .Red q f) :
    recompute h o =
      ((o.withParseNull ((parseNullView h q).image f)).withEmpty (emptyView h q)).withNullable
        (nullableView h q) := by
  cases o
  simp only at hk
  subst hk
  rfl

theorem allUpdate_Red {h : Heap} {p : Id} {o : Parser} {q : Id} {f : Val → Val}
    (hp : h[p]? = some o) (hk : o.kind = .Red q f)
    (hq : Initialized h q) (hne : p ≠ q) (c : ChangeCell) (n : Nat) :
    ∃ b, allUpdate (n + 4) h c p =
        .ok (h.set p (recompute h o), { c with change := c.change || b }) ∧
      (recompute h o = o → b = false) := by
  obtain ⟨oq, hoq, hiq⟩ := hq
  have hq1 : ∀ x, (h.set p x)[q]? = some oq := fun x => by
    rw [List.getElem?_set_ne hne]; exact hoq
  have hp1 : ∀ x, (h.set p x)[p]? = some x := fun x => getElem?_set_self' hp x
  refine ⟨decide (o.parseNullLocal ≠ (parseNullView h q).image f) ||
      (decide (o.isEmptyLocal ≠ emptyView h q) ||
      decide (o.isNullableLocal ≠ nullableView h q)), ?_, ?_⟩
  · simp only [allUpdate, deref_eq_ok hp, bind_ok, hk, parseNull_of_initialized hoq hiq,
      parseNullSet_eq_set hp, isEmpty_of_initialized (hq1 _) hiq, emptyView_set_ne _ hne,
      isEmptySet_eq_set (hp1 _), isNullable_of_initialized (hq1 _) hiq,
      nullableView_set_ne _ hne, isNullableSet_eq_set (hp1 _), pure_eq_ok, List.set_set,
      ChangeCell.orWith, Bool.or_assoc, recompute_Red hk]
    rfl
  · intro hr
    rw [recompute_Red hk] at hr
    have a1 := congrArg Parser.parseNullLocal hr
    have a2 := congrArg Parser.isEmptyLocal hr
    have a3 := congrArg Parser.isNullableLocal hr
    simp only [Parser.withParseNull, Parser.withEmpty, Parser.withNullable] at a1 a2 a3
    simp [← a1, ← a2, ← a3]
theorem recompute_Con {h : Heap} {o : Parser} {f s : Id} (hk : o.kind = .Con f s) :
    recompute h o =
      ((o.withParseNull
        ((parseNullView h f ×ˢ parseNullView h s).image (fun ab => Val.pair ab.1 ab.2))).withEmpty
        (emptyView h f || emptyView h s)).withNullable
        (!(emptyView h f || emptyView h s) && (nullableView h f && nullableView h s)) := by
  cases o
  simp only at hk
  subst hk
  rfl

theorem allUpdate_Con {h : Heap} {p : Id} {o : Parser} {f s : Id}
    (hp : h[p]? = some o) (hi : o.initialized = true) (hk : o.kind = .Con f s)
    (hf : Initialized h f) (hs : Initialized h s) (hnf : p ≠ f) (hns : p ≠ s)
    (c : ChangeCell) (n : Nat) :
    ∃ b, allUpdate (n + 4) h c p =
        .ok (h.set p (recompute h o), { c with change := c.change || b }) ∧
      (recompute h o = o → b = false) := by
  obtain ⟨of, hof, hif⟩ := hf
  obtain ⟨os, hos, his⟩ := hs
  have hf1 : ∀ x, (h.set p x)[f]? = some of := fun x => by
    rw [List.getElem?_set_ne hnf]; exact hof
  have hs1 : ∀ x, (h.set p x)[s]? = some os := fun x => by
    rw [List.getElem?_set_ne hns]; exact hos
  have hp1 : ∀ x, (h.set p x)[p]? = some x := fun x => getElem?_set_self' hp x
  refine ⟨decide (o.parseNullLocal ≠
        (parseNullView h f ×ˢ parseNullView h s).image (fun ab => Val.pair ab.1 ab.2)) ||
      (decide (o.isEmptyLocal ≠ (emptyView h f || emptyView h s)) ||
      decide (o.isNullableLocal ≠
        (!(emptyView h f || emptyView h s) && (nullableView h f && nullableView h s)))), ?_, ?_⟩
  · have hi2 : ∀ (x : Finset Val) (y : Bool),
        ((o.withParseNull x).withEmpty y).initialized = true := fun _ _ => hi
    simp only [allUpdate, deref_eq_ok hp, bind_ok, hk, parseNull_of_initialized hof hif,
      parseNull_of_initialized hos his,
      parseNullSet_eq_set hp, isEmpty_of_initialized (hf1 _) hif, emptyView_set_ne _ hnf,
      isEmpty_of_initialized (hs1 _) his, emptyView_set_ne _ hns,
      isEmptySet_eq_set (hp1 _), List.set_set, isEmpty_of_initialized (hp1 _) (hi2 _ _),
      emptyView_set_self hp,
      isNullable_of_initialized (hf1 _) hif, isNullable_of_initialized (hs1 _) his,
      nullableView_set_ne _ hnf, nullableView_set_ne _ hns,
      isNullableSet_eq_set (hp1 _), pure_eq_ok,
      ChangeCell.orWith, Bool.or_assoc, recompute_Con hk]
    cases h1 : emptyView h f <;> cases h2 : emptyView h s <;> cases h3 : nullableView h f <;>
      cases h4 : nullableView h s <;>
      simp [Parser.withEmpty, Parser.withParseNull, Parser.withNullable, List.set_set,
        isEmpty_of_initialized (hs1 _) his, emptyView_set_ne _ hns, h2,
        isEmptySet_eq_set (hp1 _), isEmpty_of_initialized (hp1 _) hi, emptyView_set_self hp,
        isNullable_of_initialized (hf1 _) hif, isNullable_of_initialized (hs1 _) his,
        nullableView_set_ne _ hnf, nullableView_set_ne _ hns, h3, h4,
        isNullableSet_eq_set (hp1 _)]
  · intro hr
    rw [recompute_Con hk] at hr
    have a1 := congrArg Parser.parseNullLocal hr
    have a2 := congrArg Parser.isEmptyLocal hr
    have a3 := congrArg Parser.isNullableLocal hr
    simp only [Parser.withParseNull, Parser.withEmpty, Parser.withNullable] at a1 a2 a3
    simp [← a1, ← a2, ← a3]
theorem foldlM_eq_foldl {σ : Type} (F : Heap × σ → Id → Except Fault (Heap × σ))
    (g : σ → Id → σ) (h : Heap) (ps : List Id)
    (hF : ∀ q ∈ ps, ∀ s, F (h, s) q = .ok (h, g s q)) (s : σ) :
    ps.foldlM F (h, s) = .ok (h, ps.foldl g s) := by
  induction ps generalizing s with
  | nil => rfl
  | cons q ps ih =>
    simp only [List.foldlM, List.foldl, hF q (List.mem_cons_self _ _) s, bind_ok]
    exact ih (fun q' hq' => hF q' (List.mem_cons_of_mem _ hq')) _

theorem recompute_Alt {h : Heap} {o : Parser} {ps : List Id} (hk : o.kind = .Alt ps) :
    recompute h o =
      ((o.withParseNull (ps.foldl (altStep h) (∅, true, false)).1).withEmpty
        (ps.foldl (altStep h) (∅, true, false)).2.1).withNullable
        (!(ps.foldl (altStep h) (∅, true, false)).2.1 &&
          (ps.foldl (altStep h) (∅, true, false)).2.2) := by
  cases o
  simp only at hk
  subst hk
  rfl

theorem allUpdate_Alt {h : Heap} {p : Id} {o : Parser} {ps : List Id}
    (hp : h[p]? = some o) (hi : o.initialized = true) (hk : o.kind = .Alt ps)
    (hps : ∀ q ∈ ps, Initialized h q) (c : ChangeCell) (n : Nat) :
    ∃ b, allUpdate (n + 4) h c p =
        .ok (h.set p (recompute h o), { c with change := c.change || b }) ∧
      (recompute h o = o → b = false) := by
  have hp1 : ∀ x, (h.set p x)[p]? = some x := fun x => getElem?_set_self' hp x
  have key := foldlM_eq_foldl
    (fun (s : Heap × Finset Val × Bool × Bool) i => do
      let (h, temp) ← parseNull (n + 3) s.1 i
      let nullSet := s.2.1 ∪ temp
      let (h, tempEmpty) ← if s.2.2.1 then isEmpty (n + 3) h i else pure (h, false)
      let (h, tempNullable) ← if s.2.2.2 then pure (h, true) else isNullable (n + 3) h i
      pure (h, nullSet, tempEmpty, tempNullable))
    (altStep h) h ps
    (by
      intro q hq s
      obtain ⟨oq, hoq, hiq⟩ := hps q hq
      obtain ⟨ns, te, tn⟩ := s
      simp only [parseNull_of_initialized hoq hiq, bind_ok, isEmpty_of_initialized hoq hiq,
        isNullable_of_initialized hoq hiq, pure_eq_ok, altStep]
      cases te <;> cases tn <;> rfl)
    (∅, true, false)
  refine ⟨decide (o.parseNullLocal ≠ (ps.foldl (altStep h) (∅, true, false)).1) ||
      (decide (o.isEmptyLocal ≠ (ps.foldl (altStep h) (∅, true, false)).2.1) ||
      decide (o.isNullableLocal ≠ (!(ps.foldl (altStep h) (∅, true, false)).2.1 &&
          (ps.foldl (altStep h) (∅, true, false)).2.2))), ?_, ?_⟩
  · have hi2 : ∀ (x : Finset Val) (y : Bool),
        ((o.withParseNull x).withEmpty y).initialized = true := fun _ _ => hi
    rw [allUpdate]
    simp only [deref_eq_ok hp, bind_ok, hk]
    rw [key]
    simp only [bind_ok, parseNullSet_eq_set hp, isEmptySet_eq_set (hp1 _), List.set_set,
      isEmpty_of_initialized (hp1 _) (hi2 _ _), emptyView_set_self hp,
      isNullableSet_eq_set (hp1 _), pure_eq_ok,
      ChangeCell.orWith, Bool.or_assoc, recompute_Alt hk]
    rfl
  · intro hr
    rw [recompute_Alt hk] at hr
    have a1 := congrArg Parser.parseNullLocal hr
    have a2 := congrArg Parser.isEmptyLocal hr
    have a3 := congrArg Parser.isNullableLocal hr
    simp only [Parser.withParseNull, Parser.withEmpty, Parser.withNullable] at a1 a2 a3
    simp [← a1, ← a2, ← a3]

/-! ### Parses depend on the kinds and on the seeds of the `Eps` objects only -/

theorem Parses.mono {h h' : Heap}
    (hsem : ∀ (p : Id) (o : Parser), h[p]? = some o → ∃ o', h'[p]? = some o' ∧ o'.kind = o.kind ∧
      (o.kind = .Eps → o'.parseNullLocal = o.parseNullLocal))
    {p : Id} {w : List T} {v : Val} (hp : Parses h p w v) : Parses h' p w v := by
  induction hp with
  | eps ho hk hv =>
    obtain ⟨o', ho', hk', hs⟩ := hsem _ _ ho
    exact Parses.eps ho' (hk'.trans hk) (by rw [hs hk]; exact hv)
  | eqT ho hk =>
    obtain ⟨o', ho', hk', -⟩ := hsem _ _ ho
    exact Parses.eqT ho' (hk'.trans hk)
  | alt ho hk hq _ ih =>
    obtain ⟨o', ho', hk', -⟩ := hsem _ _ ho
    exact Parses.alt ho' (hk'.trans hk) hq ih
  | con ho hk _ _ ih1 ih2 =>
    obtain ⟨o', ho', hk', -⟩ := hsem _ _ ho
    exact Parses.con ho' (hk'.trans hk) ih1 ih2
  | red ho hk _ ih =>
    obtain ⟨o', ho', hk', -⟩ := hsem _ _ ho
    exact Parses.red ho' (hk'.trans hk) ih
  | repNil ho hk =>
    obtain ⟨o', ho', hk', -⟩ := hsem _ _ ho
    exact Parses.repNil ho' (hk'.trans hk)
  | repCons ho hk _ _ ih1 ih2 =>
    obtain ⟨o', ho', hk', -⟩ := hsem _ _ ho
    exact Parses.repCons ho' (hk'.trans hk) ih1 ih2

theorem SameAttrs.attrs_refl (o : Parser) : SameAttrs o o := ⟨rfl, rfl, rfl⟩

theorem Ext.ext_refl (h : Heap) : Ext h h :=
  ⟨Nat.le_refl _, fun _ o ho => ⟨o, ho, rfl, fun hi => hi, fun _ => SameAttrs.attrs_refl o,
    fun _ _ hc => hc⟩⟩

theorem Ext.ext_trans {h1 h2 h3 : Heap} (a : Ext h1 h2) (b : Ext h2 h3) : Ext h1 h3 := by
  refine ⟨Nat.le_trans a.length_le b.length_le, fun p o ho => ?_⟩
  obtain ⟨o2, ho2, k2, i2, s2, c2⟩ := a.node p o ho
  obtain ⟨o3, ho3, k3, i3, s3, c3⟩ := b.node p o2 ho2
  refine ⟨o3, ho3, k3.trans k2, fun hi => i3 (i2 hi), fun hc => ?_, fun t d hc => c3 t d (c2 t d hc)⟩
  have s2' := s2 hc
  have s3' : SameAttrs o2 o3 := by
    apply s3
    rcases hc with hc | hc
    · exact Or.inl (i2 hc)
    · exact Or.inr (by rw [k2]; exact hc)
  exact ⟨s3'.1.trans s2'.1, s3'.2.1.trans s2'.2.1, s3'.2.2.trans s2'.2.2⟩

theorem Ext.sem {h h' : Heap} (e : Ext h h') (p : Id) (o : Parser) (ho : h[p]? = some o) :
    ∃ o', h'[p]? = some o' ∧ o'.kind = o.kind ∧
      (o.kind = .Eps → o'.parseNullLocal = o.parseNullLocal) := by
  obtain ⟨o', ho', hk, -, hs, -⟩ := e.node p o ho
  exact ⟨o', ho', hk, fun hE => (hs (Or.inr (by rw [hE]; rfl))).2.2⟩

theorem Ext.parses {h h' : Heap} (e : Ext h h') {p : Id} {w : List T} {v : Val}
    (hp : Parses h p w v) : Parses h' p w v :=
  Parses.mono e.sem hp

theorem Ext.initialized {h h' : Heap} (e : Ext h h') {q : Id} (hq : Initialized h q) :
    Initialized h' q := by
  obtain ⟨o, ho, hi⟩ := hq
  obtain ⟨o', ho', -, i, -, -⟩ := e.node q o ho
  exact ⟨o', ho', i hi⟩

/-- Parses of an object of the old heap are the same in the extended heap. -/
theorem Ext.parses_iff {h h' : Heap} (e : Ext h h') (hw : WellFormed h) {p : Id}
    (hp : p < h.length) {w : List T} {v : Val} : Parses h' p w v ↔ Parses h p w v := by
  constructor
  · intro hpar
    induction hpar with
    | @eps p o' v ho' hk hv =>
      obtain ⟨o, ho⟩ : ∃ o, h[p]? = some o := ⟨h[p], List.getElem?_eq_getElem hp⟩
      obtain ⟨o'', ho'', hk', -, hs, -⟩ := e.node p o ho
      rw [ho'] at ho''
      cases ho''
      have hkE : o.kind = .Eps := hk'.symm.trans hk
      exact Parses.eps ho hkE (by rw [← (hs (Or.inr (by rw [hkE]; rfl))).2.2]; exact hv)
    | @eqT p o' t ho' hk =>
      obtain ⟨o, ho⟩ : ∃ o, h[p]? = some o := ⟨h[p], List.getElem?_eq_getElem hp⟩
      obtain ⟨o'', ho'', hk', -, -, -⟩ := e.node p o ho
      rw [ho'] at ho''
      cases ho''
      exact Parses.eqT ho (hk'.symm.trans hk)
    | @alt p o' ps q w v ho' hk hq _ ih =>
      obtain ⟨o, ho⟩ : ∃ o, h[p]? = some o := ⟨h[p], List.getElem?_eq_getElem hp⟩
      obtain ⟨o'', ho'', hk', -, -, -⟩ := e.node p o ho
      rw [ho'] at ho''
      cases ho''
      have hko : o.kind = .Alt ps := hk'.symm.trans hk
      have hlt : q < p := (hw p o ho).children_lt q (by rw [hko]; exact hq)
      exact Parses.alt ho hko hq (ih (Nat.lt_trans hlt hp))
    | @con p o' f s u w a b ho' hk _ _ ih1 ih2 =>
      obtain ⟨o, ho⟩ : ∃ o, h[p]? = some o := ⟨h[p], List.getElem?_eq_getElem hp⟩
      obtain ⟨o'', ho'', hk', -, -, -⟩ := e.node p o ho
      rw [ho'] at ho''
      cases ho''
      have hko : o.kind = .Con f s := hk'.symm.trans hk
      have hlt1 : f < p := (hw p o ho).children_lt f (by rw [hko]; simp [Kind.children])
      have hlt2 : s < p := (hw p o ho).children_lt s (by rw [hko]; simp [Kind.children])
      exact Parses.con ho hko (ih1 (Nat.lt_trans hlt1 hp)) (ih2 (Nat.lt_trans hlt2 hp))
    | @red p o' q f w v ho' hk _ ih =>
      obtain ⟨o, ho⟩ : ∃ o, h[p]? = some o := ⟨h[p], List.getElem?_eq_getElem hp⟩
      obtain ⟨o'', ho'', hk', -, -, -⟩ := e.node p o ho
      rw [ho'] at ho''
      cases ho''
      have hko : o.kind = .Red q f := hk'.symm.trans hk
      have hlt : q < p := (hw p o ho).children_lt q (by rw [hko]; simp [Kind.children])
      exact Parses.red ho hko (ih (Nat.lt_trans hlt hp))
    | @repNil p o' i ho' hk =>
      obtain ⟨o, ho⟩ : ∃ o, h[p]? = some o := ⟨h[p], List.getElem?_eq_getElem hp⟩
      obtain ⟨o'', ho'', hk', -, -, -⟩ := e.node p o ho
      rw [ho'] at ho''
      cases ho''
      exact Parses.repNil ho (hk'.symm.trans hk)
    | @repCons p o' i t u w a x ho' hk _ _ ih1 ih2 =>
      obtain ⟨o, ho⟩ : ∃ o, h[p]? = some o := ⟨h[p], List.getElem?_eq_getElem hp⟩
      obtain ⟨o'', ho'', hk', -, -, -⟩ := e.node p o ho
      rw [ho'] at ho''
      cases ho''
      have hko : o.kind = .Rep i := hk'.symm.trans hk
      have hlt : i < p := (hw p o ho).children_lt i (by rw [hko]; simp [Kind.children])
      exact Parses.repCons ho hko (ih1 (Nat.lt_trans hlt hp)) (ih2 hp)
  · exact e.parses

/-! ### The recomputed attributes -/

theorem recompute_kind (h : Heap) (o : Parser) : (recompute h o).kind = o.kind := by
  unfold recompute; split <;> rfl

theorem recompute_initialized (h : Heap) (o : Parser) :
    (recompute h o).initialized = o.initialized := by
  unfold recompute; split <;> rfl

theorem recompute_cache (h : Heap) (o : Parser) : (recompute h o).cache = o.cache := by
  unfold recompute; split <;> rfl

theorem recompute_of_not_computed (h : Heap) (o : Parser) (hk : o.kind.isComputed = false) :
    recompute h o = o := by
  unfold recompute
  split <;> first | rfl | (rename_i e; rw [e] at hk; cases hk)

theorem altStep_foldl_congr {h h' : Heap} {ps : List Id}
    (hv : ∀ q ∈ ps, emptyView h q = emptyView h' q ∧ nullableView h q = nullableView h' q ∧
      parseNullView h q = parseNullView h' q) (s : Finset Val × Bool × Bool) :
    ps.foldl (altStep h) s = ps.foldl (altStep h') s := by
  induction ps generalizing s with
  | nil => rfl
  | cons q ps ih =>
    obtain ⟨a, b, c⟩ := hv q (List.mem_cons_self _ _)
    simp only [List.foldl, altStep, a, b, c]
    exact ih (fun q' hq' => hv q' (List.mem_cons_of_mem _ hq')) _

/-- The recomputed attributes depend on the heap through the views of the
children only. -/
theorem recompute_congr {h h' : Heap} {o : Parser}
    (hv : ∀ q ∈ o.kind.children, emptyView h q = emptyView h' q ∧
      nullableView h q = nullableView h' q ∧ parseNullView h q = parseNullView h' q) :
    recompute h o = recompute h' o := by
  cases hk : o.kind with
  | Alt ps =>
    rw [recompute_Alt hk, recompute_Alt hk, altStep_foldl_congr (by rw [hk] at hv; exact hv)]
  | Con f s =>
    rw [hk] at hv
    obtain ⟨a1, a2, a3⟩ := hv f (by simp [Kind.children])
    obtain ⟨b1, b2, b3⟩ := hv s (by simp [Kind.children])
    rw [recompute_Con hk, recompute_Con hk, a1, a2, a3, b1, b2, b3]
  | Red q f =>
    rw [hk] at hv
    obtain ⟨a1, a2, a3⟩ := hv q (by simp [Kind.children])
    rw [recompute_Red hk, recompute_Red hk, a1, a2, a3]
  | Emp => rw [recompute_of_not_computed h o (by rw [hk]; rfl),
      recompute_of_not_computed h' o (by rw [hk]; rfl)]
  | Eps => rw [recompute_of_not_computed h o (by rw [hk]; rfl),
      recompute_of_not_computed h' o (by rw [hk]; rfl)]
  | EqT t => rw [recompute_of_not_computed h o (by rw [hk]; rfl),
      recompute_of_not_computed h' o (by rw [hk]; rfl)]
  | Rep i => rw [recompute_of_not_computed h o (by rw [hk]; rfl),
      recompute_of_not_computed h' o (by rw [hk]; rfl)]
  | RecursiveParser r => simp only [recompute, hk]
  | DFut q t => simp only [recompute, hk]

theorem recompute_idem (h : Heap) (o : Parser) : recompute h (recompute h o) = recompute h o := by
  cases hk : o.kind with
  | Alt ps =>
    have hk' : (recompute h o).kind = .Alt ps := (recompute_kind h o).trans hk
    rw [recompute_Alt hk', recompute_Alt hk]; rfl
  | Con f s =>
    have hk' : (recompute h o).kind = .Con f s := (recompute_kind h o).trans hk
    rw [recompute_Con hk', recompute_Con hk]; rfl
  | Red q f =>
    have hk' : (recompute h o).kind = .Red q f := (recompute_kind h o).trans hk
    rw [recompute_Red hk', recompute_Red hk]; rfl
  | Emp => simp only [recompute_of_not_computed h o (by rw [hk]; rfl)]
  | Eps => simp only [recompute_of_not_computed h o (by rw [hk]; rfl)]
  | EqT t => simp only [recompute_of_not_computed h o (by rw [hk]; rfl)]
  | Rep i => simp only [recompute_of_not_computed h o (by rw [hk]; rfl)]
  | RecursiveParser r => simp only [recompute, hk]
  | DFut q t => simp only [recompute, hk]

/-! ### Writing one object keeps the invariant -/

theorem views_set_of_sameAttrs {h : Heap} {p : Id} {o x : Parser} (hp : h[p]? = some o)
    (hs : SameAttrs o x) (q : Id) :
    emptyView h q = emptyView (h.set p x) q ∧ nullableView h q = nullableView (h.set p x) q ∧
      parseNullView h q = parseNullView (h.set p x) q := by
  by_cases e : p = q
  · subst e
    simp only [emptyView, nullableView, parseNullView, getElem?_set_self' hp, hp, hs.1, hs.2.1,
      hs.2.2, and_self]
  · simp only [emptyView, nullableView, parseNullView, List.getElem?_set_ne e, and_self]

theorem views_set_ne {h : Heap} {p q : Id} (x : Parser) (e : p ≠ q) :
    emptyView h q = emptyView (h.set p x) q ∧ nullableView h q = nullableView (h.set p x) q ∧
      parseNullView h q = parseNullView (h.set p x) q := by
  simp only [emptyView, nullableView, parseNullView, List.getElem?_set_ne e, and_self]

theorem Initialized.set {h : Heap} {q : Id} (hq : Initialized h q) {p : Id} {o x : Parser}
    (hp : h[p]? = some o) (hi : o.initialized = true → x.initialized = true) :
    Initialized (h.set p x) q := by
  obtain ⟨oq, hoq, hiq⟩ := hq
  by_cases e : p = q
  · subst e
    rw [hp] at hoq
    cases hoq
    exact ⟨x, getElem?_set_self' hp x, hi hiq⟩
  · exact ⟨oq, by rw [List.getElem?_set_ne e]; exact hoq, hiq⟩

theorem parses_set_iff {h : Heap} {p : Id} {o x : Parser} (hp : h[p]? = some o)
    (hk : x.kind = o.kind) (hs : o.kind = .Eps → x.parseNullLocal = o.parseNullLocal)
    {q : Id} {w : List T} {v : Val} : Parses (h.set p x) q w v ↔ Parses h q w v := by
  constructor
  · apply Parses.mono
    intro r o' ho'
    by_cases e : p = r
    · subst e
      rw [getElem?_set_self' hp] at ho'
      cases ho'
      exact ⟨o, hp, hk.symm, fun hE => (hs (hk.symm.trans hE)).symm⟩
    · rw [List.getElem?_set_ne e] at ho'
      exact ⟨o', ho', rfl, fun _ => rfl⟩
  · apply Parses.mono
    intro r o' ho'
    by_cases e : p = r
    · subst e
      rw [hp] at ho'
      cases ho'
      exact ⟨x, getElem?_set_self' hp x, hk, hs⟩
    · exact ⟨o', by rw [List.getElem?_set_ne e]; exact ho', rfl, fun _ => rfl⟩

theorem WellFormed.wf_set {h : Heap} (hw : WellFormed h) {p : Id} {o x : Parser}
    (hp : h[p]? = some o) (hk : x.kind = o.kind)
    (hcache : ∀ t d, x.cache.lookup t = some d →
      d < h.length ∧ ∀ w v, Parses h d w v ↔ Parses h p (t :: w) v)
    (hmono : ∀ t d, o.cache.lookup t = some d → x.cache.lookup t = some d)
    (hinit : o.initialized = true → x.initialized = true)
    (hsame : o.initialized = true ∨ o.kind.isComputed = false → SameAttrs o x)
    (hnew : x.initialized = true →
      (∀ q ∈ o.kind.children, Initialized h q) ∧ recompute h x = x)
    (hdep : SameAttrs o x ∨ ∀ (y : Id) (oy : Parser), h[y]? = some oy →
      oy.initialized = true → p ∉ oy.kind.children) :
    WellFormed (h.set p x) ∧ Ext h (h.set p x) := by
  have hEps : o.kind = .Eps → x.parseNullLocal = o.parseNullLocal := fun hE =>
    (hsame (Or.inr (by rw [hE]; rfl))).2.2
  have hop := hw p o hp
  constructor
  · intro q oq hq
    by_cases e : p = q
    · subst e
      rw [getElem?_set_self' hp] at hq
      cases hq
      refine ⟨by rw [hk]; exact hop.children_lt, by rw [hk]; exact hop.recursionFree, ?_, ?_, ?_⟩
      · have hc := hop.constructed
        cases hko : o.kind with
        | Emp =>
          have s := hsame (Or.inr (by rw [hko]; rfl))
          simp only [hko] at hc
          simp only [hk, hko, s.1, hc]
        | Eps =>
          have s := hsame (Or.inr (by rw [hko]; rfl))
          simp only [hko] at hc
          simp only [hk, hko, s.1, s.2.1, hc, and_self]
        | EqT t =>
          have s := hsame (Or.inr (by rw [hko]; rfl))
          simp only [hko] at hc
          simp only [hk, hko, s.1, s.2.1, s.2.2, hc, and_self]
        | Rep i =>
          have s := hsame (Or.inr (by rw [hko]; rfl))
          simp only [hko] at hc
          simp only [hk, hko, s.1, s.2.1, s.2.2, hc, and_self]
        | Alt ps => simp only [hk, hko]
        | Con f s => simp only [hk, hko]
        | Red q f => simp only [hk, hko]
        | RecursiveParser r => simp only [hk, hko]
        | DFut q t => simp only [hk, hko]
      · intro hi
        obtain ⟨a, b⟩ := hnew hi
        refine ⟨fun q hq => (a q (by rw [← hk]; exact hq)).set hp hinit, ?_⟩
        rw [← @recompute_congr h (h.set p x)]
        · exact b
        · intro q hq
          have : q < p := hop.children_lt q (by rw [← hk]; exact hq)
          exact views_set_ne x (Nat.ne_of_gt this)
      · intro t d hd
        obtain ⟨a, b⟩ := hcache t d hd
        refine ⟨by rw [List.length_set]; exact a, fun w v => ?_⟩
        rw [parses_set_iff hp hk hEps, parses_set_iff hp hk hEps]
        exact b w v
    · rw [List.getElem?_set_ne e] at hq
      have hoq := hw q oq hq
      refine ⟨hoq.children_lt, hoq.recursionFree, hoq.constructed, ?_, ?_⟩
      · intro hi
        obtain ⟨a, b⟩ := hoq.attributes hi
        refine ⟨fun r hr => (a r hr).set hp hinit, ?_⟩
        rw [← @recompute_congr h (h.set p x)]
        · exact b
        · intro r hr
          rcases hdep with hs | hn
          · exact views_set_of_sameAttrs hp hs r
          · have : p ≠ r := fun e' => hn q oq hq hi (by rw [e']; exact hr)
            exact views_set_ne x this
      · intro t d hd
        obtain ⟨a, b⟩ := hoq.cached t d hd
        refine ⟨by rw [List.length_set]; exact a, fun w v => ?_⟩
        rw [parses_set_iff hp hk hEps, parses_set_iff hp hk hEps]
        exact b w v
  · refine ⟨by rw [List.length_set], fun q oq hq => ?_⟩
    by_cases e : p = q
    · subst e
      rw [hp] at hq
      cases hq
      exact ⟨x, getElem?_set_self' hp x, hk, hinit, hsame, hmono⟩
    · exact ⟨oq, by rw [List.getElem?_set_ne e]; exact hq, rfl, fun hi => hi,
        fun _ => SameAttrs.attrs_refl oq, fun _ _ hd => hd⟩

/-! ### One pass of the fixed point on a recursion-free heap -/

theorem SameCaches.same_refl (h : Heap) : SameCaches h h := fun _ o ho => ⟨o, ho, rfl⟩

theorem SameCaches.same_trans {h1 h2 h3 : Heap} (a : SameCaches h1 h2) (b : SameCaches h2 h3) :
    SameCaches h1 h3 := by
  intro x o ho
  obtain ⟨o2, ho2, e2⟩ := a x o ho
  obtain ⟨o3, ho3, e3⟩ := b x o2 ho2
  exact ⟨o3, ho3, e3.trans e2⟩

theorem SameCaches.same_set {h : Heap} {p : Id} {o : Parser} (hp : h[p]? = some o) (x : Parser)
    (hc : x.cache = o.cache) : SameCaches h (h.set p x) := by
  intro q oq hq
  by_cases e : p = q
  · subst e
    rw [hp] at hq
    cases hq
    exact ⟨x, getElem?_set_self' hp x, hc⟩
  · exact ⟨oq, by rw [List.getElem?_set_ne e]; exact hq, rfl⟩

theorem foldlM_update_mono {n m : Nat} (hnm : n ≤ m) (qs : List Id) (s r : Heap × ChangeCell)
    (hr : qs.foldlM (fun (s : Heap × ChangeCell) i => updateChildBasedAttributes n s.1 s.2 i) s
      = .ok r) :
    qs.foldlM (fun (s : Heap × ChangeCell) i => updateChildBasedAttributes m s.1 s.2 i) s
      = .ok r := by
  have key : FuelLe
      (qs.foldlM (fun (s : Heap × ChangeCell) i => updateChildBasedAttributes n s.1 s.2 i) s)
      (qs.foldlM (fun (s : Heap × ChangeCell) i => updateChildBasedAttributes m s.1 s.2 i) s) :=
    FuelLe.foldlM (fun s i => FuelLe.of_step (fun n => updateChildBasedAttributes n s.1 s.2 i)
      (fun n => (fuelLe_succ n).2.2.2.2.2.1 s.1 s.2 i) hnm) qs s
  exact key.ok hr

theorem update_children (p : Id)
    (IH : ∀ q, q < p → ∀ (h : Heap) (c : ChangeCell) (o : Parser), WellFormed h →
      h[q]? = some o → CellOK h c (q + 1) →
      ∃ n h' c', updateChildBasedAttributes n h c q = .ok (h', c') ∧ UpdatePost h c q h' c')
    (qs : List Id) (hqs : ∀ q ∈ qs, q < p) :
    ∀ (h : Heap) (c : ChangeCell), WellFormed h → p ≤ h.length → CellOK h c p →
      ∃ n h' c',
        qs.foldlM (fun (s : Heap × ChangeCell) i => updateChildBasedAttributes n s.1 s.2 i) (h, c)
          = .ok (h', c') ∧ ChildrenPost h c p qs h' c' := by
  induction qs with
  | nil =>
    intro h c hw _ _
    exact ⟨0, h, c, rfl, hw, Ext.ext_refl h, rfl, fun _ hq => (by cases hq), fun _ _ => rfl,
      fun x hx => Or.inl hx, fun _ => ⟨rfl, rfl⟩, SameCaches.same_refl h⟩
  | cons q qs ih =>
    intro h c hw hpl hc
    have hqp : q < p := hqs q (List.mem_cons_self _ _)
    have hql : q < h.length := Nat.lt_of_lt_of_le hqp hpl
    obtain ⟨o, ho⟩ : ∃ o, h[q]? = some o := ⟨h[q], List.getElem?_eq_getElem hql⟩
    obtain ⟨n1, h1, c1, e1, P1⟩ := IH q hqp h c o hw ho
      (fun x hx hlt => hc x hx (by unfold Id at *; omega))
    have hc1 : CellOK h1 c1 p := by
      intro x hx hlt
      rcases P1.seen x hx with a | a
      · exact P1.ext.initialized (hc x a hlt)
      · exact a
    obtain ⟨n2, h2, c2, e2, P2⟩ := ih (fun q' hq' => hqs q' (List.mem_cons_of_mem _ hq')) h1 c1
      P1.wf (by rw [P1.length_eq]; exact hpl) hc1
    refine ⟨max n1 n2, h2, c2, ?_, ?_⟩
    · simp only [List.foldlM, updateChildBasedAttributes_mono e1 (Nat.le_max_left n1 n2), bind_ok]
      exact foldlM_update_mono (Nat.le_max_right n1 n2) qs _ _ e2
    · refine ⟨P2.wf, P1.ext.ext_trans P2.ext, P2.length_eq.trans P1.length_eq, ?_, ?_, ?_, ?_,
        P1.caches.same_trans P2.caches⟩
      · intro q' hq'
        rcases List.mem_cons.1 hq' with rfl | hq'
        · exact P2.ext.initialized P1.initialized
        · exact P2.initialized q' hq'
      · intro x hx
        rw [P2.above x hx, P1.above x (by unfold Id at *; omega)]
      · intro x hx
        rcases P2.seen x hx with a | a
        · rcases P1.seen x a with b | b
          · exact Or.inl b
          · exact Or.inr (P2.ext.initialized b)
        · exact Or.inr a
      · intro hall
        obtain ⟨a1, a2⟩ := P1.stable (hall q (List.mem_cons_self _ _))
        subst a1
        obtain ⟨b1, b2⟩ := P2.stable (fun q' hq' => hall q' (List.mem_cons_of_mem _ hq'))
        exact ⟨b1, b2.trans a2⟩

theorem bind_ok_eta {ε α : Type} (x : Except ε α) : (x >>= fun a => Except.ok a) = x := by
  cases x <;> rfl

/-- On a recursion-free object `oneShotUpdate` is the loop over the children. -/
theorem oneShotUpdate_eq {h : Heap} {p : Id} {o : Parser} (hp : h[p]? = some o)
    (hrf : match o.kind with
      | .RecursiveParser _ => False
      | .DFut _ _ => False
      | _ => True) (c : ChangeCell) (n : Nat) :
    oneShotUpdate (n + 1) h c p =
      (o.kind.children.foldlM
        (fun (s : Heap × ChangeCell) i => updateChildBasedAttributes n s.1 s.2 i) (h, c)) >>=
        fun r => .ok (oneShotFinish o.kind p r) := by
  cases hk : o.kind with
  | Emp => simp only [oneShotUpdate, deref_eq_ok hp, bind_ok, hk, Kind.children, List.foldlM,
      pure_eq_ok, oneShotFinish]
  | Eps => simp only [oneShotUpdate, deref_eq_ok hp, bind_ok, hk, Kind.children, List.foldlM,
      pure_eq_ok, oneShotFinish]
  | EqT t => simp only [oneShotUpdate, deref_eq_ok hp, bind_ok, hk, Kind.children, List.foldlM,
      pure_eq_ok, oneShotFinish]
  | Alt ps =>
    simp only [oneShotUpdate, deref_eq_ok hp, bind_ok, hk, Kind.children, oneShotFinish,
      bind_ok_eta]
  | Con f s =>
    simp only [oneShotUpdate, deref_eq_ok hp, bind_ok, hk, Kind.children, List.foldlM,
      pure_eq_ok, oneShotFinish]
    cases updateChildBasedAttributes n h c f with
    | error e => rfl
    | ok r =>
      simp only [bind_ok]
      cases updateChildBasedAttributes n r.1 r.2 s <;> rfl
  | Red q f =>
    simp only [oneShotUpdate, deref_eq_ok hp, bind_ok, hk, Kind.children, List.foldlM,
      pure_eq_ok, oneShotFinish]
    cases updateChildBasedAttributes n h c q <;> rfl
  | Rep i =>
    simp only [oneShotUpdate, deref_eq_ok hp, bind_ok, hk, Kind.children, List.foldlM,
      pure_eq_ok, oneShotFinish]
    cases updateChildBasedAttributes n h c i <;> rfl
  | RecursiveParser r => rw [hk] at hrf; exact hrf.elim
  | DFut q t => rw [hk] at hrf; exact hrf.elim

/-- `allUpdate` on a recursion-free object whose children are initialized
writes the recomputed attributes, and reports no change when they are the ones
the object holds. -/
theorem allUpdate_of_children_initialized {h : Heap} {p : Id} {o : Parser}
    (hp : h[p]? = some o) (hi : o.initialized = true)
    (hrf : match o.kind with
      | .RecursiveParser _ => False
      | .DFut _ _ => False
      | _ => True)
    (hch : ∀ q ∈ o.kind.children, Initialized h q ∧ p ≠ q) (c : ChangeCell) (n : Nat) :
    ∃ b, allUpdate (n + 4) h c p =
        .ok (h.set p (recompute h o), { c with change := c.change || b }) ∧
      (recompute h o = o → b = false) := by
  cases hk : o.kind with
  | Alt ps => exact allUpdate_Alt hp hi hk (fun q hq => (hch q (by rw [hk]; exact hq)).1) c n
  | Con f s =>
    have a := hch f (by rw [hk]; simp [Kind.children])
    have b := hch s (by rw [hk]; simp [Kind.children])
    exact allUpdate_Con hp hi hk a.1 b.1 a.2 b.2 c n
  | Red q f =>
    have a := hch q (by rw [hk]; simp [Kind.children])
    exact allUpdate_Red hp hk a.1 a.2 c n
  | Emp =>
    refine ⟨false, ?_, fun _ => rfl⟩
    simp only [allUpdate, deref_eq_ok hp, bind_ok, hk, pure_eq_ok,
      recompute_of_not_computed h o (by rw [hk]; rfl), set_self_eq hp, Bool.or_false]
  | Eps =>
    refine ⟨false, ?_, fun _ => rfl⟩
    simp only [allUpdate, deref_eq_ok hp, bind_ok, hk, pure_eq_ok,
      recompute_of_not_computed h o (by rw [hk]; rfl), set_self_eq hp, Bool.or_false]
  | EqT t =>
    refine ⟨false, ?_, fun _ => rfl⟩
    simp only [allUpdate, deref_eq_ok hp, bind_ok, hk, pure_eq_ok,
      recompute_of_not_computed h o (by rw [hk]; rfl), set_self_eq hp, Bool.or_false]
  | Rep i =>
    refine ⟨false, ?_, fun _ => rfl⟩
    simp only [allUpdate, deref_eq_ok hp, bind_ok, hk, pure_eq_ok,
      recompute_of_not_computed h o (by rw [hk]; rfl), set_self_eq hp, Bool.or_false]
  | RecursiveParser r => rw [hk] at hrf; exact hrf.elim
  | DFut q t => rw [hk] at hrf; exact hrf.elim

theorem withInitialized_eq_self {o : Parser} (hi : o.initialized = true) :
    ({ o with initialized := true } : Parser) = o := by
  cases o
  simp only at hi
  subst hi
  rfl

theorem exists_getElem?_of_lt {h : Heap} {q : Id} (hq : q < h.length) :
    ∃ o, h[q]? = some o := ⟨h[q], List.getElem?_eq_getElem hq⟩

theorem modifyAt_oneShotFinish (k : Kind) {h1 : Heap} {p : Id} {o : Parser}
    (hp1 : h1[p]? = some o) (c2 : ChangeCell) :
    modifyAt (oneShotFinish k p (h1, c2)).1 p (fun o => { o with initialized := true }) =
      h1.set p { o with initialized := true } := by
  cases k <;>
    simp only [oneShotFinish, modifyAt_eq_set hp1, modifyAt_eq_set (getElem?_set_self' hp1 _),
      List.set_set]

theorem oneShotFinish_snd (k : Kind) (p : Id) (r : Heap × ChangeCell) :
    (oneShotFinish k p r).2 = r.2 := by
  cases k <;> rfl

/-- One pass of the fixed point from an object of a recursion-free heap
returns, keeps the invariant, and leaves the object initialized; a pass over
initialized objects changes nothing and reports no change. -/
theorem updateChildBasedAttributes_wellFormed (p : Id) :
    ∀ (h : Heap) (c : ChangeCell) (o : Parser), WellFormed h → h[p]? = some o →
      CellOK h c (p + 1) →
      ∃ n h' c', updateChildBasedAttributes n h c p = .ok (h', c') ∧ UpdatePost h c p h' c' := by
  induction p using Nat.strong_induction_on with
  | _ p IH =>
    intro h c o hw hp hc
    have hop := hw p o hp
    have hpl : p < h.length := lt_length_of_getElem? hp
    have hne : ∀ q ∈ o.kind.children, p ≠ q := fun q hq => Nat.ne_of_gt (hop.children_lt q hq)
    by_cases hs : p ∈ c.seen
    · -- seen in this pass: `allUpdate` only, and nothing changes
      obtain ⟨o', ho', hi⟩ := hc p hs (Nat.lt_succ_self p)
      rw [hp] at ho'
      cases ho'
      obtain ⟨hch, hre⟩ := hop.attributes hi
      obtain ⟨b, e, hb⟩ := allUpdate_of_children_initialized hp hi hop.recursionFree
        (fun q hq => ⟨hch q hq, hne q hq⟩) c 0
      rw [hre, set_self_eq hp, hb hre, Bool.or_false] at e
      refine ⟨5, h, c, ?_, hw, Ext.ext_refl h, rfl, ⟨o, hp, hi⟩, fun _ _ => rfl,
        fun x hx => Or.inl hx, fun _ => ⟨rfl, rfl⟩, SameCaches.same_refl h⟩
      simp only [updateChildBasedAttributes, hs, if_true]
      exact e
    · -- first visit in this pass
      have hc1 : CellOK h { c with seen := p :: c.seen } p := by
        intro x hx hlt
        rcases List.mem_cons.1 hx with e | e
        · exact absurd e (Nat.ne_of_lt hlt)
        · exact hc x e (Nat.lt_succ_of_lt hlt)
      obtain ⟨n1, h1, c2, e1, P1⟩ := update_children p
        (fun q hq h c o hw ho hc => IH q hq h c o hw ho hc) o.kind.children hop.children_lt h
        { c with seen := p :: c.seen } hw (Nat.le_of_lt hpl) hc1
      have hp1 : h1[p]? = some o := by rw [P1.above p (Nat.le_refl p)]; exact hp
      have hset : ∀ x : Parser, (h1.set p x)[p]? = some x := fun x => getElem?_set_self' hp1 x
      have hfin := modifyAt_oneShotFinish o.kind hp1 c2
      have hfin2 : (oneShotFinish o.kind p (h1, c2)).2 = c2 := oneShotFinish_snd _ _ _
      have hch2 : ∀ q ∈ o.kind.children,
          Initialized (h1.set p { o with initialized := true }) q ∧ p ≠ q :=
        fun q hq => ⟨(P1.initialized q hq).set hp1 (fun _ => rfl), hne q hq⟩
      obtain ⟨b, e2, hb⟩ := allUpdate_of_children_initialized
        (o := { o with initialized := true }) (hset _) rfl hop.recursionFree hch2 c2 (n1 + 1)
      rw [List.set_set] at e2
      have hrc : recompute (h1.set p { o with initialized := true }) { o with initialized := true }
          = recompute h1 { o with initialized := true } :=
        (recompute_congr (o := { o with initialized := true })
          (fun q hq => views_set_ne _ (hne q hq))).symm
      rw [hrc] at e2 hb
      -- when the object was initialized, nothing changes
      have hst : o.initialized = true →
          h1 = h ∧ c2.change = c.change ∧
            recompute h1 { o with initialized := true } = o := by
        intro hi
        obtain ⟨a1, a2⟩ := P1.stable (hop.attributes hi).1
        subst a1
        refine ⟨rfl, a2, ?_⟩
        rw [withInitialized_eq_self hi]
        exact (hop.attributes hi).2
      obtain ⟨hw3, hext3⟩ := WellFormed.wf_set P1.wf hp1
        (x := recompute h1 { o with initialized := true })
        (recompute_kind _ _)
        (fun t d hd => (P1.wf p o hp1).cached t d (by rw [recompute_cache] at hd; exact hd))
        (fun t d hd => by rw [recompute_cache]; exact hd)
        (fun _ => by rw [recompute_initialized])
        (by
          intro hor
          rcases hor with hi | hnc
          · rw [(hst hi).2.2]; exact SameAttrs.attrs_refl o
          · rw [recompute_of_not_computed h1 { o with initialized := true } hnc]
            exact ⟨rfl, rfl, rfl⟩)
        (fun _ => ⟨P1.initialized, recompute_idem _ _⟩)
        (by
          by_cases hi : o.initialized = true
          · left; rw [(hst hi).2.2]; exact SameAttrs.attrs_refl o
          · right
            intro y oy hy hiy hmem
            have hlt : p < y := (P1.wf y oy hy).children_lt p hmem
            rw [P1.above y (Nat.le_of_lt hlt)] at hy
            obtain ⟨o', ho', hi'⟩ := ((hw y oy hy).attributes hiy).1 p hmem
            rw [hp] at ho'
            cases ho'
            exact hi hi')
      refine ⟨n1 + 6, h1.set p (recompute h1 { o with initialized := true }),
        { c2 with change := c2.change || b }, ?_, hw3, P1.ext.ext_trans hext3, ?_, ?_, ?_, ?_, ?_,
        P1.caches.same_trans (SameCaches.same_set hp1 _ (recompute_cache _ _))⟩
      · simp only [updateChildBasedAttributes, hs, if_false]
        have e1' : oneShotUpdate (n1 + 1) h { c with seen := p :: c.seen } p =
            Except.ok (oneShotFinish o.kind p (h1, c2)) := by
          rw [oneShotUpdate_eq hp hop.recursionFree, e1]; rfl
        rw [oneShotUpdate_mono e1' (by omega : n1 + 1 ≤ n1 + 5)]
        simp only [bind_ok, hfin, hfin2]
        exact e2
      · rw [List.length_set]; exact P1.length_eq
      · exact ⟨_, hset _, by rw [recompute_initialized]⟩
      · intro x hx
        rw [List.getElem?_set_ne (Nat.ne_of_lt hx), P1.above x (Nat.le_of_lt hx)]
      · intro x hx
        rcases P1.seen x hx with a | a
        · rcases List.mem_cons.1 a with e | e
          · right; rw [e]; exact ⟨_, hset _, by rw [recompute_initialized]⟩
          · exact Or.inl e
        · exact Or.inr (hext3.initialized a)
      · rintro ⟨o', ho', hi⟩
        rw [hp] at ho'
        cases ho'
        obtain ⟨a1, a2, a3⟩ := hst hi
        subst a1
        have hb' : b = false := by
          apply hb
          rw [a3]
          exact (withInitialized_eq_self hi).symm
        refine ⟨?_, ?_⟩
        · rw [a3]; exact set_self_eq hp
        · show (c2.change || b) = c.change
          rw [hb', Bool.or_false]; exact a2

/-! ### The lazy fixed point and the getters on a recursion-free heap -/

/-- `init()` returns, keeps the invariant and leaves the object initialized. -/
theorem init_wellFormed {h : Heap} {p : Id} {o : Parser} (hw : WellFormed h)
    (hp : h[p]? = some o) :
    ∃ n h', init n h p = .ok h' ∧ WellFormed h' ∧ Ext h h' ∧ h'.length = h.length ∧
      Initialized h' p ∧ (Initialized h p → h' = h) ∧ SameCaches h h' := by
  by_cases hi : o.initialized = true
  · exact ⟨1, h, init_of_initialized hp hi 0, hw, Ext.ext_refl h, rfl, ⟨o, hp, hi⟩, fun _ => rfl,
      SameCaches.same_refl h⟩
  · obtain ⟨n1, h1, c1, e1, P1⟩ := updateChildBasedAttributes_wellFormed p h ChangeCell.new o hw hp
      (fun x hx _ => by cases hx)
    obtain ⟨o1, hp1, hi1⟩ := P1.initialized
    obtain ⟨n2, h2, c2, e2, P2⟩ := updateChildBasedAttributes_wellFormed p h1 ChangeCell.new o1
      P1.wf hp1 (fun x hx _ => by cases hx)
    obtain ⟨a1, a2⟩ := P2.stable P1.initialized
    subst a1
    have hc2 : c2.change = false := a2
    refine ⟨max n1 n2 + 3, h2, ?_, P1.wf, P1.ext, P1.length_eq, P1.initialized,
      fun ⟨o', ho', hi'⟩ => absurd (by rw [hp] at ho'; cases ho'; exact hi') hi, P1.caches⟩
    have f1 := updateChildBasedAttributes_mono e1 (by omega : n1 ≤ max n1 n2 + 1)
    have f2 := updateChildBasedAttributes_mono e2 (by omega : n2 ≤ max n1 n2)
    simp only [init, deref_eq_ok hp, bind_ok, hi, if_false, initLoop, f1, f2, hc2,
      Bool.false_eq_true, pure_eq_ok]
    cases c1.change <;> rfl

theorem isEmpty_wellFormed {h : Heap} {p : Id} {o : Parser} (hw : WellFormed h)
    (hp : h[p]? = some o) :
    ∃ n h', isEmpty n h p = .ok (h', emptyView h' p) ∧ WellFormed h' ∧ Ext h h' ∧
      h'.length = h.length ∧ Initialized h' p ∧ (Initialized h p → h' = h) ∧
      SameCaches h h' := by
  obtain ⟨n, h', e, hw', hext, hlen, ⟨o', hp', hi'⟩, hst, hsc⟩ := init_wellFormed hw hp
  refine ⟨n + 1, h', ?_, hw', hext, hlen, ⟨o', hp', hi'⟩, hst, hsc⟩
  simp only [isEmpty, e, bind_ok, deref_eq_ok hp', pure_eq_ok, emptyView, hp']

theorem isNullable_wellFormed {h : Heap} {p : Id} {o : Parser} (hw : WellFormed h)
    (hp : h[p]? = some o) :
    ∃ n h', isNullable n h p = .ok (h', nullableView h' p) ∧ WellFormed h' ∧ Ext h h' ∧
      h'.length = h.length ∧ Initialized h' p ∧ (Initialized h p → h' = h) ∧
      SameCaches h h' := by
  obtain ⟨n, h', e, hw', hext, hlen, ⟨o', hp', hi'⟩, hst, hsc⟩ := isEmpty_wellFormed hw hp
  refine ⟨n + 2, h', ?_, hw', hext, hlen, ⟨o', hp', hi'⟩, hst, hsc⟩
  have f1 := isEmpty_mono e (by omega : n ≤ n + 1)
  have f2 := init_mono (init_of_initialized hp' hi' 0) (by omega : 1 ≤ n + 1)
  simp only [isNullable, f1, bind_ok, f2, deref_eq_ok hp', pure_eq_ok, emptyView, nullableView,
    hp']
  cases o'.isEmptyLocal <;> simp

theorem parseNull_wellFormed {h : Heap} {p : Id} {o : Parser} (hw : WellFormed h)
    (hp : h[p]? = some o) :
    ∃ n h', parseNull n h p = .ok (h', parseNullView h' p) ∧ WellFormed h' ∧ Ext h h' ∧
      h'.length = h.length ∧ Initialized h' p ∧ (Initialized h p → h' = h) ∧
      SameCaches h h' := by
  obtain ⟨n, h', e, hw', hext, hlen, ⟨o', hp', hi'⟩, hst, hsc⟩ := isEmpty_wellFormed hw hp
  refine ⟨n + 2, h', ?_, hw', hext, hlen, ⟨o', hp', hi'⟩, hst, hsc⟩
  have f1 := isEmpty_mono e (by omega : n ≤ n + 1)
  have f2 := init_mono (init_of_initialized hp' hi' 0) (by omega : 1 ≤ n + 1)
  simp only [parseNull, f1, bind_ok, f2, deref_eq_ok hp', pure_eq_ok, emptyView, parseNullView,
    hp']
  cases o'.isEmptyLocal <;> simp

/-! ### The parses of each class -/

theorem parses_Emp {h : Heap} {p : Id} {o : Parser} (hp : h[p]? = some o) (hk : o.kind = .Emp)
    {w : List T} {v : Val} : ¬ Parses h p w v := by
  intro hpar
  cases hpar with
  | eps ho' hk' hv => rw [hp] at ho'; cases ho'; rw [hk] at hk'; cases hk'
  | eqT ho' hk' => rw [hp] at ho'; cases ho'; rw [hk] at hk'; cases hk'
  | alt ho' hk' => rw [hp] at ho'; cases ho'; rw [hk] at hk'; cases hk'
  | con ho' hk' => rw [hp] at ho'; cases ho'; rw [hk] at hk'; cases hk'
  | red ho' hk' => rw [hp] at ho'; cases ho'; rw [hk] at hk'; cases hk'
  | repNil ho' hk' => rw [hp] at ho'; cases ho'; rw [hk] at hk'; cases hk'
  | repCons ho' hk' => rw [hp] at ho'; cases ho'; rw [hk] at hk'; cases hk'

theorem parses_Eps {h : Heap} {p : Id} {o : Parser} (hp : h[p]? = some o) (hk : o.kind = .Eps)
    {w : List T} {v : Val} : Parses h p w v ↔ w = [] ∧ v ∈ o.parseNullLocal := by
  constructor
  · intro hpar
    cases hpar with
    | eps ho' hk' hv => rw [hp] at ho'; cases ho'; exact ⟨rfl, hv⟩
    | eqT ho' hk' => rw [hp] at ho'; cases ho'; rw [hk] at hk'; cases hk'
    | alt ho' hk' => rw [hp] at ho'; cases ho'; rw [hk] at hk'; cases hk'
    | con ho' hk' => rw [hp] at ho'; cases ho'; rw [hk] at hk'; cases hk'
    | red ho' hk' => rw [hp] at ho'; cases ho'; rw [hk] at hk'; cases hk'
    | repNil ho' hk' => rw [hp] at ho'; cases ho'; rw [hk] at hk'; cases hk'
    | repCons ho' hk' => rw [hp] at ho'; cases ho'; rw [hk] at hk'; cases hk'
  · rintro ⟨rfl, hv⟩
    exact Parses.eps hp hk hv

theorem parses_EqT {h : Heap} {p : Id} {o : Parser} {t : T} (hp : h[p]? = some o)
    (hk : o.kind = .EqT t) {w : List T} {v : Val} :
    Parses h p w v ↔ w = [t] ∧ v = .term t := by
  constructor
  · intro hpar
    cases hpar with
    | eps ho' hk' hv => rw [hp] at ho'; cases ho'; rw [hk] at hk'; cases hk'
    | eqT ho' hk' => rw [hp] at ho'; cases ho'; rw [hk] at hk'; cases hk'; exact ⟨rfl, rfl⟩
    | alt ho' hk' => rw [hp] at ho'; cases ho'; rw [hk] at hk'; cases hk'
    | con ho' hk' => rw [hp] at ho'; cases ho'; rw [hk] at hk'; cases hk'
    | red ho' hk' => rw [hp] at ho'; cases ho'; rw [hk] at hk'; cases hk'
    | repNil ho' hk' => rw [hp] at ho'; cases ho'; rw [hk] at hk'; cases hk'
    | repCons ho' hk' => rw [hp] at ho'; cases ho'; rw [hk] at hk'; cases hk'
  · rintro ⟨rfl, rfl⟩
    exact Parses.eqT hp hk

theorem parses_Alt {h : Heap} {p : Id} {o : Parser} {ps : List Id} (hp : h[p]? = some o)
    (hk : o.kind = .Alt ps) {w : List T} {v : Val} :
    Parses h p w v ↔ ∃ q ∈ ps, Parses h q w v := by
  constructor
  · intro hpar
    cases hpar with
    | eps ho' hk' hv => rw [hp] at ho'; cases ho'; rw [hk] at hk'; cases hk'
    | eqT ho' hk' => rw [hp] at ho'; cases ho'; rw [hk] at hk'; cases hk'
    | alt ho' hk' hq hq' =>
      rw [hp] at ho'; cases ho'; rw [hk] at hk'; cases hk'; exact ⟨_, hq, hq'⟩
    | con ho' hk' => rw [hp] at ho'; cases ho'; rw [hk] at hk'; cases hk'
    | red ho' hk' => rw [hp] at ho'; cases ho'; rw [hk] at hk'; cases hk'
    | repNil ho' hk' => rw [hp] at ho'; cases ho'; rw [hk] at hk'; cases hk'
    | repCons ho' hk' => rw [hp] at ho'; cases ho'; rw [hk] at hk'; cases hk'
  · rintro ⟨q, hq, hq'⟩
    exact Parses.alt hp hk hq hq'

theorem parses_Con {h : Heap} {p : Id} {o : Parser} {f s : Id} (hp : h[p]? = some o)
    (hk : o.kind = .Con f s) {w : List T} {v : Val} :
    Parses h p w v ↔
      ∃ u w' a b, w = u ++ w' ∧ v = .pair a b ∧ Parses h f u a ∧ Parses h s w' b := by
  constructor
  · intro hpar
    cases hpar with
    | eps ho' hk' hv => rw [hp] at ho'; cases ho'; rw [hk] at hk'; cases hk'
    | eqT ho' hk' => rw [hp] at ho'; cases ho'; rw [hk] at hk'; cases hk'
    | alt ho' hk' => rw [hp] at ho'; cases ho'; rw [hk] at hk'; cases hk'
    | con ho' hk' h1 h2 =>
      rw [hp] at ho'; cases ho'; rw [hk] at hk'; cases hk'
      exact ⟨_, _, _, _, rfl, rfl, h1, h2⟩
    | red ho' hk' => rw [hp] at ho'; cases ho'; rw [hk] at hk'; cases hk'
    | repNil ho' hk' => rw [hp] at ho'; cases ho'; rw [hk] at hk'; cases hk'
    | repCons ho' hk' => rw [hp] at ho'; cases ho'; rw [hk] at hk'; cases hk'
  · rintro ⟨u, w', a, b, rfl, rfl, h1, h2⟩
    exact Parses.con hp hk h1 h2

theorem parses_Red {h : Heap} {p : Id} {o : Parser} {q : Id} {f : Val → Val}
    (hp : h[p]? = some o) (hk : o.kind = .Red q f) {w : List T} {v : Val} :
    Parses h p w v ↔ ∃ x, v = f x ∧ Parses h q w x := by
  constructor
  · intro hpar
    cases hpar with
    | eps ho' hk' hv => rw [hp] at ho'; cases ho'; rw [hk] at hk'; cases hk'
    | eqT ho' hk' => rw [hp] at ho'; cases ho'; rw [hk] at hk'; cases hk'
    | alt ho' hk' => rw [hp] at ho'; cases ho'; rw [hk] at hk'; cases hk'
    | con ho' hk' => rw [hp] at ho'; cases ho'; rw [hk] at hk'; cases hk'
    | red ho' hk' h1 =>
      rw [hp] at ho'; cases ho'; rw [hk] at hk'; cases hk'
      exact ⟨_, rfl, h1⟩
    | repNil ho' hk' => rw [hp] at ho'; cases ho'; rw [hk] at hk'; cases hk'
    | repCons ho' hk' => rw [hp] at ho'; cases ho'; rw [hk] at hk'; cases hk'
  · rintro ⟨x, rfl, h1⟩
    exact Parses.red hp hk h1

theorem parses_Rep {h : Heap} {p : Id} {o : Parser} {i : Id} (hp : h[p]? = some o)
    (hk : o.kind = .Rep i) {w : List T} {v : Val} :
    Parses h p w v ↔ (w = [] ∧ v = .vec []) ∨
      ∃ t u w' a x, w = t :: u ++ w' ∧ v = reductionOperation (.pair a x) ∧
        Parses h i (t :: u) a ∧ Parses h p w' x := by
  constructor
  · intro hpar
    cases hpar with
    | eps ho' hk' hv => rw [hp] at ho'; cases ho'; rw [hk] at hk'; cases hk'
    | eqT ho' hk' => rw [hp] at ho'; cases ho'; rw [hk] at hk'; cases hk'
    | alt ho' hk' => rw [hp] at ho'; cases ho'; rw [hk] at hk'; cases hk'
    | con ho' hk' => rw [hp] at ho'; cases ho'; rw [hk] at hk'; cases hk'
    | red ho' hk' => rw [hp] at ho'; cases ho'; rw [hk] at hk'; cases hk'
    | repNil ho' hk' => exact Or.inl ⟨rfl, rfl⟩
    | repCons ho' hk' h1 h2 =>
      rw [hp] at ho'; cases ho'; rw [hk] at hk'; cases hk'
      exact Or.inr ⟨_, _, _, _, _, rfl, rfl, h1, h2⟩
  · rintro (⟨rfl, rfl⟩ | ⟨t, u, w', a, x, rfl, rfl, h1, h2⟩)
    · exact Parses.repNil hp hk
    · exact Parses.repCons hp hk h1 h2

/-! ### The loop of `Alt::allUpdate`, in closed form -/

theorem mem_altStep_foldl {h : Heap} {ps : List Id} {s : Finset Val × Bool × Bool} {v : Val} :
    v ∈ (ps.foldl (altStep h) s).1 ↔ v ∈ s.1 ∨ ∃ q ∈ ps, v ∈ parseNullView h q := by
  induction ps generalizing s with
  | nil => simp
  | cons q ps ih =>
    simp only [List.foldl, ih, altStep, Finset.mem_union, List.mem_cons, exists_eq_or_imp]
    tauto

theorem altStep_foldl_empty {h : Heap} {ps : List Id} {s : Finset Val × Bool × Bool} :
    (ps.foldl (altStep h) s).2.1 = (s.2.1 && ps.all (emptyView h)) := by
  induction ps generalizing s with
  | nil => simp
  | cons q ps ih =>
    simp only [List.foldl, ih, altStep, List.all_cons]
    cases s.2.1 <;> simp

theorem altStep_foldl_nullable {h : Heap} {ps : List Id} {s : Finset Val × Bool × Bool} :
    (ps.foldl (altStep h) s).2.2 = (s.2.2 || ps.any (nullableView h)) := by
  induction ps generalizing s with
  | nil => simp
  | cons q ps ih =>
    simp only [List.foldl, ih, altStep, List.any_cons]
    cases s.2.2 <;> simp

/-! ### The cached attributes are sound -/

theorem parseNullView_of_emptyView {h : Heap} {q : Id} (he : emptyView h q = true) :
    parseNullView h q = ∅ := by
  unfold emptyView at he
  unfold parseNullView
  cases hq : h[q]? with
  | none => rfl
  | some o => rw [hq] at he; simp only at he ⊢; rw [if_pos he]

/-- On an initialized object of a recursion-free heap: an object the getter
`isEmpty` calls empty has no parse; the getter `parseNull` returns exactly the
parses of the empty input; an object the getter `isNullable` calls not nullable
has no parse of the empty input. -/
theorem views_sound (p : Id) :
    ∀ (h : Heap) (o : Parser), WellFormed h → h[p]? = some o → o.initialized = true →
      (emptyView h p = true → ∀ w v, ¬ Parses h p w v) ∧
      (∀ v, v ∈ parseNullView h p ↔ Parses h p [] v) ∧
      (nullableView h p = false → parseNullView h p = ∅) := by
  induction p using Nat.strong_induction_on with
  | _ p IH =>
    intro h o hw hp hi
    have hop := hw p o hp
    obtain ⟨hch, hre⟩ := hop.attributes hi
    have hc := hop.constructed
    have IHc : ∀ q ∈ o.kind.children,
        (emptyView h q = true → ∀ w v, ¬ Parses h q w v) ∧
        (∀ v, v ∈ parseNullView h q ↔ Parses h q [] v) ∧
        (nullableView h q = false → parseNullView h q = ∅) := by
      intro q hq
      obtain ⟨oq, hoq, hiq⟩ := hch q hq
      exact IH q (hop.children_lt q hq) h oq hw hoq hiq
    have eE : emptyView h p = o.isEmptyLocal := by simp only [emptyView, hp]
    have eN : nullableView h p = (!o.isEmptyLocal && o.isNullableLocal) := by
      simp only [nullableView, hp]
    have eP : parseNullView h p = if o.isEmptyLocal then ∅ else o.parseNullLocal := by
      simp only [parseNullView, hp]
    rw [eE, eN, eP]
    cases hk : o.kind with
    | Emp =>
      simp only [hk] at hc
      rw [hc]
      refine ⟨fun _ w v => parses_Emp hp hk, fun v => ?_, fun _ => rfl⟩
      simp only [if_true, Finset.not_mem_empty, false_iff]
      exact parses_Emp hp hk
    | Eps =>
      simp only [hk] at hc
      rw [hc.1, hc.2]
      refine ⟨fun he => (by cases he), fun v => ?_, fun hn => (by cases hn)⟩
      rw [parses_Eps hp hk]
      simp
    | EqT t =>
      simp only [hk] at hc
      rw [hc.1, hc.2.1, hc.2.2]
      refine ⟨fun he => (by cases he), fun v => ?_, fun _ => rfl⟩
      rw [parses_EqT hp hk]
      simp
    | Rep i =>
      simp only [hk] at hc
      rw [hc.1, hc.2.1, hc.2.2]
      refine ⟨fun he => (by cases he), fun v => ?_, fun hn => (by cases hn)⟩
      rw [parses_Rep hp hk]
      simp
    | Red q f =>
      rw [recompute_Red hk] at hre
      have a1 := congrArg Parser.parseNullLocal hre
      have a2 := congrArg Parser.isEmptyLocal hre
      have a3 := congrArg Parser.isNullableLocal hre
      simp only [Parser.withParseNull, Parser.withEmpty, Parser.withNullable] at a1 a2 a3
      obtain ⟨i1, i2, i3⟩ := IHc q (by rw [hk]; simp [Kind.children])
      rw [← a1, ← a2, ← a3]
      refine ⟨?_, ?_, ?_⟩
      · intro he w v hpar
        obtain ⟨x, -, hx⟩ := (parses_Red hp hk).1 hpar
        exact i1 he w x hx
      · intro v
        rw [parses_Red hp hk]
        by_cases he : emptyView h q = true
        · simp only [he, if_true, Finset.not_mem_empty, false_iff, not_exists, not_and]
          intro x _ hx
          exact i1 he [] x hx
        · simp only [he, if_false, Finset.mem_image, Bool.false_eq_true]
          constructor
          · rintro ⟨x, hx, rfl⟩
            exact ⟨x, rfl, (i2 x).1 hx⟩
          · rintro ⟨x, rfl, hx⟩
            exact ⟨x, (i2 x).2 hx, rfl⟩
      · intro hn
        by_cases he : emptyView h q = true
        · simp only [he, if_true]
        · simp only [he, if_false, Bool.false_eq_true]
          have hn' : nullableView h q = false := by
            cases h1 : emptyView h q <;> cases h2 : nullableView h q <;> simp_all
          rw [i3 hn']
          rfl
    | Con f s =>
      rw [recompute_Con hk] at hre
      have a1 := congrArg Parser.parseNullLocal hre
      have a2 := congrArg Parser.isEmptyLocal hre
      have a3 := congrArg Parser.isNullableLocal hre
      simp only [Parser.withParseNull, Parser.withEmpty, Parser.withNullable] at a1 a2 a3
      obtain ⟨i1, i2, i3⟩ := IHc f (by rw [hk]; simp [Kind.children])
      obtain ⟨j1, j2, j3⟩ := IHc s (by rw [hk]; simp [Kind.children])
      rw [← a1, ← a2, ← a3]
      have hno : (emptyView h f || emptyView h s) = true → ∀ w v, ¬ Parses h p w v := by
        intro he w v hpar
        obtain ⟨u, w', a, b, -, -, h1, h2⟩ := (parses_Con hp hk).1 hpar
        rcases Bool.or_eq_true_iff.1 he with e | e
        · exact i1 e u a h1
        · exact j1 e w' b h2
      refine ⟨hno, ?_, ?_⟩
      · intro v
        by_cases he : (emptyView h f || emptyView h s) = true
        · simp only [he, if_true, Finset.not_mem_empty, false_iff]
          exact hno he [] v
        · simp only [he, if_false, Finset.mem_image, Finset.mem_product, Prod.exists,
            Bool.false_eq_true]
          rw [parses_Con hp hk]
          constructor
          · rintro ⟨a, b, ⟨ha, hb⟩, rfl⟩
            exact ⟨[], [], a, b, rfl, rfl, (i2 a).1 ha, (j2 b).1 hb⟩
          · rintro ⟨u, w', a, b, huw, rfl, h1, h2⟩
            obtain ⟨rfl, rfl⟩ := List.append_eq_nil.1 huw.symm
            exact ⟨a, b, ⟨(i2 a).2 h1, (j2 b).2 h2⟩, rfl⟩
      · intro hn
        by_cases he : (emptyView h f || emptyView h s) = true
        · simp only [he, if_true]
        · simp only [he, if_false, Bool.false_eq_true]
          have hn' : nullableView h f = false ∨ nullableView h s = false := by
            cases h1 : emptyView h f <;> cases h2 : emptyView h s <;>
              cases h3 : nullableView h f <;> cases h4 : nullableView h s <;> simp_all
          rcases hn' with e | e
          · rw [i3 e]; simp
          · rw [j3 e]; simp
    | Alt ps =>
      rw [recompute_Alt hk] at hre
      have a1 := congrArg Parser.parseNullLocal hre
      have a2 := congrArg Parser.isEmptyLocal hre
      have a3 := congrArg Parser.isNullableLocal hre
      simp only [Parser.withParseNull, Parser.withEmpty, Parser.withNullable,
        altStep_foldl_empty, altStep_foldl_nullable, Bool.true_and, Bool.false_or] at a1 a2 a3
      have IHps : ∀ q ∈ ps,
          (emptyView h q = true → ∀ w v, ¬ Parses h q w v) ∧
          (∀ v, v ∈ parseNullView h q ↔ Parses h q [] v) ∧
          (nullableView h q = false → parseNullView h q = ∅) :=
        fun q hq => IHc q (by rw [hk]; exact hq)
      rw [← a1, ← a2, ← a3]
      have hno : ps.all (emptyView h) = true → ∀ w v, ¬ Parses h p w v := by
        intro he w v hpar
        obtain ⟨q, hq, h1⟩ := (parses_Alt hp hk).1 hpar
        exact (IHps q hq).1 (List.all_eq_true.1 he q hq) w v h1
      refine ⟨hno, ?_, ?_⟩
      · intro v
        by_cases he : ps.all (emptyView h) = true
        · simp only [he, if_true, Finset.not_mem_empty, false_iff]
          exact hno he [] v
        · simp only [he, if_false, mem_altStep_foldl, Finset.not_mem_empty, false_or,
            Bool.false_eq_true]
          rw [parses_Alt hp hk]
          constructor
          · rintro ⟨q, hq, hv⟩
            exact ⟨q, hq, ((IHps q hq).2.1 v).1 hv⟩
          · rintro ⟨q, hq, hv⟩
            exact ⟨q, hq, ((IHps q hq).2.1 v).2 hv⟩
      · intro hn
        by_cases he : ps.all (emptyView h) = true
        · simp only [he, if_true]
        · simp only [he, if_false, Bool.false_eq_true]
          have hn' : ps.any (nullableView h) = false := by
            cases h1 : ps.all (emptyView h) <;> cases h2 : ps.any (nullableView h) <;> simp_all
          apply Finset.eq_empty_of_forall_not_mem
          intro v hv
          rcases mem_altStep_foldl.1 hv with e | ⟨q, hq, e⟩
          · simp at e
          · have hqn : nullableView h q = false := by
              have := List.any_eq_false.1 hn' q hq
              simpa using this
            rw [(IHps q hq).2.2 hqn] at e
            simp at e
    | RecursiveParser r => have := hop.recursionFree; rw [hk] at this; exact this.elim
    | DFut q t => have := hop.recursionFree; rw [hk] at this; exact this.elim

/-! ### Allocation and the cache keep the invariant -/

theorem getElem?_alloc_length (h : Heap) (o : Parser) : (alloc h o).1[h.length]? = some o := by
  simp [alloc]

theorem getElem?_alloc_cases {h : Heap} {o oq : Parser} {q : Id}
    (hq : (alloc h o).1[q]? = some oq) :
    (q < h.length ∧ h[q]? = some oq) ∨ (q = h.length ∧ oq = o) := by
  have hl : q < h.length + 1 := by
    have := lt_length_of_getElem? hq
    simpa [alloc] using this
  rcases Nat.lt_or_ge q h.length with a | a
  · left
    rw [getElem?_alloc_lt o a] at hq
    exact ⟨a, hq⟩
  · right
    have e : q = h.length := by unfold Id at *; omega
    subst e
    rw [getElem?_alloc_length] at hq
    cases hq
    exact ⟨rfl, rfl⟩

theorem Ext.ext_alloc (h : Heap) (o : Parser) : Ext h (yidpp.alloc h o).1 := by
  refine ⟨by simp [yidpp.alloc], fun p op hp => ?_⟩
  exact ⟨op, getElem?_alloc_of_some o hp, rfl, fun hi => hi, fun _ => SameAttrs.attrs_refl op,
    fun _ _ hd => hd⟩

theorem views_alloc {h : Heap} (o : Parser) {q : Id} (hq : q < h.length) :
    emptyView h q = emptyView (alloc h o).1 q ∧
      nullableView h q = nullableView (alloc h o).1 q ∧
      parseNullView h q = parseNullView (alloc h o).1 q := by
  simp only [emptyView, nullableView, parseNullView, getElem?_alloc_lt o hq, and_self]

theorem WellFormed.wf_alloc {h : Heap} (hw : WellFormed h) (o : Parser)
    (hch : ∀ q ∈ o.kind.children, q < h.length)
    (hrf : match o.kind with
      | .RecursiveParser _ => False
      | .DFut _ _ => False
      | _ => True)
    (hcon : match o.kind with
      | .Emp => o.isEmptyLocal = true
      | .Eps => o.isEmptyLocal = false ∧ o.isNullableLocal = true
      | .EqT _ => o.isEmptyLocal = false ∧ o.isNullableLocal = false ∧ o.parseNullLocal = ∅
      | .Rep _ =>
        o.isEmptyLocal = false ∧ o.isNullableLocal = true ∧ o.parseNullLocal = {Val.vec []}
      | _ => True)
    (hi : o.initialized = false) (hc : o.cache = []) :
    WellFormed (yidpp.alloc h o).1 := by
  have hext := Ext.ext_alloc h o
  intro q oq hq
  rcases getElem?_alloc_cases hq with ⟨hlt, hq'⟩ | ⟨rfl, rfl⟩
  · have hoq := hw q oq hq'
    refine ⟨hoq.children_lt, hoq.recursionFree, hoq.constructed, ?_, ?_⟩
    · intro hiq
      obtain ⟨a, b⟩ := hoq.attributes hiq
      refine ⟨fun r hr => hext.initialized (a r hr), ?_⟩
      rw [← recompute_congr (h := h)]
      · exact b
      · intro r hr
        exact views_alloc o (Nat.lt_trans (hoq.children_lt r hr) hlt)
    · intro t d hd
      obtain ⟨a, b⟩ := hoq.cached t d hd
      refine ⟨Nat.lt_of_lt_of_le a hext.length_le, fun w v => ?_⟩
      rw [hext.parses_iff hw a, hext.parses_iff hw hlt]
      exact b w v
  · refine ⟨hch, hrf, hcon, ?_, ?_⟩
    · intro hi'
      rw [hi] at hi'
      cases hi'
    · intro t d hd
      rw [hc] at hd
      cases hd

theorem lookup_append_of_none {t t' : T} {d d' : Id} {l : List (T × Id)}
    (hn : l.lookup t = none) (hl : (l ++ [(t, d)]).lookup t' = some d') :
    l.lookup t' = some d' ∨ (t' = t ∧ d' = d) := by
  induction l with
  | nil =>
    simp only [List.nil_append, List.lookup] at hl
    by_cases e : t' = t
    · subst e; simp at hl; exact Or.inr ⟨rfl, hl.symm⟩
    · have : (t' == t) = false := by simpa using e
      rw [this] at hl
      cases hl
  | cons x l ih =>
    obtain ⟨a, b⟩ := x
    simp only [List.cons_append, List.lookup] at hl hn ⊢
    by_cases e : t' = a
    · subst e
      simp only [beq_self_eq_true] at hl ⊢
      exact Or.inl hl
    · have e' : (t' == a) = false := by simpa using e
      rw [e'] at hl ⊢
      simp only at hl ⊢
      apply ih _ hl
      by_cases e2 : t = a
      · subst e2; simp at hn
      · have : (t == a) = false := by simpa using e2
        rw [this] at hn
        exact hn

theorem lookup_append_of_some {t' : T} {d' : Id} {l l' : List (T × Id)}
    (hl : l.lookup t' = some d') : (l ++ l').lookup t' = some d' := by
  induction l with
  | nil => cases hl
  | cons x l ih =>
    obtain ⟨a, b⟩ := x
    simp only [List.cons_append, List.lookup] at hl ⊢
    cases e : (t' == a) with
    | true => rw [e] at hl; exact hl
    | false => rw [e] at hl; exact ih hl

theorem lookup_append_self {t : T} {d : Id} {l : List (T × Id)} (hn : l.lookup t = none) :
    (l ++ [(t, d)]).lookup t = some d := by
  induction l with
  | nil => simp [List.lookup]
  | cons x l ih =>
    obtain ⟨a, b⟩ := x
    simp only [List.cons_append, List.lookup] at hn ⊢
    cases e : (t == a) with
    | true => rw [e] at hn; cases hn
    | false => rw [e] at hn; exact ih hn

theorem cacheInsert_eq_set {h : Heap} {p : Id} {o : Parser} (hp : h[p]? = some o) {t : T}
    (hn : o.cache.lookup t = none) (d : Id) :
    cacheInsert h p t d = h.set p { o with cache := o.cache ++ [(t, d)] } := by
  simp only [cacheInsert, modifyAt_eq_set hp, hn]

/-- Entering a derivative in the cache keeps the invariant, when the entered
object parses the derivative. -/
theorem WellFormed.cacheInsert {h : Heap} (hw : WellFormed h) {p : Id} {o : Parser}
    (hp : h[p]? = some o) {t : T} (hn : o.cache.lookup t = none) {d : Id}
    (hd : d < h.length) (hsem : ∀ w v, Parses h d w v ↔ Parses h p (t :: w) v) :
    WellFormed (yidpp.cacheInsert h p t d) ∧ Ext h (yidpp.cacheInsert h p t d) := by
  rw [cacheInsert_eq_set hp hn]
  have hop := hw p o hp
  refine WellFormed.wf_set hw hp rfl ?_ (fun t' d' hl => lookup_append_of_some hl) (fun hi => hi)
    (fun _ => ⟨rfl, rfl, rfl⟩) (fun hi => ?_) (Or.inl ⟨rfl, rfl, rfl⟩)
  · intro t' d' hl
    rcases lookup_append_of_none hn hl with a | ⟨rfl, rfl⟩
    · exact hop.cached t' d' a
    · exact ⟨hd, hsem⟩
  · obtain ⟨a, b⟩ := hop.attributes hi
    refine ⟨a, ?_⟩
    have e1 : recompute h { o with cache := o.cache ++ [(t, d)] } =
        { recompute h o with cache := o.cache ++ [(t, d)] } := by
      cases o with
      | mk k i pn e nl c => cases k <;> rfl
    rw [e1, b]

/-! ### The getters, with what they say about the parses -/

theorem isEmpty_sound {h : Heap} {p : Id} (hw : WellFormed h) (hp : p < h.length) :
    ∃ n h' e, isEmpty n h p = .ok (h', e) ∧ WellFormed h' ∧ Ext h h' ∧
      h'.length = h.length ∧ SameCaches h h' ∧ (e = true → ∀ w v, ¬ Parses h' p w v) := by
  obtain ⟨o, ho⟩ := exists_getElem?_of_lt hp
  obtain ⟨n, h', e, hw', hext, hlen, ⟨o', hp', hi'⟩, -, hsc⟩ := isEmpty_wellFormed hw ho
  exact ⟨n, h', _, e, hw', hext, hlen, hsc, (views_sound p h' o' hw' hp' hi').1⟩

theorem isNullable_sound {h : Heap} {p : Id} (hw : WellFormed h) (hp : p < h.length) :
    ∃ n h' b, isNullable n h p = .ok (h', b) ∧ WellFormed h' ∧ Ext h h' ∧
      h'.length = h.length ∧ SameCaches h h' ∧ (b = false → ∀ v, ¬ Parses h' p [] v) := by
  obtain ⟨o, ho⟩ := exists_getElem?_of_lt hp
  obtain ⟨n, h', e, hw', hext, hlen, ⟨o', hp', hi'⟩, -, hsc⟩ := isNullable_wellFormed hw ho
  refine ⟨n, h', _, e, hw', hext, hlen, hsc, fun hb v hv => ?_⟩
  obtain ⟨-, s2, s3⟩ := views_sound p h' o' hw' hp' hi'
  have := (s2 v).2 hv
  rw [s3 hb] at this
  simp at this

theorem parseNull_sound {h : Heap} {p : Id} (hw : WellFormed h) (hp : p < h.length) :
    ∃ n h' s, parseNull n h p = .ok (h', s) ∧ WellFormed h' ∧ Ext h h' ∧
      h'.length = h.length ∧ SameCaches h h' ∧ (∀ v, v ∈ s ↔ Parses h' p [] v) := by
  obtain ⟨o, ho⟩ := exists_getElem?_of_lt hp
  obtain ⟨n, h', e, hw', hext, hlen, ⟨o', hp', hi'⟩, -, hsc⟩ := parseNull_wellFormed hw ho
  exact ⟨n, h', _, e, hw', hext, hlen, hsc, (views_sound p h' o' hw' hp' hi').2.1⟩

/-! ### The constructors keep the invariant -/

theorem WellFormed.alloc_Emp {h : Heap} (hw : WellFormed h) :
    WellFormed (yidpp.alloc h Parser.newEmp).1 :=
  hw.wf_alloc _ (fun _ hq => by cases hq) trivial rfl rfl rfl

theorem WellFormed.alloc_Eps {h : Heap} (hw : WellFormed h) (g : Finset Val) :
    WellFormed (yidpp.alloc h (Parser.newEps g)).1 :=
  hw.wf_alloc _ (fun _ hq => by cases hq) trivial ⟨rfl, rfl⟩ rfl rfl

theorem WellFormed.alloc_EqT {h : Heap} (hw : WellFormed h) (t : T) :
    WellFormed (yidpp.alloc h (Parser.newEqT t)).1 :=
  hw.wf_alloc _ (fun _ hq => by cases hq) trivial ⟨rfl, rfl, rfl⟩ rfl rfl

theorem WellFormed.alloc_Alt {h : Heap} (hw : WellFormed h) (ps : List Id)
    (hps : ∀ q ∈ ps, q < h.length) : WellFormed (yidpp.alloc h (Parser.newAlt ps)).1 :=
  hw.wf_alloc _ hps trivial trivial rfl rfl

theorem WellFormed.alloc_Con {h : Heap} (hw : WellFormed h) {f s : Id} (hf : f < h.length)
    (hs : s < h.length) : WellFormed (yidpp.alloc h (Parser.newCon f s)).1 :=
  hw.wf_alloc _ (fun q hq => by
    simp only [Parser.newCon, Parser.base, Kind.children, List.mem_cons, List.mem_singleton,
      List.not_mem_nil, or_false] at hq
    rcases hq with rfl | rfl
    · exact hf
    · exact hs) trivial trivial rfl rfl

theorem WellFormed.alloc_Red {h : Heap} (hw : WellFormed h) {q : Id} (f : Val → Val)
    (hq : q < h.length) : WellFormed (yidpp.alloc h (Parser.newRed q f)).1 :=
  hw.wf_alloc _ (fun r hr => by
    simp only [Parser.newRed, Parser.base, Kind.children, List.mem_singleton] at hr
    rw [hr]; exact hq) trivial trivial rfl rfl

theorem WellFormed.alloc_Rep {h : Heap} (hw : WellFormed h) {q : Id} (hq : q < h.length) :
    WellFormed (yidpp.alloc h (Parser.newRep q)).1 :=
  hw.wf_alloc _ (fun r hr => by
    simp only [Parser.newRep, Parser.base, Kind.children, List.mem_singleton] at hr
    rw [hr]; exact hq) trivial ⟨rfl, rfl, rfl⟩ rfl rfl

theorem wellFormed_nil : WellFormed [] := by
  intro p o hp
  simp at hp

theorem length_alloc (h : Heap) (o : Parser) : (alloc h o).1.length = h.length + 1 := by
  simp [alloc]

theorem alloc_snd (h : Heap) (o : Parser) : (alloc h o).2 = h.length := rfl

theorem SameCaches.same_alloc (h : Heap) (o : Parser) : SameCaches h (yidpp.alloc h o).1 :=
  fun _ oq hq => ⟨oq, getElem?_alloc_of_some o hq, rfl⟩

/-! ### The derivative of each class -/

theorem internalDerive_Emp {h : Heap} {p : Id} {o : Parser} (hw : WellFormed h)
    (hp : h[p]? = some o) (hk : o.kind = .Emp) (t : T) :
    ∃ n h' d, internalDerive n h p t = .ok (h', d) ∧ InternalPost h p t h' d := by
  refine ⟨1, h, p, ?_, hw, Ext.ext_refl h, lt_length_of_getElem? hp, fun w v => ?_,
    fun x ox _ hx => ⟨ox, hx, rfl⟩⟩
  · simp only [internalDerive, deref_eq_ok hp, bind_ok, hk, pure_eq_ok]
  · exact ⟨fun hpar => absurd hpar (parses_Emp hp hk), fun hpar => absurd hpar (parses_Emp hp hk)⟩

theorem internalDerive_Eps {h : Heap} {p : Id} {o : Parser} (hw : WellFormed h)
    (hp : h[p]? = some o) (hk : o.kind = .Eps) (t : T) :
    ∃ n h' d, internalDerive n h p t = .ok (h', d) ∧ InternalPost h p t h' d := by
  refine ⟨1, (alloc h Parser.newEmp).1, h.length, ?_, hw.alloc_Emp, Ext.ext_alloc h _,
    by rw [length_alloc]; exact Nat.lt_succ_self _, fun w v => ?_,
    fun x ox _ hx => ⟨ox, getElem?_alloc_of_some _ hx, rfl⟩⟩
  · simp only [internalDerive, deref_eq_ok hp, bind_ok, hk, pure_eq_ok]
    rfl
  · constructor
    · intro hpar
      exact absurd hpar (parses_Emp (getElem?_alloc_length h _) rfl)
    · intro hpar
      have := (parses_Eps (getElem?_alloc_of_some Parser.newEmp hp) hk).1 hpar
      cases this.1

theorem internalDerive_EqT {h : Heap} {p : Id} {o : Parser} {c : T} (hw : WellFormed h)
    (hp : h[p]? = some o) (hk : o.kind = .EqT c) (t : T) :
    ∃ n h' d, internalDerive n h p t = .ok (h', d) ∧ InternalPost h p t h' d := by
  by_cases e : c = t
  · subst e
    refine ⟨1, (alloc h (Parser.newEps {Val.term c})).1, h.length, ?_, hw.alloc_Eps _,
      Ext.ext_alloc h _, by rw [length_alloc]; exact Nat.lt_succ_self _, fun w v => ?_,
      fun x ox _ hx => ⟨ox, getElem?_alloc_of_some _ hx, rfl⟩⟩
    · simp only [internalDerive, deref_eq_ok hp, bind_ok, hk, pure_eq_ok, if_true]
      rfl
    · rw [parses_Eps (getElem?_alloc_length h _) rfl,
        parses_EqT (getElem?_alloc_of_some _ hp) hk]
      simp [Parser.newEps]
  · refine ⟨1, (alloc h Parser.newEmp).1, h.length, ?_, hw.alloc_Emp, Ext.ext_alloc h _,
      by rw [length_alloc]; exact Nat.lt_succ_self _, fun w v => ?_,
      fun x ox _ hx => ⟨ox, getElem?_alloc_of_some _ hx, rfl⟩⟩
    · simp only [internalDerive, deref_eq_ok hp, bind_ok, hk, pure_eq_ok, e, if_false]
      rfl
    · constructor
      · intro hpar
        exact absurd hpar (parses_Emp (getElem?_alloc_length h _) rfl)
      · intro hpar
        have := (parses_EqT (getElem?_alloc_of_some Parser.newEmp hp) hk).1 hpar
        have e' := this.1
        simp only [List.cons.injEq] at e'
        exact absurd e'.1.symm e

/-- A derivative stays a derivative when the heap is extended. -/
theorem Ext.sem_transfer {h h' : Heap} (e : Ext h h') (hw : WellFormed h) {d q : Id} {t : T}
    (hd : d < h.length) (hq : q < h.length)
    (hsem : ∀ w v, Parses h d w v ↔ Parses h q (t :: w) v) :
    ∀ w v, Parses h' d w v ↔ Parses h' q (t :: w) v := by
  intro w v
  rw [e.parses_iff hw hd, e.parses_iff hw hq]
  exact hsem w v

theorem Ext.lt_length {h h' : Heap} (e : Ext h h') {q : Id} (hq : q < h.length) :
    q < h'.length := Nat.lt_of_lt_of_le hq e.length_le

theorem internalDerive_Red (p : Id)
    (IH : ∀ q, q < p → ∀ (h : Heap) (t : T), WellFormed h → q < h.length →
      ∃ n h' d, derive n h q t = .ok (h', d) ∧ DerivePost h q t h' d)
    {h : Heap} {o : Parser} {q : Id} {f : Val → Val} (hw : WellFormed h)
    (hp : h[p]? = some o) (hk : o.kind = .Red q f) (t : T) :
    ∃ n h' d, internalDerive n h p t = .ok (h', d) ∧ InternalPost h p t h' d := by
  have hpl := lt_length_of_getElem? hp
  have hqp : q < p := (hw p o hp).children_lt q (by rw [hk]; simp [Kind.children])
  have hql : q < h.length := Nat.lt_trans hqp hpl
  obtain ⟨n1, h1, d1, e1, P1⟩ := IH q hqp h t hw hql
  obtain ⟨n2, h2, e, e2, hw2, ext2, len2, sc2, sound2⟩ := isEmpty_sound P1.wf P1.lt
  have hd2 : d1 < h2.length := by rw [len2]; exact P1.lt
  have hp2 : p < h2.length := ext2.lt_length (P1.ext.lt_length hpl)
  obtain ⟨o2, ho2, hk2⟩ : ∃ o2, h2[p]? = some o2 ∧ o2.kind = .Red q f := by
    obtain ⟨o1, ho1, k1, -⟩ := P1.ext.node p o hp
    obtain ⟨o2, ho2, k2, -⟩ := ext2.node p o1 ho1
    exact ⟨o2, ho2, k2.trans (k1.trans hk)⟩
  have sem2 : ∀ w v, Parses h2 d1 w v ↔ Parses h2 q (t :: w) v :=
    ext2.sem_transfer P1.wf P1.lt (P1.ext.lt_length hql) P1.sem
  have hcaches : ∀ (o' : Parser), ∀ (x : Id) (ox : Parser), p ≤ x → h[x]? = some ox →
      ∃ o'', (alloc h2 o').1[x]? = some o'' ∧ o''.cache = ox.cache := by
    intro o' x ox hx hox
    obtain ⟨o1, ho1, c1⟩ := P1.caches_above x ox (Nat.lt_of_lt_of_le hqp hx) hox
    obtain ⟨o2', ho2', c2⟩ := sc2 x o1 ho1
    exact ⟨o2', getElem?_alloc_of_some _ ho2', c2.trans c1⟩
  have f1 := derive_mono e1 (by omega : n1 ≤ n1 + n2)
  have f2 := isEmpty_mono e2 (by omega : n2 ≤ n1 + n2)
  cases e with
  | true =>
    refine ⟨n1 + n2 + 1, (alloc h2 Parser.newEmp).1, h2.length, ?_, hw2.alloc_Emp,
      (P1.ext.ext_trans ext2).ext_trans (Ext.ext_alloc h2 _),
      by rw [length_alloc]; exact Nat.lt_succ_self _, fun w v => ?_, hcaches _⟩
    · simp only [internalDerive, deref_eq_ok hp, bind_ok, hk, f1, f2, if_true, pure_eq_ok]
      rfl
    · constructor
      · intro hpar
        exact absurd hpar (parses_Emp (getElem?_alloc_length h2 _) rfl)
      · intro hpar
        obtain ⟨x, -, hx⟩ := (parses_Red (getElem?_alloc_of_some _ ho2) hk2).1 hpar
        rw [(Ext.ext_alloc h2 _).parses_iff hw2 (ext2.lt_length (P1.ext.lt_length hql))] at hx
        exact absurd ((sem2 w x).2 hx) (sound2 rfl w x)
  | false =>
    refine ⟨n1 + n2 + 1, (alloc h2 (Parser.newRed d1 f)).1, h2.length, ?_,
      hw2.alloc_Red f hd2, (P1.ext.ext_trans ext2).ext_trans (Ext.ext_alloc h2 _),
      by rw [length_alloc]; exact Nat.lt_succ_self _, fun w v => ?_, hcaches _⟩
    · simp only [internalDerive, deref_eq_ok hp, bind_ok, hk, f1, f2, Bool.false_eq_true,
        if_false, pure_eq_ok]
      rfl
    · rw [parses_Red (getElem?_alloc_length h2 _) rfl,
        parses_Red (getElem?_alloc_of_some _ ho2) hk2]
      have sem3 := (Ext.ext_alloc h2 (Parser.newRed d1 f)).sem_transfer hw2 hd2
        (ext2.lt_length (P1.ext.lt_length hql)) sem2
      constructor
      · rintro ⟨x, hx, hx'⟩
        exact ⟨x, hx, (sem3 w x).1 hx'⟩
      · rintro ⟨x, hx, hx'⟩
        exact ⟨x, hx, (sem3 w x).2 hx'⟩

theorem internalDerive_Rep (p : Id)
    (IH : ∀ q, q < p → ∀ (h : Heap) (t : T), WellFormed h → q < h.length →
      ∃ n h' d, derive n h q t = .ok (h', d) ∧ DerivePost h q t h' d)
    {h : Heap} {o : Parser} {i : Id} (hw : WellFormed h)
    (hp : h[p]? = some o) (hk : o.kind = .Rep i) (t : T) :
    ∃ n h' d, internalDerive n h p t = .ok (h', d) ∧ InternalPost h p t h' d := by
  have hpl := lt_length_of_getElem? hp
  have hip : i < p := (hw p o hp).children_lt i (by rw [hk]; simp [Kind.children])
  have hil : i < h.length := Nat.lt_trans hip hpl
  obtain ⟨n1, h1, d1, e1, P1⟩ := IH i hip h t hw hil
  have hp1 : p < h1.length := P1.ext.lt_length hpl
  obtain ⟨o1, ho1, hk1⟩ : ∃ o1, h1[p]? = some o1 ∧ o1.kind = .Rep i := by
    obtain ⟨o1, ho1, k1, -⟩ := P1.ext.node p o hp
    exact ⟨o1, ho1, k1.trans hk⟩
  have hw2 : WellFormed (alloc h1 (Parser.newCon d1 p)).1 := P1.wf.alloc_Con P1.lt hp1
  have hc2 : h1.length < (alloc h1 (Parser.newCon d1 p)).1.length := by
    rw [length_alloc]; exact Nat.lt_succ_self _
  have hw3 := hw2.alloc_Red reductionOperation hc2
  have ext12 := Ext.ext_alloc h1 (Parser.newCon d1 p)
  have ext23 := Ext.ext_alloc (alloc h1 (Parser.newCon d1 p)).1
    (Parser.newRed h1.length reductionOperation)
  have ext13 := ext12.ext_trans ext23
  have sem3 := ext13.sem_transfer P1.wf P1.lt (P1.ext.lt_length hil) P1.sem
  refine ⟨n1 + 1, _, (alloc h1 (Parser.newCon d1 p)).1.length, ?_, hw3,
    P1.ext.ext_trans ext13, by simp only [length_alloc]; exact Nat.lt_succ_self _, fun w v => ?_, ?_⟩
  · simp only [internalDerive, deref_eq_ok hp, bind_ok, hk, e1, pure_eq_ok]
    rfl
  · rw [parses_Red (getElem?_alloc_length _ _) rfl,
      parses_Rep (getElem?_alloc_of_some _ (getElem?_alloc_of_some _ ho1)) hk1]
    constructor
    · rintro ⟨x, rfl, hx⟩
      obtain ⟨u, w', a, b, rfl, rfl, ha, hb⟩ :=
        (parses_Con (getElem?_alloc_of_some _ (getElem?_alloc_length h1 _)) rfl).1 hx
      exact Or.inr ⟨t, u, w', a, b, rfl, rfl, (sem3 u a).1 ha, hb⟩
    · rintro (⟨hnil, -⟩ | ⟨t', u, w', a, x, hw', rfl, ha, hx⟩)
      · cases hnil
      · simp only [List.cons_append, List.cons.injEq] at hw'
        obtain ⟨rfl, rfl⟩ := hw'
        exact ⟨_, rfl, (parses_Con (getElem?_alloc_of_some _ (getElem?_alloc_length h1 _))
          rfl).2 ⟨u, w', a, x, rfl, rfl, (sem3 u a).2 ha, hx⟩⟩
  · intro x ox hx hox
    obtain ⟨o1', ho1', c1⟩ := P1.caches_above x ox (Nat.lt_of_lt_of_le hip hx) hox
    exact ⟨o1', getElem?_alloc_of_some _ (getElem?_alloc_of_some _ ho1'), c1⟩

theorem mem_setInsert {s : List Id} {p q : Id} : q ∈ setInsert s p ↔ q ∈ s ∨ q = p := by
  unfold setInsert
  split
  · constructor
    · exact Or.inl
    · rintro (a | rfl)
      · exact a
      · assumption
  · simp

theorem alt_loop_mono {n m : Nat} (hnm : n ≤ m) (t : T) (qs : List Id) (s r : Heap × List Id)
    (hr : qs.foldlM (fun (s : Heap × List Id) i => do
        let (h, e) ← isEmpty n s.1 i
        if !e then do
          let (h, d) ← derive n h i t
          pure (h, setInsert s.2 d)
        else pure (h, s.2)) s = .ok r) :
    qs.foldlM (fun (s : Heap × List Id) i => do
        let (h, e) ← isEmpty m s.1 i
        if !e then do
          let (h, d) ← derive m h i t
          pure (h, setInsert s.2 d)
        else pure (h, s.2)) s = .ok r := by
  have k1 : ∀ h p, FuelLe (isEmpty n h p) (isEmpty m h p) := fun h p =>
    FuelLe.of_step (fun n => isEmpty n h p) (fun n => (fuelLe_succ n).2.2.1 h p) hnm
  have k2 : ∀ h p t, FuelLe (derive n h p t) (derive m h p t) := fun h p t =>
    FuelLe.of_step (fun n => derive n h p t)
      (fun n => (fuelLe_succ n).2.2.2.2.2.2.2.2.1 h p t) hnm
  refine FuelLe.ok (FuelLe.foldlM (fun s i => ?_) qs s) hr
  repeat' first
    | exact FuelLe.refl _
    | exact k1 _ _
    | exact k2 _ _ _
    | apply FuelLe.bind
    | apply FuelLe.ite
    | intro _

theorem derive_alt_loop (p : Id)
    (IH : ∀ q, q < p → ∀ (h : Heap) (t : T), WellFormed h → q < h.length →
      ∃ n h' d, derive n h q t = .ok (h', d) ∧ DerivePost h q t h' d)
    (t : T) (qs : List Id) (hqs : ∀ q ∈ qs, q < p) :
    ∀ (h : Heap) (S : List Id), WellFormed h → p < h.length → (∀ d ∈ S, d < h.length) →
      ∃ n h' S',
        qs.foldlM (fun (s : Heap × List Id) i => do
          let (h, e) ← isEmpty n s.1 i
          if !e then do
            let (h, d) ← derive n h i t
            pure (h, setInsert s.2 d)
          else pure (h, s.2)) (h, S) = .ok (h', S') ∧
        WellFormed h' ∧ Ext h h' ∧ (∀ d ∈ S', d < h'.length) ∧
        (∀ w v, (∃ d ∈ S', Parses h' d w v) ↔
          (∃ d ∈ S, Parses h' d w v) ∨ ∃ q ∈ qs, Parses h' q (t :: w) v) ∧
        (∀ (x : Id) (ox : Parser), p ≤ x → h[x]? = some ox →
          ∃ o', h'[x]? = some o' ∧ o'.cache = ox.cache) := by
  induction qs with
  | nil =>
    intro h S hw _ hS
    exact ⟨0, h, S, rfl, hw, Ext.ext_refl h, hS, fun w v => by simp,
      fun x ox _ hx => ⟨ox, hx, rfl⟩⟩
  | cons q qs ih =>
    intro h S hw hpl hS
    have hqp : q < p := hqs q (List.mem_cons_self _ _)
    have hql : q < h.length := Nat.lt_trans hqp hpl
    obtain ⟨n1, h1, e, e1, hw1, ext1, len1, sc1, sound1⟩ := isEmpty_sound hw hql
    have hql1 : q < h1.length := ext1.lt_length hql
    cases e with
    | true =>
      obtain ⟨n2, h2, S', e2, hw2, ext2, hS2, sem2, c2⟩ :=
        ih (fun q' hq' => hqs q' (List.mem_cons_of_mem _ hq')) h1 S hw1
          (ext1.lt_length hpl) (fun d hd => ext1.lt_length (hS d hd))
      refine ⟨n1 + n2, h2, S', ?_, hw2, ext1.ext_trans ext2, hS2, fun w v => ?_, ?_⟩
      · have f1 := isEmpty_mono e1 (by omega : n1 ≤ n1 + n2)
        simp only [List.foldlM, f1, bind_ok, Bool.not_true, Bool.false_eq_true, if_false,
          pure_eq_ok]
        exact alt_loop_mono (by omega : n2 ≤ n1 + n2) t qs _ _ e2
      · rw [sem2 w v]
        constructor
        · rintro (a | ⟨q', hq', a⟩)
          · exact Or.inl a
          · exact Or.inr ⟨q', List.mem_cons_of_mem _ hq', a⟩
        · rintro (a | ⟨q', hq', a⟩)
          · exact Or.inl a
          · rcases List.mem_cons.1 hq' with rfl | hq'
            · rw [ext2.parses_iff hw1 hql1] at a
              exact absurd a (sound1 rfl _ _)
            · exact Or.inr ⟨q', hq', a⟩
      · intro x ox hx hox
        obtain ⟨o1, ho1, k1⟩ := sc1 x ox hox
        obtain ⟨o2, ho2, k2⟩ := c2 x o1 hx ho1
        exact ⟨o2, ho2, k2.trans k1⟩
    | false =>
      obtain ⟨n2, h2, d, e2, P2⟩ := IH q hqp h1 t hw1 hql1
      obtain ⟨n3, h3, S', e3, hw3, ext3, hS3, sem3, c3⟩ :=
        ih (fun q' hq' => hqs q' (List.mem_cons_of_mem _ hq')) h2 (setInsert S d) P2.wf
          (P2.ext.lt_length (ext1.lt_length hpl))
          (fun d' hd' => by
            rcases mem_setInsert.1 hd' with a | rfl
            · exact P2.ext.lt_length (ext1.lt_length (hS d' a))
            · exact P2.lt)
      have semd := ext3.sem_transfer P2.wf P2.lt (P2.ext.lt_length hql1) P2.sem
      refine ⟨n1 + n2 + n3, h3, S', ?_, hw3, (ext1.ext_trans P2.ext).ext_trans ext3, hS3,
        fun w v => ?_, ?_⟩
      · have f1 := isEmpty_mono e1 (by omega : n1 ≤ n1 + n2 + n3)
        have f2 := derive_mono e2 (by omega : n2 ≤ n1 + n2 + n3)
        simp only [List.foldlM, f1, bind_ok, Bool.not_false, if_true, f2, pure_eq_ok]
        exact alt_loop_mono (by omega : n3 ≤ n1 + n2 + n3) t qs _ _ e3
      · rw [sem3 w v]
        constructor
        · rintro (⟨d', hd', a⟩ | ⟨q', hq', a⟩)
          · rcases mem_setInsert.1 hd' with b | rfl
            · exact Or.inl ⟨d', b, a⟩
            · exact Or.inr ⟨q, List.mem_cons_self _ _, (semd w v).1 a⟩
          · exact Or.inr ⟨q', List.mem_cons_of_mem _ hq', a⟩
        · rintro (⟨d', hd', a⟩ | ⟨q', hq', a⟩)
          · exact Or.inl ⟨d', mem_setInsert.2 (Or.inl hd'), a⟩
          · rcases List.mem_cons.1 hq' with rfl | hq'
            · exact Or.inl ⟨d, mem_setInsert.2 (Or.inr rfl), (semd w v).2 a⟩
            · exact Or.inr ⟨q', hq', a⟩
      · intro x ox hx hox
        obtain ⟨o1, ho1, k1⟩ := sc1 x ox hox
        obtain ⟨o2, ho2, k2⟩ := P2.caches_above x o1 (Nat.lt_of_lt_of_le hqp hx) ho1
        obtain ⟨o3, ho3, k3⟩ := c3 x o2 hx ho2
        exact ⟨o3, ho3, k3.trans (k2.trans k1)⟩

theorem internalDerive_Alt (p : Id)
    (IH : ∀ q, q < p → ∀ (h : Heap) (t : T), WellFormed h → q < h.length →
      ∃ n h' d, derive n h q t = .ok (h', d) ∧ DerivePost h q t h' d)
    {h : Heap} {o : Parser} {ps : List Id} (hw : WellFormed h)
    (hp : h[p]? = some o) (hk : o.kind = .Alt ps) (t : T) :
    ∃ n h' d, internalDerive n h p t = .ok (h', d) ∧ InternalPost h p t h' d := by
  have hpl := lt_length_of_getElem? hp
  have hps : ∀ q ∈ ps, q < p := fun q hq => (hw p o hp).children_lt q (by rw [hk]; exact hq)
  obtain ⟨n1, h1, S, e1, hw1, ext1, hS1, sem1, c1⟩ :=
    derive_alt_loop p IH t ps hps h [] hw hpl (fun d hd => by cases hd)
  obtain ⟨o1, ho1, hk1⟩ : ∃ o1, h1[p]? = some o1 ∧ o1.kind = .Alt ps := by
    obtain ⟨o1, ho1, k1, -⟩ := ext1.node p o hp
    exact ⟨o1, ho1, k1.trans hk⟩
  have semS : ∀ w v, (∃ d ∈ S, Parses h1 d w v) ↔ Parses h1 p (t :: w) v := by
    intro w v
    rw [sem1 w v, parses_Alt ho1 hk1]
    simp
  have hnew : ∀ w v, Parses (alloc h1 (Parser.newAlt S)).1 h1.length w v ↔
      Parses (alloc h1 (Parser.newAlt S)).1 p (t :: w) v := by
    intro w v
    have ext2 := Ext.ext_alloc h1 (Parser.newAlt S)
    rw [parses_Alt (getElem?_alloc_length h1 _) rfl, ext2.parses_iff hw1 (ext1.lt_length hpl),
      ← semS w v]
    constructor
    · rintro ⟨d, hd, a⟩
      exact ⟨d, hd, (ext2.parses_iff hw1 (hS1 d hd)).1 a⟩
    · rintro ⟨d, hd, a⟩
      exact ⟨d, hd, (ext2.parses_iff hw1 (hS1 d hd)).2 a⟩
  have hc2 : ∀ (x : Id) (ox : Parser), p ≤ x → h[x]? = some ox →
      ∃ o', (alloc h1 (Parser.newAlt S)).1[x]? = some o' ∧ o'.cache = ox.cache := by
    intro x ox hx hox
    obtain ⟨o', ho', k⟩ := c1 x ox hx hox
    exact ⟨o', getElem?_alloc_of_some _ ho', k⟩
  rcases S with _ | ⟨d, _ | ⟨d', S⟩⟩
  · refine ⟨n1 + 1, (alloc h1 (Parser.newAlt [])).1, h1.length, ?_, hw1.alloc_Alt _ hS1,
      ext1.ext_trans (Ext.ext_alloc h1 _), by rw [length_alloc]; exact Nat.lt_succ_self _, hnew, hc2⟩
    rw [internalDerive]
    simp only [deref_eq_ok hp, bind_ok, hk]
    rw [e1]
    rfl
  · refine ⟨n1 + 1, h1, d, ?_, hw1, ext1, hS1 d (List.mem_singleton.2 rfl), fun w v => ?_, c1⟩
    · rw [internalDerive]
      simp only [deref_eq_ok hp, bind_ok, hk]
      rw [e1]
      rfl
    · rw [← semS w v]
      simp
  · refine ⟨n1 + 1, (alloc h1 (Parser.newAlt (d :: d' :: S))).1, h1.length, ?_,
      hw1.alloc_Alt _ hS1, ext1.ext_trans (Ext.ext_alloc h1 _),
      by rw [length_alloc]; exact Nat.lt_succ_self _, hnew, hc2⟩
    rw [internalDerive]
    simp only [deref_eq_ok hp, bind_ok, hk]
    rw [e1]
    rfl

/-! ### Facts that stay true in every extension of the heap -/

theorem CachesFrom.from_refl (p : Id) (h : Heap) : CachesFrom p h h := fun _ o _ ho => ⟨o, ho, rfl⟩

theorem CachesFrom.from_trans {p : Id} {h1 h2 h3 : Heap} (a : CachesFrom p h1 h2)
    (b : CachesFrom p h2 h3) : CachesFrom p h1 h3 := by
  intro x o hx ho
  obtain ⟨o2, ho2, e2⟩ := a x o hx ho
  obtain ⟨o3, ho3, e3⟩ := b x o2 hx ho2
  exact ⟨o3, ho3, e3.trans e2⟩

theorem SameCaches.cachesFrom {h h' : Heap} (a : SameCaches h h') (p : Id) :
    CachesFrom p h h' := fun x o _ ho => a x o ho

theorem DerivePost.derive_cachesFrom {h h' : Heap} {q d : Id} {t : T} (P : DerivePost h q t h' d)
    {p : Id} (hqp : q < p) : CachesFrom p h h' :=
  fun x o hx ho => P.caches_above x o (Nat.lt_of_lt_of_le hqp hx) ho

theorem DerivePost.sem_ext {h h' : Heap} {q d : Id} {t : T} (P : DerivePost h q t h' d)
    (hq : q < h.length) {H : Heap} (e : Ext h' H) :
    ∀ w v, Parses H d w v ↔ Parses H q (t :: w) v :=
  e.sem_transfer P.wf P.lt (P.ext.lt_length hq) P.sem

theorem Ext.not_parses {h H : Heap} (e : Ext h H) (hw : WellFormed h) {p : Id}
    (hp : p < h.length) (hno : ∀ w v, ¬ Parses h p w v) : ∀ w v, ¬ Parses H p w v :=
  fun w v hpar => hno w v ((e.parses_iff hw hp).1 hpar)

theorem Ext.eps_iff {h H : Heap} (e : Ext h H) {p : Id} {o : Parser}
    (hp : h[p]? = some o) (hk : o.kind = .Eps) {w : List T} {v : Val} :
    Parses H p w v ↔ w = [] ∧ v ∈ o.parseNullLocal := by
  obtain ⟨o', ho', hk', hs⟩ := e.sem p o hp
  rw [yidpp.parses_Eps ho' (hk'.trans hk), hs hk]

theorem Ext.kind {h H : Heap} (e : Ext h H) {p : Id} {o : Parser} (hp : h[p]? = some o) :
    ∃ o', H[p]? = some o' ∧ o'.kind = o.kind := by
  obtain ⟨o', ho', hk', -⟩ := e.node p o hp
  exact ⟨o', ho', hk'⟩

/-- The parses of a concatenation on a non-empty input: the first terminal is
taken by the left part, or the left part parses the empty input. -/
theorem parses_Con_cons {H : Heap} {p : Id} {o : Parser} {f s : Id} (hp : H[p]? = some o)
    (hk : o.kind = .Con f s) {t : T} {w : List T} {v : Val} :
    Parses H p (t :: w) v ↔
      (∃ u w' a b, w = u ++ w' ∧ v = .pair a b ∧ Parses H f (t :: u) a ∧ Parses H s w' b) ∨
      (∃ a b, v = .pair a b ∧ Parses H f [] a ∧ Parses H s (t :: w) b) := by
  rw [parses_Con hp hk]
  constructor
  · rintro ⟨u, w', a, b, huw, rfl, h1, h2⟩
    cases u with
    | nil =>
      simp only [List.nil_append] at huw
      subst huw
      exact Or.inr ⟨a, b, rfl, h1, h2⟩
    | cons t' u' =>
      simp only [List.cons_append, List.cons.injEq] at huw
      obtain ⟨rfl, rfl⟩ := huw
      exact Or.inl ⟨u', w', a, b, rfl, rfl, h1, h2⟩
  · rintro (⟨u, w', a, b, rfl, rfl, h1, h2⟩ | ⟨a, b, rfl, h1, h2⟩)
    · exact ⟨t :: u, w', a, b, rfl, rfl, h1, h2⟩
    · exact ⟨[], t :: w, a, b, rfl, rfl, h1, h2⟩

/-- The first object `Con::internalDerive` builds: `Emp` when the left
derivative is empty, the concatenation of the left derivative and the right
part otherwise.  In every extension of the heap it parses what that
concatenation parses. -/
theorem primaryRet_spec {h : Heap} (hw : WellFormed h) {Ld s emp : Id} {oe : Parser}
    (hL : Ld < h.length) (hs : s < h.length) (hemp : h[emp]? = some oe) (hke : oe.kind = .Emp)
    (e : Bool) (hsound : e = true → ∀ w v, ¬ Parses h Ld w v) :
    WellFormed (if !e then alloc h (Parser.newCon Ld s) else (h, emp)).1 ∧
    Ext h (if !e then alloc h (Parser.newCon Ld s) else (h, emp)).1 ∧
    SameCaches h (if !e then alloc h (Parser.newCon Ld s) else (h, emp)).1 ∧
    (if !e then alloc h (Parser.newCon Ld s) else (h, emp)).2 <
      (if !e then alloc h (Parser.newCon Ld s) else (h, emp)).1.length ∧
    ∀ H, Ext (if !e then alloc h (Parser.newCon Ld s) else (h, emp)).1 H → ∀ w v,
      Parses H (if !e then alloc h (Parser.newCon Ld s) else (h, emp)).2 w v ↔
        ∃ u w' a b, w = u ++ w' ∧ v = .pair a b ∧ Parses H Ld u a ∧ Parses H s w' b := by
  cases e with
  | true =>
    simp only [Bool.not_true, Bool.false_eq_true, if_false]
    refine ⟨hw, Ext.ext_refl h, SameCaches.same_refl h, lt_length_of_getElem? hemp, fun H ext w v => ?_⟩
    obtain ⟨oe', hoe', hke'⟩ := ext.kind hemp
    constructor
    · intro hpar
      exact absurd hpar (parses_Emp hoe' (hke'.trans hke))
    · rintro ⟨u, w', a, b, -, -, h1, -⟩
      exact absurd h1 (ext.not_parses hw hL (hsound rfl) u a)
  | false =>
    simp only [Bool.not_false, if_true]
    refine ⟨hw.alloc_Con hL hs, Ext.ext_alloc h _, SameCaches.same_alloc h _,
      by rw [length_alloc]; exact Nat.lt_succ_self _, fun H ext w v => ?_⟩
    obtain ⟨oc, hoc, hkc⟩ := ext.kind (getElem?_alloc_length h (Parser.newCon Ld s))
    exact parses_Con hoc hkc

/-! ### The derivative of a concatenation -/

theorem con_derive_sem_primary {H : Heap} {p : Id} {o : Parser} {f s Ld pr : Id} {t : T}
    (hp : H[p]? = some o) (hk : o.kind = .Con f s)
    (hL : ∀ w v, Parses H Ld w v ↔ Parses H f (t :: w) v)
    (hpr : ∀ w v, Parses H pr w v ↔
      ∃ u w' a b, w = u ++ w' ∧ v = .pair a b ∧ Parses H Ld u a ∧ Parses H s w' b)
    (hno : ∀ w a b, Parses H f [] a → ¬ Parses H s (t :: w) b) :
    ∀ w v, Parses H pr w v ↔ Parses H p (t :: w) v := by
  intro w v
  rw [parses_Con_cons hp hk, hpr]
  constructor
  · rintro ⟨u, w', a, b, rfl, rfl, ha, hb⟩
    exact Or.inl ⟨u, w', a, b, rfl, rfl, (hL u a).1 ha, hb⟩
  · rintro (⟨u, w', a, b, rfl, rfl, ha, hb⟩ | ⟨a, b, rfl, ha, hb⟩)
    · exact ⟨u, w', a, b, rfl, rfl, (hL u a).2 ha, hb⟩
    · exact absurd hb (hno w a b ha)

theorem con_derive_sem_null {H : Heap} {p : Id} {o : Parser} {f s nu Rd c : Id} {oc : Parser}
    {t : T} (hp : H[p]? = some o) (hk : o.kind = .Con f s)
    (hc : H[c]? = some oc) (hkc : oc.kind = .Con nu Rd)
    (hnu : ∀ w a, Parses H nu w a ↔ w = [] ∧ Parses H f [] a)
    (hRd : ∀ w v, Parses H Rd w v ↔ Parses H s (t :: w) v)
    (hno : ∀ u a, ¬ Parses H f (t :: u) a) :
    ∀ w v, Parses H c w v ↔ Parses H p (t :: w) v := by
  intro w v
  rw [parses_Con_cons hp hk, parses_Con hc hkc]
  constructor
  · rintro ⟨u, w', a, b, rfl, rfl, ha, hb⟩
    obtain ⟨rfl, ha'⟩ := (hnu u a).1 ha
    exact Or.inr ⟨a, b, rfl, ha', (hRd _ b).1 hb⟩
  · rintro (⟨u, w', a, b, rfl, rfl, ha, -⟩ | ⟨a, b, rfl, ha, hb⟩)
    · exact absurd ha (hno u a)
    · exact ⟨[], w, a, b, rfl, rfl, (hnu [] a).2 ⟨rfl, ha⟩, (hRd w b).2 hb⟩

theorem con_derive_sem_both {H : Heap} {p : Id} {o : Parser} {f s Ld pr nu Rd c d : Id}
    {oc od : Parser} {ps : List Id} {t : T}
    (hp : H[p]? = some o) (hk : o.kind = .Con f s)
    (hL : ∀ w v, Parses H Ld w v ↔ Parses H f (t :: w) v)
    (hpr : ∀ w v, Parses H pr w v ↔
      ∃ u w' a b, w = u ++ w' ∧ v = .pair a b ∧ Parses H Ld u a ∧ Parses H s w' b)
    (hc : H[c]? = some oc) (hkc : oc.kind = .Con nu Rd)
    (hnu : ∀ w a, Parses H nu w a ↔ w = [] ∧ Parses H f [] a)
    (hRd : ∀ w v, Parses H Rd w v ↔ Parses H s (t :: w) v)
    (hd : H[d]? = some od) (hkd : od.kind = .Alt ps) (hps : ∀ x, x ∈ ps ↔ x = pr ∨ x = c) :
    ∀ w v, Parses H d w v ↔ Parses H p (t :: w) v := by
  intro w v
  rw [parses_Con_cons hp hk, parses_Alt hd hkd]
  constructor
  · rintro ⟨x, hx, hpar⟩
    rcases (hps x).1 hx with hxe | hxe
    · rw [hxe] at hpar
      obtain ⟨u, w', a, b, rfl, rfl, ha, hb⟩ := (hpr w v).1 hpar
      exact Or.inl ⟨u, w', a, b, rfl, rfl, (hL u a).1 ha, hb⟩
    · rw [hxe] at hpar
      obtain ⟨u, w', a, b, rfl, rfl, ha, hb⟩ := (parses_Con hc hkc).1 hpar
      obtain ⟨rfl, ha'⟩ := (hnu u a).1 ha
      exact Or.inr ⟨a, b, rfl, ha', (hRd _ b).1 hb⟩
  · rintro (⟨u, w', a, b, rfl, rfl, ha, hb⟩ | ⟨a, b, rfl, ha, hb⟩)
    · exact ⟨pr, (hps pr).2 (Or.inl rfl),
        (hpr _ _).2 ⟨u, w', a, b, rfl, rfl, (hL u a).2 ha, hb⟩⟩
    · exact ⟨c, (hps c).2 (Or.inr rfl), (parses_Con hc hkc).2
        ⟨[], w, a, b, rfl, rfl, (hnu [] a).2 ⟨rfl, ha⟩, (hRd w b).2 hb⟩⟩

/-- The `Eps` object that carries the null parses of the left part: in every
extension of the heap it parses the empty input to what the left part parses
it to. -/
theorem nullability_spec {h : Heap} (hw : WellFormed h) {f : Id} (hf : f < h.length)
    {fn : Finset Val} (sound : ∀ v, v ∈ fn ↔ Parses h f [] v) {H : Heap}
    (ext : Ext (h ++ [Parser.newEps fn]) H) :
    ∀ w a, Parses H h.length w a ↔ w = [] ∧ Parses H f [] a := by
  intro w a
  rw [ext.eps_iff (getElem?_alloc_length h (Parser.newEps fn)) rfl,
    ((Ext.ext_alloc h (Parser.newEps fn)).ext_trans ext).parses_iff hw hf]
  exact and_congr Iff.rfl (sound a)

theorem internalDerive_Con (p : Id)
    (IH : ∀ q, q < p → ∀ (h : Heap) (t : T), WellFormed h → q < h.length →
      ∃ n h' d, derive n h q t = .ok (h', d) ∧ DerivePost h q t h' d)
    {h : Heap} {o : Parser} {f s : Id} (hw : WellFormed h)
    (hp : h[p]? = some o) (hk : o.kind = .Con f s) (t : T) :
    ∃ n h' d, internalDerive n h p t = .ok (h', d) ∧ InternalPost h p t h' d := by
  have hpl := lt_length_of_getElem? hp
  have hfp : f < p := (hw p o hp).children_lt f (by rw [hk]; simp [Kind.children])
  have hsp : s < p := (hw p o hp).children_lt s (by rw [hk]; simp [Kind.children])
  have hfl : f < h.length := Nat.lt_trans hfp hpl
  have hsl : s < h.length := Nat.lt_trans hsp hpl
  -- the derivative of the left part
  obtain ⟨n1, h1, Ld, e1, P1⟩ := IH f hfp h t hw hfl
  have hw2 : WellFormed (h1 ++ [Parser.newEmp]) := P1.wf.alloc_Emp
  have ext12 : Ext h1 (h1 ++ [Parser.newEmp]) := Ext.ext_alloc h1 _
  have sc12 : SameCaches h1 (h1 ++ [Parser.newEmp]) := SameCaches.same_alloc h1 _
  have hL2 : Ld < (h1 ++ [Parser.newEmp]).length := ext12.lt_length P1.lt
  obtain ⟨n3, h3, e, e3, hw3, ext3, len3, sc3, sound3⟩ := isEmpty_sound hw2 hL2
  have ext13 := ext12.ext_trans ext3
  have ext03 := P1.ext.ext_trans ext13
  have hL3 : Ld < h3.length := ext3.lt_length hL2
  have hs3 : s < h3.length := ext03.lt_length hsl
  obtain ⟨oe, hoe, hke⟩ := ext3.kind (getElem?_alloc_length h1 Parser.newEmp)
  have PL := primaryRet_spec hw3 hL3 hs3 hoe hke e sound3
  obtain ⟨h4, pr, hR⟩ : ∃ h4 pr, (if !e then (h3 ++ [Parser.newCon Ld s], h3.length)
      else (h3, h1.length)) = (h4, pr) := ⟨_, _, rfl⟩
  simp only [alloc, hR] at PL
  obtain ⟨hw4, ext34, sc34, hpr4, sempr⟩ := PL
  have ext14 := ext13.ext_trans ext34
  have ext04 := P1.ext.ext_trans ext14
  have hf4 : f < h4.length := ext04.lt_length hfl
  obtain ⟨n5, h5, nl, e5, hw5, ext5, len5, sc5, sound5⟩ := isNullable_sound hw4 hf4
  have ext15 := ext14.ext_trans ext5
  have ext05 := P1.ext.ext_trans ext15
  have cf05 : CachesFrom p h h5 :=
    (P1.derive_cachesFrom hfp).from_trans ((sc12.cachesFrom p).from_trans ((sc3.cachesFrom p).from_trans
      ((sc34.cachesFrom p).from_trans (sc5.cachesFrom p))))
  cases nl with
  | false =>
    obtain ⟨op, hop, hkp⟩ := ext05.kind hp
    have f1 := derive_mono e1 (by omega : n1 ≤ n1 + n3 + n5)
    have f3 := isEmpty_mono e3 (by omega : n3 ≤ n1 + n3 + n5)
    have f5 := isNullable_mono e5 (by omega : n5 ≤ n1 + n3 + n5)
    refine ⟨n1 + n3 + n5 + 1, h5, pr, ?_, hw5, ext05, ext5.lt_length hpr4, ?_, cf05⟩
    · simp only [internalDerive, deref_eq_ok hp, bind_ok, hk, f1, alloc, f3, hR, f5,
        Bool.false_eq_true, if_false, pure_eq_ok]
    · exact con_derive_sem_primary hop (hkp.trans hk) (P1.sem_ext hfl ext15) (sempr h5 ext5)
        (fun w a b ha _ => sound5 rfl a ha)
  | true =>
    have hf5 : f < h5.length := ext5.lt_length hf4
    obtain ⟨n6, h6, fn, e6, hw6, ext6, len6, sc6, sound6⟩ := parseNull_sound hw5 hf5
    have hf6 : f < h6.length := ext6.lt_length hf5
    have hw7 : WellFormed (h6 ++ [Parser.newEps fn]) := hw6.alloc_Eps fn
    have ext67 : Ext h6 (h6 ++ [Parser.newEps fn]) := Ext.ext_alloc h6 _
    have sc67 : SameCaches h6 (h6 ++ [Parser.newEps fn]) := SameCaches.same_alloc h6 _
    have ext07 := ext05.ext_trans (ext6.ext_trans ext67)
    have hs7 : s < (h6 ++ [Parser.newEps fn]).length := ext07.lt_length hsl
    obtain ⟨n8, h8, Rd, e8, P8⟩ := IH s hsp (h6 ++ [Parser.newEps fn]) t hw7 hs7
    have ext48 := (ext5.ext_trans (ext6.ext_trans ext67)).ext_trans P8.ext
    have ext18 := ext14.ext_trans ext48
    have hL8 : Ld < h8.length := ext18.lt_length P1.lt
    obtain ⟨n9, h9, le, e9, hw9, ext9, len9, sc9, sound9⟩ := isEmpty_sound P8.wf hL8
    have ext79 := P8.ext.ext_trans ext9
    have ext49 := ext48.ext_trans ext9
    have ext19 := ext18.ext_trans ext9
    have ext09 := P1.ext.ext_trans ext19
    have hL9 : Ld < h9.length := ext9.lt_length hL8
    have hR9 : Rd < h9.length := ext9.lt_length P8.lt
    have hn9 : h6.length < h9.length :=
      ext79.lt_length (by rw [List.length_append]; exact Nat.lt_succ_self _)
    have cf09 : CachesFrom p h h9 :=
      cf05.from_trans ((sc6.cachesFrom p).from_trans ((sc67.cachesFrom p).from_trans
        ((P8.derive_cachesFrom hsp).from_trans (sc9.cachesFrom p))))
    cases le with
    | true =>
      obtain ⟨n10, h10, re, e10, hw10, ext10, len10, sc10, sound10⟩ := isEmpty_sound hw9 hR9
      have f1 := derive_mono e1 (by omega : n1 ≤ n1 + n3 + n5 + n6 + n8 + n9 + n10)
      have f3 := isEmpty_mono e3 (by omega : n3 ≤ n1 + n3 + n5 + n6 + n8 + n9 + n10)
      have f5 := isNullable_mono e5 (by omega : n5 ≤ n1 + n3 + n5 + n6 + n8 + n9 + n10)
      have f6 := parseNull_mono e6 (by omega : n6 ≤ n1 + n3 + n5 + n6 + n8 + n9 + n10)
      have f8 := derive_mono e8 (by omega : n8 ≤ n1 + n3 + n5 + n6 + n8 + n9 + n10)
      have f9 := isEmpty_mono e9 (by omega : n9 ≤ n1 + n3 + n5 + n6 + n8 + n9 + n10)
      have f10 := isEmpty_mono e10 (by omega : n10 ≤ n1 + n3 + n5 + n6 + n8 + n9 + n10)
      have cf010 : CachesFrom p h h10 := cf09.from_trans (sc10.cachesFrom p)
      have noL : ∀ u a, ¬ Parses h10 f (t :: u) a := fun u a ha =>
        ext10.not_parses hw9 hL9 (sound9 rfl) u a
          ((P1.sem_ext hfl (ext19.ext_trans ext10) u a).2 ha)
      cases re with
      | true =>
        obtain ⟨op, hop, hkp⟩ := (ext09.ext_trans ext10).kind hp
        refine ⟨n1 + n3 + n5 + n6 + n8 + n9 + n10 + 1, h10, pr, ?_, hw10, ext09.ext_trans ext10,
          (ext49.ext_trans ext10).lt_length hpr4, ?_, cf010⟩
        · simp only [internalDerive, deref_eq_ok hp, bind_ok, hk, f1, alloc, f3, hR, f5,
            f6, f8, f9, f10, if_true, pure_eq_ok]
        · exact con_derive_sem_primary hop (hkp.trans hk) (P1.sem_ext hfl (ext19.ext_trans ext10))
            (sempr h10 (ext49.ext_trans ext10))
            (fun w a b _ hb => sound10 rfl w b ((P8.sem_ext hs7 (ext9.ext_trans ext10) w b).2 hb))
      | false =>
        have extH : Ext h10 (h10 ++ [Parser.newCon h6.length Rd]) := Ext.ext_alloc h10 _
        obtain ⟨op, hop, hkp⟩ := ((ext09.ext_trans ext10).ext_trans extH).kind hp
        refine ⟨n1 + n3 + n5 + n6 + n8 + n9 + n10 + 1, h10 ++ [Parser.newCon h6.length Rd],
          h10.length, ?_, hw10.alloc_Con (ext10.lt_length hn9) (ext10.lt_length hR9),
          (ext09.ext_trans ext10).ext_trans extH,
          by rw [List.length_append]; exact Nat.lt_succ_self _, ?_,
          cf010.from_trans ((SameCaches.same_alloc h10 _).cachesFrom p)⟩
        · simp only [internalDerive, deref_eq_ok hp, bind_ok, hk, f1, alloc, f3, hR, f5,
            f6, f8, f9, f10, if_true, Bool.false_eq_true, if_false, pure_eq_ok]
        · exact con_derive_sem_null hop (hkp.trans hk)
            (getElem?_alloc_length h10 (Parser.newCon h6.length Rd)) rfl
            (nullability_spec hw6 hf6 sound6 ((ext79.ext_trans ext10).ext_trans extH))
            (P8.sem_ext hs7 ((ext9.ext_trans ext10).ext_trans extH))
            (fun u a ha => noL u a ((extH.parses_iff hw10
              ((ext09.ext_trans ext10).lt_length hfl)).1 ha))
    | false =>
      have f1 := derive_mono e1 (by omega : n1 ≤ n1 + n3 + n5 + n6 + n8 + n9)
      have f3 := isEmpty_mono e3 (by omega : n3 ≤ n1 + n3 + n5 + n6 + n8 + n9)
      have f5 := isNullable_mono e5 (by omega : n5 ≤ n1 + n3 + n5 + n6 + n8 + n9)
      have f6 := parseNull_mono e6 (by omega : n6 ≤ n1 + n3 + n5 + n6 + n8 + n9)
      have f8 := derive_mono e8 (by omega : n8 ≤ n1 + n3 + n5 + n6 + n8 + n9)
      have f9 := isEmpty_mono e9 (by omega : n9 ≤ n1 + n3 + n5 + n6 + n8 + n9)
      have extA : Ext h9 (h9 ++ [Parser.newCon h6.length Rd]) := Ext.ext_alloc h9 _
      have extB : Ext (h9 ++ [Parser.newCon h6.length Rd])
          (h9 ++ [Parser.newCon h6.length Rd] ++
            [Parser.newAlt (setInsert (setInsert [] pr) h9.length)]) := Ext.ext_alloc _ _
      have extH := extA.ext_trans extB
      have hwA : WellFormed (h9 ++ [Parser.newCon h6.length Rd]) := hw9.alloc_Con hn9 hR9
      have hcA : h9.length < (h9 ++ [Parser.newCon h6.length Rd]).length := by
        rw [List.length_append]; exact Nat.lt_succ_self _
      have hps : ∀ x, x ∈ setInsert (setInsert [] pr) h9.length ↔ x = pr ∨ x = h9.length := by
        intro x
        rw [mem_setInsert, mem_setInsert]
        simp only [List.not_mem_nil, false_or]
      obtain ⟨op, hop, hkp⟩ := (ext09.ext_trans extH).kind hp
      refine ⟨n1 + n3 + n5 + n6 + n8 + n9 + 1, _,
        (h9 ++ [Parser.newCon h6.length Rd]).length, ?_,
        hwA.alloc_Alt _ (fun q hq => ?_), ext09.ext_trans extH,
        by simp only [length_alloc]; exact Nat.lt_succ_self _, ?_,
        cf09.from_trans (((SameCaches.same_alloc h9 _).cachesFrom p).from_trans
          ((SameCaches.same_alloc _ _).cachesFrom p))⟩
      · simp only [internalDerive, deref_eq_ok hp, bind_ok, hk, f1, alloc, f3, hR, f5,
          f6, f8, f9, if_true, Bool.false_eq_true, if_false, pure_eq_ok]
      · rcases (hps q).1 hq with hq | hq
        · rw [hq]; exact (ext49.ext_trans extA).lt_length hpr4
        · rw [hq]; exact hcA
      · exact con_derive_sem_both hop (hkp.trans hk) (P1.sem_ext hfl (ext19.ext_trans extH))
          (sempr _ (ext49.ext_trans extH))
          (getElem?_alloc_of_some _ (getElem?_alloc_length h9 (Parser.newCon h6.length Rd))) rfl
          (nullability_spec hw6 hf6 sound6 (ext79.ext_trans extH))
          (P8.sem_ext hs7 (ext9.ext_trans extH))
          (getElem?_alloc_length _ _) rfl hps

/-! ### `internalDerive` and `derive` on a recursion-free heap -/

theorem internalDerive_wellFormed (p : Id)
    (IH : ∀ q, q < p → ∀ (h : Heap) (t : T), WellFormed h → q < h.length →
      ∃ n h' d, derive n h q t = .ok (h', d) ∧ DerivePost h q t h' d)
    {h : Heap} {o : Parser} (hw : WellFormed h) (hp : h[p]? = some o) (t : T) :
    ∃ n h' d, internalDerive n h p t = .ok (h', d) ∧ InternalPost h p t h' d := by
  have hrf := (hw p o hp).recursionFree
  cases hk : o.kind with
  | Emp => exact internalDerive_Emp hw hp hk t
  | Eps => exact internalDerive_Eps hw hp hk t
  | EqT c => exact internalDerive_EqT hw hp hk t
  | Alt ps => exact internalDerive_Alt p IH hw hp hk t
  | Con f s => exact internalDerive_Con p IH hw hp hk t
  | Red q f => exact internalDerive_Red p IH hw hp hk t
  | Rep i => exact internalDerive_Rep p IH hw hp hk t
  | RecursiveParser b => rw [hk] at hrf; exact hrf.elim
  | DFut b c => rw [hk] at hrf; exact hrf.elim

/-- On a recursion-free heap `derive` returns, with an object that parses the
derivative, and leaves that object in the cache. -/
theorem derive_wellFormed : ∀ (p : Id) (h : Heap) (t : T), WellFormed h → p < h.length →
    ∃ n h' d, derive n h p t = .ok (h', d) ∧ DerivePost h p t h' d := by
  intro p
  induction p using Nat.strong_induction_on with
  | _ p IH =>
    intro h t hw hpl
    obtain ⟨o, ho⟩ := exists_getElem?_of_lt hpl
    cases hl : o.cache.lookup t with
    | some d =>
      obtain ⟨hd, hsem⟩ := (hw p o ho).cached t d hl
      refine ⟨1, h, d, ?_, hw, Ext.ext_refl h, hd, hsem, ⟨o, ho, hl⟩,
        fun x ox _ hx => ⟨ox, hx, rfl⟩⟩
      simp only [derive, deref_eq_ok ho, bind_ok, hl, pure_eq_ok]
    | none =>
      obtain ⟨n, h1, d, e1, Q⟩ := internalDerive_wellFormed p IH hw ho t
      obtain ⟨o1, ho1, hc1⟩ := Q.caches_from p o (Nat.le_refl p) ho
      have hn1 : o1.cache.lookup t = none := by rw [hc1]; exact hl
      obtain ⟨hwH, extH⟩ := Q.wf.cacheInsert ho1 hn1 Q.lt Q.sem
      refine ⟨n + 1, cacheInsert h1 p t d, d, ?_, hwH, Q.ext.ext_trans extH, extH.lt_length Q.lt,
        extH.sem_transfer Q.wf Q.lt (lt_length_of_getElem? ho1) Q.sem, ?_, ?_⟩
      · simp only [derive, deref_eq_ok ho, bind_ok, hl, e1, pure_eq_ok]
      · rw [cacheInsert_eq_set ho1 hn1]
        exact ⟨_, getElem?_set_self' ho1 _, lookup_append_self hn1⟩
      · intro x ox hx hox
        obtain ⟨o', ho', hc'⟩ := Q.caches_from x ox (Nat.le_of_lt hx) hox
        rw [cacheInsert_eq_set ho1 hn1]
        exact ⟨o', by rw [List.getElem?_set_ne (Nat.ne_of_lt hx)]; exact ho', hc'⟩

/-! ### `parseFull` and `parse` on a recursion-free heap -/

theorem parseFull_Red_ok {p : Id} {h : Heap} {o : Parser} {q : Id} {f : Val → Val}
    {w : List T} (hp : h[p]? = some o) (hk : o.kind = .Red q f)
    (IH : ∃ n h' S, parseFull n h q w = .ok (h', S) ∧ WellFormed h' ∧ Ext h h' ∧
      ∀ v, v ∈ S ↔ Parses h q w v) :
    ∃ n h' S, parseFull n h p w = .ok (h', S) ∧ WellFormed h' ∧ Ext h h' ∧
      ∀ v, v ∈ S ↔ Parses h p w v := by
  obtain ⟨n, h', S, e, hw', ext', sem⟩ := IH
  refine ⟨n + 1, h', S.image f, ?_, hw', ext', fun v => ?_⟩
  · simp only [parseFull, deref_eq_ok hp, bind_ok, hk, e, pure_eq_ok]
  · rw [parses_Red hp hk, Finset.mem_image]
    constructor
    · rintro ⟨x, hx, rfl⟩
      exact ⟨x, rfl, (sem x).1 hx⟩
    · rintro ⟨x, rfl, hx⟩
      exact ⟨x, (sem x).2 hx, rfl⟩

/-- On a recursion-free heap `parseFull` returns, for every object and every
input, exactly the values the object parses the whole input to. -/
theorem parseFull_wellFormed : ∀ (w : List T) (p : Id) (h : Heap), WellFormed h →
    p < h.length →
    ∃ n h' S, parseFull n h p w = .ok (h', S) ∧ WellFormed h' ∧ Ext h h' ∧
      ∀ v, v ∈ S ↔ Parses h p w v := by
  intro w
  induction w with
  | nil =>
    intro p
    induction p using Nat.strong_induction_on with
    | _ p IHp =>
      intro h hw hpl
      obtain ⟨o, ho⟩ := exists_getElem?_of_lt hpl
      cases hk : o.kind
      case Red q f =>
        have hqp : q < p := (hw p o ho).children_lt q (by rw [hk]; simp [Kind.children])
        exact parseFull_Red_ok ho hk (IHp q hqp h hw (Nat.lt_trans hqp hpl))
      all_goals
        obtain ⟨n, h', S, e, hw', ext', -, -, sem⟩ := parseNull_sound hw hpl
        refine ⟨n + 1, h', S, ?_, hw', ext', fun v => ?_⟩
        · simp only [parseFull, deref_eq_ok ho, bind_ok, hk, e]
        · rw [sem v]
          exact ext'.parses_iff hw hpl
  | cons t w IHw =>
    intro p
    induction p using Nat.strong_induction_on with
    | _ p IHp =>
      intro h hw hpl
      obtain ⟨o, ho⟩ := exists_getElem?_of_lt hpl
      cases hk : o.kind
      case Red q f =>
        have hqp : q < p := (hw p o ho).children_lt q (by rw [hk]; simp [Kind.children])
        exact parseFull_Red_ok ho hk (IHp q hqp h hw (Nat.lt_trans hqp hpl))
      all_goals
        obtain ⟨n1, h1, d, e1, P⟩ := derive_wellFormed p h t hw hpl
        obtain ⟨n2, h2, S, e2, hw2, ext2, sem2⟩ := IHw d h1 P.wf P.lt
        have f1 := derive_mono e1 (by omega : n1 ≤ n1 + n2)
        have f2 := parseFull_mono e2 (by omega : n2 ≤ n1 + n2)
        refine ⟨n1 + n2 + 1, h2, S, ?_, hw2, P.ext.ext_trans ext2, fun v => ?_⟩
        · simp only [parseFull, deref_eq_ok ho, bind_ok, hk, f1, f2]
        · rw [sem2 v, P.sem w v]
          exact P.ext.parses_iff hw hpl

theorem parse_Red_ok {p : Id} {h : Heap} {o : Parser} {q : Id} {f : Val → Val}
    {w : List T} (hp : h[p]? = some o) (hk : o.kind = .Red q f)
    (IH : ∃ n h' R, parse n h q w = .ok (h', R) ∧ WellFormed h' ∧ Ext h h' ∧
      ∀ v s, (v, s) ∈ R ↔ ∃ u, w = u ++ s ∧ Parses h q u v) :
    ∃ n h' R, parse n h p w = .ok (h', R) ∧ WellFormed h' ∧ Ext h h' ∧
      ∀ v s, (v, s) ∈ R ↔ ∃ u, w = u ++ s ∧ Parses h p u v := by
  obtain ⟨n, h', R, e, hw', ext', sem⟩ := IH
  refine ⟨n + 1, h', R.image (fun i => (f i.1, i.2)), ?_, hw', ext', fun v s => ?_⟩
  · simp only [parse, deref_eq_ok hp, bind_ok, hk, e, pure_eq_ok]
  · rw [Finset.mem_image]
    constructor
    · rintro ⟨⟨x, s'⟩, hx, hxe⟩
      simp only [Prod.mk.injEq] at hxe
      obtain ⟨rfl, rfl⟩ := hxe
      obtain ⟨u, hu, hpar⟩ := (sem x s').1 hx
      exact ⟨u, hu, (parses_Red hp hk).2 ⟨x, rfl, hpar⟩⟩
    · rintro ⟨u, hu, hpar⟩
      obtain ⟨x, rfl, hx⟩ := (parses_Red hp hk).1 hpar
      exact ⟨(x, s), (sem x s).2 ⟨u, hu, hx⟩, rfl⟩

theorem parse_Emp_ok {p : Id} {h : Heap} {o : Parser} (hw : WellFormed h) (w : List T)
    (hp : h[p]? = some o) (hk : o.kind = .Emp) :
    ∃ n h' R, parse n h p w = .ok (h', R) ∧ WellFormed h' ∧ Ext h h' ∧
      ∀ v s, (v, s) ∈ R ↔ ∃ u, w = u ++ s ∧ Parses h p u v := by
  refine ⟨1, h, ∅, ?_, hw, Ext.ext_refl h, fun v s => ?_⟩
  · simp only [parse, deref_eq_ok hp, bind_ok, hk, pure_eq_ok]
  · constructor
    · intro hm
      exact absurd hm (Finset.not_mem_empty _)
    · rintro ⟨u, -, hpar⟩
      exact absurd hpar (parses_Emp hp hk)

theorem parse_Eps_ok {p : Id} {h : Heap} {o : Parser} (hw : WellFormed h) (w : List T)
    (hp : h[p]? = some o) (hk : o.kind = .Eps) :
    ∃ n h' R, parse n h p w = .ok (h', R) ∧ WellFormed h' ∧ Ext h h' ∧
      ∀ v s, (v, s) ∈ R ↔ ∃ u, w = u ++ s ∧ Parses h p u v := by
  have hpl := lt_length_of_getElem? hp
  obtain ⟨n, h', S, e, hw', ext', -, -, sem⟩ := parseNull_sound hw hpl
  refine ⟨n + 1, h', S.image (fun v => (v, w)), ?_, hw', ext', fun v s => ?_⟩
  · simp only [parse, deref_eq_ok hp, bind_ok, hk, e, pure_eq_ok]
  · rw [Finset.mem_image]
    constructor
    · rintro ⟨x, hx, hxe⟩
      simp only [Prod.mk.injEq] at hxe
      obtain ⟨rfl, rfl⟩ := hxe
      exact ⟨[], rfl, (ext'.parses_iff hw hpl).1 ((sem x).1 hx)⟩
    · rintro ⟨u, hu, hpar⟩
      obtain ⟨rfl, -⟩ := (parses_Eps hp hk).1 hpar
      simp only [List.nil_append] at hu
      subst hu
      exact ⟨v, (sem v).2 ((ext'.parses_iff hw hpl).2 hpar), rfl⟩

theorem parse_EqT_ok {p : Id} {h : Heap} {o : Parser} {c : T} (hw : WellFormed h)
    (w : List T) (hp : h[p]? = some o) (hk : o.kind = .EqT c) :
    ∃ n h' R, parse n h p w = .ok (h', R) ∧ WellFormed h' ∧ Ext h h' ∧
      ∀ v s, (v, s) ∈ R ↔ ∃ u, w = u ++ s ∧ Parses h p u v := by
  cases w with
  | nil =>
    refine ⟨1, h, ∅, ?_, hw, Ext.ext_refl h, fun v s => ?_⟩
    · simp only [parse, deref_eq_ok hp, bind_ok, hk, pure_eq_ok]
    · constructor
      · intro hm
        exact absurd hm (Finset.not_mem_empty _)
      · rintro ⟨u, hu, hpar⟩
        obtain ⟨rfl, -⟩ := (parses_EqT hp hk).1 hpar
        cases hu
  | cons front rest =>
    by_cases e : front = c
    · subst e
      refine ⟨1, h, {(Val.term front, rest)}, ?_, hw, Ext.ext_refl h, fun v s => ?_⟩
      · simp only [parse, deref_eq_ok hp, bind_ok, hk, if_true, pure_eq_ok]
      · rw [Finset.mem_singleton]
        constructor
        · intro hm
          simp only [Prod.mk.injEq] at hm
          obtain ⟨rfl, rfl⟩ := hm
          exact ⟨[front], rfl, (parses_EqT hp hk).2 ⟨rfl, rfl⟩⟩
        · rintro ⟨u, hu, hpar⟩
          obtain ⟨rfl, rfl⟩ := (parses_EqT hp hk).1 hpar
          simp only [List.singleton_append, List.cons.injEq, true_and] at hu
          rw [hu]
    · refine ⟨1, h, ∅, ?_, hw, Ext.ext_refl h, fun v s => ?_⟩
      · simp only [parse, deref_eq_ok hp, bind_ok, hk, if_neg e, pure_eq_ok]
      · constructor
        · intro hm
          exact absurd hm (Finset.not_mem_empty _)
        · rintro ⟨u, hu, hpar⟩
          obtain ⟨rfl, -⟩ := (parses_EqT hp hk).1 hpar
          simp only [List.singleton_append, List.cons.injEq] at hu
          exact absurd hu.1 e

/-- On a recursion-free heap `parse` returns, for every object and every
input, exactly the pairs of a value and a suffix of the input such that the
object parses the prefix before that suffix to the value. -/
theorem parse_wellFormed : ∀ (w : List T) (p : Id) (h : Heap), WellFormed h →
    p < h.length →
    ∃ n h' R, parse n h p w = .ok (h', R) ∧ WellFormed h' ∧ Ext h h' ∧
      ∀ v s, (v, s) ∈ R ↔ ∃ u, w = u ++ s ∧ Parses h p u v := by
  intro w
  induction w with
  | nil =>
    intro p
    induction p using Nat.strong_induction_on with
    | _ p IHp =>
      intro h hw hpl
      obtain ⟨o, ho⟩ := exists_getElem?_of_lt hpl
      have hrf := (hw p o ho).recursionFree
      cases hk : o.kind
      case Red q f =>
        have hqp : q < p := (hw p o ho).children_lt q (by rw [hk]; simp [Kind.children])
        exact parse_Red_ok ho hk (IHp q hqp h hw (Nat.lt_trans hqp hpl))
      case Emp => exact parse_Emp_ok hw _ ho hk
      case Eps => exact parse_Eps_ok hw _ ho hk
      case EqT c => exact parse_EqT_ok hw _ ho hk
      case RecursiveParser b => rw [hk] at hrf; exact hrf.elim
      case DFut b c => rw [hk] at hrf; exact hrf.elim
      all_goals
        obtain ⟨n, h', S, e, hw', ext', -, -, sem⟩ := parseNull_sound hw hpl
        refine ⟨n + 1, h', S.image (fun v => (v, [])), ?_, hw', ext', fun v s => ?_⟩
        · simp only [parse, deref_eq_ok ho, bind_ok, hk, e, pure_eq_ok]
        · rw [Finset.mem_image]
          constructor
          · rintro ⟨x, hx, hxe⟩
            simp only [Prod.mk.injEq] at hxe
            obtain ⟨rfl, rfl⟩ := hxe
            exact ⟨[], rfl, (ext'.parses_iff hw hpl).1 ((sem x).1 hx)⟩
          · rintro ⟨u, hu, hpar⟩
            obtain ⟨rfl, rfl⟩ := List.append_eq_nil.1 hu.symm
            exact ⟨v, (sem v).2 ((ext'.parses_iff hw hpl).2 hpar), rfl⟩
  | cons t rest IHw =>
    intro p
    induction p using Nat.strong_induction_on with
    | _ p IHp =>
      intro h hw hpl
      obtain ⟨o, ho⟩ := exists_getElem?_of_lt hpl
      have hrf := (hw p o ho).recursionFree
      cases hk : o.kind
      case Red q f =>
        have hqp : q < p := (hw p o ho).children_lt q (by rw [hk]; simp [Kind.children])
        exact parse_Red_ok ho hk (IHp q hqp h hw (Nat.lt_trans hqp hpl))
      case Emp => exact parse_Emp_ok hw _ ho hk
      case Eps => exact parse_Eps_ok hw _ ho hk
      case EqT c => exact parse_EqT_ok hw _ ho hk
      case RecursiveParser b => rw [hk] at hrf; exact hrf.elim
      case DFut b c => rw [hk] at hrf; exact hrf.elim
      all_goals
        obtain ⟨n1, h1, d, e1, P⟩ := derive_wellFormed p h t hw hpl
        obtain ⟨n2, h2, NE, e2, hw2, ext2, sem2⟩ := IHw d h1 P.wf P.lt
        have hp2 : p < h2.length := ext2.lt_length (P.ext.lt_length hpl)
        obtain ⟨n3, h3, PF, e3, hw3, ext3, sem3⟩ := parseFull_wellFormed [] p h2 hw2 hp2
        have f1 := derive_mono e1 (by omega : n1 ≤ n1 + n2 + n3)
        have f2 := parse_mono e2 (by omega : n2 ≤ n1 + n2 + n3)
        have f3 := parseFull_mono e3 (by omega : n3 ≤ n1 + n2 + n3)
        have ext02 := P.ext.ext_trans ext2
        refine ⟨n1 + n2 + n3 + 1, h3, NE ∪ PF.image (fun v => (v, t :: rest)), ?_, hw3,
          ext02.ext_trans ext3, fun v s => ?_⟩
        · simp only [parse, deref_eq_ok ho, bind_ok, hk, f1, f2, f3, pure_eq_ok]
        · rw [Finset.mem_union, Finset.mem_image, sem2 v s]
          constructor
          · rintro (⟨u, hu, hpar⟩ | ⟨x, hx, hxe⟩)
            · exact ⟨t :: u, by rw [hu]; rfl,
                (P.ext.parses_iff hw hpl).1 ((P.sem u v).1 hpar)⟩
            · simp only [Prod.mk.injEq] at hxe
              obtain ⟨rfl, rfl⟩ := hxe
              exact ⟨[], rfl, (ext02.parses_iff hw hpl).1 ((sem3 x).1 hx)⟩
          · rintro ⟨u, hu, hpar⟩
            cases u with
            | nil =>
              simp only [List.nil_append] at hu
              subst hu
              exact Or.inr ⟨v, (sem3 v).2 ((ext02.parses_iff hw hpl).2 hpar), rfl⟩
            | cons t' u' =>
              simp only [List.cons_append, List.cons.injEq] at hu
              obtain ⟨rfl, rfl⟩ := hu
              exact Or.inl ⟨u', rfl, (P.sem u' v).2 ((P.ext.parses_iff hw hpl).2 hpar)⟩

/-! ### The results of `parseFull` and `parse` -/

theorem wellFormed_conHeap : WellFormed conHeap :=
  ((wellFormed_nil.alloc_EqT 97).alloc_EqT 98).alloc_Con (f := 0) (s := 1) (by decide)
    (by decide)

theorem wellFormed_altRedHeap : WellFormed altRedHeap :=
  ((wellFormed_nil.alloc_EqT 97).alloc_Red (q := 0) (fun _ => Val.term 65) (by decide)).alloc_Alt
    [0, 1] (by decide)

theorem wellFormed_repAltHeap : WellFormed repAltHeap :=
  (((wellFormed_nil.alloc_EqT 97).alloc_EqT 98).alloc_Alt [0, 1] (by decide)).alloc_Rep
    (q := 2) (by decide)

/-- Whatever the call budget, a value is in the set `parseFull` returns exactly
when the object parses the input to it. -/
theorem mem_parseFull_iff {h : Heap} {p : Id} (hw : WellFormed h) (hpl : p < h.length)
    {w : List T} {a : Val} :
    (∃ m hA A, parseFull m h p w = .ok (hA, A) ∧ a ∈ A) ↔ Parses h p w a := by
  obtain ⟨n0, h0, S0, e0, -, -, sem⟩ := parseFull_wellFormed w p h hw hpl
  constructor
  · rintro ⟨m, hA, A, e, ha⟩
    have := ok_unique (fun n => parseFull n h p w) (fun n => fuelLe_succ_parseFull n h p w) e e0
    cases this
    exact (sem a).1 ha
  · intro hpar
    exact ⟨n0, h0, S0, e0, (sem a).2 hpar⟩

/-- C1: on a recursion-free heap, for every object `c` that is a concatenation
`Con f s` and every input `w`, `parseFull` returns, and the set it returns holds
exactly the pairs `(a, b)` such that `w = u ++ v` for some split with `a` in the
set `parseFull` returns for `f` on `u` and `b` in the set `parseFull` returns
for `s` on `v`. -/
theorem parseFull_Con_eq_splits {h : Heap} {c : Id} {o : Parser} {f s : Id}
    (hw : WellFormed h) (hc : h[c]? = some o) (hk : o.kind = .Con f s) (w : List T) :
    ∃ n h' S, parseFull n h c w = .ok (h', S) ∧
      ∀ x, x ∈ S ↔ ∃ u v a b, w = u ++ v ∧ x = Val.pair a b ∧
        (∃ m hA A, parseFull m h f u = .ok (hA, A) ∧ a ∈ A) ∧
        (∃ m hB B, parseFull m h s v = .ok (hB, B) ∧ b ∈ B) := by
  have hcl := lt_length_of_getElem? hc
  have hfc : f < c := (hw c o hc).children_lt f (by rw [hk]; simp [Kind.children])
  have hsc : s < c := (hw c o hc).children_lt s (by rw [hk]; simp [Kind.children])
  obtain ⟨n, h', S, e, -, -, sem⟩ := parseFull_wellFormed w c h hw hcl
  refine ⟨n, h', S, e, fun x => ?_⟩
  rw [sem x, parses_Con hc hk]
  constructor
  · rintro ⟨u, v, a, b, huv, hx, ha, hb⟩
    exact ⟨u, v, a, b, huv, hx, (mem_parseFull_iff hw (Nat.lt_trans hfc hcl)).2 ha,
      (mem_parseFull_iff hw (Nat.lt_trans hsc hcl)).2 hb⟩
  · rintro ⟨u, v, a, b, huv, hx, ha, hb⟩
    exact ⟨u, v, a, b, huv, hx, (mem_parseFull_iff hw (Nat.lt_trans hfc hcl)).1 ha,
      (mem_parseFull_iff hw (Nat.lt_trans hsc hcl)).1 hb⟩

/-- The concatenation `con(terminal('a'), terminal('b'))` on the input
`['a','b']` is a witness for C1. -/
theorem parseFull_Con_eq_splits_witness :
    WellFormed conHeap ∧ conHeap[2]? = some (Parser.newCon 0 1) ∧
    ∃ n h' S, parseFull n conHeap 2 [97, 98] = .ok (h', S) ∧
      ∀ x, x ∈ S ↔ ∃ u v a b, [97, 98] = u ++ v ∧ x = Val.pair a b ∧
        (∃ m hA A, parseFull m conHeap 0 u = .ok (hA, A) ∧ a ∈ A) ∧
        (∃ m hB B, parseFull m conHeap 1 v = .ok (hB, B) ∧ b ∈ B) :=
  ⟨wellFormed_conHeap, rfl, parseFull_Con_eq_splits wellFormed_conHeap rfl rfl [97, 98]⟩

/-- C2: on a recursion-free heap, for every object `p` that is an alternation
`Alt ps` (the set `ps` may be empty, and its members may be of any kind, `Red`
included) and every input `w`, `parseFull` returns, and the set it returns is
the union over the children `c` in `ps` of the sets `parseFull` returns for `c`
on `w`. -/
theorem parseFull_Alt_eq_union {h : Heap} {p : Id} {o : Parser} {ps : List Id}
    (hw : WellFormed h) (hp : h[p]? = some o) (hk : o.kind = .Alt ps) (w : List T) :
    ∃ n h' S, parseFull n h p w = .ok (h', S) ∧
      ∀ x, x ∈ S ↔ ∃ c ∈ ps, ∃ m hA A, parseFull m h c w = .ok (hA, A) ∧ x ∈ A := by
  have hpl := lt_length_of_getElem? hp
  have hcp : ∀ c ∈ ps, c < h.length := fun c hc =>
    Nat.lt_trans ((hw p o hp).children_lt c (by rw [hk]; exact hc)) hpl
  obtain ⟨n, h', S, e, -, -, sem⟩ := parseFull_wellFormed w p h hw hpl
  refine ⟨n, h', S, e, fun x => ?_⟩
  rw [sem x, parses_Alt hp hk]
  constructor
  · rintro ⟨c, hc, hx⟩
    exact ⟨c, hc, (mem_parseFull_iff hw (hcp c hc)).2 hx⟩
  · rintro ⟨c, hc, hx⟩
    exact ⟨c, hc, (mem_parseFull_iff hw (hcp c hc)).1 hx⟩

/-- The alternation `alt({terminal('a'), red(terminal('a'), x -> 'A')})` on the
input `['a']` is a witness for C2. -/
theorem parseFull_Alt_eq_union_witness :
    WellFormed altRedHeap ∧ altRedHeap[2]? = some (Parser.newAlt [0, 1]) ∧
    ∃ n h' S, parseFull n altRedHeap 2 [97] = .ok (h', S) ∧
      ∀ x, x ∈ S ↔
        ∃ c ∈ [0, 1], ∃ m hA A, parseFull m altRedHeap c [97] = .ok (hA, A) ∧ x ∈ A :=
  ⟨wellFormed_altRedHeap, rfl, parseFull_Alt_eq_union wellFormed_altRedHeap rfl rfl [97]⟩

/-- C8: on a recursion-free heap, for every object `p` and every input `w`,
`parseFull` and `parse` both return, and the set `parseFull` returns holds
exactly the values `v` such that `(v, [])` is in the set `parse` returns. -/
theorem parseFull_eq_parse_nil {h : Heap} {p : Id} (hw : WellFormed h) (hpl : p < h.length)
    (w : List T) :
    ∃ n h1 S m h2 R, parseFull n h p w = .ok (h1, S) ∧ parse m h p w = .ok (h2, R) ∧
      ∀ v, v ∈ S ↔ (v, ([] : List T)) ∈ R := by
  obtain ⟨n, h1, S, e1, -, -, sem1⟩ := parseFull_wellFormed w p h hw hpl
  obtain ⟨m, h2, R, e2, -, -, sem2⟩ := parse_wellFormed w p h hw hpl
  refine ⟨n, h1, S, m, h2, R, e1, e2, fun v => ?_⟩
  rw [sem1 v, sem2 v []]
  constructor
  · intro hpar
    exact ⟨w, (List.append_nil w).symm, hpar⟩
  · rintro ⟨u, hu, hpar⟩
    rw [List.append_nil] at hu
    rw [hu]
    exact hpar

/-- The concatenation `con(terminal('a'), terminal('b'))` on the input
`['a','b']` is a witness for C8. -/
theorem parseFull_eq_parse_nil_witness :
    WellFormed conHeap ∧ 2 < conHeap.length ∧
    ∃ n h1 S m h2 R, parseFull n conHeap 2 [97, 98] = .ok (h1, S) ∧
      parse m conHeap 2 [97, 98] = .ok (h2, R) ∧ ∀ v, v ∈ S ↔ (v, ([] : List T)) ∈ R :=
  ⟨wellFormed_conHeap, by decide,
    parseFull_eq_parse_nil wellFormed_conHeap (by decide) [97, 98]⟩

/-- C9: on a recursion-free heap, for every object `p` and every input `w`,
`parse` returns, and the set it returns holds exactly the pairs `(v, s)` such
that `w = u ++ s` for some prefix `u` with `v` in the set `parseFull` returns
for `p` on `u`. -/
theorem parse_eq_prefixes {h : Heap} {p : Id} (hw : WellFormed h) (hpl : p < h.length)
    (w : List T) :
    ∃ n h' R, parse n h p w = .ok (h', R) ∧
      ∀ v s, (v, s) ∈ R ↔
        ∃ u, w = u ++ s ∧ ∃ m hA A, parseFull m h p u = .ok (hA, A) ∧ v ∈ A := by
  obtain ⟨n, h', R, e, -, -, sem⟩ := parse_wellFormed w p h hw hpl
  refine ⟨n, h', R, e, fun v s => ?_⟩
  rw [sem v s]
  constructor
  · rintro ⟨u, hu, hpar⟩
    exact ⟨u, hu, (mem_parseFull_iff hw hpl).2 hpar⟩
  · rintro ⟨u, hu, hpar⟩
    exact ⟨u, hu, (mem_parseFull_iff hw hpl).1 hpar⟩

/-- The repetition `rep(alt({terminal('a'), terminal('b')}))` on the input
`['a','b']` is a witness for C9. -/
theorem parse_eq_prefixes_witness :
    WellFormed repAltHeap ∧ 3 < repAltHeap.length ∧
    ∃ n h' R, parse n repAltHeap 3 [97, 98] = .ok (h', R) ∧
      ∀ v s, (v, s) ∈ R ↔
        ∃ u, [97, 98] = u ++ s ∧ ∃ m hA A, parseFull m repAltHeap 3 u = .ok (hA, A) ∧ v ∈ A :=
  ⟨wellFormed_repAltHeap, by decide, parse_eq_prefixes wellFormed_repAltHeap (by decide) [97, 98]⟩

/-- The examples of the specification for `con(terminal('a'), terminal('b'))`,
evaluated. -/
theorem parseFull_conHeap_examples :
    value (parseFull 30 conHeap 2 [97, 98]) = .ok {Val.pair (.term 97) (.term 98)} ∧
    value (parseFull 30 conHeap 2 [97]) = .ok ∅ ∧
    value (parseFull 30 conHeap 2 []) = .ok ∅ := by
  decide!

/-- The example of the specification for
`alt({terminal('a'), red(terminal('a'), x -> 'A')})`, evaluated. -/
theorem parseFull_altRedHeap_example :
    value (parseFull 30 altRedHeap 2 [97]) = .ok {Val.term 97, Val.term 65} := by
  decide!

/-- The generic driver `parse` on `rep(alt({terminal('a'), terminal('b')}))`,
evaluated: one pair for each prefix. -/
theorem parse_repAltHeap_example :
    value (parse 40 repAltHeap 3 [97, 98]) =
      .ok {(Val.vec [], [97, 98]), (Val.vec [.term 97], [98]),
           (Val.vec [.term 98, .term 97], [])} := by
  decide!

/-! ### Nullable objects and null parses -/

theorem Subterm.of_ext {h h1 : Heap} (e : Ext h h1) (hlen : h1.length = h.length) {q p : Id}
    (hs : Subterm h1 q p) : Subterm h q p := by
  induction hs with
  | self => exact Subterm.self _
  | @child c p o1 hp hc _ ih =>
    have hpl : p < h.length := by rw [← hlen]; exact lt_length_of_getElem? hp
    obtain ⟨o, ho⟩ := exists_getElem?_of_lt hpl
    obtain ⟨o', ho', hk⟩ := e.kind ho
    rw [hp] at ho'
    cases ho'
    exact Subterm.child ho (by rw [← hk]; exact hc) ih

theorem Seeded.to_ext {h h1 : Heap} (e : Ext h h1) (hlen : h1.length = h.length) {p : Id}
    (hs : Seeded h p) : Seeded h1 p := by
  intro q o1 hsub hq hk
  have hql : q < h.length := by rw [← hlen]; exact lt_length_of_getElem? hq
  obtain ⟨o, ho⟩ := exists_getElem?_of_lt hql
  obtain ⟨o', ho', hk', hpn⟩ := e.sem q o ho
  rw [hq] at ho'
  cases ho'
  rw [hpn (hk'.symm.trans hk)]
  exact hs q o (Subterm.of_ext e hlen hsub) ho (hk'.symm.trans hk)

/-- On an initialized object of a recursion-free heap in which no `Eps` was
built from the empty set, an object the getter `isNullable` calls nullable
parses the empty input. -/
theorem nullable_complete (p : Id) :
    ∀ (h : Heap) (o : Parser), WellFormed h → h[p]? = some o → o.initialized = true →
      Seeded h p → nullableView h p = true → ∃ v, Parses h p [] v := by
  induction p using Nat.strong_induction_on with
  | _ p IH =>
    intro h o hw hp hi hseed hn
    have hop := hw p o hp
    obtain ⟨hch, hre⟩ := hop.attributes hi
    have hc := hop.constructed
    have IHc : ∀ q ∈ o.kind.children, nullableView h q = true → ∃ v, Parses h q [] v := by
      intro q hq
      obtain ⟨oq, hoq, hiq⟩ := hch q hq
      exact IH q (hop.children_lt q hq) h oq hw hoq hiq
        (fun r x hr => hseed r x (Subterm.child hp hq hr))
    have eN : nullableView h p = (!o.isEmptyLocal && o.isNullableLocal) := by
      simp only [nullableView, hp]
    rw [eN] at hn
    have hnl : o.isEmptyLocal = false ∧ o.isNullableLocal = true := by
      cases h1 : o.isEmptyLocal <;> cases h2 : o.isNullableLocal <;> simp_all
    cases hk : o.kind with
    | Emp =>
      simp only [hk] at hc
      rw [hc] at hnl
      cases hnl.1
    | Eps =>
      obtain ⟨v, hv⟩ := hseed p o (Subterm.self p) hp hk
      exact ⟨v, Parses.eps hp hk hv⟩
    | EqT t =>
      simp only [hk] at hc
      rw [hc.2.1] at hnl
      cases hnl.2
    | Rep i => exact ⟨.vec [], (parses_Rep hp hk).2 (Or.inl ⟨rfl, rfl⟩)⟩
    | Red q f =>
      rw [recompute_Red hk] at hre
      have a3 := congrArg Parser.isNullableLocal hre
      simp only [Parser.withParseNull, Parser.withEmpty, Parser.withNullable] at a3
      obtain ⟨x, hx⟩ := IHc q (by rw [hk]; simp [Kind.children]) (a3.trans hnl.2)
      exact ⟨f x, (parses_Red hp hk).2 ⟨x, rfl, hx⟩⟩
    | Con f s =>
      rw [recompute_Con hk] at hre
      have a3 := congrArg Parser.isNullableLocal hre
      simp only [Parser.withParseNull, Parser.withEmpty, Parser.withNullable] at a3
      rw [hnl.2] at a3
      have hfs : nullableView h f = true ∧ nullableView h s = true := by
        cases h1 : nullableView h f <;> cases h2 : nullableView h s <;> simp_all
      obtain ⟨a, ha⟩ := IHc f (by rw [hk]; simp [Kind.children]) hfs.1
      obtain ⟨b, hb⟩ := IHc s (by rw [hk]; simp [Kind.children]) hfs.2
      exact ⟨.pair a b, (parses_Con hp hk).2 ⟨[], [], a, b, rfl, rfl, ha, hb⟩⟩
    | Alt ps =>
      rw [recompute_Alt hk] at hre
      have a3 := congrArg Parser.isNullableLocal hre
      simp only [Parser.withParseNull, Parser.withEmpty, Parser.withNullable,
        altStep_foldl_empty, altStep_foldl_nullable, Bool.true_and, Bool.false_or] at a3
      rw [hnl.2] at a3
      have hany : ps.any (nullableView h) = true := by
        cases h1 : ps.all (emptyView h) <;> cases h2 : ps.any (nullableView h) <;> simp_all
      obtain ⟨q, hq, hqn⟩ := List.any_eq_true.1 hany
      obtain ⟨v, hv⟩ := IHc q (by rw [hk]; exact hq) hqn
      exact ⟨v, (parses_Alt hp hk).2 ⟨q, hq, hv⟩⟩
    | RecursiveParser r => have := hop.recursionFree; rw [hk] at this; exact this.elim
    | DFut q t => have := hop.recursionFree; rw [hk] at this; exact this.elim

theorem wellFormed_epsUnitHeap : WellFormed epsUnitHeap :=
  wellFormed_nil.alloc_Eps {Val.vec []}

theorem seeded_epsUnitHeap : Seeded epsUnitHeap 0 := by
  intro q o _ hq _
  cases q with
  | zero =>
    simp only [epsUnitHeap, List.getElem?_cons_zero, Option.some.injEq] at hq
    subst hq
    exact ⟨Val.vec [], Finset.mem_singleton_self _⟩
  | succ q => simp [epsUnitHeap] at hq

/-- On a recursion-free heap, for every object `p`, `isNullable` and `parseNull`
both return; if the set `parseNull` returns is non-empty then `isNullable`
returns true; and if no `Eps` object in `p` was built from the empty set of
values, `isNullable` returns true if and only if the set `parseNull` returns is
non-empty. -/
theorem getters_coherent_wellFormed {h : Heap} {p : Id}
    (hw : WellFormed h) (hpl : p < h.length) :
    ∃ n h1 b m h2 s, isNullable n h p = .ok (h1, b) ∧ parseNull m h p = .ok (h2, s) ∧
      (s.Nonempty → b = true) ∧ (Seeded h p → (b = true ↔ s.Nonempty)) := by
  obtain ⟨o, ho⟩ := exists_getElem?_of_lt hpl
  obtain ⟨n, h1, e1, hw1, ext1, len1, ⟨o1, ho1, hi1⟩, -, -⟩ := isNullable_wellFormed hw ho
  obtain ⟨m, h2, s, e2, -, ext2, -, -, sem2⟩ := parseNull_sound hw hpl
  have hsound := (views_sound p h1 o1 hw1 ho1 hi1).2
  have key : ∀ v, v ∈ s ↔ v ∈ parseNullView h1 p := by
    intro v
    rw [sem2 v, hsound.1 v, ext2.parses_iff hw hpl, ext1.parses_iff hw hpl]
  have hfwd : s.Nonempty → nullableView h1 p = true := by
    rintro ⟨v, hv⟩
    cases hb : nullableView h1 p with
    | true => rfl
    | false =>
      have hv' := (key v).1 hv
      rw [hsound.2 hb] at hv'
      exact absurd hv' (Finset.not_mem_empty v)
  refine ⟨n, h1, _, m, h2, s, e1, e2, hfwd, fun hseed => ⟨fun hb => ?_, hfwd⟩⟩
  obtain ⟨v, hv⟩ := nullable_complete p h1 o1 hw1 ho1 hi1 (hseed.to_ext ext1 len1) hb
  exact ⟨v, (key v).2 ((hsound.1 v).2 hv)⟩

/-! ### The derivative memo -/

/-- On a recursion-free heap `derive` returns, and every later call of `derive`
on the same object and terminal returns the same object and leaves the heap,
hence the memo, as it is. -/
theorem derive_twice_wellFormed {h : Heap} {p : Id} (hw : WellFormed h) (hpl : p < h.length)
    (t : T) :
    ∃ n h1 d, derive n h p t = .ok (h1, d) ∧ ∀ m, derive (m + 1) h1 p t = .ok (h1, d) := by
  obtain ⟨n, h1, d, e, P⟩ := derive_wellFormed p h t hw hpl
  obtain ⟨o1, ho1, hl⟩ := P.cached
  refine ⟨n, h1, d, e, fun m => ?_⟩
  simp only [derive, deref_eq_ok ho1, bind_ok, hl, pure_eq_ok]

/-! ### Every recursion-free grammar gives a heap with the invariant -/

mutual

theorem Term.build_wellFormed : ∀ (τ : Term) (h : Heap), WellFormed h →
    WellFormed (τ.build h).1 ∧ Ext h (τ.build h).1 ∧ (τ.build h).2 < (τ.build h).1.length
  | .emp, h, hw => by
    simp only [Term.build]
    exact ⟨hw.alloc_Emp, Ext.ext_alloc h _, by rw [length_alloc]; exact Nat.lt_succ_self _⟩
  | .eps g, h, hw => by
    simp only [Term.build]
    exact ⟨hw.alloc_Eps g, Ext.ext_alloc h _, by rw [length_alloc]; exact Nat.lt_succ_self _⟩
  | .eqT t, h, hw => by
    simp only [Term.build]
    exact ⟨hw.alloc_EqT t, Ext.ext_alloc h _, by rw [length_alloc]; exact Nat.lt_succ_self _⟩
  | .alt ts, h, hw => by
    obtain ⟨hw1, ext1, hlt⟩ := Term.buildList_wellFormed ts h hw
    simp only [Term.build]
    exact ⟨hw1.alloc_Alt _ hlt, ext1.ext_trans (Ext.ext_alloc _ _),
      by rw [length_alloc]; exact Nat.lt_succ_self _⟩
  | .con l r, h, hw => by
    obtain ⟨hw1, ext1, hlt1⟩ := Term.build_wellFormed l h hw
    obtain ⟨hw2, ext2, hlt2⟩ := Term.build_wellFormed r (l.build h).1 hw1
    simp only [Term.build]
    exact ⟨hw2.alloc_Con (ext2.lt_length hlt1) hlt2,
      (ext1.ext_trans ext2).ext_trans (Ext.ext_alloc _ _),
      by rw [length_alloc]; exact Nat.lt_succ_self _⟩
  | .red c f, h, hw => by
    obtain ⟨hw1, ext1, hlt1⟩ := Term.build_wellFormed c h hw
    simp only [Term.build]
    exact ⟨hw1.alloc_Red f hlt1, ext1.ext_trans (Ext.ext_alloc _ _),
      by rw [length_alloc]; exact Nat.lt_succ_self _⟩
  | .rep c, h, hw => by
    obtain ⟨hw1, ext1, hlt1⟩ := Term.build_wellFormed c h hw
    simp only [Term.build]
    exact ⟨hw1.alloc_Rep hlt1, ext1.ext_trans (Ext.ext_alloc _ _),
      by rw [length_alloc]; exact Nat.lt_succ_self _⟩

theorem Term.buildList_wellFormed : ∀ (ts : List Term) (h : Heap), WellFormed h →
    WellFormed (Term.buildList ts h).1 ∧ Ext h (Term.buildList ts h).1 ∧
      ∀ q ∈ (Term.buildList ts h).2, q < (Term.buildList ts h).1.length
  | [], h, hw => by
    simp only [Term.buildList]
    exact ⟨hw, Ext.ext_refl h, fun q hq => by cases hq⟩
  | t :: ts, h, hw => by
    obtain ⟨hw1, ext1, hlt1⟩ := Term.build_wellFormed t h hw
    obtain ⟨hw2, ext2, hlt2⟩ := Term.buildList_wellFormed ts (t.build h).1 hw1
    simp only [Term.buildList]
    refine ⟨hw2, ext1.ext_trans ext2, fun q hq => ?_⟩
    rcases mem_setInsert.1 hq with a | a
    · exact hlt2 q a
    · rw [a]; exact ext2.lt_length hlt1

end

/-- The heap a client gets by building a recursion-free grammar from nothing
satisfies the invariant `WellFormed`, and the grammar is an object of it: the
theorems about recursion-free heaps apply to every such grammar. -/
theorem Term.build_nil_wellFormed (τ : Term) :
    WellFormed (τ.build []).1 ∧ (τ.build []).2 < (τ.build []).1.length :=
  ⟨(Term.build_wellFormed τ [] wellFormed_nil).1, (Term.build_wellFormed τ [] wellFormed_nil).2.2⟩

/-! ### A recursion whose body is not bound -/

/-- C11 (counterexample): on the object `recursion()`, whose body is not bound,
`derive('a')` returns a term, the new object 1; no error is raised. -/
theorem unbound_recursion_error_fails :
    ¬ (∀ (n : Nat) (h : Heap) (p : Id) (o : Parser) (t : T), h[p]? = some o →
        o.kind = .RecursiveParser none → ∀ d, value (derive n h p t) ≠ .ok d) := by
  intro hall
  exact hall 2 unboundHeap 0 _ 97 rfl rfl 1 (by decide!)

/-- C11 (amended): on a `RecursiveParser` whose body is not bound, `derive(t)`
performs the operation: with no entry for `t` in the memo it allocates
`DFut(null, t)`, enters it in the memo and returns it.  The attribute queries
`isEmpty`, `isNullable`, `parseNull` on it (not yet initialized) fail on the
dereference of the null body in `oneShotUpdate` and return no result; no check
for an unbound body is made anywhere. -/
theorem unbound_recursion_derive_returns (n : Nat) (h : Heap) (p : Id) (o : Parser) (t : T)
    (hp : h[p]? = some o) (hk : o.kind = .RecursiveParser none)
    (hc : o.cache.lookup t = none) (hi : o.initialized = false) :
    derive (n + 2) h p t =
      .ok (cacheInsert (h ++ [Parser.newDFut none t]) p t h.length, h.length) ∧
    isEmpty (n + 5) h p = .error .null ∧
    isNullable (n + 6) h p = .error .null ∧
    parseNull (n + 6) h p = .error .null := by
  have he : isEmpty (n + 5) h p = .error .null := by
    simp only [isEmpty, init, initLoop, updateChildBasedAttributes, oneShotUpdate,
      deref_eq_ok hp, bind_ok, hi, hk, ChangeCell.new, List.not_mem_nil, if_false,
      Bool.false_eq_true, derefOpt, bind_error]
  refine ⟨?_, he, ?_, ?_⟩
  · simp only [derive, internalDerive, deref_eq_ok hp, bind_ok, hc, hk, pure_eq_ok, alloc]
  · rw [isNullable, he]; rfl
  · rw [parseNull, he]; rfl

/-- The object `recursion()` is a witness for the amended C11: `derive('a')`
returns the new object 1, a `DFut` that holds the null body. -/
theorem unbound_recursion_derive_returns_witness :
    unboundHeap[0]? = some (Parser.newRecursive none) ∧
    derive 2 unboundHeap 0 97 =
      .ok (cacheInsert (unboundHeap ++ [Parser.newDFut none 97]) 0 97 unboundHeap.length,
        unboundHeap.length) ∧
    isEmpty 5 unboundHeap 0 = .error .null ∧
    isNullable 6 unboundHeap 0 = .error .null ∧
    parseNull 6 unboundHeap 0 = .error .null :=
  ⟨rfl, unbound_recursion_derive_returns 0 unboundHeap 0 _ 97 rfl rfl rfl rfl⟩

/-! ### `parseFull` on a reduction and on a terminal; emptiness -/

/-- C12: on a recursion-free heap, for every object `p` that is a reduction
`Red q f` and every input `w`, `parseFull` returns on the child `q` a set `A`,
and on `p` it returns the set of the `f x` for `x` in `A`. -/
theorem parseFull_Red_eq_image {h : Heap} {p : Id} {o : Parser} {q : Id} {f : Val → Val}
    (hw : WellFormed h) (hp : h[p]? = some o) (hk : o.kind = .Red q f) (w : List T) :
    ∃ n h' A, parseFull n h q w = .ok (h', A) ∧
      parseFull (n + 1) h p w = .ok (h', A.image f) := by
  have hpl := lt_length_of_getElem? hp
  have hqp : q < p := (hw p o hp).children_lt q (by rw [hk]; simp [Kind.children])
  obtain ⟨n, h', A, e, -, -, -⟩ := parseFull_wellFormed w q h hw (Nat.lt_trans hqp hpl)
  refine ⟨n, h', A, e, ?_⟩
  simp only [parseFull, deref_eq_ok hp, bind_ok, hk, e, pure_eq_ok]

/-- The reduction `red(terminal('a'), x -> 'A')` on the input `['a']` is a
witness for C12. -/
theorem parseFull_Red_eq_image_witness :
    WellFormed altRedHeap ∧
    altRedHeap[1]? = some (Parser.newRed 0 (fun _ => Val.term 65)) ∧
    ∃ n h' A, parseFull n altRedHeap 0 [97] = .ok (h', A) ∧
      parseFull (n + 1) altRedHeap 1 [97] = .ok (h', A.image (fun _ => Val.term 65)) :=
  ⟨wellFormed_altRedHeap, rfl, parseFull_Red_eq_image wellFormed_altRedHeap rfl rfl [97]⟩

/-- C13: on a recursion-free heap, for every object `p` that is a terminal
`EqT c` and every input `w`, `parseFull` returns `{c}` if `w = [c]` and the
empty set otherwise. -/
theorem parseFull_EqT {h : Heap} {p : Id} {o : Parser} {c : T}
    (hw : WellFormed h) (hp : h[p]? = some o) (hk : o.kind = .EqT c) (w : List T) :
    ∃ n h', parseFull n h p w = .ok (h', if w = [c] then {Val.term c} else ∅) := by
  obtain ⟨n, h', S, e, -, -, sem⟩ := parseFull_wellFormed w p h hw (lt_length_of_getElem? hp)
  have hS : S = if w = [c] then {Val.term c} else ∅ := by
    apply Finset.ext
    intro v
    rw [sem v, parses_EqT hp hk]
    by_cases hwc : w = [c]
    · simp only [hwc, true_and, if_true, Finset.mem_singleton]
    · simp only [hwc, false_and, if_false, Finset.not_mem_empty]
  rw [hS] at e
  exact ⟨n, h', e⟩

/-- The terminal `terminal('a')` of `con(terminal('a'), terminal('b'))` on the
input `['a']` is a witness for C13. -/
theorem parseFull_EqT_witness :
    WellFormed conHeap ∧ conHeap[0]? = some (Parser.newEqT 97) ∧
    ∃ n h', parseFull n conHeap 0 [97] =
      .ok (h', if [97] = [97] then {Val.term 97} else ∅) :=
  ⟨wellFormed_conHeap, rfl, parseFull_EqT wellFormed_conHeap rfl rfl [97]⟩

/-- The examples of the specification for `terminal('a')`, evaluated, and an
input of length two. -/
theorem parseFull_EqT_examples :
    value (parseFull 30 [Parser.newEqT 97] 0 [97]) = .ok {Val.term 97} ∧
    value (parseFull 30 [Parser.newEqT 97] 0 [98]) = .ok ∅ ∧
    value (parseFull 30 [Parser.newEqT 97] 0 []) = .ok ∅ ∧
    value (parseFull 30 [Parser.newEqT 97] 0 [97, 97]) = .ok ∅ := by
  decide!

/-- C14: on a recursion-free heap `isEmpty` returns on every object `p`; if it
returns true then `parseFull` returns the empty set on `p` for every input; and
on a terminal `EqT c` both `isEmpty` and `isNullable` return false. -/
theorem isEmpty_true_parseFull_empty {h : Heap} {p : Id} {o : Parser}
    (hw : WellFormed h) (hp : h[p]? = some o) :
    ∃ n h1 e, isEmpty n h p = .ok (h1, e) ∧
      (e = true → ∀ w, ∃ m h2, parseFull m h p w = .ok (h2, ∅)) ∧
      (∀ c, o.kind = .EqT c → e = false ∧ ∃ m h2, isNullable m h p = .ok (h2, false)) := by
  have hpl := lt_length_of_getElem? hp
  obtain ⟨n, h1, e1, hw1, ext1, -, ⟨o1, ho1, hi1⟩, -, -⟩ := isEmpty_wellFormed hw hp
  obtain ⟨m, h2, e2, hw2, ext2, -, ⟨o2, ho2, hi2⟩, -, -⟩ := isNullable_wellFormed hw hp
  refine ⟨n, h1, _, e1, fun he w => ?_, fun c hk => ?_⟩
  · obtain ⟨k, h3, S, e3, -, -, sem⟩ := parseFull_wellFormed w p h hw hpl
    have hS : S = ∅ := by
      apply Finset.eq_empty_of_forall_not_mem
      intro v hv
      have hpar := (ext1.parses_iff hw hpl).2 ((sem v).1 hv)
      exact (views_sound p h1 o1 hw1 ho1 hi1).1 he w v hpar
    rw [hS] at e3
    exact ⟨k, h3, e3⟩
  · obtain ⟨o1', ho1', hk1⟩ := ext1.kind hp
    rw [ho1] at ho1'
    cases ho1'
    obtain ⟨o2', ho2', hk2⟩ := ext2.kind hp
    rw [ho2] at ho2'
    cases ho2'
    have c1 := (hw1 p o1 ho1).constructed
    have c2 := (hw2 p o2 ho2).constructed
    rw [hk1.trans hk] at c1
    rw [hk2.trans hk] at c2
    have v1 : emptyView h1 p = false := by simp only [emptyView, ho1]; exact c1.1
    have v2 : nullableView h2 p = false := by
      simp only [nullableView, ho2, c2.1, c2.2.1]; rfl
    rw [v2] at e2
    exact ⟨v1, m, h2, e2⟩

/-- The terminal `terminal('a')` of `con(terminal('a'), terminal('b'))` is a
witness for C14. -/
theorem isEmpty_true_parseFull_empty_witness :
    WellFormed conHeap ∧ conHeap[0]? = some (Parser.newEqT 97) ∧
    ∃ n h1 e, isEmpty n conHeap 0 = .ok (h1, e) ∧
      (e = true → ∀ w, ∃ m h2, parseFull m conHeap 0 w = .ok (h2, ∅)) ∧
      (∀ c, (Parser.newEqT 97).kind = .EqT c →
        e = false ∧ ∃ m h2, isNullable m conHeap 0 = .ok (h2, false)) :=
  ⟨wellFormed_conHeap, rfl, isEmpty_true_parseFull_empty wellFormed_conHeap rfl⟩

/-! ### The derivative of a repetition; the attributes at construction -/

/-- C15 (the code at the failing input): the derivative of a repetition `Rep i`
is `Red(Con(d, self), reductionOperation)` with `d` the derivative of the child
and `self` the same `Rep` object, as claimed; but `reductionOperation` puts the
head after the tail, `(a, xs) -> xs ++ [a]`, so that on `('a', ['b'])` it
returns `['b','a']` and not `['a','b']`. -/
theorem Rep_internalDerive_reverses {h : Heap} {p : Id} {o : Parser} {i : Id}
    (hp : h[p]? = some o) (hk : o.kind = .Rep i) (t : T) (n : Nat) (h1 : Heap) (d : Id)
    (hd : derive n h i t = .ok (h1, d)) :
    internalDerive (n + 1) h p t =
      .ok (h1 ++ [Parser.newCon d p] ++ [Parser.newRed h1.length reductionOperation],
        h1.length + 1) ∧
    (∀ a xs, reductionOperation (.pair a (.vec xs)) = .vec (xs ++ [a])) ∧
    reductionOperation (.pair (.term 97) (.vec [.term 98])) = .vec [.term 98, .term 97] ∧
    reductionOperation (.pair (.term 97) (.vec [.term 98])) ≠ .vec ([.term 97] ++ [.term 98]) := by
  refine ⟨?_, fun a xs => rfl, rfl, by decide⟩
  simp only [internalDerive, deref_eq_ok hp, bind_ok, hk, hd, pure_eq_ok, alloc,
    List.length_append, List.length_singleton]

/-- The repetition `rep(Emp())` is a witness for C15. -/
theorem Rep_internalDerive_reverses_witness :
    repEmpHeap[1]? = some (Parser.newRep 0) ∧
    derive 2 repEmpHeap 0 97 =
      .ok ([{ Parser.newEmp with cache := [(97, 0)] }, Parser.newRep 0], 0) ∧
    internalDerive 3 repEmpHeap 1 97 =
      .ok ([{ Parser.newEmp with cache := [(97, 0)] }, Parser.newRep 0] ++
          [Parser.newCon 0 1] ++ [Parser.newRed 2 reductionOperation], 2 + 1) ∧
    (∀ a xs, reductionOperation (.pair a (.vec xs)) = .vec (xs ++ [a])) ∧
    reductionOperation (.pair (.term 97) (.vec [.term 98])) = .vec [.term 98, .term 97] ∧
    reductionOperation (.pair (.term 97) (.vec [.term 98])) ≠ .vec ([.term 97] ++ [.term 98]) :=
  ⟨rfl, rfl, Rep_internalDerive_reverses (h := repEmpHeap) (o := Parser.newRep 0) rfl rfl 97 2
    _ 0 rfl⟩

/-- C20 (counterexample): the cached `isEmptyLocal` of a new `Con` is false, not
true. -/
theorem isEmptyLocal_starts_true_fails :
    ¬ (∀ (k : Kind), (Parser.base k).isEmptyLocal = true ∧
        (Parser.base k).isNullableLocal = false ∧ (Parser.base k).parseNullLocal = ∅) := by
  intro hall
  have := (hall (.Con 0 1)).1
  cases this

/-- C20 (amended): an object of a class without explicit initialization at
construction (`Alt`, `Con`, `Red`, `RecursiveParser`, `DFut`) starts, not yet
initialized, with `isEmptyLocal = false`, `isNullableLocal = false` and
`parseNullLocal` the empty set. -/
theorem attributes_start_false :
    (∀ ps, (Parser.newAlt ps).isEmptyLocal = false ∧ (Parser.newAlt ps).isNullableLocal = false ∧
      (Parser.newAlt ps).parseNullLocal = ∅ ∧ (Parser.newAlt ps).initialized = false) ∧
    (∀ f s, (Parser.newCon f s).isEmptyLocal = false ∧
      (Parser.newCon f s).isNullableLocal = false ∧
      (Parser.newCon f s).parseNullLocal = ∅ ∧ (Parser.newCon f s).initialized = false) ∧
    (∀ q f, (Parser.newRed q f).isEmptyLocal = false ∧
      (Parser.newRed q f).isNullableLocal = false ∧
      (Parser.newRed q f).parseNullLocal = ∅ ∧ (Parser.newRed q f).initialized = false) ∧
    (∀ r, (Parser.newRecursive r).isEmptyLocal = false ∧
      (Parser.newRecursive r).isNullableLocal = false ∧
      (Parser.newRecursive r).parseNullLocal = ∅ ∧ (Parser.newRecursive r).initialized = false) ∧
    (∀ q t, (Parser.newDFut q t).isEmptyLocal = false ∧
      (Parser.newDFut q t).isNullableLocal = false ∧
      (Parser.newDFut q t).parseNullLocal = ∅ ∧ (Parser.newDFut q t).initialized = false) :=
  ⟨fun _ => ⟨rfl, rfl, rfl, rfl⟩, fun _ _ => ⟨rfl, rfl, rfl, rfl⟩,
    fun _ _ => ⟨rfl, rfl, rfl, rfl⟩, fun _ => ⟨rfl, rfl, rfl, rfl⟩,
    fun _ _ => ⟨rfl, rfl, rfl, rfl⟩⟩

/-! ### The equations of the attributes -/

/-- On a recursion-free heap the three getters return on every object, leave
the same heap, in which the object is initialized, and return the values read
off that heap. -/
theorem getters_wellFormed {h : Heap} {p : Id} {o : Parser} (hw : WellFormed h)
    (hp : h[p]? = some o) :
    ∃ n h', isEmpty n h p = .ok (h', emptyView h' p) ∧
      isNullable n h p = .ok (h', nullableView h' p) ∧
      parseNull n h p = .ok (h', parseNullView h' p) ∧
      WellFormed h' ∧ Ext h h' ∧ h'.length = h.length ∧ Initialized h' p ∧ SameCaches h h' := by
  obtain ⟨n, h', e, hw', hext, hlen, ⟨o', hp', hi'⟩, -, hsc⟩ := isEmpty_wellFormed hw hp
  refine ⟨n + 2, h', isEmpty_mono e (by omega), ?_, ?_, hw', hext, hlen, ⟨o', hp', hi'⟩, hsc⟩
  · have f1 := isEmpty_mono e (by omega : n ≤ n + 1)
    have f2 := init_mono (init_of_initialized hp' hi' 0) (by omega : 1 ≤ n + 1)
    simp only [isNullable, f1, bind_ok, f2, deref_eq_ok hp', pure_eq_ok, emptyView, nullableView,
      hp']
    cases o'.isEmptyLocal <;> simp
  · have f1 := isEmpty_mono e (by omega : n ≤ n + 1)
    have f2 := init_mono (init_of_initialized hp' hi' 0) (by omega : 1 ≤ n + 1)
    simp only [parseNull, f1, bind_ok, f2, deref_eq_ok hp', pure_eq_ok, emptyView, parseNullView,
      hp']
    cases o'.isEmptyLocal <;> simp

/-- C18: on a recursion-free heap the getters `isEmpty`, `isNullable`,
`parseNull` return on every object `p` values `E`, `N`, `P`; after that the
getters return on every child `c` of `p` the values `emptyView c`,
`nullableView c`, `parseNullView c` without changing the heap; and these values
satisfy the equations of the class of `p`: for `Alt`, `P` is the union of the
children's `parseNull`, `E` the conjunction of the children's `isEmpty`, `N` is
`not E` and some child nullable; for `Con`, `P` is the set of pairs, `E` is
`isEmpty(L) or isEmpty(R)`, `N` is `not E` and both nullable; for `Red`, `P` is
the image under `f`, `E` and `N` are those of the child. -/
theorem getters_satisfy_equations {h : Heap} {p : Id} {o : Parser} (hw : WellFormed h)
    (hp : h[p]? = some o) :
    ∃ n h1 E N P, isEmpty n h p = .ok (h1, E) ∧ isNullable n h p = .ok (h1, N) ∧
      parseNull n h p = .ok (h1, P) ∧
      (∀ c ∈ o.kind.children, ∀ m,
        isEmpty (m + 2) h1 c = .ok (h1, emptyView h1 c) ∧
        isNullable (m + 3) h1 c = .ok (h1, nullableView h1 c) ∧
        parseNull (m + 3) h1 c = .ok (h1, parseNullView h1 c)) ∧
      (∀ ps, o.kind = .Alt ps →
        (∀ v, v ∈ P ↔ ∃ c ∈ ps, v ∈ parseNullView h1 c) ∧
        E = ps.all (emptyView h1) ∧ N = (!E && ps.any (nullableView h1))) ∧
      (∀ f s, o.kind = .Con f s →
        (∀ v, v ∈ P ↔ ∃ a b, v = Val.pair a b ∧ a ∈ parseNullView h1 f ∧
          b ∈ parseNullView h1 s) ∧
        E = (emptyView h1 f || emptyView h1 s) ∧
        N = (!E && (nullableView h1 f && nullableView h1 s))) ∧
      (∀ q f, o.kind = .Red q f →
        P = (parseNullView h1 q).image f ∧ E = emptyView h1 q ∧ N = nullableView h1 q) := by
  obtain ⟨n, h1, e1, e2, e3, hw1, ext1, -, ⟨o1, ho1, hi1⟩, -⟩ := getters_wellFormed hw hp
  obtain ⟨o1', ho1', hk1⟩ := ext1.kind hp
  rw [ho1] at ho1'
  cases ho1'
  have hop := hw1 p o1 ho1
  obtain ⟨hch, hre⟩ := hop.attributes hi1
  have eE : emptyView h1 p = o1.isEmptyLocal := by simp only [emptyView, ho1]
  have eN : nullableView h1 p = (!o1.isEmptyLocal && o1.isNullableLocal) := by
    simp only [nullableView, ho1]
  have eP : parseNullView h1 p = if o1.isEmptyLocal then ∅ else o1.parseNullLocal := by
    simp only [parseNullView, ho1]
  refine ⟨n, h1, _, _, _, e1, e2, e3, fun c hc m => ?_, fun ps hk => ?_, fun f s hk => ?_,
    fun q f hk => ?_⟩
  · obtain ⟨oc, hoc, hic⟩ := hch c (by rw [hk1]; exact hc)
    exact ⟨isEmpty_of_initialized hoc hic m, isNullable_of_initialized hoc hic m,
      parseNull_of_initialized hoc hic m⟩
  · have hk' := hk1.trans hk
    rw [recompute_Alt hk'] at hre
    have a1 := congrArg Parser.parseNullLocal hre
    have a2 := congrArg Parser.isEmptyLocal hre
    have a3 := congrArg Parser.isNullableLocal hre
    simp only [Parser.withParseNull, Parser.withEmpty, Parser.withNullable,
      altStep_foldl_empty, altStep_foldl_nullable, Bool.true_and, Bool.false_or] at a1 a2 a3
    rw [eE, eN, eP, ← a1, ← a2, ← a3]
    refine ⟨fun v => ?_, rfl, ?_⟩
    · by_cases he : ps.all (emptyView h1) = true
      · simp only [he, if_true, Finset.not_mem_empty, false_iff, not_exists, not_and]
        intro c hc hv
        rw [parseNullView_of_emptyView (List.all_eq_true.1 he c hc)] at hv
        exact absurd hv (Finset.not_mem_empty v)
      · simp only [he, if_false, mem_altStep_foldl, Finset.not_mem_empty, false_or,
          Bool.false_eq_true]
    · cases ps.all (emptyView h1) <;> cases ps.any (nullableView h1) <;> rfl
  · have hk' := hk1.trans hk
    rw [recompute_Con hk'] at hre
    have a1 := congrArg Parser.parseNullLocal hre
    have a2 := congrArg Parser.isEmptyLocal hre
    have a3 := congrArg Parser.isNullableLocal hre
    simp only [Parser.withParseNull, Parser.withEmpty, Parser.withNullable] at a1 a2 a3
    rw [eE, eN, eP, ← a1, ← a2, ← a3]
    refine ⟨fun v => ?_, rfl, ?_⟩
    · by_cases he : (emptyView h1 f || emptyView h1 s) = true
      · simp only [he, if_true, Finset.not_mem_empty, false_iff, not_exists, not_and]
        intro a b _ ha hb
        rcases Bool.or_eq_true_iff.1 he with e | e
        · rw [parseNullView_of_emptyView e] at ha
          exact absurd ha (Finset.not_mem_empty a)
        · rw [parseNullView_of_emptyView e] at hb
          exact absurd hb (Finset.not_mem_empty b)
      · simp only [he, if_false, Finset.mem_image, Finset.mem_product, Prod.exists,
          Bool.false_eq_true]
        constructor
        · rintro ⟨a, b, ⟨ha, hb⟩, rfl⟩
          exact ⟨a, b, rfl, ha, hb⟩
        · rintro ⟨a, b, rfl, ha, hb⟩
          exact ⟨a, b, ⟨ha, hb⟩, rfl⟩
    · cases emptyView h1 f <;> cases emptyView h1 s <;> cases nullableView h1 f <;>
        cases nullableView h1 s <;> rfl
  · have hk' := hk1.trans hk
    rw [recompute_Red hk'] at hre
    have a1 := congrArg Parser.parseNullLocal hre
    have a2 := congrArg Parser.isEmptyLocal hre
    have a3 := congrArg Parser.isNullableLocal hre
    simp only [Parser.withParseNull, Parser.withEmpty, Parser.withNullable] at a1 a2 a3
    rw [eE, eN, eP, ← a1, ← a2, ← a3]
    refine ⟨?_, rfl, ?_⟩
    · by_cases he : emptyView h1 q = true
      · rw [if_pos he, parseNullView_of_emptyView he]
        rfl
      · rw [if_neg he]
    · have hnv : nullableView h1 q = true → emptyView h1 q = false := by
        intro hn
        unfold nullableView at hn
        unfold emptyView
        cases hq : h1[q]? with
        | none => rfl
        | some oq =>
          rw [hq] at hn
          simp only [Bool.and_eq_true, Bool.not_eq_true'] at hn
          exact hn.1
      cases h2 : nullableView h1 q with
      | false => simp
      | true => rw [hnv h2]; rfl

/-- The concatenation `con(terminal('a'), terminal('b'))` is a witness for C18. -/
theorem getters_satisfy_equations_witness :
    WellFormed conHeap ∧ conHeap[2]? = some (Parser.newCon 0 1) ∧
    ∃ n h1 E N P, isEmpty n conHeap 2 = .ok (h1, E) ∧ isNullable n conHeap 2 = .ok (h1, N) ∧
      parseNull n conHeap 2 = .ok (h1, P) ∧
      (∀ c ∈ (Parser.newCon 0 1).kind.children, ∀ m,
        isEmpty (m + 2) h1 c = .ok (h1, emptyView h1 c) ∧
        isNullable (m + 3) h1 c = .ok (h1, nullableView h1 c) ∧
        parseNull (m + 3) h1 c = .ok (h1, parseNullView h1 c)) ∧
      (∀ ps, (Parser.newCon 0 1).kind = .Alt ps →
        (∀ v, v ∈ P ↔ ∃ c ∈ ps, v ∈ parseNullView h1 c) ∧
        E = ps.all (emptyView h1) ∧ N = (!E && ps.any (nullableView h1))) ∧
      (∀ f s, (Parser.newCon 0 1).kind = .Con f s →
        (∀ v, v ∈ P ↔ ∃ a b, v = Val.pair a b ∧ a ∈ parseNullView h1 f ∧
          b ∈ parseNullView h1 s) ∧
        E = (emptyView h1 f || emptyView h1 s) ∧
        N = (!E && (nullableView h1 f && nullableView h1 s))) ∧
      (∀ q f, (Parser.newCon 0 1).kind = .Red q f →
        P = (parseNullView h1 q).image f ∧ E = emptyView h1 q ∧ N = nullableView h1 q) :=
  ⟨wellFormed_conHeap, rfl, getters_satisfy_equations wellFormed_conHeap rfl⟩

/-! ### The cases of the derivative of a concatenation -/

theorem Ext.emptyView_eq {h h' : Heap} (e : Ext h h') {q : Id} (hq : Initialized h q) :
    emptyView h' q = emptyView h q := by
  obtain ⟨o, ho, hi⟩ := hq
  obtain ⟨o', ho', -, -, hs, -⟩ := e.node q o ho
  simp only [emptyView, ho, ho']
  exact (hs (Or.inl hi)).1

theorem Con_internalDerive_forward {h : Heap} {p : Id} {o : Parser} {f s : Id}
    (hp : h[p]? = some o) (hk : o.kind = .Con f s) (t : T) :
    ∀ n h1 Ld h3 e h5 nl,
      derive n h f t = .ok (h1, Ld) →
      isEmpty n (alloc h1 Parser.newEmp).1 Ld = .ok (h3, e) →
      isNullable n (primaryRet h3 h1.length e Ld s).1 f = .ok (h5, nl) →
      (nl = false →
        internalDerive (n + 1) h p t = .ok (h5, (primaryRet h3 h1.length e Ld s).2)) ∧
      (nl = true → ∀ h6 fn h8 Rd h9,
        parseNull n h5 f = .ok (h6, fn) →
        derive n (alloc h6 (Parser.newEps fn)).1 s t = .ok (h8, Rd) →
        isEmpty n h8 Ld = .ok (h9, e) →
        (e = false →
          internalDerive (n + 1) h p t =
            .ok (alloc (alloc h9 (Parser.newCon h6.length Rd)).1
              (Parser.newAlt
                (setInsert (setInsert [] (primaryRet h3 h1.length e Ld s).2) h9.length)))) ∧
        (e = true → ∀ h10 re, isEmpty n h9 Rd = .ok (h10, re) →
          (re = true → internalDerive (n + 1) h p t = .ok (h10, h1.length)) ∧
          (re = false →
            internalDerive (n + 1) h p t = .ok (alloc h10 (Parser.newCon h6.length Rd))))) := by
  intro n h1 Ld h3 e h5 nl e1 e3 e5
  simp only [alloc, primaryRet] at e3 e5 ⊢
  refine ⟨fun hnl => ?_, fun hnl h6 fn h8 Rd h9 e6 e8 e9 => ⟨fun he => ?_, fun he h10 re e10 =>
    ⟨fun hre => ?_, fun hre => ?_⟩⟩⟩
  · subst hnl
    simp only [internalDerive, deref_eq_ok hp, bind_ok, hk, e1, alloc, e3, e5,
      Bool.false_eq_true, if_false, pure_eq_ok]
  · subst hnl; subst he
    simp only [Bool.not_false, if_true] at e5 ⊢
    simp only [internalDerive, deref_eq_ok hp, bind_ok, hk, e1, alloc, e3, e5, e6, e8, e9,
      Bool.not_false, Bool.false_eq_true, if_true, if_false, pure_eq_ok]
  · subst hnl; subst he; subst hre
    simp only [Bool.not_true, Bool.false_eq_true, if_false] at e5
    simp only [internalDerive, deref_eq_ok hp, bind_ok, hk, e1, alloc, e3, e5, e6, e8, e9, e10,
      Bool.not_true, Bool.false_eq_true, if_true, if_false, pure_eq_ok]
  · subst hnl; subst he; subst hre
    simp only [Bool.not_true, Bool.false_eq_true, if_false] at e5
    simp only [internalDerive, deref_eq_ok hp, bind_ok, hk, e1, alloc, e3, e5, e6, e8, e9, e10,
      Bool.not_true, Bool.false_eq_true, if_true, if_false, pure_eq_ok]

theorem Con_internalDerive_returns {h : Heap} {p : Id} {o : Parser} {f s : Id}
    (hw : WellFormed h) (hp : h[p]? = some o) (hk : o.kind = .Con f s) (t : T) :
    ∃ n h1 Ld h3 e h5 nl h6 fn h8 Rd h9 h10 re,
      derive n h f t = .ok (h1, Ld) ∧
      isEmpty n (alloc h1 Parser.newEmp).1 Ld = .ok (h3, e) ∧
      isNullable n (primaryRet h3 h1.length e Ld s).1 f = .ok (h5, nl) ∧
      parseNull n h5 f = .ok (h6, fn) ∧
      derive n (alloc h6 (Parser.newEps fn)).1 s t = .ok (h8, Rd) ∧
      isEmpty n h8 Ld = .ok (h9, e) ∧
      isEmpty n h9 Rd = .ok (h10, re) := by
  have hpl := lt_length_of_getElem? hp
  have hfp : f < p := (hw p o hp).children_lt f (by rw [hk]; simp [Kind.children])
  have hsp : s < p := (hw p o hp).children_lt s (by rw [hk]; simp [Kind.children])
  have hfl : f < h.length := Nat.lt_trans hfp hpl
  have hsl : s < h.length := Nat.lt_trans hsp hpl
  obtain ⟨n1, h1, Ld, e1, P1⟩ := derive_wellFormed f h t hw hfl
  have hw2 : WellFormed (alloc h1 Parser.newEmp).1 := P1.wf.alloc_Emp
  have ext12 := Ext.ext_alloc h1 Parser.newEmp
  have hL2 : Ld < (alloc h1 Parser.newEmp).1.length := ext12.lt_length P1.lt
  obtain ⟨oL, hoL⟩ := exists_getElem?_of_lt hL2
  obtain ⟨n3, h3, e3, hw3, ext3, -, hi3, -, -⟩ := isEmpty_wellFormed hw2 hoL
  have ext03 := P1.ext.ext_trans (ext12.ext_trans ext3)
  have hL3 : Ld < h3.length := ext3.lt_length hL2
  have hs3 : s < h3.length := ext03.lt_length hsl
  have hPR : WellFormed (primaryRet h3 h1.length (emptyView h3 Ld) Ld s).1 ∧
      Ext h3 (primaryRet h3 h1.length (emptyView h3 Ld) Ld s).1 := by
    unfold primaryRet
    cases emptyView h3 Ld
    · simp only [Bool.not_false, if_true]
      exact ⟨hw3.alloc_Con hL3 hs3, Ext.ext_alloc _ _⟩
    · simp only [Bool.not_true, Bool.false_eq_true, if_false]
      exact ⟨hw3, Ext.ext_refl _⟩
  obtain ⟨hw4, ext34⟩ := hPR
  have ext04 := ext03.ext_trans ext34
  obtain ⟨of4, hof4⟩ := exists_getElem?_of_lt (ext04.lt_length hfl)
  obtain ⟨n5, h5, e5, hw5, ext5, -, -, -, -⟩ := isNullable_wellFormed hw4 hof4
  have ext05 := ext04.ext_trans ext5
  obtain ⟨of5, hof5⟩ := exists_getElem?_of_lt (ext05.lt_length hfl)
  obtain ⟨n6, h6, e6, hw6, ext6, -, -, -, -⟩ := parseNull_wellFormed hw5 hof5
  have hw7 : WellFormed (alloc h6 (Parser.newEps (parseNullView h6 f))).1 := hw6.alloc_Eps _
  have ext67 := Ext.ext_alloc h6 (Parser.newEps (parseNullView h6 f))
  have ext07 := ext05.ext_trans (ext6.ext_trans ext67)
  obtain ⟨n8, h8, Rd, e8, P8⟩ := derive_wellFormed s _ t hw7 (ext07.lt_length hsl)
  have ext38 := ext34.ext_trans (ext5.ext_trans (ext6.ext_trans (ext67.ext_trans P8.ext)))
  obtain ⟨oL8, hoL8⟩ := exists_getElem?_of_lt (ext38.lt_length hL3)
  obtain ⟨n9, h9, e9, hw9, ext9, -, -, -, -⟩ := isEmpty_wellFormed P8.wf hoL8
  rw [(ext38.ext_trans ext9).emptyView_eq hi3] at e9
  obtain ⟨oR9, hoR9⟩ := exists_getElem?_of_lt (ext9.lt_length P8.lt)
  obtain ⟨n10, h10, e10, -, -, -, -, -, -⟩ := isEmpty_wellFormed hw9 hoR9
  exact ⟨n1 + n3 + n5 + n6 + n8 + n9 + n10, h1, Ld, h3, _, h5, _, h6, _, h8, Rd, h9, h10, _,
    derive_mono e1 (by omega), isEmpty_mono e3 (by omega), isNullable_mono e5 (by omega),
    parseNull_mono e6 (by omega), derive_mono e8 (by omega), isEmpty_mono e9 (by omega),
    isEmpty_mono e10 (by omega)⟩

/-- C16: for every object `p` that is a concatenation `Con f s` and every
terminal `t`, with `Ld` the derivative of `f`, `Rd` the derivative of `s`, `e`
what `isEmpty(Ld)` returns and `first` the object `primaryRet` (the new `Emp`
object if `e`, a new `Con(Ld, s)` otherwise): whatever the heap and the call
budget, once the queries have returned, `internalDerive` returns `first` when
`f` is not nullable; otherwise the `Emp` object when both `Ld` and `Rd` are
empty, a new `Con(Eps(parseNull(f)), Rd)` when only `Ld` is empty, and a new
`Alt({first, Con(Eps(parseNull(f)), Rd)})` when `Ld` is not empty.  On a
recursion-free heap all the queries return, `isEmpty(Ld)` with the same value
both times. -/
theorem Con_internalDerive_cases {h : Heap} {p : Id} {o : Parser} {f s : Id}
    (hp : h[p]? = some o) (hk : o.kind = .Con f s) (t : T) :
    (∀ n h1 Ld h3 e h5 nl,
      derive n h f t = .ok (h1, Ld) →
      isEmpty n (alloc h1 Parser.newEmp).1 Ld = .ok (h3, e) →
      isNullable n (primaryRet h3 h1.length e Ld s).1 f = .ok (h5, nl) →
      (nl = false →
        internalDerive (n + 1) h p t = .ok (h5, (primaryRet h3 h1.length e Ld s).2)) ∧
      (nl = true → ∀ h6 fn h8 Rd h9,
        parseNull n h5 f = .ok (h6, fn) →
        derive n (alloc h6 (Parser.newEps fn)).1 s t = .ok (h8, Rd) →
        isEmpty n h8 Ld = .ok (h9, e) →
        (e = false →
          internalDerive (n + 1) h p t =
            .ok (alloc (alloc h9 (Parser.newCon h6.length Rd)).1
              (Parser.newAlt
                (setInsert (setInsert [] (primaryRet h3 h1.length e Ld s).2) h9.length)))) ∧
        (e = true → ∀ h10 re, isEmpty n h9 Rd = .ok (h10, re) →
          (re = true → internalDerive (n + 1) h p t = .ok (h10, h1.length)) ∧
          (re = false →
            internalDerive (n + 1) h p t = .ok (alloc h10 (Parser.newCon h6.length Rd)))))) ∧
    (WellFormed h →
      ∃ n h1 Ld h3 e h5 nl h6 fn h8 Rd h9 h10 re,
        derive n h f t = .ok (h1, Ld) ∧
        isEmpty n (alloc h1 Parser.newEmp).1 Ld = .ok (h3, e) ∧
        isNullable n (primaryRet h3 h1.length e Ld s).1 f = .ok (h5, nl) ∧
        parseNull n h5 f = .ok (h6, fn) ∧
        derive n (alloc h6 (Parser.newEps fn)).1 s t = .ok (h8, Rd) ∧
        isEmpty n h8 Ld = .ok (h9, e) ∧
        isEmpty n h9 Rd = .ok (h10, re)) :=
  ⟨Con_internalDerive_forward hp hk t, fun hw => Con_internalDerive_returns hw hp hk t⟩

/-- The concatenation `con(terminal('a'), terminal('b'))` and the terminal
`'a'` are a witness for C16: all the queries of `Con::internalDerive` return. -/
theorem Con_internalDerive_cases_witness :
    conHeap[2]? = some (Parser.newCon 0 1) ∧
    ∃ n h1 Ld h3 e h5 nl h6 fn h8 Rd h9 h10 re,
      derive n conHeap 0 97 = .ok (h1, Ld) ∧
      isEmpty n (alloc h1 Parser.newEmp).1 Ld = .ok (h3, e) ∧
      isNullable n (primaryRet h3 h1.length e Ld 1).1 0 = .ok (h5, nl) ∧
      parseNull n h5 0 = .ok (h6, fn) ∧
      derive n (alloc h6 (Parser.newEps fn)).1 1 97 = .ok (h8, Rd) ∧
      isEmpty n h8 Ld = .ok (h9, e) ∧
      isEmpty n h9 Rd = .ok (h10, re) :=
  ⟨rfl, (Con_internalDerive_cases (h := conHeap) (p := 2) (o := Parser.newCon 0 1) rfl rfl 97).2
    wellFormed_conHeap⟩

/-! ### The cases of the derivative of an alternation -/

theorem internalDerive_Alt_eq {h : Heap} {p : Id} {o : Parser} {ps : List Id}
    (hp : h[p]? = some o) (hk : o.kind = .Alt ps) (t : T) (n : Nat) :
    internalDerive (n + 1) h p t =
      (ps.foldlM (altDeriveStep n t) (h, []) >>= fun r =>
        match r.2 with
        | [d] => pure (r.1, d)
        | _ => pure (alloc r.1 (Parser.newAlt r.2))) := by
  rw [internalDerive]
  simp only [deref_eq_ok hp, bind_ok, hk]
  rfl

theorem Ext.cached {h h' : Heap} (e : Ext h h') {c x : Id} {t : T} (hc : Cached h c t x) :
    Cached h' c t x := by
  obtain ⟨o, ho, hl⟩ := hc
  obtain ⟨o', ho', -, -, -, hcache⟩ := e.node c o ho
  exact ⟨o', ho', hcache t x hl⟩

theorem Cached.unique {h : Heap} {c x y : Id} {t : T} (hx : Cached h c t x)
    (hy : Cached h c t y) : x = y := by
  obtain ⟨o, ho, hl⟩ := hx
  obtain ⟨o', ho', hl'⟩ := hy
  rw [ho] at ho'
  cases ho'
  rw [hl] at hl'
  exact Option.some.inj hl'

theorem Cached.derive {h : Heap} {c x : Id} {t : T} (hx : Cached h c t x) (m : Nat) :
    yidpp.derive (m + 1) h c t = .ok (h, x) := by
  obtain ⟨o, ho, hl⟩ := hx
  simp only [yidpp.derive, deref_eq_ok ho, bind_ok, hl, pure_eq_ok]

theorem nodup_setInsert {S : List Id} (hS : S.Nodup) (d : Id) : (setInsert S d).Nodup := by
  unfold setInsert
  split
  · exact hS
  · rename_i hd
    exact List.nodup_append.2 ⟨hS, List.nodup_singleton d, by
      intro a ha hb
      rw [List.mem_singleton] at hb
      exact hd (hb ▸ ha)⟩

theorem altDeriveStep_loop_mono {n m : Nat} (hnm : n ≤ m) (t : T) (qs : List Id)
    (s r : Heap × List Id) (hr : qs.foldlM (altDeriveStep n t) s = .ok r) :
    qs.foldlM (altDeriveStep m t) s = .ok r :=
  alt_loop_mono hnm t qs s r hr

/-- The loop of `Alt::internalDerive` on a recursion-free heap: it returns, and
the set it builds holds exactly the memoized derivatives of the children that
are not empty. -/
theorem alt_loop_shape (p : Id) (t : T) (qs : List Id) (hqs : ∀ q ∈ qs, q < p) :
    ∀ (h : Heap) (S : List Id), WellFormed h → p < h.length → S.Nodup →
      ∃ n h' S', qs.foldlM (altDeriveStep n t) (h, S) = .ok (h', S') ∧
        WellFormed h' ∧ Ext h h' ∧ S'.Nodup ∧ (∀ c ∈ qs, Initialized h' c) ∧
        (∀ x, x ∈ S' ↔ x ∈ S ∨ ∃ c ∈ qs, emptyView h' c = false ∧ Cached h' c t x) := by
  induction qs with
  | nil =>
    intro h S hw _ hS
    exact ⟨0, h, S, rfl, hw, Ext.ext_refl h, hS, fun c hc => (by cases hc), fun x => (by simp)⟩
  | cons q qs ih =>
    intro h S hw hpl hS
    have hqp : q < p := hqs q (List.mem_cons_self _ _)
    obtain ⟨oq, hoq⟩ := exists_getElem?_of_lt (Nat.lt_trans hqp hpl)
    obtain ⟨n1, h1, e1, hw1, ext1, -, hi1, -, -⟩ := isEmpty_wellFormed hw hoq
    have hpl1 := ext1.lt_length hpl
    cases he : emptyView h1 q with
    | true =>
      rw [he] at e1
      obtain ⟨n2, h2, S', e2, hw2, ext2, hS2, hi2, hm2⟩ :=
        ih (fun q' hq' => hqs q' (List.mem_cons_of_mem _ hq')) h1 S hw1 hpl1 hS
      have heq : emptyView h2 q = true := (ext2.emptyView_eq hi1).trans he
      refine ⟨n1 + n2, h2, S', ?_, hw2, ext1.ext_trans ext2, hS2, fun c hc => ?_, fun x => ?_⟩
      · have f1 := isEmpty_mono e1 (by omega : n1 ≤ n1 + n2)
        simp only [List.foldlM, altDeriveStep, f1, bind_ok, Bool.not_true, Bool.false_eq_true,
          if_false, pure_eq_ok]
        exact altDeriveStep_loop_mono (by omega : n2 ≤ n1 + n2) t qs _ _ e2
      · rcases List.mem_cons.1 hc with rfl | hc
        · exact ext2.initialized hi1
        · exact hi2 c hc
      · rw [hm2 x]
        constructor
        · rintro (a | ⟨c, hc, a⟩)
          · exact Or.inl a
          · exact Or.inr ⟨c, List.mem_cons_of_mem _ hc, a⟩
        · rintro (a | ⟨c, hc, a, b⟩)
          · exact Or.inl a
          · rcases List.mem_cons.1 hc with rfl | hc
            · rw [heq] at a
              cases a
            · exact Or.inr ⟨c, hc, a, b⟩
    | false =>
      rw [he] at e1
      obtain ⟨n2, h2, d, e2, P2⟩ := derive_wellFormed q h1 t hw1 (ext1.lt_length
        (Nat.lt_trans hqp hpl))
      obtain ⟨n3, h3, S', e3, hw3, ext3, hS3, hi3, hm3⟩ :=
        ih (fun q' hq' => hqs q' (List.mem_cons_of_mem _ hq')) h2 (setInsert S d) P2.wf
          (P2.ext.lt_length hpl1) (nodup_setInsert hS d)
      have heq : emptyView h3 q = false :=
        ((P2.ext.ext_trans ext3).emptyView_eq hi1).trans he
      have hcd : Cached h3 q t d := ext3.cached P2.cached
      refine ⟨n1 + n2 + n3, h3, S', ?_, hw3, (ext1.ext_trans P2.ext).ext_trans ext3, hS3,
        fun c hc => ?_, fun x => ?_⟩
      · have f1 := isEmpty_mono e1 (by omega : n1 ≤ n1 + n2 + n3)
        have f2 := derive_mono e2 (by omega : n2 ≤ n1 + n2 + n3)
        simp only [List.foldlM, altDeriveStep, f1, bind_ok, Bool.not_false, if_true, f2,
          pure_eq_ok]
        exact altDeriveStep_loop_mono (by omega : n3 ≤ n1 + n2 + n3) t qs _ _ e3
      · rcases List.mem_cons.1 hc with rfl | hc
        · exact (P2.ext.ext_trans ext3).initialized hi1
        · exact hi3 c hc
      · rw [hm3 x, mem_setInsert]
        constructor
        · rintro ((a | rfl) | ⟨c, hc, a⟩)
          · exact Or.inl a
          · exact Or.inr ⟨q, List.mem_cons_self _ _, heq, hcd⟩
          · exact Or.inr ⟨c, List.mem_cons_of_mem _ hc, a⟩
        · rintro (a | ⟨c, hc, a, b⟩)
          · exact Or.inl (Or.inl a)
          · rcases List.mem_cons.1 hc with rfl | hc
            · exact Or.inl (Or.inr (b.unique hcd))
            · exact Or.inr ⟨c, hc, a, b⟩
theorem cached_of_derive_one {h h' : Heap} {c x : Id} {t : T}
    (hd : derive 1 h c t = .ok (h', x)) : Cached h c t x := by
  unfold derive at hd
  cases ho : h[c]? with
  | none => simp only [deref, ho, bind_error] at hd; cases hd
  | some o =>
    simp only [deref_eq_ok ho, bind_ok] at hd
    cases hl : o.cache.lookup t with
    | none =>
      rw [hl] at hd
      simp only [internalDerive, bind_error] at hd
      cases hd
    | some d =>
      rw [hl] at hd
      simp only [pure_eq_ok, Except.ok.injEq, Prod.mk.injEq] at hd
      exact ⟨o, ho, by rw [hl, hd.2]⟩

/-- C17: for every object `p` that is an alternation `Alt ps` and every
terminal `t`: the loop of `Alt::internalDerive` skips a child on which `isEmpty`
returns true (it is not derived, `NewSet` is unchanged) and inserts the
derivative of a child on which `isEmpty` returns false; whatever the heap and
the call budget, once the loop has returned `NewSet`, `internalDerive` returns
the element of `NewSet` when it has exactly one, and a new `Alt(NewSet)`
otherwise (also when `NewSet` is empty).  On a recursion-free heap the loop
returns, and `NewSet` holds, without repetition, exactly the derivatives of the
children on which `isEmpty` returns false. -/
theorem Alt_internalDerive_cases {h : Heap} {p : Id} {o : Parser} {ps : List Id}
    (hp : h[p]? = some o) (hk : o.kind = .Alt ps) (t : T) :
    (∀ n hS S c h1, isEmpty n hS c = .ok (h1, true) →
      altDeriveStep n t (hS, S) c = .ok (h1, S)) ∧
    (∀ n hS S c h1 h2 d, isEmpty n hS c = .ok (h1, false) → derive n h1 c t = .ok (h2, d) →
      altDeriveStep n t (hS, S) c = .ok (h2, setInsert S d)) ∧
    (∀ n h' S', ps.foldlM (altDeriveStep n t) (h, []) = .ok (h', S') →
      (∀ d, S' = [d] → internalDerive (n + 1) h p t = .ok (h', d)) ∧
      (S'.length ≠ 1 →
        internalDerive (n + 1) h p t = .ok (alloc h' (Parser.newAlt S')))) ∧
    (WellFormed h →
      ∃ n h' S', ps.foldlM (altDeriveStep n t) (h, []) = .ok (h', S') ∧ S'.Nodup ∧
        (∀ c ∈ ps, ∀ m, isEmpty (m + 2) h' c = .ok (h', emptyView h' c)) ∧
        (∀ x, x ∈ S' ↔
          ∃ c ∈ ps, emptyView h' c = false ∧ ∀ m, derive (m + 1) h' c t = .ok (h', x))) := by
  refine ⟨fun n hS S c h1 e1 => ?_, fun n hS S c h1 h2 d e1 e2 => ?_,
    fun n h' S' e => ⟨fun d hd => ?_, fun hlen => ?_⟩, fun hw => ?_⟩
  · simp only [altDeriveStep, e1, bind_ok, Bool.not_true, Bool.false_eq_true, if_false,
      pure_eq_ok]
  · simp only [altDeriveStep, e1, bind_ok, Bool.not_false, if_true, e2, pure_eq_ok]
  · rw [internalDerive_Alt_eq hp hk, e, hd]
    rfl
  · rw [internalDerive_Alt_eq hp hk, e]
    simp only [bind_ok]
    match S', hlen with
    | [], _ => rfl
    | [d], hl => exact absurd rfl hl
    | _ :: _ :: _, _ => rfl
  · have hpl := lt_length_of_getElem? hp
    obtain ⟨n, h', S', e, -, -, hS, hi, hm⟩ := alt_loop_shape p t ps
      (fun q hq => (hw p o hp).children_lt q (by rw [hk]; exact hq)) h [] hw hpl List.nodup_nil
    refine ⟨n, h', S', e, hS, fun c hc m => ?_, fun x => ?_⟩
    · obtain ⟨oc, hoc, hic⟩ := hi c hc
      exact isEmpty_of_initialized hoc hic m
    · rw [hm x]
      simp only [List.not_mem_nil, false_or]
      constructor
      · rintro ⟨c, hc, a, b⟩
        exact ⟨c, hc, a, fun m => b.derive m⟩
      · rintro ⟨c, hc, a, b⟩
        exact ⟨c, hc, a, cached_of_derive_one (b 0)⟩

/-- The alternation `alt({terminal('a'), red(terminal('a'), x -> 'A')})` and the
terminal `'a'` are a witness for C17: the loop returns. -/
theorem Alt_internalDerive_cases_witness :
    altRedHeap[2]? = some (Parser.newAlt [0, 1]) ∧
    ∃ n h' S', [0, 1].foldlM (altDeriveStep n 97) (altRedHeap, []) = .ok (h', S') ∧ S'.Nodup ∧
      (∀ c ∈ [0, 1], ∀ m, isEmpty (m + 2) h' c = .ok (h', emptyView h' c)) ∧
      (∀ x, x ∈ S' ↔
        ∃ c ∈ [0, 1], emptyView h' c = false ∧ ∀ m, derive (m + 1) h' c 97 = .ok (h', x)) :=
  ⟨rfl, (Alt_internalDerive_cases (h := altRedHeap) (p := 2) (o := Parser.newAlt [0, 1])
    rfl rfl 97).2.2.2 wellFormed_altRedHeap⟩

/-! ### The derivative without compaction -/

theorem fuelLe_succ_uncompactedDerive (n : Nat) :
    ∀ h p t, FuelLe (uncompactedDerive n h p t) (uncompactedDerive (n + 1) h p t) := by
  induction n with
  | zero => intros; exact Or.inl rfl
  | succ n ih =>
    obtain ⟨-, -, -, i4, i5, -, -, -, -, -⟩ := fuelLe_succ n
    intro h p t
    simp only [uncompactedDerive]
    repeat' first
      | exact FuelLe.refl _
      | exact ih _ _ _
      | exact i4 _ _
      | exact i5 _ _
      | apply FuelLe.bind
      | apply FuelLe.ite
      | apply FuelLe.foldlM
      | intro _
      | split

theorem uncompactedDerive_mono {n m : Nat} {h : Heap} {p : Id} {t : T} {r : Heap × Id}
    (hr : uncompactedDerive n h p t = .ok r) (hnm : n ≤ m) :
    uncompactedDerive m h p t = .ok r :=
  (FuelLe.of_step (fun n => uncompactedDerive n h p t)
    (fun n => fuelLe_succ_uncompactedDerive n h p t) hnm).ok hr

theorem uncompacted_loop_mono {n m : Nat} (hnm : n ≤ m) (t : T) (qs : List Id)
    (s r : Heap × List Id)
    (hr : qs.foldlM (fun (s : Heap × List Id) i => do
        let (h, d) ← uncompactedDerive n s.1 i t
        pure (h, setInsert s.2 d)) s = .ok r) :
    qs.foldlM (fun (s : Heap × List Id) i => do
        let (h, d) ← uncompactedDerive m s.1 i t
        pure (h, setInsert s.2 d)) s = .ok r := by
  have k : ∀ h p t, FuelLe (uncompactedDerive n h p t) (uncompactedDerive m h p t) :=
    fun h p t => FuelLe.of_step (fun n => uncompactedDerive n h p t)
      (fun n => fuelLe_succ_uncompactedDerive n h p t) hnm
  refine FuelLe.ok (FuelLe.foldlM (fun s i => ?_) qs s) hr
  repeat' first
    | exact FuelLe.refl _
    | exact k _ _ _
    | apply FuelLe.bind
    | intro _

/-- What the derivative without compaction achieves on a recursion-free heap. -/
theorem uncompacted_loop (p : Id) (t : T)
    (IH : ∀ q, q < p → ∀ (h : Heap), WellFormed h → q < h.length →
      ∃ n h' d, uncompactedDerive n h q t = .ok (h', d) ∧ WellFormed h' ∧ Ext h h' ∧
        d < h'.length ∧ ∀ w v, Parses h' d w v ↔ Parses h' q (t :: w) v)
    (qs : List Id) (hqs : ∀ q ∈ qs, q < p) :
    ∀ (h : Heap) (S : List Id), WellFormed h → p < h.length → (∀ d ∈ S, d < h.length) →
      ∃ n h' S',
        qs.foldlM (fun (s : Heap × List Id) i => do
          let (h, d) ← uncompactedDerive n s.1 i t
          pure (h, setInsert s.2 d)) (h, S) = .ok (h', S') ∧
        WellFormed h' ∧ Ext h h' ∧ (∀ d ∈ S', d < h'.length) ∧
        (∀ w v, (∃ d ∈ S', Parses h' d w v) ↔
          (∃ d ∈ S, Parses h' d w v) ∨ ∃ q ∈ qs, Parses h' q (t :: w) v) := by
  induction qs with
  | nil =>
    intro h S hw _ hS
    exact ⟨0, h, S, rfl, hw, Ext.ext_refl h, hS, fun w v => (by simp)⟩
  | cons q qs ih =>
    intro h S hw hpl hS
    have hqp : q < p := hqs q (List.mem_cons_self _ _)
    have hql : q < h.length := Nat.lt_trans hqp hpl
    obtain ⟨n1, h1, d, e1, hw1, ext1, hd1, sem1⟩ := IH q hqp h hw hql
    obtain ⟨n2, h2, S', e2, hw2, ext2, hS2, sem2⟩ :=
      ih (fun q' hq' => hqs q' (List.mem_cons_of_mem _ hq')) h1 (setInsert S d) hw1
        (ext1.lt_length hpl)
        (fun d' hd' => by
          rcases mem_setInsert.1 hd' with a | rfl
          · exact ext1.lt_length (hS d' a)
          · exact hd1)
    have semd := ext2.sem_transfer hw1 hd1 (ext1.lt_length hql) sem1
    refine ⟨n1 + n2, h2, S', ?_, hw2, ext1.ext_trans ext2, hS2, fun w v => ?_⟩
    · have f1 := uncompactedDerive_mono e1 (by omega : n1 ≤ n1 + n2)
      simp only [List.foldlM, f1, bind_ok, pure_eq_ok]
      exact uncompacted_loop_mono (by omega : n2 ≤ n1 + n2) t qs _ _ e2
    · rw [sem2 w v]
      constructor
      · rintro (⟨x, hx, a⟩ | ⟨q', hq', a⟩)
        · rcases mem_setInsert.1 hx with b | rfl
          · exact Or.inl ⟨x, b, a⟩
          · exact Or.inr ⟨q, List.mem_cons_self _ _, (semd w v).1 a⟩
        · exact Or.inr ⟨q', List.mem_cons_of_mem _ hq', a⟩
      · rintro (⟨x, hx, a⟩ | ⟨q', hq', a⟩)
        · exact Or.inl ⟨x, mem_setInsert.2 (Or.inl hx), a⟩
        · rcases List.mem_cons.1 hq' with rfl | hq'
          · exact Or.inl ⟨d, mem_setInsert.2 (Or.inr rfl), (semd w v).2 a⟩
          · exact Or.inr ⟨q', hq', a⟩
/-- On a recursion-free heap the derivative without compaction returns, with an
object that parses the derivative. -/
theorem uncompactedDerive_wellFormed (t : T) : ∀ (p : Id) (h : Heap), WellFormed h →
    p < h.length →
    ∃ n h' d, uncompactedDerive n h p t = .ok (h', d) ∧ WellFormed h' ∧ Ext h h' ∧
      d < h'.length ∧ ∀ w v, Parses h' d w v ↔ Parses h' p (t :: w) v := by
  intro p
  induction p using Nat.strong_induction_on with
  | _ p IH =>
    intro h hw hpl
    obtain ⟨o, hp⟩ := exists_getElem?_of_lt hpl
    have hop := hw p o hp
    cases hk : o.kind with
    | Emp =>
      refine ⟨1, h, p, ?_, hw, Ext.ext_refl h, hpl, fun w v => ?_⟩
      · simp only [uncompactedDerive, deref_eq_ok hp, bind_ok, hk, pure_eq_ok]
      · exact ⟨fun hpar => absurd hpar (parses_Emp hp hk),
          fun hpar => absurd hpar (parses_Emp hp hk)⟩
    | Eps =>
      refine ⟨1, (alloc h Parser.newEmp).1, h.length, ?_, hw.alloc_Emp, Ext.ext_alloc h _,
        by rw [length_alloc]; exact Nat.lt_succ_self _, fun w v => ?_⟩
      · simp only [uncompactedDerive, deref_eq_ok hp, bind_ok, hk, pure_eq_ok]
        rfl
      · constructor
        · intro hpar
          exact absurd hpar (parses_Emp (getElem?_alloc_length h _) rfl)
        · intro hpar
          have := (parses_Eps (getElem?_alloc_of_some Parser.newEmp hp) hk).1 hpar
          cases this.1
    | EqT c =>
      by_cases e : c = t
      · subst e
        refine ⟨1, (alloc h (Parser.newEps {Val.term c})).1, h.length, ?_, hw.alloc_Eps _,
          Ext.ext_alloc h _, by rw [length_alloc]; exact Nat.lt_succ_self _, fun w v => ?_⟩
        · simp only [uncompactedDerive, deref_eq_ok hp, bind_ok, hk, pure_eq_ok, if_true]
          rfl
        · rw [parses_Eps (getElem?_alloc_length h _) rfl,
            parses_EqT (getElem?_alloc_of_some _ hp) hk]
          simp [Parser.newEps]
      · refine ⟨1, (alloc h Parser.newEmp).1, h.length, ?_, hw.alloc_Emp, Ext.ext_alloc h _,
          by rw [length_alloc]; exact Nat.lt_succ_self _, fun w v => ?_⟩
        · simp only [uncompactedDerive, deref_eq_ok hp, bind_ok, hk, pure_eq_ok, e, if_false]
          rfl
        · constructor
          · intro hpar
            exact absurd hpar (parses_Emp (getElem?_alloc_length h _) rfl)
          · intro hpar
            have := (parses_EqT (getElem?_alloc_of_some Parser.newEmp hp) hk).1 hpar
            have e' := this.1
            simp only [List.cons.injEq] at e'
            exact absurd e'.1.symm e
    | Alt ps =>
      have hps : ∀ q ∈ ps, q < p := fun q hq => hop.children_lt q (by rw [hk]; exact hq)
      obtain ⟨n1, h1, S, e1, hw1, ext1, hS1, sem1⟩ :=
        uncompacted_loop p t IH ps hps h [] hw hpl (fun d hd => by cases hd)
      obtain ⟨o1, ho1, hk1⟩ := ext1.kind hp
      have semS : ∀ w v, (∃ d ∈ S, Parses h1 d w v) ↔ Parses h1 p (t :: w) v := by
        intro w v
        rw [sem1 w v, parses_Alt ho1 (hk1.trans hk)]
        simp
      have ext2 := Ext.ext_alloc h1 (Parser.newAlt S)
      refine ⟨n1 + 1, (alloc h1 (Parser.newAlt S)).1, h1.length, ?_, hw1.alloc_Alt _ hS1,
        ext1.ext_trans ext2, by rw [length_alloc]; exact Nat.lt_succ_self _,
        fun w v => ?_⟩
      · rw [uncompactedDerive]
        simp only [deref_eq_ok hp, bind_ok, hk]
        rw [e1]
        rfl
      · rw [parses_Alt (getElem?_alloc_length h1 _) rfl,
          ext2.parses_iff hw1 (ext1.lt_length hpl), ← semS w v]
        constructor
        · rintro ⟨d, hd, a⟩
          exact ⟨d, hd, (ext2.parses_iff hw1 (hS1 d hd)).1 a⟩
        · rintro ⟨d, hd, a⟩
          exact ⟨d, hd, (ext2.parses_iff hw1 (hS1 d hd)).2 a⟩
    | Red q f =>
      have hqp : q < p := hop.children_lt q (by rw [hk]; simp [Kind.children])
      have hql : q < h.length := Nat.lt_trans hqp hpl
      obtain ⟨n1, h1, d1, e1, hw1, ext1, hd1, sem1⟩ := IH q hqp h hw hql
      obtain ⟨o1, ho1, hk1⟩ := ext1.kind hp
      have ext2 := Ext.ext_alloc h1 (Parser.newRed d1 f)
      have sem2 := ext2.sem_transfer hw1 hd1 (ext1.lt_length hql) sem1
      refine ⟨n1 + 1, (alloc h1 (Parser.newRed d1 f)).1, h1.length, ?_, hw1.alloc_Red f hd1,
        ext1.ext_trans ext2, by rw [length_alloc]; exact Nat.lt_succ_self _,
        fun w v => ?_⟩
      · simp only [uncompactedDerive, deref_eq_ok hp, bind_ok, hk, e1, pure_eq_ok]
        rfl
      · rw [parses_Red (getElem?_alloc_length h1 _) rfl,
          parses_Red (getElem?_alloc_of_some _ ho1) (hk1.trans hk)]
        constructor
        · rintro ⟨x, hx, hx'⟩
          exact ⟨x, hx, (sem2 w x).1 hx'⟩
        · rintro ⟨x, hx, hx'⟩
          exact ⟨x, hx, (sem2 w x).2 hx'⟩
    | Rep i =>
      have hip : i < p := hop.children_lt i (by rw [hk]; simp [Kind.children])
      have hil : i < h.length := Nat.lt_trans hip hpl
      obtain ⟨n1, h1, d1, e1, hw1, ext1, hd1, sem1⟩ := IH i hip h hw hil
      have hp1 : p < h1.length := ext1.lt_length hpl
      obtain ⟨o1, ho1, hk1⟩ := ext1.kind hp
      have hw2 : WellFormed (alloc h1 (Parser.newCon d1 p)).1 := hw1.alloc_Con hd1 hp1
      have hc2 : h1.length < (alloc h1 (Parser.newCon d1 p)).1.length := by
        rw [length_alloc]; exact Nat.lt_succ_self _
      have hw3 := hw2.alloc_Red reductionOperation hc2
      have ext12 := Ext.ext_alloc h1 (Parser.newCon d1 p)
      have ext23 := Ext.ext_alloc (alloc h1 (Parser.newCon d1 p)).1
        (Parser.newRed h1.length reductionOperation)
      have ext13 := ext12.ext_trans ext23
      have sem3 := ext13.sem_transfer hw1 hd1 (ext1.lt_length hil) sem1
      refine ⟨n1 + 1, _, (alloc h1 (Parser.newCon d1 p)).1.length, ?_, hw3,
        ext1.ext_trans ext13, by simp only [length_alloc]; exact Nat.lt_succ_self _,
        fun w v => ?_⟩
      · simp only [uncompactedDerive, deref_eq_ok hp, bind_ok, hk, e1, pure_eq_ok]
        rfl
      · rw [parses_Red (getElem?_alloc_length _ _) rfl,
          parses_Rep (getElem?_alloc_of_some _ (getElem?_alloc_of_some _ ho1)) (hk1.trans hk)]
        constructor
        · rintro ⟨x, rfl, hx⟩
          obtain ⟨u, w', a, b, rfl, rfl, ha, hb⟩ :=
            (parses_Con (getElem?_alloc_of_some _ (getElem?_alloc_length h1 _)) rfl).1 hx
          exact Or.inr ⟨t, u, w', a, b, rfl, rfl, (sem3 u a).1 ha, hb⟩
        · rintro (⟨hnil, -⟩ | ⟨t', u, w', a, x, hw', rfl, ha, hx⟩)
          · cases hnil
          · simp only [List.cons_append, List.cons.injEq] at hw'
            obtain ⟨rfl, rfl⟩ := hw'
            exact ⟨_, rfl, (parses_Con (getElem?_alloc_of_some _ (getElem?_alloc_length h1 _))
              rfl).2 ⟨u, w', a, x, rfl, rfl, (sem3 u a).2 ha, hx⟩⟩
    | Con f s =>
      have hfp : f < p := hop.children_lt f (by rw [hk]; simp [Kind.children])
      have hsp : s < p := hop.children_lt s (by rw [hk]; simp [Kind.children])
      have hfl : f < h.length := Nat.lt_trans hfp hpl
      have hsl : s < h.length := Nat.lt_trans hsp hpl
      obtain ⟨n1, h1, Ld, e1, hw1, ext1, hL1, sem1⟩ := IH f hfp h hw hfl
      have hf1 := ext1.lt_length hfl
      have hs1 := ext1.lt_length hsl
      have hw2 : WellFormed (h1 ++ [Parser.newCon Ld s]) := hw1.alloc_Con hL1 hs1
      have ext12 : Ext h1 (h1 ++ [Parser.newCon Ld s]) := Ext.ext_alloc h1 _
      have hc1 : (h1 ++ [Parser.newCon Ld s])[h1.length]? = some (Parser.newCon Ld s) :=
        getElem?_alloc_length h1 _
      obtain ⟨n5, h5, nl, e5, hw5, ext5, -, -, sound5⟩ :=
        isNullable_sound hw2 (ext12.lt_length hf1)
      have ext15 := ext12.ext_trans ext5
      have ext05 := ext1.ext_trans ext15
      cases nl with
      | false =>
        obtain ⟨op, hop5, hkp⟩ := ext05.kind hp
        obtain ⟨oc, hoc, hkc⟩ := ext5.kind hc1
        refine ⟨n1 + n5 + 1, h5, h1.length, ?_, hw5, ext05, lt_length_of_getElem? hoc, ?_⟩
        · have f1 := uncompactedDerive_mono e1 (by omega : n1 ≤ n1 + n5)
          have f5 := isNullable_mono e5 (by omega : n5 ≤ n1 + n5)
          simp only [uncompactedDerive, deref_eq_ok hp, bind_ok, hk, f1, alloc, f5,
            Bool.false_eq_true, if_false, pure_eq_ok]
        · exact con_derive_sem_primary hop5 (hkp.trans hk)
            (ext15.sem_transfer hw1 hL1 hf1 sem1) (fun w v => parses_Con hoc hkc)
            (fun w a b ha _ => sound5 rfl a ha)
      | true =>
        have hf5 : f < h5.length := ext05.lt_length hfl
        obtain ⟨n6, h6, fn, e6, hw6, ext6, -, -, sound6⟩ := parseNull_sound hw5 hf5
        have hf6 : f < h6.length := ext6.lt_length hf5
        have hw7 : WellFormed (h6 ++ [Parser.newEps fn]) := hw6.alloc_Eps fn
        have ext67 : Ext h6 (h6 ++ [Parser.newEps fn]) := Ext.ext_alloc h6 _
        have ext07 := ext05.ext_trans (ext6.ext_trans ext67)
        have hs7 := ext07.lt_length hsl
        obtain ⟨n8, h8, Rd, e8, hw8, ext8, hR8, sem8⟩ := IH s hsp _ hw7 hs7
        have ext78 := ext8
        have hn8 : h6.length < h8.length :=
          ext8.lt_length (by rw [List.length_append]; exact Nat.lt_succ_self _)
        have hw9 : WellFormed (h8 ++ [Parser.newCon h6.length Rd]) := hw8.alloc_Con hn8 hR8
        have ext89 : Ext h8 (h8 ++ [Parser.newCon h6.length Rd]) := Ext.ext_alloc h8 _
        have extA : Ext (h8 ++ [Parser.newCon h6.length Rd])
            (h8 ++ [Parser.newCon h6.length Rd] ++
              [Parser.newAlt (setInsert (setInsert [] h1.length) h8.length)]) :=
          Ext.ext_alloc _ _
        have ext8H := ext89.ext_trans extA
        have ext5H := (ext6.ext_trans (ext67.ext_trans ext8)).ext_trans ext8H
        have ext1H := ext15.ext_trans ext5H
        have hps : ∀ x, x ∈ setInsert (setInsert [] h1.length) h8.length ↔
            x = h1.length ∨ x = h8.length := by
          intro x
          rw [mem_setInsert, mem_setInsert]
          simp only [List.not_mem_nil, false_or]
        have hc1H : h1.length < (h8 ++ [Parser.newCon h6.length Rd]).length :=
          (ext5.ext_trans ((ext6.ext_trans (ext67.ext_trans ext8)).ext_trans ext89)).lt_length
            (by rw [List.length_append]; exact Nat.lt_succ_self _)
        obtain ⟨op, hopH, hkp⟩ := (ext1.ext_trans ext1H).kind hp
        obtain ⟨oc, hoc, hkc⟩ := (ext5.ext_trans ext5H).kind hc1
        refine ⟨n1 + n5 + n6 + n8 + 1, _, (h8 ++ [Parser.newCon h6.length Rd]).length, ?_,
          hw9.alloc_Alt _ (fun q hq => ?_), (ext1.ext_trans ext1H),
          by simp only [length_alloc]; exact Nat.lt_succ_self _, ?_⟩
        · have f1 := uncompactedDerive_mono e1 (by omega : n1 ≤ n1 + n5 + n6 + n8)
          have f5 := isNullable_mono e5 (by omega : n5 ≤ n1 + n5 + n6 + n8)
          have f6 := parseNull_mono e6 (by omega : n6 ≤ n1 + n5 + n6 + n8)
          have f8 := uncompactedDerive_mono e8 (by omega : n8 ≤ n1 + n5 + n6 + n8)
          simp only [uncompactedDerive, deref_eq_ok hp, bind_ok, hk, f1, alloc, f5, f6, f8,
            if_true, pure_eq_ok]
        · rcases (hps q).1 hq with hq | hq
          · rw [hq]; exact hc1H
          · rw [hq, List.length_append]; exact Nat.lt_succ_self _
        · exact con_derive_sem_both hopH (hkp.trans hk)
            (ext1H.sem_transfer hw1 hL1 hf1 sem1) (fun w v => parses_Con hoc hkc)
            (getElem?_alloc_of_some _ (getElem?_alloc_length h8 (Parser.newCon h6.length Rd)))
            rfl (nullability_spec hw6 hf6 sound6 (ext8.ext_trans ext8H))
            (ext8H.sem_transfer hw8 hR8 (ext8.lt_length hs7) sem8)
            (getElem?_alloc_length _ _) rfl hps
    | RecursiveParser r => have := hop.recursionFree; rw [hk] at this; exact this.elim
    | DFut q c => have := hop.recursionFree; rw [hk] at this; exact this.elim

/-! ### The derivative without compaction at the object itself -/

theorem fuelLe_succ_uncompactedDeriveTop (n : Nat) :
    ∀ h p t, FuelLe (uncompactedDeriveTop n h p t) (uncompactedDeriveTop (n + 1) h p t) := by
  cases n with
  | zero => intros; exact Or.inl rfl
  | succ n =>
    obtain ⟨-, -, -, i4, i5, -, -, -, i9, -⟩ := fuelLe_succ n
    intro h p t
    simp only [uncompactedDeriveTop]
    repeat' first
      | exact FuelLe.refl _
      | exact i9 _ _ _
      | exact i4 _ _
      | exact i5 _ _
      | apply FuelLe.bind
      | apply FuelLe.ite
      | apply FuelLe.foldlM
      | intro _
      | split

theorem uncompactedDeriveTop_mono {n m : Nat} {h : Heap} {p : Id} {t : T} {r : Heap × Id}
    (hr : uncompactedDeriveTop n h p t = .ok r) (hnm : n ≤ m) :
    uncompactedDeriveTop m h p t = .ok r :=
  (FuelLe.of_step (fun n => uncompactedDeriveTop n h p t)
    (fun n => fuelLe_succ_uncompactedDeriveTop n h p t) hnm).ok hr

theorem uncompactedTop_loop_mono {n m : Nat} (hnm : n ≤ m) (t : T) (qs : List Id)
    (s r : Heap × List Id)
    (hr : qs.foldlM (fun (s : Heap × List Id) i => do
        let (h, d) ← derive n s.1 i t
        pure (h, setInsert s.2 d)) s = .ok r) :
    qs.foldlM (fun (s : Heap × List Id) i => do
        let (h, d) ← derive m s.1 i t
        pure (h, setInsert s.2 d)) s = .ok r := by
  have k : ∀ h p t, FuelLe (derive n h p t) (derive m h p t) :=
    fun h p t => FuelLe.of_step (fun n => derive n h p t)
      (fun n => (fuelLe_succ n).2.2.2.2.2.2.2.2.1 h p t) hnm
  refine FuelLe.ok (FuelLe.foldlM (fun s i => ?_) qs s) hr
  repeat' first
    | exact FuelLe.refl _
    | exact k _ _ _
    | apply FuelLe.bind
    | intro _

/-- The loop that derives every child of an `Alt` with `derive`. -/
theorem uncompactedTop_loop (p : Id) (t : T)
    (IH : ∀ q, q < p → ∀ (h : Heap), WellFormed h → q < h.length →
      ∃ n h' d, derive n h q t = .ok (h', d) ∧ WellFormed h' ∧ Ext h h' ∧
        d < h'.length ∧ ∀ w v, Parses h' d w v ↔ Parses h' q (t :: w) v)
    (qs : List Id) (hqs : ∀ q ∈ qs, q < p) :
    ∀ (h : Heap) (S : List Id), WellFormed h → p < h.length → (∀ d ∈ S, d < h.length) →
      ∃ n h' S',
        qs.foldlM (fun (s : Heap × List Id) i => do
          let (h, d) ← derive n s.1 i t
          pure (h, setInsert s.2 d)) (h, S) = .ok (h', S') ∧
        WellFormed h' ∧ Ext h h' ∧ (∀ d ∈ S', d < h'.length) ∧
        (∀ w v, (∃ d ∈ S', Parses h' d w v) ↔
          (∃ d ∈ S, Parses h' d w v) ∨ ∃ q ∈ qs, Parses h' q (t :: w) v) := by
  induction qs with
  | nil =>
    intro h S hw _ hS
    exact ⟨0, h, S, rfl, hw, Ext.ext_refl h, hS, fun w v => (by simp)⟩
  | cons q qs ih =>
    intro h S hw hpl hS
    have hqp : q < p := hqs q (List.mem_cons_self _ _)
    have hql : q < h.length := Nat.lt_trans hqp hpl
    obtain ⟨n1, h1, d, e1, hw1, ext1, hd1, sem1⟩ := IH q hqp h hw hql
    obtain ⟨n2, h2, S', e2, hw2, ext2, hS2, sem2⟩ :=
      ih (fun q' hq' => hqs q' (List.mem_cons_of_mem _ hq')) h1 (setInsert S d) hw1
        (ext1.lt_length hpl)
        (fun d' hd' => by
          rcases mem_setInsert.1 hd' with a | rfl
          · exact ext1.lt_length (hS d' a)
          · exact hd1)
    have semd := ext2.sem_transfer hw1 hd1 (ext1.lt_length hql) sem1
    refine ⟨n1 + n2, h2, S', ?_, hw2, ext1.ext_trans ext2, hS2, fun w v => ?_⟩
    · have f1 := derive_mono e1 (by omega : n1 ≤ n1 + n2)
      simp only [List.foldlM, f1, bind_ok, pure_eq_ok]
      exact uncompactedTop_loop_mono (by omega : n2 ≤ n1 + n2) t qs _ _ e2
    · rw [sem2 w v]
      constructor
      · rintro (⟨x, hx, a⟩ | ⟨q', hq', a⟩)
        · rcases mem_setInsert.1 hx with b | rfl
          · exact Or.inl ⟨x, b, a⟩
          · exact Or.inr ⟨q, List.mem_cons_self _ _, (semd w v).1 a⟩
        · exact Or.inr ⟨q', List.mem_cons_of_mem _ hq', a⟩
      · rintro (⟨x, hx, a⟩ | ⟨q', hq', a⟩)
        · exact Or.inl ⟨x, mem_setInsert.2 (Or.inl hx), a⟩
        · rcases List.mem_cons.1 hq' with rfl | hq'
          · exact Or.inl ⟨d, mem_setInsert.2 (Or.inr rfl), (semd w v).2 a⟩
          · exact Or.inr ⟨q', hq', a⟩

/-- On a recursion-free heap the derivative without compaction at the object
itself returns, with an object that parses the derivative. -/
theorem uncompactedDeriveTop_wellFormed (t : T) : ∀ (p : Id) (h : Heap), WellFormed h →
    p < h.length →
    ∃ n h' d, uncompactedDeriveTop n h p t = .ok (h', d) ∧ WellFormed h' ∧ Ext h h' ∧
      d < h'.length ∧ ∀ w v, Parses h' d w v ↔ Parses h' p (t :: w) v := by
  intro p
  induction p using Nat.strong_induction_on with
  | _ p _ =>
    have IH : ∀ q, q < p → ∀ (h : Heap), WellFormed h → q < h.length →
        ∃ n h' d, derive n h q t = .ok (h', d) ∧ WellFormed h' ∧ Ext h h' ∧
          d < h'.length ∧ ∀ w v, Parses h' d w v ↔ Parses h' q (t :: w) v := by
      intro q _ h hw hq
      obtain ⟨n, h', d, e, P⟩ := derive_wellFormed q h t hw hq
      exact ⟨n, h', d, e, P.wf, P.ext, P.lt, P.sem⟩
    intro h hw hpl
    obtain ⟨o, hp⟩ := exists_getElem?_of_lt hpl
    have hop := hw p o hp
    cases hk : o.kind with
    | Emp =>
      refine ⟨1, h, p, ?_, hw, Ext.ext_refl h, hpl, fun w v => ?_⟩
      · simp only [uncompactedDeriveTop, deref_eq_ok hp, bind_ok, hk, pure_eq_ok]
      · exact ⟨fun hpar => absurd hpar (parses_Emp hp hk),
          fun hpar => absurd hpar (parses_Emp hp hk)⟩
    | Eps =>
      refine ⟨1, (alloc h Parser.newEmp).1, h.length, ?_, hw.alloc_Emp, Ext.ext_alloc h _,
        by rw [length_alloc]; exact Nat.lt_succ_self _, fun w v => ?_⟩
      · simp only [uncompactedDeriveTop, deref_eq_ok hp, bind_ok, hk, pure_eq_ok]
        rfl
      · constructor
        · intro hpar
          exact absurd hpar (parses_Emp (getElem?_alloc_length h _) rfl)
        · intro hpar
          have := (parses_Eps (getElem?_alloc_of_some Parser.newEmp hp) hk).1 hpar
          cases this.1
    | EqT c =>
      by_cases e : c = t
      · subst e
        refine ⟨1, (alloc h (Parser.newEps {Val.term c})).1, h.length, ?_, hw.alloc_Eps _,
          Ext.ext_alloc h _, by rw [length_alloc]; exact Nat.lt_succ_self _, fun w v => ?_⟩
        · simp only [uncompactedDeriveTop, deref_eq_ok hp, bind_ok, hk, pure_eq_ok, if_true]
          rfl
        · rw [parses_Eps (getElem?_alloc_length h _) rfl,
            parses_EqT (getElem?_alloc_of_some _ hp) hk]
          simp [Parser.newEps]
      · refine ⟨1, (alloc h Parser.newEmp).1, h.length, ?_, hw.alloc_Emp, Ext.ext_alloc h _,
          by rw [length_alloc]; exact Nat.lt_succ_self _, fun w v => ?_⟩
        · simp only [uncompactedDeriveTop, deref_eq_ok hp, bind_ok, hk, pure_eq_ok, e, if_false]
          rfl
        · constructor
          · intro hpar
            exact absurd hpar (parses_Emp (getElem?_alloc_length h _) rfl)
          · intro hpar
            have := (parses_EqT (getElem?_alloc_of_some Parser.newEmp hp) hk).1 hpar
            have e' := this.1
            simp only [List.cons.injEq] at e'
            exact absurd e'.1.symm e
    | Alt ps =>
      have hps : ∀ q ∈ ps, q < p := fun q hq => hop.children_lt q (by rw [hk]; exact hq)
      obtain ⟨n1, h1, S, e1, hw1, ext1, hS1, sem1⟩ :=
        uncompactedTop_loop p t IH ps hps h [] hw hpl (fun d hd => by cases hd)
      obtain ⟨o1, ho1, hk1⟩ := ext1.kind hp
      have semS : ∀ w v, (∃ d ∈ S, Parses h1 d w v) ↔ Parses h1 p (t :: w) v := by
        intro w v
        rw [sem1 w v, parses_Alt ho1 (hk1.trans hk)]
        simp
      have ext2 := Ext.ext_alloc h1 (Parser.newAlt S)
      refine ⟨n1 + 1, (alloc h1 (Parser.newAlt S)).1, h1.length, ?_, hw1.alloc_Alt _ hS1,
        ext1.ext_trans ext2, by rw [length_alloc]; exact Nat.lt_succ_self _,
        fun w v => ?_⟩
      · rw [uncompactedDeriveTop]
        simp only [deref_eq_ok hp, bind_ok, hk]
        rw [e1]
        rfl
      · rw [parses_Alt (getElem?_alloc_length h1 _) rfl,
          ext2.parses_iff hw1 (ext1.lt_length hpl), ← semS w v]
        constructor
        · rintro ⟨d, hd, a⟩
          exact ⟨d, hd, (ext2.parses_iff hw1 (hS1 d hd)).1 a⟩
        · rintro ⟨d, hd, a⟩
          exact ⟨d, hd, (ext2.parses_iff hw1 (hS1 d hd)).2 a⟩
    | Red q f =>
      have hqp : q < p := hop.children_lt q (by rw [hk]; simp [Kind.children])
      have hql : q < h.length := Nat.lt_trans hqp hpl
      obtain ⟨n1, h1, d1, e1, hw1, ext1, hd1, sem1⟩ := IH q hqp h hw hql
      obtain ⟨o1, ho1, hk1⟩ := ext1.kind hp
      have ext2 := Ext.ext_alloc h1 (Parser.newRed d1 f)
      have sem2 := ext2.sem_transfer hw1 hd1 (ext1.lt_length hql) sem1
      refine ⟨n1 + 1, (alloc h1 (Parser.newRed d1 f)).1, h1.length, ?_, hw1.alloc_Red f hd1,
        ext1.ext_trans ext2, by rw [length_alloc]; exact Nat.lt_succ_self _,
        fun w v => ?_⟩
      · simp only [uncompactedDeriveTop, deref_eq_ok hp, bind_ok, hk, e1, pure_eq_ok]
        rfl
      · rw [parses_Red (getElem?_alloc_length h1 _) rfl,
          parses_Red (getElem?_alloc_of_some _ ho1) (hk1.trans hk)]
        constructor
        · rintro ⟨x, hx, hx'⟩
          exact ⟨x, hx, (sem2 w x).1 hx'⟩
        · rintro ⟨x, hx, hx'⟩
          exact ⟨x, hx, (sem2 w x).2 hx'⟩
    | Rep i =>
      have hip : i < p := hop.children_lt i (by rw [hk]; simp [Kind.children])
      have hil : i < h.length := Nat.lt_trans hip hpl
      obtain ⟨n1, h1, d1, e1, hw1, ext1, hd1, sem1⟩ := IH i hip h hw hil
      have hp1 : p < h1.length := ext1.lt_length hpl
      obtain ⟨o1, ho1, hk1⟩ := ext1.kind hp
      have hw2 : WellFormed (alloc h1 (Parser.newCon d1 p)).1 := hw1.alloc_Con hd1 hp1
      have hc2 : h1.length < (alloc h1 (Parser.newCon d1 p)).1.length := by
        rw [length_alloc]; exact Nat.lt_succ_self _
      have hw3 := hw2.alloc_Red reductionOperation hc2
      have ext12 := Ext.ext_alloc h1 (Parser.newCon d1 p)
      have ext23 := Ext.ext_alloc (alloc h1 (Parser.newCon d1 p)).1
        (Parser.newRed h1.length reductionOperation)
      have ext13 := ext12.ext_trans ext23
      have sem3 := ext13.sem_transfer hw1 hd1 (ext1.lt_length hil) sem1
      refine ⟨n1 + 1, _, (alloc h1 (Parser.newCon d1 p)).1.length, ?_, hw3,
        ext1.ext_trans ext13, by simp only [length_alloc]; exact Nat.lt_succ_self _,
        fun w v => ?_⟩
      · simp only [uncompactedDeriveTop, deref_eq_ok hp, bind_ok, hk, e1, pure_eq_ok]
        rfl
      · rw [parses_Red (getElem?_alloc_length _ _) rfl,
          parses_Rep (getElem?_alloc_of_some _ (getElem?_alloc_of_some _ ho1)) (hk1.trans hk)]
        constructor
        · rintro ⟨x, rfl, hx⟩
          obtain ⟨u, w', a, b, rfl, rfl, ha, hb⟩ :=
            (parses_Con (getElem?_alloc_of_some _ (getElem?_alloc_length h1 _)) rfl).1 hx
          exact Or.inr ⟨t, u, w', a, b, rfl, rfl, (sem3 u a).1 ha, hb⟩
        · rintro (⟨hnil, -⟩ | ⟨t', u, w', a, x, hw', rfl, ha, hx⟩)
          · cases hnil
          · simp only [List.cons_append, List.cons.injEq] at hw'
            obtain ⟨rfl, rfl⟩ := hw'
            exact ⟨_, rfl, (parses_Con (getElem?_alloc_of_some _ (getElem?_alloc_length h1 _))
              rfl).2 ⟨u, w', a, x, rfl, rfl, (sem3 u a).2 ha, hx⟩⟩
    | Con f s =>
      have hfp : f < p := hop.children_lt f (by rw [hk]; simp [Kind.children])
      have hsp : s < p := hop.children_lt s (by rw [hk]; simp [Kind.children])
      have hfl : f < h.length := Nat.lt_trans hfp hpl
      have hsl : s < h.length := Nat.lt_trans hsp hpl
      obtain ⟨n1, h1, Ld, e1, hw1, ext1, hL1, sem1⟩ := IH f hfp h hw hfl
      have hf1 := ext1.lt_length hfl
      have hs1 := ext1.lt_length hsl
      have hw2 : WellFormed (h1 ++ [Parser.newCon Ld s]) := hw1.alloc_Con hL1 hs1
      have ext12 : Ext h1 (h1 ++ [Parser.newCon Ld s]) := Ext.ext_alloc h1 _
      have hc1 : (h1 ++ [Parser.newCon Ld s])[h1.length]? = some (Parser.newCon Ld s) :=
        getElem?_alloc_length h1 _
      obtain ⟨n5, h5, nl, e5, hw5, ext5, -, -, sound5⟩ :=
        isNullable_sound hw2 (ext12.lt_length hf1)
      have ext15 := ext12.ext_trans ext5
      have ext05 := ext1.ext_trans ext15
      cases nl with
      | false =>
        obtain ⟨op, hop5, hkp⟩ := ext05.kind hp
        obtain ⟨oc, hoc, hkc⟩ := ext5.kind hc1
        refine ⟨n1 + n5 + 1, h5, h1.length, ?_, hw5, ext05, lt_length_of_getElem? hoc, ?_⟩
        · have f1 := derive_mono e1 (by omega : n1 ≤ n1 + n5)
          have f5 := isNullable_mono e5 (by omega : n5 ≤ n1 + n5)
          simp only [uncompactedDeriveTop, deref_eq_ok hp, bind_ok, hk, f1, alloc, f5,
            Bool.false_eq_true, if_false, pure_eq_ok]
        · exact con_derive_sem_primary hop5 (hkp.trans hk)
            (ext15.sem_transfer hw1 hL1 hf1 sem1) (fun w v => parses_Con hoc hkc)
            (fun w a b ha _ => sound5 rfl a ha)
      | true =>
        have hf5 : f < h5.length := ext05.lt_length hfl
        obtain ⟨n6, h6, fn, e6, hw6, ext6, -, -, sound6⟩ := parseNull_sound hw5 hf5
        have hf6 : f < h6.length := ext6.lt_length hf5
        have hw7 : WellFormed (h6 ++ [Parser.newEps fn]) := hw6.alloc_Eps fn
        have ext67 : Ext h6 (h6 ++ [Parser.newEps fn]) := Ext.ext_alloc h6 _
        have ext07 := ext05.ext_trans (ext6.ext_trans ext67)
        have hs7 := ext07.lt_length hsl
        obtain ⟨n8, h8, Rd, e8, hw8, ext8, hR8, sem8⟩ := IH s hsp _ hw7 hs7
        have ext78 := ext8
        have hn8 : h6.length < h8.length :=
          ext8.lt_length (by rw [List.length_append]; exact Nat.lt_succ_self _)
        have hw9 : WellFormed (h8 ++ [Parser.newCon h6.length Rd]) := hw8.alloc_Con hn8 hR8
        have ext89 : Ext h8 (h8 ++ [Parser.newCon h6.length Rd]) := Ext.ext_alloc h8 _
        have extA : Ext (h8 ++ [Parser.newCon h6.length Rd])
            (h8 ++ [Parser.newCon h6.length Rd] ++
              [Parser.newAlt (setInsert (setInsert [] h1.length) h8.length)]) :=
          Ext.ext_alloc _ _
        have ext8H := ext89.ext_trans extA
        have ext5H := (ext6.ext_trans (ext67.ext_trans ext8)).ext_trans ext8H
        have ext1H := ext15.ext_trans ext5H
        have hps : ∀ x, x ∈ setInsert (setInsert [] h1.length) h8.length ↔
            x = h1.length ∨ x = h8.length := by
          intro x
          rw [mem_setInsert, mem_setInsert]
          simp only [List.not_mem_nil, false_or]
        have hc1H : h1.length < (h8 ++ [Parser.newCon h6.length Rd]).length :=
          (ext5.ext_trans ((ext6.ext_trans (ext67.ext_trans ext8)).ext_trans ext89)).lt_length
            (by rw [List.length_append]; exact Nat.lt_succ_self _)
        obtain ⟨op, hopH, hkp⟩ := (ext1.ext_trans ext1H).kind hp
        obtain ⟨oc, hoc, hkc⟩ := (ext5.ext_trans ext5H).kind hc1
        refine ⟨n1 + n5 + n6 + n8 + 1, _, (h8 ++ [Parser.newCon h6.length Rd]).length, ?_,
          hw9.alloc_Alt _ (fun q hq => ?_), (ext1.ext_trans ext1H),
          by simp only [length_alloc]; exact Nat.lt_succ_self _, ?_⟩
        · have f1 := derive_mono e1 (by omega : n1 ≤ n1 + n5 + n6 + n8)
          have f5 := isNullable_mono e5 (by omega : n5 ≤ n1 + n5 + n6 + n8)
          have f6 := parseNull_mono e6 (by omega : n6 ≤ n1 + n5 + n6 + n8)
          have f8 := derive_mono e8 (by omega : n8 ≤ n1 + n5 + n6 + n8)
          simp only [uncompactedDeriveTop, deref_eq_ok hp, bind_ok, hk, f1, alloc, f5, f6, f8,
            if_true, pure_eq_ok]
        · rcases (hps q).1 hq with hq | hq
          · rw [hq]; exact hc1H
          · rw [hq, List.length_append]; exact Nat.lt_succ_self _
        · exact con_derive_sem_both hopH (hkp.trans hk)
            (ext1H.sem_transfer hw1 hL1 hf1 sem1) (fun w v => parses_Con hoc hkc)
            (getElem?_alloc_of_some _ (getElem?_alloc_length h8 (Parser.newCon h6.length Rd)))
            rfl (nullability_spec hw6 hf6 sound6 (ext8.ext_trans ext8H))
            (ext8H.sem_transfer hw8 hR8 (ext8.lt_length hs7) sem8)
            (getElem?_alloc_length _ _) rfl hps
    | RecursiveParser r => have := hop.recursionFree; rw [hk] at this; exact this.elim
    | DFut q c => have := hop.recursionFree; rw [hk] at this; exact this.elim

/-- C19: on a recursion-free heap, for every object `p`, terminal `t` and input
`w`: `derive` returns an object `d`; the derivative without compaction returns,
both when taken all the way down (`uncompactedDerive`, object `d1`) and when
taken at `p` only, the children being derived by `derive`
(`uncompactedDeriveTop`, object `d2`); and `parseFull` returns the same set on
`d`, on `d1` and on `d2`. -/
theorem compaction_preserves_language {h : Heap} {p : Id} (hw : WellFormed h)
    (hpl : p < h.length) (t : T) (w : List T) :
    ∃ n h0 d h1 d1 h2 d2, derive n h p t = .ok (h0, d) ∧
      uncompactedDerive n h p t = .ok (h1, d1) ∧
      uncompactedDeriveTop n h p t = .ok (h2, d2) ∧
      ∃ k g0 g1 g2 S, parseFull k h0 d w = .ok (g0, S) ∧ parseFull k h1 d1 w = .ok (g1, S) ∧
        parseFull k h2 d2 w = .ok (g2, S) := by
  obtain ⟨n0, h0, d, e0, P⟩ := derive_wellFormed p h t hw hpl
  obtain ⟨n1, h1, d1, e1, hw1, ext1, hd1, sem1⟩ := uncompactedDerive_wellFormed t p h hw hpl
  obtain ⟨n2, h2, d2, e2, hw2, ext2, hd2, sem2⟩ :=
    uncompactedDeriveTop_wellFormed t p h hw hpl
  obtain ⟨k0, g0, S0, f0, -, -, s0⟩ := parseFull_wellFormed w d h0 P.wf P.lt
  obtain ⟨k1, g1, S1, f1, -, -, s1⟩ := parseFull_wellFormed w d1 h1 hw1 hd1
  obtain ⟨k2, g2, S2, f2, -, -, s2⟩ := parseFull_wellFormed w d2 h2 hw2 hd2
  have hS1 : S1 = S0 := by
    apply Finset.ext
    intro v
    rw [s1 v, s0 v, sem1 w v, P.sem w v, ext1.parses_iff hw hpl, P.ext.parses_iff hw hpl]
  have hS2 : S2 = S0 := by
    apply Finset.ext
    intro v
    rw [s2 v, s0 v, sem2 w v, P.sem w v, ext2.parses_iff hw hpl, P.ext.parses_iff hw hpl]
  rw [hS1] at f1
  rw [hS2] at f2
  exact ⟨n0 + n1 + n2, h0, d, h1, d1, h2, d2, derive_mono e0 (by omega),
    uncompactedDerive_mono e1 (by omega), uncompactedDeriveTop_mono e2 (by omega),
    k0 + k1 + k2, g0, g1, g2, S0, parseFull_mono f0 (by omega), parseFull_mono f1 (by omega),
    parseFull_mono f2 (by omega)⟩

/-- The concatenation `con(terminal('a'), terminal('b'))`, the terminal `'a'`
and the input `['b']` are a witness for C19. -/
theorem compaction_preserves_language_witness :
    WellFormed conHeap ∧ 2 < conHeap.length ∧
    ∃ n h0 d h1 d1 h2 d2, derive n conHeap 2 97 = .ok (h0, d) ∧
      uncompactedDerive n conHeap 2 97 = .ok (h1, d1) ∧
      uncompactedDeriveTop n conHeap 2 97 = .ok (h2, d2) ∧
      ∃ k g0 g1 g2 S, parseFull k h0 d [98] = .ok (g0, S) ∧ parseFull k h1 d1 [98] = .ok (g1, S) ∧
        parseFull k h2 d2 [98] = .ok (g2, S) :=
  ⟨wellFormed_conHeap, by decide,
    compaction_preserves_language wellFormed_conHeap (by decide) 97 [98]⟩

/-- The attribute `isEmptyLocal` of `alt({})` starts at false and the fixed
point raises it to true: `isEmpty` returns true. -/
theorem isEmpty_alt_nil_example :
    (Parser.newAlt []).isEmptyLocal = false ∧
    value (isEmpty 10 [Parser.newAlt []] 0) = .ok true := by
  decide!

/-! ### The override `Red::parseFull` against the base-class `Parser::parseFull` -/

theorem base_parseFull_mono {n m : Nat} {h : Heap} {p : Id} {w : List T}
    {r : Heap × Finset Val} (e : Parser.parseFull n h p w = .ok r) (hnm : n ≤ m) :
    Parser.parseFull m h p w = .ok r := by
  cases w with
  | nil => exact parseNull_mono e hnm
  | cons t rest =>
    simp only [Parser.parseFull] at e ⊢
    cases hd : derive n h p t with
    | error x => rw [hd] at e; cases e
    | ok hd1 =>
      obtain ⟨h1, d⟩ := hd1
      rw [hd, bind_ok] at e
      rw [derive_mono hd hnm, bind_ok]
      exact parseFull_mono e hnm

/-- On a recursion-free heap the body of `Parser::parseFull` returns, on every
object and every input, exactly the values the object parses the whole input
to. -/
theorem base_parseFull_wellFormed {h : Heap} {p : Id} (hw : WellFormed h) (hpl : p < h.length)
    (w : List T) :
    ∃ n h' S, Parser.parseFull n h p w = .ok (h', S) ∧ ∀ v, v ∈ S ↔ Parses h p w v := by
  cases w with
  | nil =>
    obtain ⟨n, h', s, e, -, ext, -, -, sem⟩ := parseNull_sound hw hpl
    exact ⟨n, h', s, e, fun v => by rw [sem v, ext.parses_iff hw hpl]⟩
  | cons t rest =>
    obtain ⟨n1, h1, d, e1, P⟩ := derive_wellFormed p h t hw hpl
    obtain ⟨n2, h2, S, e2, -, -, sem⟩ := parseFull_wellFormed rest d h1 P.wf P.lt
    refine ⟨n1 + n2, h2, S, ?_, fun v => by rw [sem v, P.sem rest v, P.ext.parses_iff hw hpl]⟩
    simp only [Parser.parseFull, derive_mono e1 (by omega : n1 ≤ n1 + n2), bind_ok]
    exact parseFull_mono e2 (by omega)

/-- C22: on a recursion-free heap, for every object `p` that is a reduction
`Red q f` and every input `w`: `parseFull` returns on the child `q` a set `A`;
the override `Red::parseFull` returns on `p` the set of the `f x` for `x` in
`A`; and the body of the base-class `Parser::parseFull`, run on `p`, returns the
same set, that is `parseNull` on `p` returns it when `w` is empty, and `derive`
on `p` by the first terminal returns an object on which `parseFull` returns it
for the rest of `w` otherwise. -/
theorem Red_parseFull_eq_base_parseFull {h : Heap} {p : Id} {o : Parser} {q : Id}
    {f : Val → Val} (hw : WellFormed h) (hp : h[p]? = some o) (hk : o.kind = .Red q f)
    (w : List T) :
    ∃ n h1 A h2, parseFull n h q w = .ok (h1, A) ∧
      parseFull (n + 1) h p w = .ok (h1, A.image f) ∧
      Parser.parseFull n h p w = .ok (h2, A.image f) ∧
      (w = [] → parseNull n h p = .ok (h2, A.image f)) ∧
      (∀ t rest, w = t :: rest → ∃ h3 d, derive n h p t = .ok (h3, d) ∧
        parseFull n h3 d rest = .ok (h2, A.image f)) := by
  have hpl := lt_length_of_getElem? hp
  have hqp : q < p := (hw p o hp).children_lt q (by rw [hk]; simp [Kind.children])
  obtain ⟨n1, h1, A, e1, -, -, semA⟩ := parseFull_wellFormed w q h hw (Nat.lt_trans hqp hpl)
  obtain ⟨n2, h2, S, e2, semS⟩ := base_parseFull_wellFormed hw hpl w
  have hS : S = A.image f := by
    apply Finset.ext
    intro v
    rw [semS v, parses_Red hp hk, Finset.mem_image]
    constructor
    · rintro ⟨x, rfl, hx⟩
      exact ⟨x, (semA x).2 hx, rfl⟩
    · rintro ⟨x, hx, rfl⟩
      exact ⟨x, rfl, (semA x).1 hx⟩
  rw [hS] at e2
  have f1 := parseFull_mono e1 (by omega : n1 ≤ n1 + n2)
  have f2 := base_parseFull_mono e2 (by omega : n2 ≤ n1 + n2)
  refine ⟨n1 + n2, h1, A, h2, f1, ?_, f2, ?_, ?_⟩
  · simp only [parseFull, deref_eq_ok hp, bind_ok, hk, f1, pure_eq_ok]
  · intro hnil
    subst hnil
    exact f2
  · intro t rest hcons
    subst hcons
    simp only [Parser.parseFull] at f2
    cases hd : derive (n1 + n2) h p t with
    | error x => rw [hd] at f2; cases f2
    | ok hd1 =>
      obtain ⟨h3, d⟩ := hd1
      rw [hd, bind_ok] at f2
      exact ⟨h3, d, rfl, f2⟩

/-- The reduction `red(terminal('a'), x -> 'A')` on the input `['a']` is a
witness for C22. -/
theorem Red_parseFull_eq_base_parseFull_witness :
    WellFormed altRedHeap ∧
    altRedHeap[1]? = some (Parser.newRed 0 (fun _ => Val.term 65)) ∧
    ∃ n h1 A h2, parseFull n altRedHeap 0 [97] = .ok (h1, A) ∧
      parseFull (n + 1) altRedHeap 1 [97] = .ok (h1, A.image (fun _ => Val.term 65)) ∧
      Parser.parseFull n altRedHeap 1 [97] = .ok (h2, A.image (fun _ => Val.term 65)) ∧
      ([97] = [] → parseNull n altRedHeap 1 = .ok (h2, A.image (fun _ => Val.term 65))) ∧
      (∀ t rest, [97] = t :: rest → ∃ h3 d, derive n altRedHeap 1 t = .ok (h3, d) ∧
        parseFull n h3 d rest = .ok (h2, A.image (fun _ => Val.term 65))) :=
  ⟨wellFormed_altRedHeap, rfl,
    Red_parseFull_eq_base_parseFull wellFormed_altRedHeap rfl rfl [97]⟩

/-- The override and the base-class body on `red(terminal('a'), x -> 'A')`:
both return `{'A'}` on `['a']` and nothing on `[]` and on `['a','a']`. -/
theorem Red_parseFull_examples :
    value (parseFull 20 altRedHeap 1 [97]) = .ok {Val.term 65} ∧
    value (Parser.parseFull 20 altRedHeap 1 [97]) = .ok {Val.term 65} ∧
    value (parseFull 20 altRedHeap 1 []) = .ok ∅ ∧
    value (Parser.parseFull 20 altRedHeap 1 []) = .ok ∅ ∧
    value (parseFull 20 altRedHeap 1 [97, 97]) = .ok ∅ ∧
    value (Parser.parseFull 20 altRedHeap 1 [97, 97]) = .ok ∅ := by
  decide!

/-! ### A non-nullable left part has no parse of the empty input -/

/-- On a recursion-free heap `isNullable` and `parseNull` return on every
object, and `isNullable` returns true when the set `parseNull` returns is not
empty. -/
theorem parseNull_nonempty_nullable {h : Heap} {p : Id} (hw : WellFormed h)
    (hpl : p < h.length) :
    ∃ n h1 b h2 s, isNullable n h p = .ok (h1, b) ∧ parseNull n h p = .ok (h2, s) ∧
      (s.Nonempty → b = true) := by
  obtain ⟨o, ho⟩ := exists_getElem?_of_lt hpl
  obtain ⟨n, h1, e1, hw1, ext1, -, ⟨o1, ho1, hi1⟩, -, -⟩ := isNullable_wellFormed hw ho
  obtain ⟨m, h2, s, e2, -, ext2, -, -, sem2⟩ := parseNull_sound hw hpl
  have hsound := (views_sound p h1 o1 hw1 ho1 hi1).2
  refine ⟨n + m, h1, _, h2, s, isNullable_mono e1 (by omega), parseNull_mono e2 (by omega), ?_⟩
  rintro ⟨v, hv⟩
  cases hb : nullableView h1 p with
  | true => rfl
  | false =>
    have hv1 : v ∈ parseNullView h1 p := by
      rw [hsound.1 v, ext1.parses_iff hw hpl, ← ext2.parses_iff hw hpl, ← sem2 v]
      exact hv
    rw [hsound.2 hb] at hv1
    exact absurd hv1 (Finset.not_mem_empty v)

/-- On a recursion-free heap, when `Con::internalDerive` finds the left part
not nullable: it returns `primaryRet`; `parseNull` returns the empty set on the
left part; the disjunct that was not built, `Con(Eps(parseNull(first)),
second.derive(t))`, parses nothing; and the union of `primaryRet` and that
disjunct parses what `primaryRet` parses. -/
theorem Con_bridge_dropped {h : Heap} {c : Id} {oc : Parser} {p r : Id}
    (hw : WellFormed h) (hc : h[c]? = some oc) (hk : oc.kind = .Con p r) (t : T) :
    ∃ n h1 Ld h3 e h5 nl,
      derive n h p t = .ok (h1, Ld) ∧
      isEmpty n (alloc h1 Parser.newEmp).1 Ld = .ok (h3, e) ∧
      isNullable n (primaryRet h3 h1.length e Ld r).1 p = .ok (h5, nl) ∧
      (nl = false →
        internalDerive (n + 1) h c t = .ok (h5, (primaryRet h3 h1.length e Ld r).2) ∧
        ∃ h6 h8 Rd, parseNull n h5 p = .ok (h6, ∅) ∧
          derive n (alloc h6 (Parser.newEps ∅)).1 r t = .ok (h8, Rd) ∧
          ∀ w, ∃ k g1 g2 g3 S,
            parseFull k h5 (primaryRet h3 h1.length e Ld r).2 w = .ok (g1, S) ∧
            parseFull k (alloc h8 (Parser.newCon h6.length Rd)).1 h8.length w = .ok (g2, ∅) ∧
            parseFull k (unionRule h8 (primaryRet h3 h1.length e Ld r).2 h6.length Rd).1
              (unionRule h8 (primaryRet h3 h1.length e Ld r).2 h6.length Rd).2 w =
                .ok (g3, S)) := by
  have hcl := lt_length_of_getElem? hc
  have hpc : p < c := (hw c oc hc).children_lt p (by rw [hk]; simp [Kind.children])
  have hrc : r < c := (hw c oc hc).children_lt r (by rw [hk]; simp [Kind.children])
  have hpl : p < h.length := Nat.lt_trans hpc hcl
  have hrl : r < h.length := Nat.lt_trans hrc hcl
  obtain ⟨n1, h1, Ld, e1, P1⟩ := derive_wellFormed p h t hw hpl
  have hw2 : WellFormed (alloc h1 Parser.newEmp).1 := P1.wf.alloc_Emp
  have ext12 := Ext.ext_alloc h1 Parser.newEmp
  have hL2 : Ld < (alloc h1 Parser.newEmp).1.length := ext12.lt_length P1.lt
  have hE2 : h1.length < (alloc h1 Parser.newEmp).1.length := by
    simp only [length_alloc]; exact Nat.lt_succ_self _
  obtain ⟨oL, hoL⟩ := exists_getElem?_of_lt hL2
  obtain ⟨n3, h3, e3, hw3, ext3, -, hi3, -, -⟩ := isEmpty_wellFormed hw2 hoL
  have ext03 := P1.ext.ext_trans (ext12.ext_trans ext3)
  have hL3 : Ld < h3.length := ext3.lt_length hL2
  have hr3 : r < h3.length := ext03.lt_length hrl
  have hPR : WellFormed (primaryRet h3 h1.length (emptyView h3 Ld) Ld r).1 ∧
      Ext h3 (primaryRet h3 h1.length (emptyView h3 Ld) Ld r).1 ∧
      (primaryRet h3 h1.length (emptyView h3 Ld) Ld r).2 <
        (primaryRet h3 h1.length (emptyView h3 Ld) Ld r).1.length := by
    unfold primaryRet
    cases emptyView h3 Ld
    · simp only [Bool.not_false, if_true]
      refine ⟨hw3.alloc_Con hL3 hr3, Ext.ext_alloc _ _, ?_⟩
      simp only [alloc, List.length_append, List.length_singleton]; exact Nat.lt_succ_self _
    · simp only [Bool.not_true, Bool.false_eq_true, if_false]
      exact ⟨hw3, Ext.ext_refl _, ext3.lt_length hE2⟩
  obtain ⟨hw4, ext34, hpr4⟩ := hPR
  have ext04 := ext03.ext_trans ext34
  obtain ⟨of4, hof4⟩ := exists_getElem?_of_lt (ext04.lt_length hpl)
  obtain ⟨n5, h5, e5, hw5, ext5, -, hi5, -, -⟩ := isNullable_wellFormed hw4 hof4
  have ext05 := ext04.ext_trans ext5
  have hpr5 := ext5.lt_length hpr4
  obtain ⟨o5, ho5, hin5⟩ := hi5
  obtain ⟨n6, h6, e6, -, -, -, -, hst6, -⟩ := parseNull_wellFormed hw5 ho5
  have h65 : h6 = h5 := hst6 ⟨o5, ho5, hin5⟩
  subst h65
  have hw7 : WellFormed (alloc h6 (Parser.newEps ∅)).1 := hw5.alloc_Eps _
  have ext67 := Ext.ext_alloc h6 (Parser.newEps ∅)
  have hN7 : h6.length < (alloc h6 (Parser.newEps ∅)).1.length := by
    simp only [length_alloc]; exact Nat.lt_succ_self _
  obtain ⟨n8, h8, Rd, e8, P8⟩ :=
    derive_wellFormed r _ t hw7 ((ext05.ext_trans ext67).lt_length hrl)
  have hN8 : h6.length < h8.length := P8.ext.lt_length hN7
  have hw9 : WellFormed (alloc h8 (Parser.newCon h6.length Rd)).1 := P8.wf.alloc_Con hN8 P8.lt
  have ext89 := Ext.ext_alloc h8 (Parser.newCon h6.length Rd)
  have hB9 : h8.length < (alloc h8 (Parser.newCon h6.length Rd)).1.length := by
    simp only [length_alloc]; exact Nat.lt_succ_self _
  have ext69 := ext67.ext_trans (P8.ext.ext_trans ext89)
  have hpr9 := ext69.lt_length hpr5
  have hbr : ∀ w v, ¬ Parses (alloc h8 (Parser.newCon h6.length Rd)).1 h8.length w v := by
    intro w v
    rw [parses_Con (getElem?_alloc_length h8 (Parser.newCon h6.length Rd)) rfl]
    rintro ⟨u, w', a, b, -, -, ha, -⟩
    have h2 := (((P8.ext.ext_trans ext89).eps_iff
      (getElem?_alloc_length h6 (Parser.newEps ∅)) rfl).1 ha).2
    simp [Parser.newEps, Parser.base] at h2
  have hw10 : WellFormed (unionRule h8
      (primaryRet h3 h1.length (emptyView h3 Ld) Ld r).2 h6.length Rd).1 :=
    hw9.alloc_Alt _ (fun q hq => by
      rcases mem_setInsert.1 hq with hq | hq
      · rcases mem_setInsert.1 hq with hq | hq
        · cases hq
        · rw [hq]; exact hpr9
      · rw [hq]; exact hB9)
  have ext910 : Ext (alloc h8 (Parser.newCon h6.length Rd)).1
      (unionRule h8 (primaryRet h3 h1.length (emptyView h3 Ld) Ld r).2 h6.length Rd).1 :=
    Ext.ext_alloc _ _
  have hU10 : (unionRule h8 (primaryRet h3 h1.length (emptyView h3 Ld) Ld r).2 h6.length Rd).2 <
      (unionRule h8 (primaryRet h3 h1.length (emptyView h3 Ld) Ld r).2 h6.length
        Rd).1.length := by
    simp only [unionRule, alloc, List.length_append, List.length_singleton]
    exact Nat.lt_succ_self _
  have hU : (unionRule h8 (primaryRet h3 h1.length (emptyView h3 Ld) Ld r).2 h6.length
      Rd).1[(unionRule h8 (primaryRet h3 h1.length (emptyView h3 Ld) Ld r).2 h6.length Rd).2]? =
      some (Parser.newAlt (setInsert (setInsert []
        (primaryRet h3 h1.length (emptyView h3 Ld) Ld r).2) h8.length)) :=
    getElem?_alloc_length (alloc h8 (Parser.newCon h6.length Rd)).1 _
  refine ⟨n1 + n3 + n5 + n6 + n8, h1, Ld, h3, _, h6, _, derive_mono e1 (by omega),
    isEmpty_mono e3 (by omega), isNullable_mono e5 (by omega), fun hnl => ?_⟩
  have hnull : parseNullView h6 p = ∅ := (views_sound p h6 o5 hw5 ho5 hin5).2.2 hnl
  rw [hnull] at e6
  refine ⟨((Con_internalDerive_forward hc hk t (n1 + n3 + n5 + n6 + n8) h1 Ld h3 _ h6 _
    (derive_mono e1 (by omega)) (isEmpty_mono e3 (by omega))
    (isNullable_mono e5 (by omega))).1 hnl), h6, h8, Rd, parseNull_mono e6 (by omega),
    derive_mono e8 (by omega), fun w => ?_⟩
  obtain ⟨k1, g1, S, f1, -, -, sem1⟩ := parseFull_wellFormed w _ h6 hw5 hpr5
  obtain ⟨k2, g2, S2, f2, -, -, sem2⟩ := parseFull_wellFormed w h8.length _ hw9 hB9
  obtain ⟨k3, g3, S3, f3, -, -, sem3⟩ := parseFull_wellFormed w _ _ hw10 hU10
  have hS2 : S2 = ∅ := Finset.eq_empty_of_forall_not_mem (fun v hv => hbr w v ((sem2 v).1 hv))
  have hS3 : S3 = S := by
    apply Finset.ext
    intro v
    rw [sem3 v, sem1 v, parses_Alt hU rfl]
    constructor
    · rintro ⟨q, hq, hpar⟩
      rcases mem_setInsert.1 hq with hq | hq
      · rcases mem_setInsert.1 hq with hq | hq
        · cases hq
        · rw [hq] at hpar
          exact ((ext69.ext_trans ext910).parses_iff hw5 hpr5).1 hpar
      · rw [hq] at hpar
        exact absurd ((ext910.parses_iff hw9 hB9).1 hpar) (hbr w v)
    · intro hpar
      exact ⟨_, mem_setInsert.2 (Or.inl (mem_setInsert.2 (Or.inr rfl))),
        ((ext69.ext_trans ext910).parses_iff hw5 hpr5).2 hpar⟩
  rw [hS2] at f2
  rw [hS3] at f3
  exact ⟨k1 + k2 + k3, g1, g2, g3, S, parseFull_mono f1 (by omega),
    parseFull_mono f2 (by omega), parseFull_mono f3 (by omega)⟩

/-- C21: on a recursion-free heap, for every object `p`: `isNullable` and
`parseNull` return on `p`, and `isNullable` returns true when the set
`parseNull` returns is not empty; hence, for every concatenation `c = Con p r`
and terminal `t`, when `Con::internalDerive` on `c` finds `p` not nullable and
returns `primaryRet` alone, `parseNull` returns the empty set on `p`, the
disjunct that was not built, `Con(Eps(parseNull(p)), r.derive(t))`, parses
nothing on any input, and on every input `parseFull` returns on `primaryRet`
the same set as on the union of `primaryRet` and that disjunct. -/
theorem parseNull_nonempty_isNullable {h : Heap} {p : Id} (hw : WellFormed h)
    (hpl : p < h.length) :
    (∃ n h1 b h2 s, isNullable n h p = .ok (h1, b) ∧ parseNull n h p = .ok (h2, s) ∧
      (s.Nonempty → b = true)) ∧
    ∀ (c : Id) (oc : Parser) (r : Id) (t : T), h[c]? = some oc → oc.kind = .Con p r →
      ∃ n h1 Ld h3 e h5 nl,
        derive n h p t = .ok (h1, Ld) ∧
        isEmpty n (alloc h1 Parser.newEmp).1 Ld = .ok (h3, e) ∧
        isNullable n (primaryRet h3 h1.length e Ld r).1 p = .ok (h5, nl) ∧
        (nl = false →
          internalDerive (n + 1) h c t = .ok (h5, (primaryRet h3 h1.length e Ld r).2) ∧
          ∃ h6 h8 Rd, parseNull n h5 p = .ok (h6, ∅) ∧
            derive n (alloc h6 (Parser.newEps ∅)).1 r t = .ok (h8, Rd) ∧
            ∀ w, ∃ k g1 g2 g3 S,
              parseFull k h5 (primaryRet h3 h1.length e Ld r).2 w = .ok (g1, S) ∧
              parseFull k (alloc h8 (Parser.newCon h6.length Rd)).1 h8.length w =
                .ok (g2, ∅) ∧
              parseFull k (unionRule h8 (primaryRet h3 h1.length e Ld r).2 h6.length Rd).1
                (unionRule h8 (primaryRet h3 h1.length e Ld r).2 h6.length Rd).2 w =
                  .ok (g3, S)) :=
  ⟨parseNull_nonempty_nullable hw hpl, fun _ _ _ t hc hk => Con_bridge_dropped hw hc hk t⟩

/-- The terminal `'a'`, left part of `con(terminal('a'), terminal('b'))`, is a
witness for C21. -/
theorem parseNull_nonempty_isNullable_witness :
    WellFormed conHeap ∧ 0 < conHeap.length ∧
    (∃ n h1 b h2 s, isNullable n conHeap 0 = .ok (h1, b) ∧
      parseNull n conHeap 0 = .ok (h2, s) ∧ (s.Nonempty → b = true)) ∧
    ∀ (c : Id) (oc : Parser) (r : Id) (t : T), conHeap[c]? = some oc → oc.kind = .Con 0 r →
      ∃ n h1 Ld h3 e h5 nl,
        derive n conHeap 0 t = .ok (h1, Ld) ∧
        isEmpty n (alloc h1 Parser.newEmp).1 Ld = .ok (h3, e) ∧
        isNullable n (primaryRet h3 h1.length e Ld r).1 0 = .ok (h5, nl) ∧
        (nl = false →
          internalDerive (n + 1) conHeap c t = .ok (h5, (primaryRet h3 h1.length e Ld r).2) ∧
          ∃ h6 h8 Rd, parseNull n h5 0 = .ok (h6, ∅) ∧
            derive n (alloc h6 (Parser.newEps ∅)).1 r t = .ok (h8, Rd) ∧
            ∀ w, ∃ k g1 g2 g3 S,
              parseFull k h5 (primaryRet h3 h1.length e Ld r).2 w = .ok (g1, S) ∧
              parseFull k (alloc h8 (Parser.newCon h6.length Rd)).1 h8.length w =
                .ok (g2, ∅) ∧
              parseFull k (unionRule h8 (primaryRet h3 h1.length e Ld r).2 h6.length Rd).1
                (unionRule h8 (primaryRet h3 h1.length e Ld r).2 h6.length Rd).2 w =
                  .ok (g3, S)) :=
  ⟨wellFormed_conHeap, by decide, parseNull_nonempty_isNullable wellFormed_conHeap (by decide)⟩

/-- In `con(terminal('a'), terminal('b'))` the left part is not nullable and
`parseNull` returns the empty set on it; the derivative by `'a'` parses `['b']`
to the pair `('a','b')`. -/
theorem Con_bridge_dropped_example :
    value (isNullable 10 conHeap 0) = .ok false ∧
    value (parseNull 10 conHeap 0) = .ok ∅ ∧
    value (parseFull 20 conHeap 2 [97, 98]) = .ok {Val.pair (.term 97) (.term 98)} := by
  decide!

/-! ### Recursions that close no cycle -/

theorem Grow.grow_refl (h : Heap) : Grow h h :=
  ⟨Nat.le_refl _, fun _ o ho => ⟨o, ho, rfl, id, fun _ _ e => e⟩⟩

theorem Grow.grow_trans {h1 h2 h3 : Heap} (a : Grow h1 h2) (b : Grow h2 h3) : Grow h1 h3 := by
  refine ⟨Nat.le_trans a.length_le b.length_le, fun p o ho => ?_⟩
  obtain ⟨o2, ho2, k2, i2, c2⟩ := a.node p o ho
  obtain ⟨o3, ho3, k3, i3, c3⟩ := b.node p o2 ho2
  exact ⟨o3, ho3, k3.trans k2, fun e => i3 (i2 e), fun t d e => c3 t d (c2 t d e)⟩

theorem Grow.grow_alloc (h : Heap) (o : Parser) : Grow h (h ++ [o]) := by
  refine ⟨by simp, fun p x hx => ⟨x, ?_, rfl, id, fun _ _ e => e⟩⟩
  rw [List.getElem?_append_left (lt_length_of_getElem? hx)]
  exact hx

theorem Grow.grow_set {h : Heap} {p : Id} {o x : Parser} (hp : h[p]? = some o)
    (hk : x.kind = o.kind) (hi : o.initialized = true → x.initialized = true)
    (hc : ∀ t d, o.cache.lookup t = some d → x.cache.lookup t = some d) : Grow h (h.set p x) := by
  refine ⟨by simp, fun q y hy => ?_⟩
  by_cases e : p = q
  · subst e
    rw [hp] at hy
    cases hy
    exact ⟨x, getElem?_set_self' hp x, hk, hi, hc⟩
  · exact ⟨y, by rw [List.getElem?_set_ne e]; exact hy, rfl, id, fun _ _ e => e⟩

theorem Grow.grow_initialized {h h' : Heap} (g : Grow h h') {q : Id} (hq : Initialized h q) :
    Initialized h' q := by
  obtain ⟨o, ho, hi⟩ := hq
  obtain ⟨o', ho', -, i, -⟩ := g.node q o ho
  exact ⟨o', ho', i hi⟩

theorem Grow.lt_len {h h' : Heap} (g : Grow h h') {q : Nat} (hq : q < h.length) :
    q < h'.length := Nat.lt_of_lt_of_le hq g.length_le

theorem Ready.grow {h h' : Heap} (g : Grow h h') {k : Kind} (hr : Ready h k) : Ready h' k := by
  cases k with
  | Alt ps => exact fun c hc => g.grow_initialized (hr c hc)
  | Con f s => exact ⟨g.grow_initialized hr.1, g.grow_initialized hr.2⟩
  | Red q f => exact g.grow_initialized hr
  | RecursiveParser r =>
    cases r with
    | none => exact hr
    | some r => exact g.grow_initialized hr
  | DFut q c =>
    cases q with
    | none => exact hr
    | some q =>
      obtain ⟨oq, d, hoq, hd, hi⟩ := hr
      obtain ⟨oq', hoq', -, -, hc⟩ := g.node q oq hoq
      exact ⟨oq', d, hoq', hc c d hd, g.grow_initialized hi⟩
  | _ => trivial

theorem Agree.agree_refl (ρ : Nat → Nat) (n : Nat) : Agree ρ ρ n := fun _ _ => rfl

theorem Agree.agree_trans {ρ1 ρ2 ρ3 : Nat → Nat} {n m : Nat} (a : Agree ρ1 ρ2 n)
    (b : Agree ρ2 ρ3 m) (hnm : n ≤ m) : Agree ρ1 ρ3 n :=
  fun i hi => (b i (Nat.lt_of_lt_of_le hi hnm)).trans (a i hi)

theorem Agree.agree_update (ρ : Nat → Nat) (n v : Nat) : Agree ρ (Function.update ρ n v) n := by
  intro i hi
  exact Function.update_noteq (Nat.ne_of_lt hi) v ρ

theorem Keep.keep_refl (ρ : Nat → Nat) (k i : Nat) (h : Heap) : Keep ρ k i h h :=
  fun _ o ho _ => ⟨o, ho, rfl⟩

theorem Keep.keep_weaken {ρ : Nat → Nat} {k i a b : Nat} {h h' : Heap} (hk : Keep ρ k i h h')
    (hle : k < a ∨ (k = a ∧ i ≤ b)) : Keep ρ a b h h' := by
  intro x o ho hx
  apply hk x o ho
  unfold AtLeast at *
  omega

theorem Keep.keep_trans {ρ ρ' : Nat → Nat} {k i : Nat} {h1 h2 h3 : Heap} (a : Keep ρ k i h1 h2)
    (hag : Agree ρ ρ' h1.length) (b : Keep ρ' k i h2 h3) : Keep ρ k i h1 h3 := by
  intro x o ho hx
  obtain ⟨o2, ho2, c2⟩ := a x o ho hx
  have e := hag x (lt_length_of_getElem? ho)
  obtain ⟨o3, ho3, c3⟩ := b x o2 ho2 (by unfold AtLeast at *; rw [e]; exact hx)
  exact ⟨o3, ho3, c3.trans c2⟩

theorem Keep.keep_alloc (ρ : Nat → Nat) (k i : Nat) (h : Heap) (o : Parser) :
    Keep ρ k i h (h ++ [o]) := by
  intro x y hy _
  exact ⟨y, by rw [List.getElem?_append_left (lt_length_of_getElem? hy)]; exact hy, rfl⟩

theorem Keep.keep_set {ρ : Nat → Nat} {k i : Nat} {h : Heap} {p : Id} {o x : Parser}
    (hp : h[p]? = some o) (hc : AtLeast ρ k i p → x.cache = o.cache) :
    Keep ρ k i h (h.set p x) := by
  intro q y hy hq
  by_cases e : p = q
  · subst e
    rw [hp] at hy
    cases hy
    exact ⟨x, getElem?_set_self' hp x, hc hq⟩
  · exact ⟨y, by rw [List.getElem?_set_ne e]; exact hy, rfl⟩

theorem Linked.len_mono {ρ : Nat → Nat} {lvl len len' p : Nat} (hle : len ≤ len') {k : Kind}
    (hl : Linked ρ lvl len p k) : Linked ρ lvl len' p k := by
  cases k with
  | RecursiveParser r =>
    cases r with
    | none => trivial
    | some r => exact ⟨Nat.lt_of_lt_of_le hl.1 hle, hl.2⟩
  | DFut q c =>
    cases q with
    | none => trivial
    | some q => exact ⟨Nat.lt_of_lt_of_le hl.1 hle, hl.2⟩
  | Alt ps => exact hl
  | Con f s => exact hl
  | Red q f => exact hl
  | Rep q => exact hl
  | Emp => trivial
  | Eps => trivial
  | EqT t => trivial

theorem Linked.linked_agree {ρ ρ' : Nat → Nat} {len len' p : Nat} (hag : Agree ρ ρ' len) (hp : p < len)
    (hle : len ≤ len') {k : Kind} (hl : Linked ρ (ρ p) len p k) : Linked ρ' (ρ' p) len' p k := by
  have ep := hag p hp
  cases k with
  | Alt ps =>
    intro c hc
    obtain ⟨a, b⟩ := hl c hc
    exact ⟨a, by rw [hag c (Nat.lt_trans a hp), ep]; exact b⟩
  | Con f s =>
    obtain ⟨⟨a, b⟩, c, d⟩ := hl
    exact ⟨⟨a, by rw [hag f (Nat.lt_trans a hp), ep]; exact b⟩,
      c, by rw [hag s (Nat.lt_trans c hp), ep]; exact d⟩
  | Red q f =>
    obtain ⟨a, b⟩ := hl
    exact ⟨a, by rw [hag q (Nat.lt_trans a hp), ep]; exact b⟩
  | Rep q =>
    obtain ⟨a, b⟩ := hl
    exact ⟨a, by rw [hag q (Nat.lt_trans a hp), ep]; exact b⟩
  | RecursiveParser r =>
    cases r with
    | none => trivial
    | some r =>
      obtain ⟨a, b⟩ := hl
      exact ⟨Nat.lt_of_lt_of_le a hle, by rw [hag r a, ep]; exact b⟩
  | DFut q c =>
    cases q with
    | none => trivial
    | some q =>
      obtain ⟨a, b⟩ := hl
      exact ⟨Nat.lt_of_lt_of_le a hle, by rw [hag q a, ep]; exact b⟩
  | _ => trivial

theorem Coherent.of_views {σ : Prop} {h h' : Heap} {p : Id}
    (hv : emptyView h p = emptyView h' p ∧ nullableView h p = nullableView h' p ∧
      parseNullView h p = parseNullView h' p) (hc : Coherent σ h p) : Coherent σ h' p := by
  unfold Coherent at *
  rw [← hv.2.1, ← hv.2.2]
  exact hc

/-- The invariant of an object is kept when the heap grows, the levels of the
old objects and the attributes of the object staying the same. -/
theorem LayeredNode.transfer {B : Nat} {ρ ρ' : Nat → Nat} {h h' : Heap} {p : Id} {o : Parser}
    (hn : LayeredNode B ρ h p o) (hp : p < h.length) (hag : Agree ρ ρ' h.length)
    (g : Grow h h')
    (hv : emptyView h p = emptyView h' p ∧ nullableView h p = nullableView h' p ∧
      parseNullView h p = parseNullView h' p) : LayeredNode B ρ' h' p o := by
  have ep := hag p hp
  refine ⟨Linked.linked_agree hag hp g.length_le hn.link, fun t d e => ?_, hn.constructed,
    fun hi => Ready.grow g (hn.ready hi),
    fun hi => by rw [ep]; exact Coherent.of_views hv (hn.coherent hi),
    by rw [ep]; exact hn.seeded⟩
  obtain ⟨a, b⟩ := hn.cached t d e
  exact ⟨Nat.lt_of_lt_of_le a g.length_le, by rw [hag d a, hag p hp]; exact b⟩

theorem Layered.layered_agree {B : Nat} {ρ ρ' : Nat → Nat} {h : Heap} (hl : Layered B ρ h)
    (hag : Agree ρ ρ' h.length) : Layered B ρ' h :=
  fun p o ho => (hl p o ho).transfer (lt_length_of_getElem? ho) hag (Grow.grow_refl h)
    ⟨rfl, rfl, rfl⟩

/-- A new object keeps the invariant. -/
theorem Layered.alloc_node {B : Nat} {ρ : Nat → Nat} {h : Heap} (hl : Layered B ρ h)
    {o : Parser} (hi : o.initialized = false) (hc : o.cache = [])
    (hk : Linked ρ (ρ h.length) h.length h.length o.kind) (hcon : Constructed o)
    (hs : ρ h.length < B → o.kind = .Eps → o.parseNullLocal.Nonempty) :
    Layered B ρ (h ++ [o]) := by
  intro p x hx
  rcases getElem?_alloc_cases (o := o) hx with ⟨hp, hx'⟩ | ⟨hp, rfl⟩
  · exact (hl p x hx').transfer hp (Agree.agree_refl ρ _) (Grow.grow_alloc h o)
      (views_alloc o hp)
  · subst hp
    refine ⟨?_, fun t d e => ?_, hcon, fun e => ?_, fun e => ?_, hs⟩
    · rw [List.length_append, List.length_singleton]
      exact Linked.len_mono (Nat.le_succ _) hk
    · rw [hc] at e; cases e
    · rw [hi] at e; cases e
    · rw [hi] at e; cases e

/-- Writing an object keeps the invariant when the new contents satisfy it. -/
theorem Layered.set_node {B : Nat} {ρ : Nat → Nat} {h : Heap} (hl : Layered B ρ h) {p : Id}
    {o x : Parser} (hp : h[p]? = some o) (hk : x.kind = o.kind)
    (hi : o.initialized = true → x.initialized = true)
    (hc : ∀ t d, o.cache.lookup t = some d → x.cache.lookup t = some d)
    (hx : LayeredNode B ρ (h.set p x) p x) : Layered B ρ (h.set p x) := by
  intro q y hy
  by_cases e : p = q
  · subst e
    rw [getElem?_set_self' hp x] at hy
    cases hy
    exact hx
  · rw [List.getElem?_set_ne e] at hy
    have := (hl q y hy).transfer (lt_length_of_getElem? hy) (Agree.agree_refl ρ _)
      (Grow.grow_set hp hk hi hc) (views_set_ne x e)
    exact this

theorem Moved.moved_refl {B : Nat} {ρ : Nat → Nat} {h : Heap} (hl : Layered B ρ h) (k i : Nat) :
    Moved B ρ h k i ρ h :=
  ⟨Agree.agree_refl ρ _, hl, Grow.grow_refl h, Keep.keep_refl ρ k i h⟩

theorem Moved.moved_trans {B : Nat} {ρ1 ρ2 ρ3 : Nat → Nat} {h1 h2 h3 : Heap} {k i k' i' : Nat}
    (a : Moved B ρ1 h1 k i ρ2 h2) (b : Moved B ρ2 h2 k' i' ρ3 h3)
    (hle : k' < k ∨ (k' = k ∧ i' ≤ i)) : Moved B ρ1 h1 k i ρ3 h3 :=
  ⟨a.agree.agree_trans b.agree a.grow.length_le, b.layered, a.grow.grow_trans b.grow,
    a.keep.keep_trans a.agree (b.keep.keep_weaken hle)⟩

theorem Moved.moved_weaken {B : Nat} {ρ ρ' : Nat → Nat} {h h' : Heap} {k i a b : Nat}
    (m : Moved B ρ h k i ρ' h') (hle : k < a ∨ (k = a ∧ i ≤ b)) : Moved B ρ h a b ρ' h' :=
  ⟨m.agree, m.layered, m.grow, m.keep.keep_weaken hle⟩

/-- Allocation of a new object of level `v`. -/
theorem Moved.moved_alloc {B : Nat} {ρ : Nat → Nat} {h : Heap} (hl : Layered B ρ h)
    (k i v : Nat) {o : Parser} (hi : o.initialized = false) (hc : o.cache = [])
    (hk : Linked ρ v h.length h.length o.kind) (hcon : Constructed o)
    (hs : v < B → o.kind = .Eps → o.parseNullLocal.Nonempty) :
    Moved B ρ h k i (Function.update ρ h.length v) (h ++ [o]) := by
  have hag := Agree.agree_update ρ h.length v
  have hv : Function.update ρ h.length v h.length = v := Function.update_same _ _ _
  refine ⟨hag, Layered.alloc_node (hl.layered_agree hag) hi hc ?_ hcon
    (fun hb => hs (by rw [hv] at hb; exact hb)), Grow.grow_alloc h o, Keep.keep_alloc ρ k i h o⟩
  rw [hv]
  cases hok : o.kind with
  | Alt ps =>
    rw [hok] at hk
    intro c hc
    obtain ⟨a, b⟩ := hk c hc
    exact ⟨a, by rw [hag c a]; exact b⟩
  | Con f s =>
    rw [hok] at hk
    obtain ⟨⟨a, b⟩, c, d⟩ := hk
    exact ⟨⟨a, by rw [hag f a]; exact b⟩, c, by rw [hag s c]; exact d⟩
  | Red q f =>
    rw [hok] at hk
    obtain ⟨a, b⟩ := hk
    exact ⟨a, by rw [hag q a]; exact b⟩
  | Rep q =>
    rw [hok] at hk
    obtain ⟨a, b⟩ := hk
    exact ⟨a, by rw [hag q a]; exact b⟩
  | RecursiveParser r =>
    cases r with
    | none => trivial
    | some r =>
      rw [hok] at hk
      obtain ⟨a, b⟩ := hk
      exact ⟨a, by rw [hag r a]; exact b⟩
  | DFut q c =>
    cases q with
    | none => trivial
    | some q =>
      rw [hok] at hk
      obtain ⟨a, b⟩ := hk
      exact ⟨a, by rw [hag q a]; exact b⟩
  | _ => trivial

theorem nullableView_set_self {h : Heap} {p : Id} {o : Parser} (hp : h[p]? = some o)
    (x : Parser) : nullableView (h.set p x) p = (!x.isEmptyLocal && x.isNullableLocal) := by
  simp only [nullableView, getElem?_set_self' hp]

theorem parseNullView_set_self {h : Heap} {p : Id} {o : Parser} (hp : h[p]? = some o)
    (x : Parser) :
    parseNullView (h.set p x) p = if x.isEmptyLocal then ∅ else x.parseNullLocal := by
  simp only [parseNullView, getElem?_set_self' hp]

theorem emptyView_false_of_nullable {h : Heap} {q : Id} (hn : nullableView h q = true) :
    emptyView h q = false := by
  unfold nullableView at hn
  unfold emptyView
  cases hq : h[q]? with
  | none => rfl
  | some o =>
    rw [hq] at hn
    simp only [Bool.and_eq_true, Bool.not_eq_true'] at hn
    exact hn.1

theorem emptyView_false_of_parseNull {h : Heap} {q : Id} (hn : (parseNullView h q).Nonempty) :
    emptyView h q = false := by
  cases he : emptyView h q with
  | false => rfl
  | true =>
    rw [parseNullView_of_emptyView he] at hn
    exact absurd hn Finset.not_nonempty_empty

/-- The attributes copied from a coherent object are coherent. -/
theorem Coherent.imp {σ τ : Prop} {h : Heap} {p : Id} (hc : Coherent σ h p) (hi : τ → σ) :
    Coherent τ h p :=
  ⟨hc.1, fun a => hc.2 (hi a)⟩

theorem Coherent.copy {σ : Prop} {h : Heap} {p r : Id} {o : Parser} (hp : h[p]? = some o)
    (hc : Coherent σ h r) : Coherent σ (h.set p (copyViews h o r)) p := by
  unfold Coherent
  rw [nullableView_set_self hp, parseNullView_set_self hp]
  simp only [copyViews, Parser.withParseNull, Parser.withEmpty, Parser.withNullable]
  constructor
  · intro hne
    cases he : emptyView h r with
    | true => rw [he] at hne; simp at hne
    | false =>
      rw [he] at hne
      simp only [Bool.false_eq_true, if_false] at hne
      simp [hc.1 hne]
  · intro hs hn
    simp only [Bool.and_eq_true, Bool.not_eq_true'] at hn
    rw [hn.1]
    simp only [Bool.false_eq_true, if_false]
    exact hc.2 hs hn.2

theorem Coherent.red {σ : Prop} {h : Heap} {p q : Id} {o : Parser} {f : Val → Val}
    (hp : h[p]? = some o) (hk : o.kind = .Red q f) (hc : Coherent σ h q) :
    Coherent σ (h.set p (recompute h o)) p := by
  unfold Coherent
  rw [nullableView_set_self hp, parseNullView_set_self hp, recompute_Red hk]
  simp only [Parser.withParseNull, Parser.withEmpty, Parser.withNullable]
  constructor
  · intro hne
    cases he : emptyView h q with
    | true => rw [he] at hne; simp at hne
    | false =>
      rw [he] at hne
      simp only [Bool.false_eq_true, if_false, Finset.image_nonempty] at hne
      simp [hc.1 hne]
  · intro hs hn
    simp only [Bool.and_eq_true, Bool.not_eq_true'] at hn
    rw [hn.1]
    simp only [Bool.false_eq_true, if_false, Finset.image_nonempty]
    exact hc.2 hs hn.2

theorem Coherent.con {σ : Prop} {h : Heap} {p f s : Id} {o : Parser}
    (hp : h[p]? = some o) (hk : o.kind = .Con f s) (hf : Coherent σ h f) (hs : Coherent σ h s) :
    Coherent σ (h.set p (recompute h o)) p := by
  unfold Coherent
  rw [nullableView_set_self hp, parseNullView_set_self hp, recompute_Con hk]
  simp only [Parser.withParseNull, Parser.withEmpty, Parser.withNullable]
  constructor
  · intro hne
    cases he : (emptyView h f || emptyView h s) with
    | true => rw [he] at hne; simp at hne
    | false =>
      rw [he] at hne
      simp only [Bool.false_eq_true, if_false, Finset.image_nonempty,
        Finset.nonempty_product] at hne
      simp [hf.1 hne.1, hs.1 hne.2]
  · intro hσ hn
    simp only [Bool.and_eq_true, Bool.not_eq_true'] at hn
    rw [hn.1]
    simp only [Bool.false_eq_true, if_false, Finset.image_nonempty, Finset.nonempty_product]
    exact ⟨hf.2 hσ hn.2.2.1, hs.2 hσ hn.2.2.2⟩

theorem Coherent.alt {σ : Prop} {h : Heap} {p : Id} {ps : List Id} {o : Parser}
    (hp : h[p]? = some o) (hk : o.kind = .Alt ps) (hc : ∀ c ∈ ps, Coherent σ h c) :
    Coherent σ (h.set p (recompute h o)) p := by
  unfold Coherent
  rw [nullableView_set_self hp, parseNullView_set_self hp, recompute_Alt hk]
  simp only [Parser.withParseNull, Parser.withEmpty, Parser.withNullable]
  rw [altStep_foldl_empty, altStep_foldl_nullable]
  simp only [Bool.true_and, Bool.false_or]
  constructor
  · intro hne
    cases he : ps.all (emptyView h) with
    | true => rw [he] at hne; simp at hne
    | false =>
      rw [he] at hne
      simp only [Bool.false_eq_true, if_false] at hne
      obtain ⟨v, hv⟩ := hne
      rcases mem_altStep_foldl.1 hv with hv | ⟨c, hc1, hv⟩
      · simp at hv
      · have := (hc c hc1).1 ⟨v, hv⟩
        simp only [Bool.not_false, Bool.true_and, List.any_eq_true]
        exact ⟨c, hc1, this⟩
  · intro hσ hn
    simp only [Bool.and_eq_true, Bool.not_eq_true', List.any_eq_true] at hn
    obtain ⟨he, -, c, hc1, hn⟩ := hn
    rw [he]
    simp only [Bool.false_eq_true, if_false]
    obtain ⟨v, hv⟩ := (hc c hc1).2 hσ hn
    exact ⟨v, mem_altStep_foldl.2 (Or.inr ⟨c, hc1, hv⟩)⟩

/-- The attributes of a `Emp`, `Eps`, `EqT` or `Rep` object are coherent. -/
theorem Coherent.of_constructed {σ : Prop} {h : Heap} {p : Id} {o : Parser}
    (hp : h[p]? = some o) (hc : Constructed o)
    (hs : σ → o.kind = .Eps → o.parseNullLocal.Nonempty)
    (hk : match o.kind with
      | .Emp => True
      | .Eps => True
      | .EqT _ => True
      | .Rep _ => True
      | _ => False) : Coherent σ h p := by
  unfold Coherent nullableView parseNullView
  rw [hp]
  unfold Constructed at hc
  cases hok : o.kind with
  | Emp => rw [hok] at hc; simp [hc]
  | Eps =>
    rw [hok] at hc
    simp only [hc.1, hc.2, Bool.false_eq_true, if_false, Bool.not_false, Bool.and_self,
      imp_true_iff, true_and, forall_true_left]
    exact fun hσ => hs hσ hok
  | EqT t => rw [hok] at hc; simp [hc.1, hc.2.1, hc.2.2]
  | Rep q => rw [hok] at hc; simp [hc.1, hc.2.1, hc.2.2]
  | Alt ps => rw [hok] at hk; exact hk.elim
  | Con f s => rw [hok] at hk; exact hk.elim
  | Red q f => rw [hok] at hk; exact hk.elim
  | RecursiveParser r => rw [hok] at hk; exact hk.elim
  | DFut q c => rw [hok] at hk; exact hk.elim

theorem derive_of_cached {h : Heap} {q : Id} {oq : Parser} {t : T} {d : Id}
    (hq : h[q]? = some oq) (hd : oq.cache.lookup t = some d) (n : Nat) :
    derive (n + 1) h q t = .ok (h, d) := by
  simp only [derive, deref_eq_ok hq, bind_ok, hd, pure_eq_ok]

theorem allUpdate_Rec {h : Heap} {p : Id} {o : Parser} {r : Id}
    (hp : h[p]? = some o) (hk : o.kind = .RecursiveParser (some r))
    (hr : Initialized h r) (hne : p ≠ r) (c : ChangeCell) (n : Nat) :
    ∃ b, allUpdate (n + 4) h c p =
        .ok (h.set p (copyViews h o r), { c with change := c.change || b }) := by
  obtain ⟨oq, hoq, hiq⟩ := hr
  have hq1 : ∀ x, (h.set p x)[r]? = some oq := fun x => by
    rw [List.getElem?_set_ne hne]; exact hoq
  have hp1 : ∀ x, (h.set p x)[p]? = some x := fun x => getElem?_set_self' hp x
  refine ⟨decide (o.parseNullLocal ≠ parseNullView h r) ||
      (decide (o.isEmptyLocal ≠ emptyView h r) ||
      decide (o.isNullableLocal ≠ nullableView h r)), ?_⟩
  simp only [allUpdate, deref_eq_ok hp, bind_ok, hk, derefOpt, parseNull_of_initialized hoq hiq,
    parseNullSet_eq_set hp, isEmpty_of_initialized (hq1 _) hiq, emptyView_set_ne _ hne,
    isEmptySet_eq_set (hp1 _), isNullable_of_initialized (hq1 _) hiq,
    nullableView_set_ne _ hne, isNullableSet_eq_set (hp1 _), pure_eq_ok, List.set_set,
    ChangeCell.orWith, Bool.or_assoc, copyViews]
  rfl

theorem allUpdate_DFut {h : Heap} {p : Id} {o : Parser} {q : Id} {t : T} {oq : Parser} {d : Id}
    (hp : h[p]? = some o) (hk : o.kind = .DFut (some q) t)
    (hq : h[q]? = some oq) (hd : oq.cache.lookup t = some d)
    (hr : Initialized h d) (hne : p ≠ d) (hnq : p ≠ q) (c : ChangeCell) (n : Nat) :
    ∃ b, allUpdate (n + 4) h c p =
        .ok (h.set p (copyViews h o d), { c with change := c.change || b }) := by
  obtain ⟨od, hod, hid⟩ := hr
  have hd1 : ∀ x, (h.set p x)[d]? = some od := fun x => by
    rw [List.getElem?_set_ne hne]; exact hod
  have hq1 : ∀ x, (h.set p x)[q]? = some oq := fun x => by
    rw [List.getElem?_set_ne hnq]; exact hq
  have hp1 : ∀ x, (h.set p x)[p]? = some x := fun x => getElem?_set_self' hp x
  refine ⟨decide (o.parseNullLocal ≠ parseNullView h d) ||
      (decide (o.isEmptyLocal ≠ emptyView h d) ||
      decide (o.isNullableLocal ≠ nullableView h d)), ?_⟩
  simp only [allUpdate, deref_eq_ok hp, bind_ok, hk, derefOpt, derive_of_cached hq hd,
    derive_of_cached (hq1 _) hd, parseNull_of_initialized hod hid,
    parseNullSet_eq_set hp, isEmpty_of_initialized (hd1 _) hid, emptyView_set_ne _ hne,
    isEmptySet_eq_set (hp1 _), isNullable_of_initialized (hd1 _) hid,
    nullableView_set_ne _ hne, isNullableSet_eq_set (hp1 _), pure_eq_ok, List.set_set,
    ChangeCell.orWith, Bool.or_assoc, copyViews]
  rfl

/-- On an initialized object whose `Ready` objects are initialized, `allUpdate`
only writes the attributes of the object: the ones `refresh` computes. -/
theorem allUpdate_ready (ρ : Nat → Nat) {h : Heap} {p : Id} {o : Parser}
    (hp : h[p]? = some o) (hi : o.initialized = true) (hr : Ready h o.kind)
    (hl : Linked ρ (ρ p) h.length p o.kind)
    (hdf : ∀ q c oq d, o.kind = .DFut (some q) c → h[q]? = some oq →
      oq.cache.lookup c = some d → ρ d ≤ ρ q)
    {n : Nat} {c : ChangeCell} {r : Heap × ChangeCell} (e : allUpdate n h c p = .ok r) :
    r.1 = h.set p (refresh h o) ∧ r.2.seen = c.seen := by
  have e4 := allUpdate_mono e (Nat.le_add_right n 4)
  cases hk : o.kind with
  | Emp =>
    simp only [allUpdate, deref_eq_ok hp, bind_ok, hk, pure_eq_ok] at e4
    cases e4
    simp only [refresh, recompute, hk, set_self_eq hp, and_self]
  | Eps =>
    simp only [allUpdate, deref_eq_ok hp, bind_ok, hk, pure_eq_ok] at e4
    cases e4
    simp only [refresh, recompute, hk, set_self_eq hp, and_self]
  | EqT t =>
    simp only [allUpdate, deref_eq_ok hp, bind_ok, hk, pure_eq_ok] at e4
    cases e4
    simp only [refresh, recompute, hk, set_self_eq hp, and_self]
  | Rep q =>
    simp only [allUpdate, deref_eq_ok hp, bind_ok, hk, pure_eq_ok] at e4
    cases e4
    simp only [refresh, recompute, hk, set_self_eq hp, and_self]
  | Alt ps =>
    rw [hk] at hr
    obtain ⟨b, eb, -⟩ := allUpdate_Alt hp hi hk hr c n
    rw [eb] at e4
    cases e4
    simp only [refresh, hk, and_self]
  | Con f s =>
    rw [hk] at hr hl
    obtain ⟨b, eb, -⟩ := allUpdate_Con hp hi hk hr.1 hr.2 (Nat.ne_of_gt hl.1.1)
      (Nat.ne_of_gt hl.2.1) c n
    rw [eb] at e4
    cases e4
    simp only [refresh, hk, and_self]
  | Red q f =>
    rw [hk] at hr hl
    obtain ⟨b, eb, -⟩ := allUpdate_Red hp hk hr (Nat.ne_of_gt hl.1) c n
    rw [eb] at e4
    cases e4
    simp only [refresh, hk, and_self]
  | RecursiveParser r =>
    cases r with
    | none => rw [hk] at hr; exact hr.elim
    | some r =>
      rw [hk] at hr hl
      have hne : p ≠ r := by
        intro e'
        rw [e'] at hl
        exact Nat.lt_irrefl _ hl.2
      obtain ⟨b, eb⟩ := allUpdate_Rec hp hk hr hne c n
      rw [eb] at e4
      cases e4
      simp only [refresh, hk, and_self]
  | DFut q t =>
    cases q with
    | none => rw [hk] at hr; exact hr.elim
    | some q =>
      rw [hk] at hr hl
      obtain ⟨oq, d, hoq, hd, hid⟩ := hr
      have hnq : p ≠ q := by
        intro e'
        rw [e'] at hl
        exact Nat.lt_irrefl _ hl.2
      have hne : p ≠ d := by
        intro e'
        have := hdf q t oq d hk hoq hd
        rw [← e'] at this
        exact Nat.lt_irrefl _ (Nat.lt_of_le_of_lt this hl.2)
      obtain ⟨b, eb⟩ := allUpdate_DFut hp hk hoq hd hid hne hnq c n
      rw [eb] at e4
      cases e4
      simp only [refresh, hk, hoq, hd, and_self]

theorem copyViews_kind (h : Heap) (o : Parser) (r : Id) : (copyViews h o r).kind = o.kind := rfl

theorem copyViews_initialized (h : Heap) (o : Parser) (r : Id) :
    (copyViews h o r).initialized = o.initialized := rfl

theorem copyViews_cache (h : Heap) (o : Parser) (r : Id) : (copyViews h o r).cache = o.cache :=
  rfl

theorem refresh_kind (h : Heap) (o : Parser) : (refresh h o).kind = o.kind := by
  unfold refresh
  split
  · rfl
  · split
    · split <;> rfl
    · rfl
  · exact recompute_kind h o

theorem refresh_initialized (h : Heap) (o : Parser) :
    (refresh h o).initialized = o.initialized := by
  unfold refresh
  split
  · rfl
  · split
    · split <;> rfl
    · rfl
  · exact recompute_initialized h o

theorem refresh_cache (h : Heap) (o : Parser) : (refresh h o).cache = o.cache := by
  unfold refresh
  split
  · rfl
  · split
    · split <;> rfl
    · rfl
  · exact recompute_cache h o

theorem refresh_of_plain {h : Heap} {o : Parser}
    (hk : match o.kind with
      | .Emp => True
      | .Eps => True
      | .EqT _ => True
      | .Rep _ => True
      | _ => False) : refresh h o = o := by
  cases hok : o.kind with
  | Emp => simp only [refresh, recompute, hok]
  | Eps => simp only [refresh, recompute, hok]
  | EqT t => simp only [refresh, recompute, hok]
  | Rep q => simp only [refresh, recompute, hok]
  | Alt ps => rw [hok] at hk; exact hk.elim
  | Con f s => rw [hok] at hk; exact hk.elim
  | Red q f => rw [hok] at hk; exact hk.elim
  | RecursiveParser r => rw [hok] at hk; exact hk.elim
  | DFut q c => rw [hok] at hk; exact hk.elim

theorem Constructed.refresh {h : Heap} {o : Parser} (hc : Constructed o) :
    Constructed (refresh h o) := by
  cases hok : o.kind with
  | Emp => rw [refresh_of_plain (by rw [hok]; trivial)]; exact hc
  | Eps => rw [refresh_of_plain (by rw [hok]; trivial)]; exact hc
  | EqT t => rw [refresh_of_plain (by rw [hok]; trivial)]; exact hc
  | Rep q => rw [refresh_of_plain (by rw [hok]; trivial)]; exact hc
  | Alt ps => unfold Constructed; rw [refresh_kind, hok]; trivial
  | Con f s => unfold Constructed; rw [refresh_kind, hok]; trivial
  | Red q f => unfold Constructed; rw [refresh_kind, hok]; trivial
  | RecursiveParser r => unfold Constructed; rw [refresh_kind, hok]; trivial
  | DFut q c => unfold Constructed; rw [refresh_kind, hok]; trivial

theorem Constructed.of_attrs {o x : Parser} (hk : x.kind = o.kind)
    (h1 : x.isEmptyLocal = o.isEmptyLocal) (h2 : x.isNullableLocal = o.isNullableLocal)
    (h3 : x.parseNullLocal = o.parseNullLocal) (hc : Constructed o) : Constructed x := by
  unfold Constructed at *
  rw [hk, h1, h2, h3]
  exact hc

/-- The object `q`, marked initialized and written by `allUpdate`, satisfies the
invariant when its `Ready` objects are initialized. -/
theorem LayeredNode.refreshed {B : Nat} {ρ : Nat → Nat} {h : Heap} (hl : Layered B ρ h)
    {q : Id} {o y : Parser} (hq : h[q]? = some o) (hr : Ready h o.kind)
    (hk2 : y.kind = o.kind) (hc2 : y.cache = o.cache)
    (hi2 : o.initialized = true → y.initialized = true)
    (ha1 : y.isEmptyLocal = o.isEmptyLocal) (ha2 : y.isNullableLocal = o.isNullableLocal)
    (ha3 : y.parseNullLocal = o.parseNullLocal) :
    LayeredNode B ρ (h.set q (refresh (h.set q y) y)) q (refresh (h.set q y) y) := by
  have hn := hl q o hq
  have hq2 : (h.set q y)[q]? = some y := getElem?_set_self' hq _
  have g3 : Grow h (h.set q (refresh (h.set q y) y)) :=
    Grow.grow_set hq ((refresh_kind _ _).trans hk2)
      (fun e => by rw [refresh_initialized]; exact hi2 e)
      (fun _ _ e => by rw [refresh_cache, hc2]; exact e)
  have hset : ∀ x, (h.set q y).set q x = h.set q x := fun x => List.set_set _ _ _ _
  have hco : ∀ c, c ≠ q → Initialized h c → ρ c ≤ ρ q → Coherent (ρ q < B) (h.set q y) c := by
    intro c hne ⟨oc, hoc, hic⟩ hle
    exact Coherent.of_views (views_set_ne _ (Ne.symm hne))
      (((hl c oc hoc).coherent hic).imp (fun a => Nat.lt_of_le_of_lt hle a))
  have hcon : Constructed y := Constructed.of_attrs hk2 ha1 ha2 ha3 hn.constructed
  have hseed : ρ q < B → y.kind = .Eps → y.parseNullLocal.Nonempty := by
    intro hσ hk
    rw [ha3]
    exact hn.seeded hσ (hk2 ▸ hk)
  have hlk : Linked ρ (ρ q) h.length q y.kind := by rw [hk2]; exact hn.link
  have hr2 : Ready h y.kind := by rw [hk2]; exact hr
  refine ⟨?_, fun t d e => ?_, hcon.refresh, fun _ => ?_, fun _ => ?_, fun hσ hk => ?_⟩
  · rw [refresh_kind, List.length_set]
    exact hlk
  · rw [refresh_cache, hc2] at e
    rw [List.length_set]
    exact hn.cached t d e
  · rw [refresh_kind]
    exact Ready.grow g3 hr2
  · rw [← hset]
    cases hok : y.kind with
    | Emp =>
      rw [refresh_of_plain (by rw [hok]; trivial), hset]
      exact Coherent.of_constructed hq2 hcon hseed (by rw [hok]; trivial)
    | Eps =>
      rw [refresh_of_plain (by rw [hok]; trivial), hset]
      exact Coherent.of_constructed hq2 hcon hseed (by rw [hok]; trivial)
    | EqT t =>
      rw [refresh_of_plain (by rw [hok]; trivial), hset]
      exact Coherent.of_constructed hq2 hcon hseed (by rw [hok]; trivial)
    | Rep i =>
      rw [refresh_of_plain (by rw [hok]; trivial), hset]
      exact Coherent.of_constructed hq2 hcon hseed (by rw [hok]; trivial)
    | Alt ps =>
      rw [hok] at hr2 hlk
      have := Coherent.alt hq2 hok
        (fun c hc => hco c (Nat.ne_of_lt (hlk c hc).1) (hr2 c hc) (hlk c hc).2)
      simpa only [refresh, hok] using this
    | Con f s =>
      rw [hok] at hr2 hlk
      have := Coherent.con hq2 hok
        (hco f (Nat.ne_of_lt hlk.1.1) hr2.1 hlk.1.2) (hco s (Nat.ne_of_lt hlk.2.1) hr2.2 hlk.2.2)
      simpa only [refresh, hok] using this
    | Red i f =>
      rw [hok] at hr2 hlk
      have := Coherent.red hq2 hok (hco i (Nat.ne_of_lt hlk.1) hr2 hlk.2)
      simpa only [refresh, hok] using this
    | RecursiveParser r =>
      cases r with
      | none => rw [hok] at hr2; exact hr2.elim
      | some r =>
        rw [hok] at hr2 hlk
        have hne : r ≠ q := by
          intro e'
          rw [e'] at hlk
          exact Nat.lt_irrefl _ hlk.2
        have := Coherent.copy (o := y) hq2 (hco r hne hr2 (Nat.le_of_lt hlk.2))
        simpa only [refresh, hok] using this
    | DFut i t =>
      cases i with
      | none => rw [hok] at hr2; exact hr2.elim
      | some i =>
        rw [hok] at hr2 hlk
        obtain ⟨oi, d, hoi, hd, hid⟩ := hr2
        have hni : q ≠ i := by
          intro e'
          rw [e'] at hlk
          exact Nat.lt_irrefl _ hlk.2
        have hne : d ≠ q := by
          intro e'
          have := ((hl i oi hoi).cached t d hd).2
          rw [e'] at this
          exact Nat.lt_irrefl _ (Nat.lt_of_le_of_lt this hlk.2)
        have hoi2 : (h.set q y)[i]? = some oi := by
          rw [List.getElem?_set_ne hni]; exact hoi
        have hdq : ρ d ≤ ρ q :=
          Nat.le_of_lt (Nat.lt_of_le_of_lt ((hl i oi hoi).cached t d hd).2 hlk.2)
        have := Coherent.copy (o := y) hq2 (hco d hne hid hdq)
        have hrf : refresh (h.set q y) y = copyViews (h.set q y) y d := by
          simp only [refresh, hok, hoi2, hd]
        rw [hrf]
        exact this
  · rw [refresh_kind] at hk
    rw [refresh_of_plain (by rw [hk]; trivial)]
    exact hseed hσ hk

theorem init_initialized_eq {h : Heap} {p : Id} (hp : Initialized h p) {n : Nat} {h' : Heap}
    (e : init n h p = .ok h') : h' = h := by
  obtain ⟨o, ho, hi⟩ := hp
  cases n with
  | zero => cases e
  | succ n =>
    simp only [init, deref_eq_ok ho, bind_ok, hi, if_true, pure_eq_ok] at e
    cases e
    rfl

theorem sound_zero (B : Nat) : Sound B 0 := by
  refine ⟨?_, ?_, ?_, ?_, ?_, ?_, ?_, ?_, ?_⟩
  · intro _ _ _ _ _ _ e; cases e
  · intro _ _ _ _ _ _ e; cases e
  · intro _ _ _ _ _ _ e; cases e
  · intro _ _ _ _ _ _ e; cases e
  · intro _ _ _ _ _ _ e; cases e
  · intro _ _ _ _ _ _ _ _ e; cases e
  · intro _ _ _ _ _ _ _ _ _ e; cases e
  · intro _ _ _ _ _ _ _ e; cases e
  · intro _ _ _ _ _ _ _ e; cases e

theorem CellUnder.below {ρ : Nat → Nat} {h : Heap} {c : ChangeCell} {p q : Id}
    (hc : CellUnder ρ h c p) (hq : Under ρ q p) : CellBelow ρ h c q := by
  intro x hx
  refine ⟨(hc x hx).1, fun hb => (hc x hx).2 ?_⟩
  unfold Under Below at *
  omega

theorem SeenPost.seen_refl (c : ChangeCell) (h : Heap) : SeenPost c h c := fun _ hx => Or.inl hx

/-- The loop of `oneShotUpdate` over children that come before the object `p`. -/
theorem update_loop {B : Nat} {n : Nat} (IH : Sound B n) (p : Id) :
    ∀ (qs : List Id) (ρ : Nat → Nat) (h : Heap) (c : ChangeCell) (r : Heap × ChangeCell),
      Layered B ρ h → p < h.length → (∀ q ∈ qs, q < p ∧ ρ q ≤ ρ p) → CellUnder ρ h c p →
      qs.foldlM (fun (s : Heap × ChangeCell) i => updateChildBasedAttributes n s.1 s.2 i) (h, c)
        = .ok r →
      ∃ ρ', Moved B ρ h (ρ p) 0 ρ' r.1 ∧ (∀ q ∈ qs, Initialized r.1 q) ∧ SeenPost c r.1 r.2 := by
  intro qs
  induction qs with
  | nil =>
    intro ρ h c r hl _ _ _ e
    simp only [List.foldlM, pure_eq_ok] at e
    cases e
    exact ⟨ρ, Moved.moved_refl hl _ _, fun _ hq => (by cases hq), SeenPost.seen_refl c h⟩
  | cons q qs ih =>
    intro ρ h c r hl hp hqs hc e
    simp only [List.foldlM] at e
    obtain ⟨r1, e1, e2⟩ := (bind_eq_ok _ _ _).1 e
    obtain ⟨hqp, hql⟩ := hqs q (List.mem_cons_self _ _)
    have hqu : Under ρ q p := by
      rcases Nat.lt_or_eq_of_le hql with a | a
      · exact Or.inl a
      · exact Or.inr ⟨a, hqp⟩
    obtain ⟨ρ1, M1, I1, S1⟩ := IH.update ρ h c q r1 hl (Nat.lt_trans hqp hp) (hc.below hqu) e1
    have hc1 : CellUnder ρ1 r1.1 r1.2 p := by
      intro x hx
      rcases S1 x hx with a | a
      · have hxl := (hc x a).1
        refine ⟨M1.grow.lt_len hxl, fun hu => M1.grow.grow_initialized ((hc x a).2 ?_)⟩
        unfold Under at *
        rw [M1.agree x hxl, M1.agree p hp] at hu
        exact hu
      · obtain ⟨ox, hox, hix⟩ := a
        exact ⟨lt_length_of_getElem? hox, fun _ => ⟨ox, hox, hix⟩⟩
    have hqs1 : ∀ q' ∈ qs, q' < p ∧ ρ1 q' ≤ ρ1 p := by
      intro q' hq'
      obtain ⟨a, b⟩ := hqs q' (List.mem_cons_of_mem _ hq')
      exact ⟨a, by rw [M1.agree q' (Nat.lt_trans a hp), M1.agree p hp]; exact b⟩
    obtain ⟨ρ2, M2, I2, S2⟩ := ih ρ1 r1.1 r1.2 r M1.layered (M1.grow.lt_len hp) hqs1 hc1 e2
    refine ⟨ρ2, (M1.moved_weaken (by omega)).moved_trans M2 (by rw [M1.agree p hp]; omega), ?_, ?_⟩
    · intro q' hq'
      rcases List.mem_cons.1 hq' with rfl | hq'
      · exact M2.grow.grow_initialized I1
      · exact I2 q' hq'
    · intro x hx
      rcases S2 x hx with a | a
      · rcases S1 x a with b | b
        · exact Or.inl b
        · exact Or.inr (M2.grow.grow_initialized b)
      · exact Or.inr a

/-- Writing an object whose new contents satisfy the invariant, the cache
staying the same. -/
theorem Moved.moved_set {B : Nat} {ρ : Nat → Nat} {h : Heap} (hl : Layered B ρ h) {p : Id}
    {o x : Parser} (hp : h[p]? = some o) (hk : x.kind = o.kind)
    (hi : o.initialized = true → x.initialized = true) (hc : x.cache = o.cache)
    (hx : LayeredNode B ρ (h.set p x) p x) (k i : Nat) : Moved B ρ h k i ρ (h.set p x) :=
  ⟨Agree.agree_refl ρ _, hl.set_node hp hk hi (fun _ _ e => by rw [hc]; exact e) hx,
    Grow.grow_set hp hk hi (fun _ _ e => by rw [hc]; exact e), Keep.keep_set hp (fun _ => hc)⟩

theorem children_linked {ρ : Nat → Nat} {len : Nat} {p : Id} {k : Kind}
    (hrf : match k with
      | .RecursiveParser _ => False
      | .DFut _ _ => False
      | _ => True)
    (hl : Linked ρ (ρ p) len p k) : ∀ q ∈ k.children, q < p ∧ ρ q ≤ ρ p := by
  cases k with
  | Emp => intro q hq; cases hq
  | Eps => intro q hq; cases hq
  | EqT t => intro q hq; cases hq
  | Alt ps => exact hl
  | Con f s =>
    intro q hq
    simp only [Kind.children, List.mem_cons, List.mem_singleton, List.not_mem_nil,
      or_false] at hq
    rcases hq with rfl | rfl
    · exact hl.1
    · exact hl.2
  | Red i f =>
    intro q hq
    simp only [Kind.children, List.mem_singleton] at hq
    subst hq
    exact hl
  | Rep i =>
    intro q hq
    simp only [Kind.children, List.mem_singleton] at hq
    subst hq
    exact hl
  | RecursiveParser r => exact hrf.elim
  | DFut q t => exact hrf.elim

theorem ready_of_children {h : Heap} {k : Kind}
    (hrf : match k with
      | .RecursiveParser _ => False
      | .DFut _ _ => False
      | _ => True) (hi : ∀ q ∈ k.children, Initialized h q) : Ready h k := by
  cases k with
  | Emp => trivial
  | Eps => trivial
  | EqT t => trivial
  | Alt ps => exact hi
  | Con f s =>
    exact ⟨hi f (by simp [Kind.children]), hi s (by simp [Kind.children])⟩
  | Red i f => exact hi i (by simp [Kind.children])
  | Rep i => trivial
  | RecursiveParser r => exact hrf.elim
  | DFut q t => exact hrf.elim

/-- `oneShotUpdate` on an object that is not a `RecursiveParser` or a `DFut`. -/
theorem oneShot_plain {B : Nat} {n : Nat} (IH : Sound B n) {ρ : Nat → Nat} {h : Heap}
    {c : ChangeCell} {p : Id} {o : Parser} {r : Heap × ChangeCell} (hl : Layered B ρ h)
    (hp : h[p]? = some o) (hc : CellUnder ρ h c p)
    (hrf : match o.kind with
      | .RecursiveParser _ => False
      | .DFut _ _ => False
      | _ => True)
    (e : oneShotUpdate (n + 1) h c p = .ok r) :
    ∃ ρ', Moved B ρ h (ρ p) 0 ρ' r.1 ∧ Ready r.1 o.kind ∧ SeenPost c r.1 r.2 := by
  have hpl := lt_length_of_getElem? hp
  rw [oneShotUpdate_eq hp hrf c n] at e
  obtain ⟨r1, e1, e2⟩ := (bind_eq_ok _ _ _).1 e
  obtain ⟨ρ1, M1, I1, S1⟩ := update_loop IH p o.kind.children ρ h c r1 hl hpl
    (children_linked hrf (hl p o hp).link) hc e1
  have hrd := ready_of_children hrf I1
  cases e2
  by_cases hrep : ∃ i, o.kind = .Rep i
  · obtain ⟨i, hk⟩ := hrep
    obtain ⟨o1, ho1, hk1, -, hc1⟩ := M1.grow.node p o hp
    have hfin : oneShotFinish o.kind p r1 = (r1.1.set p { o1 with initialized := true }, r1.2) := by
      simp only [oneShotFinish, hk, modifyAt_eq_set ho1]
    rw [hfin]
    have hnode := LayeredNode.refreshed M1.layered ho1 (by rw [hk1, hk]; trivial)
      (y := { o1 with initialized := true }) rfl rfl (fun _ => rfl) rfl rfl rfl
    rw [refresh_of_plain (by show (match o1.kind with | _ => _); rw [hk1, hk]; trivial)]
      at hnode
    have M2 := Moved.moved_set M1.layered ho1 (x := { o1 with initialized := true }) rfl
      (fun _ => rfl) rfl hnode (ρ1 p) 0
    refine ⟨ρ1, M1.moved_trans M2 (by rw [M1.agree p hpl]; omega), Ready.grow M2.grow hrd, ?_⟩
    intro x hx
    rcases S1 x hx with a | a
    · exact Or.inl a
    · exact Or.inr (M2.grow.grow_initialized a)
  · have hfin : oneShotFinish o.kind p r1 = r1 := by
      unfold oneShotFinish
      split
      · rename_i i hk
        exact absurd ⟨i, hk⟩ hrep
      · rfl
    rw [hfin]
    exact ⟨ρ1, M1, hrd, S1⟩

theorem sound_oneShot_succ {B : Nat} {n : Nat} (IH : Sound B n) (ρ : Nat → Nat) (h : Heap)
    (c : ChangeCell) (p : Id) (o : Parser) (r : Heap × ChangeCell) (hl : Layered B ρ h)
    (hp : h[p]? = some o) (hc : CellUnder ρ h c p) (e : oneShotUpdate (n + 1) h c p = .ok r) :
    ∃ ρ', Moved B ρ h (ρ p) 0 ρ' r.1 ∧ Ready r.1 o.kind ∧ SeenPost c r.1 r.2 := by
  have hpl := lt_length_of_getElem? hp
  have hlk := (hl p o hp).link
  have key := fun hrf => oneShot_plain IH hl hp hc hrf e
  cases hk : o.kind with
  | Emp => have := key (by rw [hk]; trivial); rw [hk] at this; exact this
  | Eps => have := key (by rw [hk]; trivial); rw [hk] at this; exact this
  | EqT t => have := key (by rw [hk]; trivial); rw [hk] at this; exact this
  | Alt ps => have := key (by rw [hk]; trivial); rw [hk] at this; exact this
  | Con f s => have := key (by rw [hk]; trivial); rw [hk] at this; exact this
  | Red i f => have := key (by rw [hk]; trivial); rw [hk] at this; exact this
  | Rep i => have := key (by rw [hk]; trivial); rw [hk] at this; exact this
  | RecursiveParser b =>
    cases b with
    | none =>
      simp only [oneShotUpdate, deref_eq_ok hp, bind_ok, hk, derefOpt] at e
      cases e
    | some b =>
      rw [hk] at hlk
      simp only [oneShotUpdate, deref_eq_ok hp, bind_ok, hk, derefOpt] at e
      obtain ⟨ρ1, M1, I1, S1⟩ := IH.update ρ h c b r hl hlk.1 (hc.below (Or.inl hlk.2)) e
      exact ⟨ρ1, M1.moved_weaken (Or.inl hlk.2), I1, S1⟩
  | DFut q t =>
    cases q with
    | none =>
      simp only [oneShotUpdate, deref_eq_ok hp, bind_ok, hk, derefOpt] at e
      cases e
    | some q =>
      rw [hk] at hlk
      simp only [oneShotUpdate, deref_eq_ok hp, bind_ok, hk, derefOpt] at e
      obtain ⟨r1, e1, e2⟩ := (bind_eq_ok _ _ _).1 e
      obtain ⟨ρ1, M1, hd, hρd, o', ho', hcd⟩ := IH.derive ρ h q t r1 hl hlk.1 e1
      have hq2 : ρ q < ρ p := hlk.2
      have hc1 : CellBelow ρ1 r1.1 c r1.2 := by
        intro x hx
        have hxl := (hc x hx).1
        refine ⟨M1.grow.lt_len hxl, fun hb => M1.grow.grow_initialized ((hc x hx).2 ?_)⟩
        unfold Below at hb
        rw [M1.agree x hxl] at hb
        unfold Under
        omega
      obtain ⟨ρ2, M2, I2, S2⟩ := IH.update ρ1 r1.1 c r1.2 r M1.layered hd hc1 e2
      refine ⟨ρ2, (M1.moved_weaken (Or.inl hlk.2)).moved_trans M2 (by omega), ?_, S2⟩
      obtain ⟨o2, ho2, -, -, hc2⟩ := M2.grow.node q o' ho'
      exact ⟨o2, r1.2, ho2, hc2 t r1.2 hcd, I2⟩

theorem sound_update_succ {B : Nat} {n : Nat} (IH : Sound B n) (ρ : Nat → Nat) (h : Heap)
    (c : ChangeCell) (q : Id) (r : Heap × ChangeCell) (hl : Layered B ρ h) (hql : q < h.length)
    (hc : CellBelow ρ h c q) (e : updateChildBasedAttributes (n + 1) h c q = .ok r) :
    ∃ ρ', Moved B ρ h (ρ q) 0 ρ' r.1 ∧ Initialized r.1 q ∧ SeenPost c r.1 r.2 := by
  obtain ⟨o, ho⟩ := exists_getElem?_of_lt hql
  by_cases hs : q ∈ c.seen
  · simp only [updateChildBasedAttributes, hs, if_true] at e
    obtain ⟨o', ho', hi⟩ := (hc q hs).2 (Or.inr ⟨rfl, Nat.le_refl _⟩)
    rw [ho] at ho'
    cases ho'
    have hn := hl q o ho
    have hr := hn.ready hi
    obtain ⟨e1, e2⟩ := allUpdate_ready ρ ho hi hr hn.link
      (fun q' c' oq d _ hoq hd => ((hl q' oq hoq).cached c' d hd).2) e
    have hnode := LayeredNode.refreshed hl ho hr (y := o) rfl rfl id rfl rfl rfl
    rw [set_self_eq ho] at hnode
    have M := Moved.moved_set hl ho (refresh_kind h o)
      (fun a => by rw [refresh_initialized]; exact a) (refresh_cache h o) hnode (ρ q) 0
    rw [e1]
    refine ⟨ρ, M, ⟨_, getElem?_set_self' ho _, by rw [refresh_initialized]; exact hi⟩, ?_⟩
    intro x hx
    rw [e2] at hx
    exact Or.inl hx
  · simp only [updateChildBasedAttributes, hs, if_false] at e
    obtain ⟨r1, e1, e2⟩ := (bind_eq_ok _ _ _).1 e
    have hc0 : CellUnder ρ h { c with seen := q :: c.seen } q := by
      intro x hx
      rcases List.mem_cons.1 hx with rfl | hx
      · refine ⟨hql, fun hu => ?_⟩
        unfold Under at hu
        omega
      · refine ⟨(hc x hx).1, fun hu => (hc x hx).2 ?_⟩
        unfold Under at hu
        unfold Below
        omega
    obtain ⟨ρ1, M1, R1, S1⟩ := IH.oneShot ρ h _ q o r1 hl ho hc0 e1
    obtain ⟨o1, ho1, hk1, -, -⟩ := M1.grow.node q o ho
    have hn1 := M1.layered q o1 ho1
    rw [← hk1] at R1
    simp only [modifyAt_eq_set ho1] at e2
    have g2 : Grow r1.1 (r1.1.set q { o1 with initialized := true }) :=
      Grow.grow_set ho1 rfl (fun _ => rfl) (fun _ _ a => a)
    obtain ⟨e3, e4⟩ := allUpdate_ready ρ1 (o := { o1 with initialized := true })
      (getElem?_set_self' ho1 _) rfl (Ready.grow g2 R1)
      (by rw [List.length_set]; exact hn1.link)
      (fun q' c' oq d hk' hoq hd => by
        have hlk := hn1.link
        have hk2 : o1.kind = .DFut (some q') c' := hk'
        rw [hk2] at hlk
        have hne : q ≠ q' := by
          intro e'
          rw [← e'] at hlk
          exact Nat.lt_irrefl _ hlk.2
        rw [List.getElem?_set_ne hne] at hoq
        exact ((M1.layered q' oq hoq).cached c' d hd).2) e2
    have hnode := LayeredNode.refreshed M1.layered ho1 R1 (y := { o1 with initialized := true })
      rfl rfl (fun _ => rfl) rfl rfl rfl
    have M2 := Moved.moved_set M1.layered ho1
      (x := refresh (r1.1.set q { o1 with initialized := true }) { o1 with initialized := true })
      (refresh_kind _ _) (fun _ => by rw [refresh_initialized]) (refresh_cache _ _) hnode
      (ρ1 q) 0
    rw [List.set_set] at e3
    rw [e3]
    have hq2 : Initialized (r1.1.set q
        (refresh (r1.1.set q { o1 with initialized := true }) { o1 with initialized := true }))
        q := ⟨_, getElem?_set_self' ho1 _, by rw [refresh_initialized]⟩
    refine ⟨ρ1, M1.moved_trans M2 (by rw [M1.agree q hql]; omega), hq2, ?_⟩
    intro x hx
    rw [e4] at hx
    rcases S1 x hx with a | a
    · rcases List.mem_cons.1 a with rfl | a
      · exact Or.inr hq2
      · exact Or.inl a
    · exact Or.inr (M2.grow.grow_initialized a)

theorem sound_init_succ {B : Nat} {n : Nat} (IH : Sound B n) (ρ : Nat → Nat) (h : Heap)
    (p : Id) (h' : Heap) (hl : Layered B ρ h) (hpl : p < h.length)
    (e : init (n + 1) h p = .ok h') : ∃ ρ', Moved B ρ h (ρ p) 0 ρ' h' ∧ Initialized h' p := by
  obtain ⟨o, ho⟩ := exists_getElem?_of_lt hpl
  simp only [init, deref_eq_ok ho, bind_ok] at e
  by_cases hi : o.initialized = true
  · simp only [hi, if_true, pure_eq_ok] at e
    cases e
    exact ⟨ρ, Moved.moved_refl hl _ _, o, ho, hi⟩
  · simp only [hi, if_false] at e
    exact IH.initLoop ρ h p h' hl hpl e

theorem sound_initLoop_succ {B : Nat} {n : Nat} (IH : Sound B n) (ρ : Nat → Nat) (h : Heap)
    (p : Id) (h' : Heap) (hl : Layered B ρ h) (hpl : p < h.length)
    (e : initLoop (n + 1) h p = .ok h') :
    ∃ ρ', Moved B ρ h (ρ p) 0 ρ' h' ∧ Initialized h' p := by
  simp only [initLoop] at e
  obtain ⟨r1, e1, e2⟩ := (bind_eq_ok _ _ _).1 e
  obtain ⟨ρ1, M1, I1, -⟩ := IH.update ρ h ChangeCell.new p r1 hl hpl
    (fun x hx => by cases hx) e1
  by_cases hch : r1.2.change = true
  · simp only [hch, if_true] at e2
    obtain ⟨ρ2, M2, I2⟩ := IH.initLoop ρ1 r1.1 p h' M1.layered (M1.grow.lt_len hpl) e2
    exact ⟨ρ2, M1.moved_trans M2 (by rw [M1.agree p hpl]; omega), I2⟩
  · simp only [hch, if_false, pure_eq_ok] at e2
    cases e2
    exact ⟨ρ1, M1, I1⟩

theorem sound_isEmpty_succ {B : Nat} {n : Nat} (IH : Sound B n) (ρ : Nat → Nat) (h : Heap)
    (p : Id) (r : Heap × Bool) (hl : Layered B ρ h) (hpl : p < h.length)
    (e : isEmpty (n + 1) h p = .ok r) :
    ∃ ρ', Moved B ρ h (ρ p) 0 ρ' r.1 ∧ Initialized r.1 p ∧ r.2 = emptyView r.1 p := by
  simp only [isEmpty] at e
  obtain ⟨h1, e1, e2⟩ := (bind_eq_ok _ _ _).1 e
  obtain ⟨ρ1, M1, o1, ho1, hi1⟩ := IH.init ρ h p h1 hl hpl e1
  simp only [deref_eq_ok ho1, bind_ok, pure_eq_ok] at e2
  cases e2
  exact ⟨ρ1, M1, ⟨o1, ho1, hi1⟩, by simp only [emptyView, ho1]⟩

theorem sound_isNullable_succ {B : Nat} {n : Nat} (IH : Sound B n) (ρ : Nat → Nat) (h : Heap)
    (p : Id) (r : Heap × Bool) (hl : Layered B ρ h) (hpl : p < h.length)
    (e : isNullable (n + 1) h p = .ok r) :
    ∃ ρ', Moved B ρ h (ρ p) 0 ρ' r.1 ∧ Initialized r.1 p ∧ r.2 = nullableView r.1 p := by
  simp only [isNullable] at e
  obtain ⟨⟨h1, b⟩, e1, e2⟩ := (bind_eq_ok _ _ _).1 e
  obtain ⟨ρ1, M1, I1, hb⟩ := IH.isEmpty ρ h p (h1, b) hl hpl e1
  obtain ⟨o1, ho1, hi1⟩ := I1
  simp only at hb e2
  simp only [emptyView, ho1] at hb
  cases b with
  | true =>
    simp only [if_true, pure_eq_ok] at e2
    cases e2
    exact ⟨ρ1, M1, ⟨o1, ho1, hi1⟩, by simp only [nullableView, ho1, ← hb]; rfl⟩
  | false =>
    simp only [Bool.false_eq_true, if_false] at e2
    obtain ⟨h2, e3, e4⟩ := (bind_eq_ok _ _ _).1 e2
    have := init_initialized_eq ⟨o1, ho1, hi1⟩ e3
    subst this
    simp only [deref_eq_ok ho1, bind_ok, pure_eq_ok] at e4
    cases e4
    exact ⟨ρ1, M1, ⟨o1, ho1, hi1⟩, by simp only [nullableView, ho1, ← hb]; rfl⟩

theorem sound_parseNull_succ {B : Nat} {n : Nat} (IH : Sound B n) (ρ : Nat → Nat) (h : Heap)
    (p : Id) (r : Heap × Finset Val) (hl : Layered B ρ h) (hpl : p < h.length)
    (e : parseNull (n + 1) h p = .ok r) :
    ∃ ρ', Moved B ρ h (ρ p) 0 ρ' r.1 ∧ Initialized r.1 p ∧ r.2 = parseNullView r.1 p := by
  simp only [parseNull] at e
  obtain ⟨⟨h1, b⟩, e1, e2⟩ := (bind_eq_ok _ _ _).1 e
  obtain ⟨ρ1, M1, I1, hb⟩ := IH.isEmpty ρ h p (h1, b) hl hpl e1
  obtain ⟨o1, ho1, hi1⟩ := I1
  simp only at hb e2
  simp only [emptyView, ho1] at hb
  cases b with
  | true =>
    simp only [if_true, pure_eq_ok] at e2
    cases e2
    exact ⟨ρ1, M1, ⟨o1, ho1, hi1⟩, by simp only [parseNullView, ho1, ← hb]; rfl⟩
  | false =>
    simp only [Bool.false_eq_true, if_false] at e2
    obtain ⟨h2, e3, e4⟩ := (bind_eq_ok _ _ _).1 e2
    have := init_initialized_eq ⟨o1, ho1, hi1⟩ e3
    subst this
    simp only [deref_eq_ok ho1, bind_ok, pure_eq_ok] at e4
    cases e4
    exact ⟨ρ1, M1, ⟨o1, ho1, hi1⟩, by simp only [parseNullView, ho1, ← hb]; rfl⟩

theorem sound_derive_succ {B : Nat} {n : Nat} (IH : Sound B n) (ρ : Nat → Nat) (h : Heap)
    (p : Id) (t : T) (r : Heap × Id) (hl : Layered B ρ h) (hpl : p < h.length)
    (e : derive (n + 1) h p t = .ok r) :
    ∃ ρ', Moved B ρ h (ρ p) (p + 1) ρ' r.1 ∧ r.2 < r.1.length ∧ ρ' r.2 ≤ ρ p ∧
      ∃ o', r.1[p]? = some o' ∧ o'.cache.lookup t = some r.2 := by
  obtain ⟨o, ho⟩ := exists_getElem?_of_lt hpl
  simp only [derive, deref_eq_ok ho, bind_ok] at e
  cases hlook : o.cache.lookup t with
  | some d =>
    simp only [hlook, pure_eq_ok] at e
    cases e
    obtain ⟨a, b⟩ := (hl p o ho).cached t d hlook
    exact ⟨ρ, Moved.moved_refl hl _ _, a, b, o, ho, hlook⟩
  | none =>
    simp only [hlook] at e
    obtain ⟨⟨h1, d⟩, e1, e2⟩ := (bind_eq_ok _ _ _).1 e
    obtain ⟨ρ1, M1, hd, hρ⟩ := IH.internalDerive ρ h p t (h1, d) hl hpl e1
    simp only at hd hρ e2 M1
    obtain ⟨o1, ho1, hc1⟩ := M1.keep p o ho (Or.inr ⟨rfl, Nat.le_refl _⟩)
    have hn : o1.cache.lookup t = none := by rw [hc1]; exact hlook
    simp only [pure_eq_ok, cacheInsert_eq_set ho1 hn] at e2
    cases e2
    have hn1 := M1.layered p o1 ho1
    have ep := M1.agree p hpl
    have g2 : Grow h1 (h1.set p { o1 with cache := o1.cache ++ [(t, d)] }) :=
      Grow.grow_set ho1 rfl (fun a => a) (fun _ _ a => lookup_append_of_some a)
    have hnode : LayeredNode B ρ1 (h1.set p { o1 with cache := o1.cache ++ [(t, d)] }) p
        { o1 with cache := o1.cache ++ [(t, d)] } := by
      refine ⟨by rw [List.length_set]; exact hn1.link, fun t' d' e' => ?_,
        Constructed.of_attrs (o := o1) rfl rfl rfl rfl hn1.constructed,
        fun hi => Ready.grow g2 (hn1.ready hi),
        fun hi => Coherent.of_views
          (views_set_of_sameAttrs ho1 (x := { o1 with cache := o1.cache ++ [(t, d)] })
            ⟨rfl, rfl, rfl⟩ p) (hn1.coherent hi), hn1.seeded⟩
      rw [List.length_set]
      rcases lookup_append_of_none hn e' with a | ⟨-, rfl⟩
      · exact hn1.cached t' d' a
      · exact ⟨hd, by rw [ep]; exact hρ⟩
    refine ⟨ρ1, ⟨M1.agree, M1.layered.set_node ho1 rfl (fun a => a)
      (fun _ _ a => lookup_append_of_some a) hnode, M1.grow.grow_trans g2, ?_⟩, ?_, hρ,
      _, getElem?_set_self' ho1 _, lookup_append_self hn⟩
    · refine (M1.keep.keep_weaken (Or.inr ⟨rfl, Nat.le_succ p⟩)).keep_trans M1.agree
        (Keep.keep_set ho1 (fun hat => ?_))
      unfold AtLeast at hat
      rw [ep] at hat
      omega
    · simp only [List.length_set]
      exact hd

/-- A new object of level `v` as the last step of a method. -/
theorem Moved.then_alloc {B : Nat} {ρ ρ1 : Nat → Nat} {h h1 : Heap} {k i : Nat}
    (M : Moved B ρ h k i ρ1 h1) (v : Nat) {o : Parser} (hi : o.initialized = false)
    (hc : o.cache = []) (hk : Linked ρ1 v h1.length h1.length o.kind) (hcon : Constructed o)
    (hs : v < B → o.kind = .Eps → o.parseNullLocal.Nonempty) :
    ∃ ρ', Moved B ρ h k i ρ' (alloc h1 o).1 ∧ (alloc h1 o).2 < (alloc h1 o).1.length ∧
      ρ' (alloc h1 o).2 = v ∧ Agree ρ1 ρ' h1.length := by
  refine ⟨Function.update ρ1 h1.length v,
    M.moved_trans (Moved.moved_alloc M.layered k i v hi hc hk hcon hs) (Or.inr ⟨rfl, Nat.le_refl _⟩),
    ?_, Function.update_same _ _ _, Agree.agree_update ρ1 h1.length v⟩
  simp only [alloc, List.length_append, List.length_singleton]
  exact Nat.lt_succ_self _

theorem constructed_newEmp : Constructed Parser.newEmp := rfl

theorem constructed_newEps (g : Finset Val) : Constructed (Parser.newEps g) := ⟨rfl, rfl⟩

theorem internalDerive_simple {B : Nat} {n : Nat} {ρ : Nat → Nat} {h : Heap}
    {p : Id} {o : Parser} (t : T) (r : Heap × Id) (hl : Layered B ρ h) (hp : h[p]? = some o)
    (hk : match o.kind with
      | .Emp => True
      | .Eps => True
      | .EqT _ => True
      | .RecursiveParser _ => True
      | _ => False)
    (e : internalDerive (n + 1) h p t = .ok r) :
    ∃ ρ', Moved B ρ h (ρ p) p ρ' r.1 ∧ r.2 < r.1.length ∧ ρ' r.2 ≤ ρ p := by
  have hpl := lt_length_of_getElem? hp
  have hlk := (hl p o hp).link
  have M0 := Moved.moved_refl hl (ρ p) p
  cases hok : o.kind with
  | Emp =>
    simp only [internalDerive, deref_eq_ok hp, bind_ok, hok, pure_eq_ok] at e
    cases e
    exact ⟨ρ, M0, hpl, Nat.le_refl _⟩
  | Eps =>
    simp only [internalDerive, deref_eq_ok hp, bind_ok, hok, pure_eq_ok] at e
    cases e
    obtain ⟨ρ', M, a, b, -⟩ := M0.then_alloc (ρ p) (o := Parser.newEmp) rfl rfl trivial
      constructed_newEmp (fun _ hk' => by cases hk')
    exact ⟨ρ', M, a, Nat.le_of_eq b⟩
  | EqT t' =>
    simp only [internalDerive, deref_eq_ok hp, bind_ok, hok] at e
    by_cases ht : t' = t
    · simp only [ht, if_true, pure_eq_ok] at e
      cases e
      obtain ⟨ρ', M, a, b, -⟩ := M0.then_alloc (ρ p) (o := Parser.newEps {Val.term t}) rfl rfl
        trivial (constructed_newEps _) (fun _ _ => Finset.singleton_nonempty _)
      exact ⟨ρ', M, a, Nat.le_of_eq b⟩
    · simp only [ht, if_false, pure_eq_ok] at e
      cases e
      obtain ⟨ρ', M, a, b, -⟩ := M0.then_alloc (ρ p) (o := Parser.newEmp) rfl rfl trivial
        constructed_newEmp (fun _ hk' => by cases hk')
      exact ⟨ρ', M, a, Nat.le_of_eq b⟩
  | RecursiveParser b =>
    simp only [internalDerive, deref_eq_ok hp, bind_ok, hok, pure_eq_ok] at e
    cases e
    rw [hok] at hlk
    obtain ⟨ρ', M, a, b', -⟩ := M0.then_alloc (ρ p) (o := Parser.newDFut b t) rfl rfl
      (by
        cases b with
        | none => trivial
        | some b => exact hlk)
      trivial (fun _ hk' => by cases hk')
    exact ⟨ρ', M, a, Nat.le_of_eq b'⟩
  | Alt ps => rw [hok] at hk; exact hk.elim
  | Con f s => rw [hok] at hk; exact hk.elim
  | Red q f => rw [hok] at hk; exact hk.elim
  | Rep q => rw [hok] at hk; exact hk.elim
  | DFut q c => rw [hok] at hk; exact hk.elim

theorem lex_child {a b q p : Nat} (h1 : q < p) (h2 : a ≤ b) : a < b ∨ (a = b ∧ q + 1 ≤ p) := by
  omega

theorem lex_getter {a b : Nat} (h : a ≤ b) (i : Nat) : a < b ∨ (a = b ∧ 0 ≤ i) := by
  omega

theorem Low.step {B : Nat} {ρ ρ' : Nat → Nat} {b k i : Nat} {h h' : Heap} {x : Id}
    (hx : Low ρ b h x) (M : Moved B ρ h k i ρ' h') : Low ρ' b h' x :=
  ⟨M.grow.lt_len hx.1, by rw [M.agree x hx.1]; exact hx.2⟩

theorem parseNull_initialized_eq {h : Heap} {p : Id} (hp : Initialized h p) {n : Nat}
    {r : Heap × Finset Val} (e : parseNull n h p = .ok r) : r = (h, parseNullView h p) := by
  obtain ⟨o, ho, hi⟩ := hp
  have a := parseNull_mono e (Nat.le_add_right n 3)
  rw [Nat.add_comm, Nat.add_comm 3 n, parseNull_of_initialized ho hi n] at a
  cases a
  rfl

theorem internalDerive_DFut {B : Nat} {n : Nat} (IH : Sound B n) {ρ : Nat → Nat} {h : Heap}
    {p : Id} {o : Parser} {q : Option Id} {c : T} (t : T) (r : Heap × Id) (hl : Layered B ρ h)
    (hp : h[p]? = some o) (hk : o.kind = .DFut q c)
    (e : internalDerive (n + 1) h p t = .ok r) :
    ∃ ρ', Moved B ρ h (ρ p) p ρ' r.1 ∧ r.2 < r.1.length ∧ ρ' r.2 ≤ ρ p := by
  have hlk := (hl p o hp).link
  rw [hk] at hlk
  cases q with
  | none =>
    simp only [internalDerive, deref_eq_ok hp, bind_ok, hk, derefOpt] at e
    cases e
  | some q =>
    simp only [internalDerive, deref_eq_ok hp, bind_ok, hk, derefOpt] at e
    obtain ⟨⟨h1, d⟩, e1, e2⟩ := (bind_eq_ok _ _ _).1 e
    have hq2 : ρ q < ρ p := hlk.2
    obtain ⟨ρ1, M1, hd, hρd, -⟩ := IH.derive ρ h q c (h1, d) hl hlk.1 e1
    simp only at e2 M1 hd hρd
    obtain ⟨ρ2, M2, hd2, hρd2, -⟩ := IH.derive ρ1 h1 d t r M1.layered hd e2
    exact ⟨ρ2, (M1.moved_weaken (Or.inl hq2)).moved_trans M2 (by omega), hd2, by omega⟩

theorem internalDerive_Red_layered {B : Nat} {n : Nat} (IH : Sound B n) {ρ : Nat → Nat}
    {h : Heap} {p : Id} {o : Parser} {q : Id} {f : Val → Val} (t : T) (r : Heap × Id)
    (hl : Layered B ρ h) (hp : h[p]? = some o) (hk : o.kind = .Red q f)
    (e : internalDerive (n + 1) h p t = .ok r) :
    ∃ ρ', Moved B ρ h (ρ p) p ρ' r.1 ∧ r.2 < r.1.length ∧ ρ' r.2 ≤ ρ p := by
  have hpl := lt_length_of_getElem? hp
  have hlk := (hl p o hp).link
  rw [hk] at hlk
  have hqp : q < p := hlk.1
  have hqρ : ρ q ≤ ρ p := hlk.2
  simp only [internalDerive, deref_eq_ok hp, bind_ok, hk] at e
  obtain ⟨⟨h1, d⟩, e1, e2⟩ := (bind_eq_ok _ _ _).1 e
  obtain ⟨ρ1, M1, hd, hρd, -⟩ := IH.derive ρ h q t (h1, d) hl (Nat.lt_trans hqp hpl) e1
  simp only at e2 M1 hd hρd
  obtain ⟨⟨h2, b⟩, e3, e4⟩ := (bind_eq_ok _ _ _).1 e2
  obtain ⟨ρ2, M2, -, -⟩ := IH.isEmpty ρ1 h1 d (h2, b) M1.layered hd e3
  simp only at e4 M2
  have hd1 : ρ1 d ≤ ρ p := Nat.le_trans hρd hqρ
  have M12 := (M1.moved_weaken (a := ρ p) (b := p) (lex_child hqp hqρ)).moved_trans M2
    (lex_getter hd1 p)
  have hd2 : Low ρ2 (ρ p) h2 d := Low.step (b := ρ p) ⟨hd, hd1⟩ M2
  cases b with
  | true =>
    simp only [if_true, pure_eq_ok] at e4
    cases e4
    obtain ⟨ρ', M, a, b', -⟩ := M12.then_alloc (ρ p) (o := Parser.newEmp) rfl rfl trivial
      constructed_newEmp (fun _ hk' => by cases hk')
    exact ⟨ρ', M, a, Nat.le_of_eq b'⟩
  | false =>
    simp only [Bool.false_eq_true, if_false, pure_eq_ok] at e4
    cases e4
    obtain ⟨ρ', M, a, b', -⟩ := M12.then_alloc (ρ p) (o := Parser.newRed d f) rfl rfl
      hd2 trivial (fun _ hk' => by cases hk')
    exact ⟨ρ', M, a, Nat.le_of_eq b'⟩

theorem internalDerive_Rep_layered {B : Nat} {n : Nat} (IH : Sound B n) {ρ : Nat → Nat}
    {h : Heap} {p : Id} {o : Parser} {q : Id} (t : T) (r : Heap × Id)
    (hl : Layered B ρ h) (hp : h[p]? = some o) (hk : o.kind = .Rep q)
    (e : internalDerive (n + 1) h p t = .ok r) :
    ∃ ρ', Moved B ρ h (ρ p) p ρ' r.1 ∧ r.2 < r.1.length ∧ ρ' r.2 ≤ ρ p := by
  have hpl := lt_length_of_getElem? hp
  have hlk := (hl p o hp).link
  rw [hk] at hlk
  have hqp : q < p := hlk.1
  have hqρ : ρ q ≤ ρ p := hlk.2
  simp only [internalDerive, deref_eq_ok hp, bind_ok, hk] at e
  obtain ⟨⟨h1, d⟩, e1, e2⟩ := (bind_eq_ok _ _ _).1 e
  obtain ⟨ρ1, M1, hd, hρd, -⟩ := IH.derive ρ h q t (h1, d) hl (Nat.lt_trans hqp hpl) e1
  simp only [pure_eq_ok] at e2 M1 hd hρd
  cases e2
  have hd1 : ρ1 d ≤ ρ p := Nat.le_trans hρd hqρ
  have M1' := M1.moved_weaken (a := ρ p) (b := p) (lex_child hqp hqρ)
  have hp1 : Low ρ1 (ρ p) h1 p := Low.step (b := ρ p) ⟨hpl, Nat.le_refl _⟩ M1
  obtain ⟨ρ2, M2, a2, b2, ag2⟩ := M1'.then_alloc (ρ p) (o := Parser.newCon d p) rfl rfl
    (⟨⟨hd, hd1⟩, hp1⟩ : Linked ρ1 (ρ p) h1.length h1.length (.Con d p)) trivial
    (fun _ hk' => by cases hk')
  obtain ⟨ρ3, M3, a3, b3, -⟩ := M2.then_alloc (ρ p)
    (o := Parser.newRed (alloc h1 (Parser.newCon d p)).2 reductionOperation) rfl rfl
    (⟨a2, Nat.le_of_eq b2⟩ : Linked ρ2 (ρ p) _ _ (.Red _ _)) trivial
    (fun _ hk' => by cases hk')
  exact ⟨ρ3, M3, a3, Nat.le_of_eq b3⟩

theorem alt_loop_layered {B : Nat} {n : Nat} (IH : Sound B n) (t : T) (b pid : Nat) :
    ∀ (ps : List Id) (ρ : Nat → Nat) (h : Heap) (acc : List Id) (r : Heap × List Id),
      Layered B ρ h → (∀ c ∈ ps, c < pid ∧ Low ρ b h c) → (∀ x ∈ acc, Low ρ b h x) →
      ps.foldlM (altDeriveStep n t) (h, acc) = .ok r →
      ∃ ρ', Moved B ρ h b pid ρ' r.1 ∧ ∀ x ∈ r.2, Low ρ' b r.1 x := by
  intro ps
  induction ps with
  | nil =>
    intro ρ h acc r hl _ hacc e
    simp only [List.foldlM_nil, pure_eq_ok] at e
    cases e
    exact ⟨ρ, Moved.moved_refl hl _ _, hacc⟩
  | cons c ps ih =>
    intro ρ h acc r hl hps hacc e
    rw [List.foldlM_cons] at e
    obtain ⟨⟨h3, acc3⟩, e1, e2⟩ := (bind_eq_ok _ _ _).1 e
    obtain ⟨hcp, hcl, hcρ⟩ := hps c (List.mem_cons_self _ _)
    unfold altDeriveStep at e1
    obtain ⟨⟨h1, em⟩, e3, e4⟩ := (bind_eq_ok _ _ _).1 e1
    obtain ⟨ρ1, M1, -, -⟩ := IH.isEmpty ρ h c (h1, em) hl hcl e3
    simp only at e4 M1
    have M1' : Moved B ρ h b pid ρ1 h1 := M1.moved_weaken (lex_getter hcρ pid)
    have key : ∃ ρ3, Moved B ρ h b pid ρ3 h3 ∧ ∀ x ∈ acc3, Low ρ3 b h3 x := by
      cases em with
      | true =>
        simp only [Bool.not_true, Bool.false_eq_true, if_false, pure_eq_ok] at e4
        cases e4
        exact ⟨ρ1, M1', fun x hx => Low.step (hacc x hx) M1⟩
      | false =>
        simp only [Bool.not_false, if_true] at e4
        obtain ⟨⟨h2, d⟩, e5, e6⟩ := (bind_eq_ok _ _ _).1 e4
        have hc1 : Low ρ1 b h1 c := Low.step ⟨hcl, hcρ⟩ M1
        obtain ⟨ρ2, M2, hd, hρd, -⟩ := IH.derive ρ1 h1 c t (h2, d) M1.layered hc1.1 e5
        simp only [pure_eq_ok] at M2 hd hρd e6
        cases e6
        refine ⟨ρ2, M1'.moved_trans M2 (lex_child hcp hc1.2), fun x hx => ?_⟩
        rcases mem_setInsert.1 hx with a | rfl
        · exact Low.step (Low.step (hacc x a) M1) M2
        · exact ⟨hd, Nat.le_trans hρd hc1.2⟩
    obtain ⟨ρ3, M3, hacc3⟩ := key
    obtain ⟨ρ4, M4, hr⟩ := ih ρ3 h3 acc3 r M3.layered
      (fun x hx => ⟨(hps x (List.mem_cons_of_mem _ hx)).1,
        Low.step (hps x (List.mem_cons_of_mem _ hx)).2 M3⟩) hacc3 e2
    exact ⟨ρ4, M3.moved_trans M4 (Or.inr ⟨rfl, Nat.le_refl _⟩), hr⟩

theorem internalDerive_Alt_layered {B : Nat} {n : Nat} (IH : Sound B n) {ρ : Nat → Nat}
    {h : Heap} {p : Id} {o : Parser} {ps : List Id} (t : T) (r : Heap × Id)
    (hl : Layered B ρ h) (hp : h[p]? = some o) (hk : o.kind = .Alt ps)
    (e : internalDerive (n + 1) h p t = .ok r) :
    ∃ ρ', Moved B ρ h (ρ p) p ρ' r.1 ∧ r.2 < r.1.length ∧ ρ' r.2 ≤ ρ p := by
  have hpl := lt_length_of_getElem? hp
  have hlk := (hl p o hp).link
  rw [hk] at hlk
  rw [internalDerive_Alt_eq hp hk] at e
  obtain ⟨⟨h1, acc⟩, e1, e2⟩ := (bind_eq_ok _ _ _).1 e
  obtain ⟨ρ1, M1, hacc⟩ := alt_loop_layered IH t (ρ p) p ps ρ h [] (h1, acc) hl
    (fun c hc => ⟨(hlk c hc).1, Nat.lt_trans (hlk c hc).1 hpl, (hlk c hc).2⟩)
    (fun x hx => by cases hx) e1
  simp only at e2 M1 hacc
  have alt : ∀ r, pure (alloc h1 (Parser.newAlt acc)) = (.ok r : Except Fault (Heap × Id)) →
      ∃ ρ', Moved B ρ h (ρ p) p ρ' r.1 ∧ r.2 < r.1.length ∧ ρ' r.2 ≤ ρ p := by
    intro r e3
    simp only [pure_eq_ok] at e3
    cases e3
    obtain ⟨ρ', M, a, b', -⟩ := M1.then_alloc (ρ p) (o := Parser.newAlt acc) rfl rfl
      (hacc : Linked ρ1 (ρ p) h1.length h1.length (.Alt acc)) trivial
      (fun _ hk' => by cases hk')
    exact ⟨ρ', M, a, Nat.le_of_eq b'⟩
  match acc, hacc, e2, alt with
  | [], _, e2, alt => exact alt r e2
  | [d], hacc, e2, _ =>
    simp only [pure_eq_ok] at e2
    cases e2
    exact ⟨ρ1, M1, hacc d (List.mem_singleton_self d)⟩
  | _ :: _ :: _, _, e2, alt => exact alt r e2

theorem Low.of_agree {ρ ρ' : Nat → Nat} {b : Nat} {h h' : Heap} {x : Id} (hx : Low ρ b h x)
    (ag : Agree ρ ρ' h.length) (hle : h.length ≤ h'.length) : Low ρ' b h' x :=
  ⟨Nat.lt_of_lt_of_le hx.1 hle, by rw [ag x hx.1]; exact hx.2⟩

theorem Low.alloc_step {ρ ρ' : Nat → Nat} {b : Nat} {h : Heap} {x : Id} (hx : Low ρ b h x)
    (ag : Agree ρ ρ' h.length) (o : Parser) : Low ρ' b (alloc h o).1 x :=
  hx.of_agree ag (by simp only [alloc, List.length_append, List.length_singleton]; omega)

theorem internalDerive_Con_layered {B : Nat} {n : Nat} (IH : Sound B n) {ρ : Nat → Nat}
    {h : Heap} {p : Id} {o : Parser} {f s : Id} (t : T) (r : Heap × Id)
    (hl : Layered B ρ h) (hp : h[p]? = some o) (hk : o.kind = .Con f s)
    (e : internalDerive (n + 1) h p t = .ok r) :
    ∃ ρ', Moved B ρ h (ρ p) p ρ' r.1 ∧ r.2 < r.1.length ∧ ρ' r.2 ≤ ρ p := by
  have hpl := lt_length_of_getElem? hp
  have hlk := (hl p o hp).link
  rw [hk] at hlk
  have hfp : f < p := hlk.1.1
  have hfρ : ρ f ≤ ρ p := hlk.1.2
  have hsp : s < p := hlk.2.1
  have hsρ : ρ s ≤ ρ p := hlk.2.2
  have hf0 : Low ρ (ρ p) h f := ⟨Nat.lt_trans hfp hpl, hfρ⟩
  have hs0 : Low ρ (ρ p) h s := ⟨Nat.lt_trans hsp hpl, hsρ⟩
  simp only [internalDerive, deref_eq_ok hp, bind_ok, hk] at e
  obtain ⟨⟨h1, ld⟩, e1, e2⟩ := (bind_eq_ok _ _ _).1 e
  obtain ⟨ρ1, M1, hd, hρd, -⟩ := IH.derive ρ h f t (h1, ld) hl hf0.1 e1
  simp only at e2 M1 hd hρd
  have A1 : Moved B ρ h (ρ p) p ρ1 h1 := M1.moved_weaken (lex_child hfp hfρ)
  have hld1 : Low ρ1 (ρ p) h1 ld := ⟨hd, Nat.le_trans hρd hfρ⟩
  have hf1 : Low ρ1 (ρ p) h1 f := Low.step hf0 M1
  have hs1 : Low ρ1 (ρ p) h1 s := Low.step hs0 M1
  -- the new `Emp`
  obtain ⟨ρ2, A2, a2, b2, ag2⟩ := A1.then_alloc (ρ p) (o := Parser.newEmp) rfl rfl trivial
    constructed_newEmp (fun _ hk' => by cases hk')
  have hld2 := hld1.alloc_step ag2 Parser.newEmp
  have hf2 := hf1.alloc_step ag2 Parser.newEmp
  have hs2 := hs1.alloc_step ag2 Parser.newEmp
  have hemp2 : Low ρ2 (ρ p) (alloc h1 Parser.newEmp).1 (alloc h1 Parser.newEmp).2 :=
    ⟨a2, Nat.le_of_eq b2⟩
  -- `leftDerive->isEmpty()`
  obtain ⟨⟨h3, em⟩, e3, e4⟩ := (bind_eq_ok _ _ _).1 e2
  obtain ⟨ρ3, M3, -, -⟩ := IH.isEmpty ρ2 _ ld (h3, em) A2.layered hld2.1 e3
  simp only at e4 M3
  have A3 := A2.moved_trans M3 (lex_getter hld2.2 p)
  have hld3 := Low.step hld2 M3
  have hf3 := Low.step hf2 M3
  have hs3 := Low.step hs2 M3
  have hemp3 := Low.step hemp2 M3
  -- `primaryRet`
  generalize hY : (if (!em) = true then alloc h3 (Parser.newCon ld s)
    else (h3, (alloc h1 Parser.newEmp).2)) = Y at e4
  have key4 : ∃ ρ4, Moved B ρ h (ρ p) p ρ4 Y.1 ∧ Agree ρ3 ρ4 h3.length ∧
      h3.length ≤ Y.1.length ∧ Low ρ4 (ρ p) Y.1 Y.2 := by
    cases em with
    | true =>
      simp only [Bool.not_true, Bool.false_eq_true, if_false] at hY
      subst hY
      exact ⟨ρ3, A3, Agree.agree_refl _ _, Nat.le_refl _, hemp3⟩
    | false =>
      simp only [Bool.not_false, if_true] at hY
      subst hY
      obtain ⟨ρ4, A4, a4, b4, ag4⟩ := A3.then_alloc (ρ p) (o := Parser.newCon ld s) rfl rfl
        (⟨hld3, hs3⟩ : Linked ρ3 (ρ p) h3.length h3.length (.Con ld s)) trivial
        (fun _ hk' => by cases hk')
      refine ⟨ρ4, A4, ag4, ?_, a4, Nat.le_of_eq b4⟩
      simp only [alloc, List.length_append, List.length_singleton]
      omega
  obtain ⟨h4, pr⟩ := Y
  obtain ⟨ρ4, A4, ag4, len4, hpr4⟩ := key4
  simp only at e4 A4 len4 hpr4
  have hld4 := hld3.of_agree ag4 len4
  have hf4 := hf3.of_agree ag4 len4
  have hs4 := hs3.of_agree ag4 len4
  -- `first->isNullable()`
  obtain ⟨⟨h5, nl⟩, e5, e6⟩ := (bind_eq_ok _ _ _).1 e4
  obtain ⟨ρ5, M5, I5, hnl⟩ := IH.isNullable ρ4 h4 f (h5, nl) A4.layered hf4.1 e5
  simp only at e6 M5 I5 hnl
  have A5 := A4.moved_trans M5 (lex_getter hf4.2 p)
  have hld5 := Low.step hld4 M5
  have hs5 := Low.step hs4 M5
  have hpr5 := Low.step hpr4 M5
  have hf5 := Low.step hf4 M5
  cases nl with
  | false =>
    simp only [Bool.false_eq_true, if_false, pure_eq_ok] at e6
    cases e6
    exact ⟨ρ5, A5, hpr5⟩
  | true =>
    simp only [if_true] at e6
    obtain ⟨⟨h6, fn⟩, e7, e8⟩ := (bind_eq_ok _ _ _).1 e6
    have e67 := parseNull_initialized_eq I5 e7
    cases e67
    simp only at e8
    obtain ⟨fo, hfo, hfi⟩ := I5
    have C := (M5.layered f fo hfo).coherent hfi
    -- the new `Eps`
    obtain ⟨ρ7, A7, a7, b7, ag7⟩ := A5.then_alloc (ρ p)
      (o := Parser.newEps (parseNullView h5 f)) rfl rfl trivial (constructed_newEps _)
      (fun hb _ => C.2 (Nat.lt_of_le_of_lt hf5.2 hb) hnl.symm)
    have hld7 := hld5.alloc_step ag7 (Parser.newEps (parseNullView h5 f))
    have hs7 := hs5.alloc_step ag7 (Parser.newEps (parseNullView h5 f))
    have hpr7 := hpr5.alloc_step ag7 (Parser.newEps (parseNullView h5 f))
    have hnu7 : Low ρ7 (ρ p) (alloc h5 (Parser.newEps (parseNullView h5 f))).1
        (alloc h5 (Parser.newEps (parseNullView h5 f))).2 := ⟨a7, Nat.le_of_eq b7⟩
    -- `second->derive(t)`
    obtain ⟨⟨h8, rd⟩, e9, e10⟩ := (bind_eq_ok _ _ _).1 e8
    obtain ⟨ρ8, M8, hd8, hρ8, -⟩ := IH.derive ρ7 _ s t (h8, rd) A7.layered hs7.1 e9
    simp only at e10 M8 hd8 hρ8
    have A8 := A7.moved_trans M8 (lex_child hsp hs7.2)
    have hld8 := Low.step hld7 M8
    have hpr8 := Low.step hpr7 M8
    have hnu8 := Low.step hnu7 M8
    have hrd8 : Low ρ8 (ρ p) h8 rd := ⟨hd8, Nat.le_trans hρ8 hs7.2⟩
    -- `leftDerive->isEmpty()`
    obtain ⟨⟨h9, le⟩, e11, e12⟩ := (bind_eq_ok _ _ _).1 e10
    obtain ⟨ρ9, M9, -, -⟩ := IH.isEmpty ρ8 h8 ld (h9, le) A8.layered hld8.1 e11
    simp only at e12 M9
    have A9 := A8.moved_trans M9 (lex_getter hld8.2 p)
    have hpr9 := Low.step hpr8 M9
    have hnu9 := Low.step hnu8 M9
    have hrd9 := Low.step hrd8 M9
    cases le with
    | true =>
      simp only [if_true] at e12
      obtain ⟨⟨h10, re⟩, e13, e14⟩ := (bind_eq_ok _ _ _).1 e12
      obtain ⟨ρ10, M10, -, -⟩ := IH.isEmpty ρ9 h9 rd (h10, re) A9.layered hrd9.1 e13
      simp only at e14 M10
      have A10 := A9.moved_trans M10 (lex_getter hrd9.2 p)
      have hpr10 := Low.step hpr9 M10
      have hnu10 := Low.step hnu9 M10
      have hrd10 := Low.step hrd9 M10
      cases re with
      | true =>
        simp only [if_true, pure_eq_ok] at e14
        cases e14
        exact ⟨ρ10, A10, hpr10⟩
      | false =>
        simp only [Bool.false_eq_true, if_false, pure_eq_ok] at e14
        cases e14
        obtain ⟨ρ', M, a, b', -⟩ := A10.then_alloc (ρ p)
          (o := Parser.newCon (alloc h5 (Parser.newEps (parseNullView h5 f))).2 rd) rfl rfl
          (⟨hnu10, hrd10⟩ : Linked ρ10 (ρ p) h10.length h10.length (.Con _ rd)) trivial
          (fun _ hk' => by cases hk')
        exact ⟨ρ', M, a, Nat.le_of_eq b'⟩
    | false =>
      simp only [Bool.false_eq_true, if_false, pure_eq_ok] at e12
      cases e12
      obtain ⟨ρ10, A10, a10, b10, ag10⟩ := A9.then_alloc (ρ p)
        (o := Parser.newCon (alloc h5 (Parser.newEps (parseNullView h5 f))).2 rd) rfl rfl
        (⟨hnu9, hrd9⟩ : Linked ρ9 (ρ p) h9.length h9.length (.Con _ rd)) trivial
        (fun _ hk' => by cases hk')
      have hpr10 := hpr9.alloc_step ag10
        (Parser.newCon (alloc h5 (Parser.newEps (parseNullView h5 f))).2 rd)
      obtain ⟨ρ', M, a, b', -⟩ := A10.then_alloc (ρ p)
        (o := Parser.newAlt (setInsert (setInsert [] pr)
          (alloc h9 (Parser.newCon (alloc h5 (Parser.newEps (parseNullView h5 f))).2 rd)).2))
        rfl rfl
        (by
          intro x hx
          rcases mem_setInsert.1 hx with hx1 | rfl
          · rcases mem_setInsert.1 hx1 with hx2 | rfl
            · cases hx2
            · exact hpr10
          · exact ⟨a10, Nat.le_of_eq b10⟩)
        trivial (fun _ hk' => by cases hk')
      exact ⟨ρ', M, a, Nat.le_of_eq b'⟩

theorem sound_internalDerive_succ {B : Nat} {n : Nat} (IH : Sound B n) (ρ : Nat → Nat)
    (h : Heap) (p : Id) (t : T) (r : Heap × Id) (hl : Layered B ρ h) (hpl : p < h.length)
    (e : internalDerive (n + 1) h p t = .ok r) :
    ∃ ρ', Moved B ρ h (ρ p) p ρ' r.1 ∧ r.2 < r.1.length ∧ ρ' r.2 ≤ ρ p := by
  obtain ⟨o, hp⟩ := exists_getElem?_of_lt hpl
  have key := fun hrf => internalDerive_simple (n := n) t r hl hp hrf e
  cases hk : o.kind with
  | Emp => exact key (by rw [hk]; trivial)
  | Eps => exact key (by rw [hk]; trivial)
  | EqT c => exact key (by rw [hk]; trivial)
  | RecursiveParser b => exact key (by rw [hk]; trivial)
  | Alt ps => exact internalDerive_Alt_layered IH t r hl hp hk e
  | Con f s => exact internalDerive_Con_layered IH t r hl hp hk e
  | Red q f => exact internalDerive_Red_layered IH t r hl hp hk e
  | Rep q => exact internalDerive_Rep_layered IH t r hl hp hk e
  | DFut q c => exact internalDerive_DFut IH t r hl hp hk e

theorem sound_succ {B : Nat} {n : Nat} (IH : Sound B n) : Sound B (n + 1) :=
  ⟨sound_init_succ IH, sound_initLoop_succ IH, sound_isEmpty_succ IH, sound_isNullable_succ IH,
    sound_parseNull_succ IH, sound_update_succ IH, sound_oneShot_succ IH, sound_derive_succ IH,
    sound_internalDerive_succ IH⟩

/-- Whatever the call budget, a method that returns on a heap whose recursions
close no cycle leaves such a heap. -/
theorem sound_all (B : Nat) : ∀ n, Sound B n
  | 0 => sound_zero B
  | n + 1 => sound_succ (sound_all B n)

theorem layered_nil (B : Nat) (ρ : Nat → Nat) : Layered B ρ [] := by
  intro p o ho
  simp at ho

/-- Binding `SetRecurse` on a recursion that no query has initialized, to a body
of a lower level, keeps the invariant. -/
theorem Layered.setRecurse {B : Nat} {ρ : Nat → Nat} {h : Heap} (hl : Layered B ρ h)
    {p input : Id} {o : Parser} {r0 : Option Id} (hp : h[p]? = some o)
    (hk : o.kind = .RecursiveParser r0) (hi : o.initialized = false)
    (hin : input < h.length) (hlow : ρ input < ρ p) : Layered B ρ (SetRecurse h p input) := by
  have hset : SetRecurse h p input = h.set p { o with kind := .RecursiveParser (some input) } := by
    unfold SetRecurse
    rw [modifyAt_eq_set hp]
    simp only [hk]
  rw [hset]
  have hinit : ∀ q, Initialized h q →
      Initialized (h.set p { o with kind := .RecursiveParser (some input) }) q := by
    intro q ⟨oq, hoq, hiq⟩
    by_cases e : p = q
    · subst e
      rw [hp] at hoq
      cases hoq
      rw [hi] at hiq
      cases hiq
    · exact ⟨oq, by rw [List.getElem?_set_ne e]; exact hoq, hiq⟩
  intro q y hy
  by_cases e : p = q
  · subst e
    rw [getElem?_set_self' hp _] at hy
    cases hy
    have hn := hl p o hp
    refine ⟨?_, ?_, trivial, fun a => ?_, fun a => ?_, fun _ a => ?_⟩
    · rw [List.length_set]
      exact ⟨hin, hlow⟩
    · intro t d e
      rw [List.length_set]
      exact hn.cached t d e
    · rw [hi] at a
      cases a
    · rw [hi] at a
      cases a
    · cases a
  · rw [List.getElem?_set_ne e] at hy
    have hn := hl q y hy
    refine ⟨?_, ?_, hn.constructed, fun a => ?_, fun a => ?_, hn.seeded⟩
    · rw [List.length_set]
      exact hn.link
    · intro t d e
      rw [List.length_set]
      exact hn.cached t d e
    · have hr := hn.ready a
      cases hyk : y.kind with
      | Alt ps => rw [hyk] at hr; exact fun c hc => hinit c (hr c hc)
      | Con f s => rw [hyk] at hr; exact ⟨hinit f hr.1, hinit s hr.2⟩
      | Red i f => rw [hyk] at hr; exact hinit i hr
      | RecursiveParser b =>
        rw [hyk] at hr
        cases b with
        | none => exact hr
        | some b => exact hinit b hr
      | DFut i c =>
        rw [hyk] at hr
        cases i with
        | none => exact hr
        | some i =>
          obtain ⟨oi, d, hoi, hd, hid⟩ := hr
          by_cases e' : p = i
          · subst e'
            rw [hp] at hoi
            cases hoi
            exact ⟨_, d, getElem?_set_self' hp _, hd, hinit d hid⟩
          · exact ⟨oi, d, by rw [List.getElem?_set_ne e']; exact hoi, hd, hinit d hid⟩
      | Emp => trivial
      | Eps => trivial
      | EqT c => trivial
      | Rep i => trivial
    · exact Coherent.of_views (views_set_ne _ e) (hn.coherent a)

theorem value_eq_ok {α : Type} {x : Except Fault (Heap × α)} {a : α} (e : value x = .ok a) :
    ∃ h, x = .ok (h, a) := by
  cases x with
  | error f => cases e
  | ok r =>
    obtain ⟨h, b⟩ := r
    simp only [value] at e
    cases e
    exact ⟨h, rfl⟩

/-- On a heap whose recursions close no cycle, what `isNullable` and
`parseNull` return on `p`, when they return, agrees. -/
theorem getters_coherent_layered {B : Nat} {ρ : Nat → Nat} {h : Heap} {p : Id} {n m : Nat}
    {r1 : Heap × Bool} {r2 : Heap × Finset Val} (hl : Layered B ρ h) (hp : p < h.length)
    (e1 : isNullable n h p = .ok r1) (e2 : parseNull m h p = .ok r2) :
    (r2.2.Nonempty → r1.2 = true) ∧ (ρ p < B → (r1.2 = true ↔ r2.2.Nonempty)) := by
  have a1 := isNullable_mono e1 (Nat.le_succ_of_le (Nat.le_max_left n m))
  have a2 := parseNull_mono e2 (Nat.le_succ_of_le (Nat.le_max_right n m))
  generalize max n m = N at a1 a2
  obtain ⟨ρ1, M1, I1, v1⟩ := (sound_all B (N + 1)).isNullable ρ h p r1 hl hp a1
  obtain ⟨ρ2, M2, I2, v2⟩ := (sound_all B (N + 1)).parseNull ρ h p r2 hl hp a2
  simp only [isNullable] at a1
  simp only [parseNull] at a2
  obtain ⟨⟨h1, b⟩, e3, e4⟩ := (bind_eq_ok _ _ _).1 a1
  obtain ⟨⟨h2, b'⟩, e5, e6⟩ := (bind_eq_ok _ _ _).1 a2
  rw [e3] at e5
  cases e5
  obtain ⟨ρ3, M3, I3, -⟩ := (sound_all B N).isEmpty ρ h p (h1, b) hl hp e3
  simp only at e4 e6 I3
  have q1 : r1.1 = h1 := by
    cases b with
    | true =>
      simp only [if_true, pure_eq_ok] at e4
      cases e4
      rfl
    | false =>
      simp only [Bool.false_eq_true, if_false] at e4
      obtain ⟨h3, e7, e8⟩ := (bind_eq_ok _ _ _).1 e4
      have := init_initialized_eq I3 e7
      subst this
      obtain ⟨o3, e9, e10⟩ := (bind_eq_ok _ _ _).1 e8
      simp only [pure_eq_ok] at e10
      cases e10
      rfl
  have q2 : r2.1 = h1 := by
    cases b with
    | true =>
      simp only [if_true, pure_eq_ok] at e6
      cases e6
      rfl
    | false =>
      simp only [Bool.false_eq_true, if_false] at e6
      obtain ⟨h3, e7, e8⟩ := (bind_eq_ok _ _ _).1 e6
      have := init_initialized_eq I3 e7
      subst this
      obtain ⟨o3, e9, e10⟩ := (bind_eq_ok _ _ _).1 e8
      simp only [pure_eq_ok] at e10
      cases e10
      rfl
  obtain ⟨o, ho, hi⟩ := I1
  have C := (M1.layered p o ho).coherent hi
  rw [M1.agree p hp] at C
  rw [v1, v2, q2, ← q1]
  exact ⟨C.1, fun hb => ⟨C.2 hb, C.1⟩⟩

theorem layered_recEpsHeap : Layered 2 (fun i => i) recEpsHeap :=
  ((layered_nil 2 (fun i => i)).alloc_node (o := Parser.newEps {Val.vec []}) rfl rfl trivial
    (constructed_newEps _) (fun _ _ => Finset.singleton_nonempty _)).alloc_node
    (o := Parser.newRecursive (some 0)) rfl rfl ⟨by decide, by decide⟩ trivial
    (fun _ hk => by cases hk)

/-- A derivative taken on a heap whose recursions close no cycle leaves such a
heap, and the derivative is on no higher level than the object derived. -/
theorem derive_layered {B : Nat} {ρ : Nat → Nat} {h : Heap} {p : Id} {t : T} {n : Nat}
    {r : Heap × Id} (hl : Layered B ρ h) (hp : p < h.length) (e : derive n h p t = .ok r) :
    ∃ ρ', Agree ρ ρ' h.length ∧ Layered B ρ' r.1 ∧ r.2 < r.1.length ∧ ρ' r.2 ≤ ρ p := by
  obtain ⟨ρ', M, a, b, -⟩ := (sound_all B n).derive ρ h p t r hl hp e
  exact ⟨ρ', M.agree, M.layered, a, b⟩

/-- C6 (amended): on a heap whose recursions close no cycle (`Layered`: every
object has a level, a child is on no higher level than its parent, the body of
a recursion is on a lower level than the recursion), for every object `p` on
which `isNullable` and `parseNull` return: if the set `parseNull` returns is
non-empty then `isNullable` returns true; and if `p` lies below the level `B`
under which no `Eps` object was built from the empty set of values, `isNullable`
returns true if and only if the set `parseNull` returns is non-empty.  On a
recursion-free heap both queries return, and the same holds of them, the
condition being that no `Eps` object in `p` was built from the empty set. -/
theorem isNullable_iff_parseNull_nonempty_of_seeded :
    (∀ (B : Nat) (ρ : Nat → Nat) (h : Heap) (p : Id) (n m : Nat) (b : Bool) (s : Finset Val),
      Layered B ρ h → p < h.length →
      value (isNullable n h p) = .ok b → value (parseNull m h p) = .ok s →
      (s.Nonempty → b = true) ∧ (ρ p < B → (b = true ↔ s.Nonempty))) ∧
    (∀ (h : Heap) (p : Id), WellFormed h → p < h.length →
      ∃ n h1 b m h2 s, isNullable n h p = .ok (h1, b) ∧ parseNull m h p = .ok (h2, s) ∧
        (s.Nonempty → b = true) ∧ (Seeded h p → (b = true ↔ s.Nonempty))) := by
  refine ⟨fun B ρ h p n m b s hl hp e1 e2 => ?_, fun h p hw hp => getters_coherent_wellFormed hw hp⟩
  obtain ⟨h1, a1⟩ := value_eq_ok e1
  obtain ⟨h2, a2⟩ := value_eq_ok e2
  exact getters_coherent_layered hl hp a1 a2

/-- The term `recursion()` bound to `epsilon({[]})` and the term `epsilon({[]})`
are witnesses for the amended C6. -/
theorem isNullable_iff_parseNull_nonempty_of_seeded_witness :
    (Layered 2 (fun i => i) recEpsHeap ∧ 1 < recEpsHeap.length ∧
      value (isNullable 12 recEpsHeap 1) = .ok true ∧
      value (parseNull 12 recEpsHeap 1) = .ok {Val.vec []} ∧
      (true = true ↔ ({Val.vec []} : Finset Val).Nonempty)) ∧
    (WellFormed epsUnitHeap ∧ 0 < epsUnitHeap.length ∧ Seeded epsUnitHeap 0 ∧
      ∃ n h1 b m h2 s, isNullable n epsUnitHeap 0 = .ok (h1, b) ∧
        parseNull m epsUnitHeap 0 = .ok (h2, s) ∧
        (s.Nonempty → b = true) ∧ (Seeded epsUnitHeap 0 → (b = true ↔ s.Nonempty))) :=
  ⟨⟨layered_recEpsHeap, by decide, by decide!, by decide!,
      (isNullable_iff_parseNull_nonempty_of_seeded.1 2 (fun i => i) recEpsHeap 1 12 12 true
        {Val.vec []} layered_recEpsHeap (by decide) (by decide!) (by decide!)).2 (by decide)⟩,
    ⟨wellFormed_epsUnitHeap, by decide, seeded_epsUnitHeap,
      isNullable_iff_parseNull_nonempty_of_seeded.2 epsUnitHeap 0 wellFormed_epsUnitHeap
        (by decide)⟩⟩

end yidpp
